import Mathlib

/-!
# Verification of the Lock-Free Parallel Delta-Stepping repository

Shallow embedding of the repository's single-source shortest-path engine.

Modelling conventions:
* C++ `double` values are embedded as exact rationals `ℚ`; the IEEE value
  `+infinity` used as a sentinel becomes `⊤` in `WithTop ℚ`.  All spec
  statements "equal within epsilon 1e-9" therefore become exact equalities.
* `std::vector<double> dist(n, INF)` style per-vertex arrays are embedded as
  total functions `ℕ → WithTop ℚ` read/written at indices `< n`.
* Concurrent phases of the parallel solver are embedded by their barrier
  serialization: within a phase, worker `tid = 0, 1, ...` bodies run to
  completion in order.  All shared writes inside one phase commute exactly as
  the source comments claim, and the barrier separates phases.
* `int(x)` casts of non-negative quotients are `⌊x⌋`; the C++ `%` on the
  resulting non-negative ints is `Int.emod`.
-/

namespace DS

/-- Distances: a C++ `double` that is either a finite value or `+infinity`. -/
abbrev Dist := WithTop ℚ

/-! ## Graph (src/core/graph.h, variant with cached max edge weight)

The C++ class is constructed from `(n, edges)`; `adj` and `max_L` are the
fields the constructor computes from that data. -/

/-- `struct Edge { int u, v; double w; }`. -/
structure Edge where
  u : ℕ
  v : ℕ
  w : ℚ
deriving DecidableEq, Repr

/-- A `Graph` is its constructor data: vertex count and edge list. -/
structure Graph where
  n : ℕ
  edges : List Edge
deriving DecidableEq, Repr

/-- The adjacency list the constructor builds: `adj[u].push_back({v, w})`
for each edge in order, so `adj u` is the in-order sublist of edges leaving
`u`, as `(target, weight)` pairs. -/
def Graph.adj (g : Graph) (u : ℕ) : List (ℕ × ℚ) :=
  (g.edges.filter (fun e => e.u = u)).map (fun e => (e.v, e.w))

/-- `max_L = std::max(max_L, w)` over all edges, starting from `0`. -/
def Graph.get_max_edge_weight (g : Graph) : ℚ :=
  g.edges.foldl (fun m e => max m e.w) 0

/-- `int size() const { return n; }` -/
def Graph.size (g : Graph) : ℕ := g.n

/-- Structural well-formedness: every endpoint index is in `[0, n)`.
The C++ code indexes `dist`/`adj` with these, so this is its implicit
precondition. -/
def Graph.WF (g : Graph) : Prop :=
  ∀ e ∈ g.edges, e.u < g.n ∧ e.v < g.n

/-- Non-negative edge weights (claim hypothesis). -/
def Graph.NonNeg (g : Graph) : Prop :=
  ∀ e ∈ g.edges, 0 ≤ e.w

instance (g : Graph) : Decidable g.WF := by
  unfold Graph.WF; infer_instance

instance (g : Graph) : Decidable g.NonNeg := by
  unfold Graph.NonNeg; infer_instance

/-! ## Mathematical shortest-path specification -/

/-- `Reaches g s v c`: there is a walk from `s` to `v` in `g` of total
weight `c`. -/
inductive Reaches (g : Graph) (s : ℕ) : ℕ → ℚ → Prop
  | nil : Reaches g s s 0
  | cons {u v : ℕ} {w c : ℚ} :
      Reaches g s u c → (v, w) ∈ g.adj u → Reaches g s v (c + w)

/-- `v` is reachable from `s`. -/
def Reachable (g : Graph) (s : ℕ) (v : ℕ) : Prop :=
  ∃ c, Reaches g s v c

/-- `d` is the true shortest-path distance from `s` to `v`. -/
def IsShortest (g : Graph) (s : ℕ) (v : ℕ) (d : ℚ) : Prop :=
  Reaches g s v d ∧ ∀ c, Reaches g s v c → d ≤ c

/-- The spec of one entry of the returned distance vector. -/
def entryOK (g : Graph) (s v : ℕ) (d : Dist) : Prop :=
  (d = ⊤ → ¬ Reachable g s v) ∧ ∀ c : ℚ, d = (c : Dist) → IsShortest g s v c

/-- The spec of the whole returned vector: length `n`, true shortest
distance for reachable vertices, `+∞` for unreachable ones. -/
def IsDistVector (g : Graph) (s : ℕ) (dv : List Dist) : Prop :=
  dv.length = g.n ∧ ∀ v : ℕ, ∀ h : v < dv.length, entryOK g s v dv[v]

theorem entryOK_unique {g : Graph} {s v : ℕ} {d d' : Dist}
    (h : entryOK g s v d) (h' : entryOK g s v d') : d = d' := by
  cases d with
  | none =>
    cases d' with
    | none => rfl
    | some c' =>
      exact absurd ⟨c', (h'.2 c' rfl).1⟩ (h.1 rfl)
  | some c =>
    cases d' with
    | none => exact absurd ⟨c, (h.2 c rfl).1⟩ (h'.1 rfl)
    | some c' =>
      have h1 := h.2 c rfl
      have h2 := h'.2 c' rfl
      have := le_antisymm (h1.2 c' h2.1) (h2.2 c h1.1)
      rw [this]

theorem isDistVector_unique {g : Graph} {s : ℕ} {dv dv' : List Dist}
    (h : IsDistVector g s dv) (h' : IsDistVector g s dv') : dv = dv' := by
  apply List.ext_getElem (h.1.trans h'.1.symm)
  intro v h1 h2
  exact entryOK_unique (h.2 v h1) (h'.2 v h2)

/-- Walk weights are non-negative when all edge weights are. -/
theorem Reaches.nonneg {g : Graph} (hw : g.NonNeg) {s v : ℕ} {c : ℚ}
    (h : Reaches g s v c) : 0 ≤ c := by
  induction h with
  | nil => exact le_refl 0
  | cons _ hmem ih =>
    rename_i u v w c _
    have : 0 ≤ w := by
      simp only [Graph.adj, List.mem_map, List.mem_filter] at hmem
      obtain ⟨e, ⟨he, _⟩, hvw⟩ := hmem
      have := hw e he
      cases hvw
      exact this
    linarith

/-- The shortest distance from the source to itself is `0`. -/
theorem isShortest_source {g : Graph} (hw : g.NonNeg) (s : ℕ) :
    IsShortest g s s 0 :=
  ⟨Reaches.nil, fun c hc => hc.nonneg hw⟩

/-! ### The relaxation-algorithm correctness frame

Any algorithm that (i) keeps `dist source = 0`, (ii) stores only weights of
actual walks in finite entries, and (iii) terminates with no tense edge,
returns exactly the shortest-path distance vector. -/

/-- Every finite entry is the weight of an actual walk from the source. -/
def WalkWeights (g : Graph) (s : ℕ) (dist : ℕ → Dist) : Prop :=
  ∀ v (q : ℚ), dist v = (q : Dist) → Reaches g s v q

/-- No edge is tense. -/
def NoTense (g : Graph) (dist : ℕ → Dist) : Prop :=
  ∀ u, ∀ vw ∈ g.adj u, dist vw.1 ≤ dist u + (vw.2 : Dist)

theorem dist_le_walk (g : Graph) (s : ℕ) (dist : ℕ → Dist)
    (h0 : dist s ≤ ((0 : ℚ) : Dist)) (ht : NoTense g dist) :
    ∀ v (c : ℚ), Reaches g s v c → dist v ≤ (c : Dist) := by
  intro v c h
  induction h with
  | nil => exact h0
  | cons hr hmem ih =>
    rename_i u x w c
    calc dist x ≤ dist u + (w : Dist) := ht u (x, w) hmem
    _ ≤ (c : Dist) + (w : Dist) := by
        exact add_le_add_right ih _
    _ = ((c + w : ℚ) : Dist) := by
        rw [WithTop.coe_add]

/-- The frame: a terminal state with the three properties is the shortest
distance vector. -/
theorem final_state_correct (g : Graph) (s : ℕ) (dist : ℕ → Dist)
    (h0 : dist s ≤ ((0 : ℚ) : Dist)) (hw : WalkWeights g s dist)
    (ht : NoTense g dist) : ∀ v, entryOK g s v (dist v) := by
  intro v
  constructor
  · intro htop hreach
    obtain ⟨c, hc⟩ := hreach
    have := dist_le_walk g s dist h0 ht v c hc
    rw [htop] at this
    exact absurd this (by simp)
  · intro c hc
    refine ⟨hw v c hc, ?_⟩
    intro c' hc'
    have := dist_le_walk g s dist h0 ht v c' hc'
    rw [hc] at this
    exact_mod_cast this

/-- Edge weights are bounded by the cached maximum (the `max_L` fold). -/
theorem weight_le_max (g : Graph) : ∀ u, ∀ vw ∈ g.adj u,
    vw.2 ≤ g.get_max_edge_weight := by
  intro u vw hmem
  simp only [Graph.adj, List.mem_map, List.mem_filter] at hmem
  obtain ⟨e, ⟨he, -⟩, hvw⟩ := hmem
  have hw : vw.2 = e.w := by rw [← hvw]
  rw [hw]
  unfold Graph.get_max_edge_weight
  have key : ∀ (l : List Edge) (a : ℚ), e ∈ l ∨ e.w ≤ a →
      e.w ≤ l.foldl (fun m e => max m e.w) a := by
    intro l
    induction l with
    | nil =>
      intro a h
      rcases h with h | h
      · simp at h
      · exact h
    | cons x xs ih =>
      intro a h
      rw [List.foldl_cons]
      rcases h with h | h
      · rcases List.mem_cons.mp h with rfl | h2
        · exact ih _ (Or.inr (le_max_right _ _))
        · exact ih _ (Or.inl h2)
      · exact ih _ (Or.inr (le_trans h (le_max_left _ _)))
  exact key g.edges 0 (Or.inl he)

/-- The maximum edge weight is non-negative. -/
theorem max_weight_nonneg (g : Graph) : 0 ≤ g.get_max_edge_weight := by
  unfold Graph.get_max_edge_weight
  have key : ∀ (l : List Edge) (a : ℚ), 0 ≤ a →
      0 ≤ l.foldl (fun m e => max m e.w) a := by
    intro l
    induction l with
    | nil => intro a h; exact h
    | cons x xs ih =>
      intro a h
      exact ih _ (le_trans h (le_max_left _ _))
  exact key g.edges 0 (le_refl 0)

/-- Graph edges go to vertices `< n` and weights are non-negative (under
the well-formedness hypotheses). -/
theorem adj_target_lt (g : Graph) (hwf : g.WF) :
    ∀ u, ∀ vw ∈ g.adj u, vw.1 < g.n ∧ u < g.n := by
  intro u vw hmem
  simp only [Graph.adj, List.mem_map, List.mem_filter] at hmem
  obtain ⟨e, ⟨he, hu⟩, hvw⟩ := hmem
  have h1 := hwf e he
  have hv : vw.1 = e.v := by rw [← hvw]
  have hu' : e.u = u := by exact_mod_cast of_decide_eq_true hu
  rw [hv]
  exact ⟨h1.2, hu' ▸ h1.1⟩

theorem adj_weight_nonneg (g : Graph) (hnn : g.NonNeg) :
    ∀ u, ∀ vw ∈ g.adj u, 0 ≤ vw.2 := by
  intro u vw hmem
  simp only [Graph.adj, List.mem_map, List.mem_filter] at hmem
  obtain ⟨e, ⟨he, -⟩, hvw⟩ := hmem
  have hw : vw.2 = e.w := by rw [← hvw]
  rw [hw]
  exact hnn e he

/-! ### Discreteness, bounds and the termination measure

Every value the solvers ever store is the weight of a walk, hence a
multiple of `1 / D` for the common denominator `D` of all edge weights,
non-negative, and at most `n * L`.  This yields a natural-number measure
on distance arrays that strictly decreases at every write. -/

/-- The common denominator of all edge weights. -/
def denomD (g : Graph) : ℕ :=
  g.edges.foldl (fun d e => Nat.lcm d e.w.den) 1

/-- `q` is a multiple of `1 / D`. -/
def Qdisc (D : ℕ) (q : ℚ) : Prop := ∃ k : ℤ, q = (k : ℚ) / (D : ℚ)

theorem foldl_lcm_dvd (l : List Edge) (a : ℕ) :
    a ∣ l.foldl (fun d e => Nat.lcm d e.w.den) a ∧
    ∀ e ∈ l, e.w.den ∣ l.foldl (fun d e => Nat.lcm d e.w.den) a := by
  induction l generalizing a with
  | nil => exact ⟨dvd_refl a, by intro e he; simp at he⟩
  | cons x xs ih =>
    rw [List.foldl_cons]
    obtain ⟨h1, h2⟩ := ih (Nat.lcm a x.w.den)
    refine ⟨dvd_trans (Nat.dvd_lcm_left _ _) h1, ?_⟩
    intro e he
    rcases List.mem_cons.mp he with rfl | he2
    · exact dvd_trans (Nat.dvd_lcm_right _ _) h1
    · exact h2 e he2

theorem foldl_lcm_pos (l : List Edge) (a : ℕ) (ha : 0 < a) :
    0 < l.foldl (fun d e => Nat.lcm d e.w.den) a := by
  induction l generalizing a with
  | nil => exact ha
  | cons x xs ih =>
    rw [List.foldl_cons]
    exact ih _ (Nat.lcm_pos ha x.w.pos)

theorem denomD_pos (g : Graph) : 0 < denomD g :=
  foldl_lcm_pos g.edges 1 Nat.one_pos

theorem edge_den_dvd (g : Graph) : ∀ e ∈ g.edges, e.w.den ∣ denomD g :=
  (foldl_lcm_dvd g.edges 1).2

theorem qdisc_zero (D : ℕ) : Qdisc D 0 := ⟨0, by simp⟩

theorem qdisc_add {D : ℕ} {a b : ℚ} (ha : Qdisc D a) (hb : Qdisc D b) :
    Qdisc D (a + b) := by
  obtain ⟨k1, hk1⟩ := ha
  obtain ⟨k2, hk2⟩ := hb
  exact ⟨k1 + k2, by rw [hk1, hk2]; push_cast; ring⟩

theorem qdisc_of_den_dvd {D : ℕ} (hD : 0 < D) {q : ℚ} (h : q.den ∣ D) :
    Qdisc D q := by
  obtain ⟨m, hm⟩ := h
  have hm0 : m ≠ 0 := by
    rintro rfl
    rw [Nat.mul_zero] at hm
    omega
  refine ⟨q.num * m, ?_⟩
  rw [hm]
  push_cast
  rw [mul_comm (q.den : ℚ) (m : ℚ), ← div_div, mul_div_assoc,
    div_self (by exact_mod_cast hm0), mul_one, Rat.num_div_den]

theorem adj_weight_disc (g : Graph) : ∀ u, ∀ vw ∈ g.adj u,
    Qdisc (denomD g) vw.2 := by
  intro u vw hmem
  simp only [Graph.adj, List.mem_map, List.mem_filter] at hmem
  obtain ⟨e, ⟨he, -⟩, hvw⟩ := hmem
  have hw : vw.2 = e.w := by rw [← hvw]
  rw [hw]
  exact qdisc_of_den_dvd (denomD_pos g) (edge_den_dvd g e he)

theorem reaches_disc (g : Graph) (s : ℕ) {v : ℕ} {c : ℚ}
    (h : Reaches g s v c) : Qdisc (denomD g) c := by
  induction h with
  | nil => exact qdisc_zero _
  | cons _ hmem ih =>
    rename_i u x w c _
    exact qdisc_add ih (adj_weight_disc g u (x, w) hmem)

/-- The number of finite entries among the first `nn` coordinates. -/
def finCount (nn : ℕ) (dist : ℕ → Dist) : ℕ :=
  ((Finset.range nn).filter (fun v => dist v ≠ ⊤)).card

theorem finCount_le (nn : ℕ) (dist : ℕ → Dist) : finCount nn dist ≤ nn :=
  le_trans (Finset.card_filter_le _ _) (le_of_eq (Finset.card_range nn))

theorem finCount_update_top (nn : ℕ) (dist : ℕ → Dist) (v : ℕ) (c : ℚ)
    (hv : v < nn) (htop : dist v = ⊤) :
    finCount nn (Function.update dist v (c : Dist)) = finCount nn dist + 1 := by
  unfold finCount
  have hsplit : (Finset.range nn).filter
      (fun x => Function.update dist v (c : Dist) x ≠ ⊤) =
      insert v ((Finset.range nn).filter (fun x => dist x ≠ ⊤)) := by
    ext x
    simp only [Finset.mem_filter, Finset.mem_insert, Finset.mem_range]
    constructor
    · rintro ⟨hx, hne⟩
      rcases eq_or_ne x v with rfl | hxv
      · exact Or.inl rfl
      · rw [Function.update_noteq hxv] at hne
        exact Or.inr ⟨hx, hne⟩
    · rintro (rfl | ⟨hx, hne⟩)
      · exact ⟨hv, by rw [Function.update_same]; exact WithTop.coe_ne_top⟩
      · refine ⟨hx, ?_⟩
        rcases eq_or_ne x v with rfl | hxv
        · exact absurd htop hne
        · rwa [Function.update_noteq hxv]
  rw [hsplit, Finset.card_insert_of_not_mem]
  simp only [Finset.mem_filter, not_and, not_not]
  intro _
  exact htop

theorem finCount_update_fin (nn : ℕ) (dist : ℕ → Dist) (v : ℕ) (c : ℚ)
    (hfin : dist v ≠ ⊤) :
    finCount nn (Function.update dist v (c : Dist)) = finCount nn dist := by
  unfold finCount
  congr 1
  apply Finset.filter_congr
  intro x _
  rcases eq_or_ne x v with rfl | hxv
  · simp only [Function.update_same, ne_eq, WithTop.coe_ne_top,
      not_false_eq_true, hfin]
  · rw [Function.update_noteq hxv]

theorem finCount_mono (nn : ℕ) (dist dist' : ℕ → Dist)
    (h : ∀ v, dist' v ≤ dist v) : finCount nn dist ≤ finCount nn dist' := by
  apply Finset.card_le_card
  intro x hx
  simp only [Finset.mem_filter, Finset.mem_range] at hx ⊢
  refine ⟨hx.1, fun htop => hx.2 ?_⟩
  have := h x
  rw [htop] at this
  exact top_le_iff.mp this

/-- The rank of an infinite entry: strictly larger than the rank of any
value the solvers can store. -/
def TOPRANK (g : Graph) : ℕ :=
  (⌊(g.n : ℚ) * g.get_max_edge_weight * (denomD g : ℚ)⌋).toNat + 1

/-- Rank of one distance entry. -/
def rank (g : Graph) (d : Dist) : ℕ :=
  if d = ⊤ then TOPRANK g else (⌊(d.untop' 0) * (denomD g : ℚ)⌋).toNat

/-- The termination measure of a distance array. -/
def muDist (g : Graph) (dist : ℕ → Dist) : ℕ :=
  Finset.sum (Finset.range g.n) (fun v => rank g (dist v))

/-- The side conditions on a distance array under which `rank` behaves. -/
def RankOK (g : Graph) (dist : ℕ → Dist) : Prop :=
  ∀ v (q : ℚ), dist v = (q : Dist) →
    0 ≤ q ∧ Qdisc (denomD g) q ∧ q ≤ (g.n : ℚ) * g.get_max_edge_weight

theorem rank_coe (g : Graph) (q : ℚ) :
    rank g (q : Dist) = (⌊q * (denomD g : ℚ)⌋).toNat := by
  rw [rank, if_neg WithTop.coe_ne_top]
  rfl

theorem rank_fin_lt_top (g : Graph) (q : ℚ) (h0 : 0 ≤ q)
    (hb : q ≤ (g.n : ℚ) * g.get_max_edge_weight) :
    rank g (q : Dist) < TOPRANK g := by
  rw [rank_coe, TOPRANK]
  have h1 : ⌊q * (denomD g : ℚ)⌋ ≤ ⌊(g.n : ℚ) * g.get_max_edge_weight * (denomD g : ℚ)⌋ := by
    apply Int.floor_le_floor
    apply mul_le_mul_of_nonneg_right hb
    exact_mod_cast Nat.zero_le _
  calc (⌊q * (denomD g : ℚ)⌋).toNat
      ≤ (⌊(g.n : ℚ) * g.get_max_edge_weight * (denomD g : ℚ)⌋).toNat :=
        Int.toNat_le_toNat h1
    _ < _ := Nat.lt_succ_self _

theorem qdisc_floor_mul {D : ℕ} (hD : 0 < D) {q : ℚ} (h : Qdisc D q) :
    (⌊q * (D : ℚ)⌋ : ℚ) = q * (D : ℚ) := by
  obtain ⟨k, hk⟩ := h
  have hD0 : (D : ℚ) ≠ 0 := by
    have : D ≠ 0 := by omega
    exact_mod_cast this
  have : q * (D : ℚ) = (k : ℚ) := by
    rw [hk, div_mul_cancel₀ _ hD0]
  rw [this, Int.floor_intCast]

theorem rank_strict (g : Graph) (q q' : ℚ) (h0 : 0 ≤ q')
    (hd : Qdisc (denomD g) q) (hd' : Qdisc (denomD g) q') (hlt : q' < q) :
    rank g (q' : Dist) < rank g (q : Dist) := by
  rw [rank_coe, rank_coe]
  have hD : (0 : ℚ) < (denomD g : ℚ) := by exact_mod_cast denomD_pos g
  have hql : q' * (denomD g : ℚ) < q * (denomD g : ℚ) :=
    mul_lt_mul_of_pos_right hlt hD
  have hf : ⌊q' * (denomD g : ℚ)⌋ < ⌊q * (denomD g : ℚ)⌋ := by
    have e1 := qdisc_floor_mul (denomD_pos g) hd
    have e2 := qdisc_floor_mul (denomD_pos g) hd'
    have : (⌊q' * (denomD g : ℚ)⌋ : ℚ) < (⌊q * (denomD g : ℚ)⌋ : ℚ) := by
      rw [e1, e2]; exact hql
    exact_mod_cast this
  have h0' : 0 ≤ ⌊q' * (denomD g : ℚ)⌋ :=
    Int.floor_nonneg.mpr (mul_nonneg h0 (le_of_lt hD))
  omega

theorem rank_le_of_le (g : Graph) (d d' : Dist) (hok' : ∀ q : ℚ, d' = (q : Dist) →
    0 ≤ q ∧ q ≤ (g.n : ℚ) * g.get_max_edge_weight)
    (hle : d' ≤ d) : rank g d' ≤ rank g d := by
  cases d' with
  | none =>
    have h : d = ⊤ := top_le_iff.mp hle
    rw [h]
    exact le_refl _
  | some q' =>
    cases d with
    | none =>
      obtain ⟨h0, hb⟩ := hok' q' rfl
      have h1 : rank g ((q' : ℚ) : Dist) < TOPRANK g := rank_fin_lt_top g q' h0 hb
      have h2 : rank g (⊤ : Dist) = TOPRANK g := by rw [rank, if_pos rfl]
      exact le_of_lt (h2 ▸ h1)
    | some q =>
      show rank g ((q' : ℚ) : Dist) ≤ rank g ((q : ℚ) : Dist)
      rw [rank_coe, rank_coe]
      apply Int.toNat_le_toNat
      apply Int.floor_le_floor
      apply mul_le_mul_of_nonneg_right _ (by exact_mod_cast Nat.zero_le _)
      exact WithTop.some_le_some.mp hle

/-- The key measure lemma: a pointwise-non-increasing update with one strict
decrease at a coordinate `< n` strictly decreases the measure. -/
theorem muDist_lt (g : Graph) (dist dist' : ℕ → Dist)
    (h1 : RankOK g dist) (h2 : RankOK g dist')
    (hle : ∀ v, dist' v ≤ dist v) (x : ℕ) (hx : x < g.n)
    (hstrict : dist' x < dist x) : muDist g dist' < muDist g dist := by
  unfold muDist
  apply Finset.sum_lt_sum
  · intro i _
    exact rank_le_of_le g (dist i) (dist' i)
      (fun q hq => ⟨(h2 i q hq).1, (h2 i q hq).2.2⟩) (hle i)
  · refine ⟨x, Finset.mem_range.mpr hx, ?_⟩
    rcases hx' : dist' x with _ | q'
    · rw [hx'] at hstrict; exact absurd hstrict (by simp)
    · obtain ⟨h0', hd', hb'⟩ := h2 x q' hx'
      rcases hxd : dist x with _ | q
      · have h1' : rank g ((q' : ℚ) : Dist) < TOPRANK g :=
          rank_fin_lt_top g q' h0' hb'
        have h2' : rank g (⊤ : Dist) = TOPRANK g := by rw [rank, if_pos rfl]
        exact h2' ▸ h1'
      · obtain ⟨h0, hd, hb⟩ := h1 x q hxd
        apply rank_strict g q q' h0' hd hd'
        rw [hx', hxd] at hstrict
        exact WithTop.some_lt_some.mp hstrict

/-- Pointwise non-increase gives measure non-increase. -/
theorem muDist_le (g : Graph) (dist dist' : ℕ → Dist)
    (h2 : RankOK g dist') (hle : ∀ v, dist' v ≤ dist v) :
    muDist g dist' ≤ muDist g dist :=
  Finset.sum_le_sum fun i _ => rank_le_of_le g (dist i) (dist' i)
    (fun q hq => ⟨(h2 i q hq).1, (h2 i q hq).2.2⟩) (hle i)

/-- The full invariant on a distance array shared by both solvers:
finite entries are walk weights, the source entry is `≤ 0`, finite
entries live below `n`, and values are bounded by `L *` (number of
finite entries). -/
def DistInv (g : Graph) (s : ℕ) (dist : ℕ → Dist) : Prop :=
  WalkWeights g s dist ∧ dist s ≤ ((0 : ℚ) : Dist) ∧
  (∀ v, dist v ≠ ⊤ → v < g.n) ∧
  (∀ v (q : ℚ), dist v = (q : Dist) →
    q ≤ g.get_max_edge_weight * (finCount g.n dist : ℚ))

theorem distInv_rankOK (g : Graph) (s : ℕ) (dist : ℕ → Dist)
    (hnn : g.NonNeg) (h : DistInv g s dist) : RankOK g dist := by
  intro v q hq
  obtain ⟨hww, hsrc, hvlt, hbd⟩ := h
  have hre := hww v q hq
  refine ⟨hre.nonneg hnn, reaches_disc g s hre, ?_⟩
  calc q ≤ g.get_max_edge_weight * (finCount g.n dist : ℚ) := hbd v q hq
    _ ≤ g.get_max_edge_weight * (g.n : ℚ) := by
        apply mul_le_mul_of_nonneg_left _ (max_weight_nonneg g)
        exact_mod_cast finCount_le g.n dist
    _ = (g.n : ℚ) * g.get_max_edge_weight := mul_comm _ _

/-- Preservation of `DistInv` by any single improving write of a walk
weight with the request-value bound. -/
theorem distInv_update (g : Graph) (s : ℕ) (hnn : g.NonNeg)
    (dist : ℕ → Dist) (hdi : DistInv g s dist) (v : ℕ) (hv : v < g.n)
    (c : ℚ) (himp : (c : Dist) < dist v) (hre : Reaches g s v c)
    (hbd : c ≤ g.get_max_edge_weight * ((finCount g.n dist : ℚ) + 1)) :
    DistInv g s (Function.update dist v (c : Dist)) := by
  obtain ⟨hww, hsrc, hvlt, hbound⟩ := hdi
  have hL : 0 ≤ g.get_max_edge_weight := max_weight_nonneg g
  refine ⟨?_, ?_, ?_, ?_⟩
  · intro x q hq
    rcases eq_or_ne x v with rfl | hxv
    · rw [Function.update_same] at hq
      have : c = q := by exact_mod_cast hq
      exact this ▸ hre
    · rw [Function.update_noteq hxv] at hq
      exact hww x q hq
  · rcases eq_or_ne s v with rfl | hsv
    · rw [Function.update_same]
      exact le_trans (le_of_lt himp) hsrc
    · rwa [Function.update_noteq hsv]
  · intro x hx
    rcases eq_or_ne x v with rfl | hxv
    · exact hv
    · rw [Function.update_noteq hxv] at hx
      exact hvlt x hx
  · rcases htop : dist v with _ | q0
    · have hcnt := finCount_update_top g.n dist v c hv htop
      intro x q hq
      rcases eq_or_ne x v with rfl | hxv
      · rw [Function.update_same] at hq
        have hcq : c = q := by exact_mod_cast hq
        rw [hcnt, ← hcq]
        calc c ≤ g.get_max_edge_weight * ((finCount g.n dist : ℚ) + 1) := hbd
          _ = g.get_max_edge_weight * ((finCount g.n dist + 1 : ℕ) : ℚ) := by
              push_cast; ring
      · rw [Function.update_noteq hxv] at hq
        rw [hcnt]
        calc q ≤ g.get_max_edge_weight * (finCount g.n dist : ℚ) :=
            hbound x q hq
          _ ≤ g.get_max_edge_weight * ((finCount g.n dist + 1 : ℕ) : ℚ) := by
              apply mul_le_mul_of_nonneg_left _ hL
              push_cast; linarith
    · have hfin : dist v ≠ ⊤ := by rw [htop]; exact WithTop.coe_ne_top
      have hcnt := finCount_update_fin g.n dist v c hfin
      intro x q hq
      rcases eq_or_ne x v with rfl | hxv
      · rw [Function.update_same] at hq
        have hcq : c = q := by exact_mod_cast hq
        rw [hcnt, ← hcq]
        have hlt : c < q0 := by
          rw [htop] at himp
          exact WithTop.some_lt_some.mp himp
        calc c ≤ q0 := le_of_lt hlt
          _ ≤ g.get_max_edge_weight * (finCount g.n dist : ℚ) :=
            hbound x q0 htop
      · rw [Function.update_noteq hxv] at hq
        rw [hcnt]
        exact hbound x q hq

/-! ## CircularVector (src/ds/lists/circular_vector.h, raw-storage variant)

`E* data` raw storage is a total function `ℕ → E`; `head`, `tail`,
`capacity` as in the source.  `push` returns the pair (returned relative
index, updated container). -/

structure CircularVector (E : Type) where
  data : ℕ → E
  head : ℕ
  tail : ℕ
  capacity : ℕ

namespace CircularVector

variable {E : Type}

/-- `CircularVector(size_t capacity)`: raw storage, `head = tail = 0`.
`e0` stands for the arbitrary initial contents of the raw allocation. -/
def new (capacity : ℕ) (e0 : E) : CircularVector E :=
  { data := fun _ => e0, head := 0, tail := 0, capacity := capacity }

/-- `size_t push(const E &value)`. -/
def push (cv : CircularVector E) (value : E) : ℕ × CircularVector E :=
  let current_tail := cv.tail
  let relative_idx :=
    if cv.head ≤ current_tail then current_tail - cv.head
    else cv.capacity - cv.head + current_tail
  (relative_idx,
    { cv with
        tail := (current_tail + 1) % cv.capacity
        data := Function.update cv.data current_tail value })

/-- `void clear()`. -/
def clear (cv : CircularVector E) : CircularVector E :=
  { cv with head := 0, tail := 0 }

/-- `operator[](size_t index)`. -/
def get (cv : CircularVector E) (index : ℕ) : E :=
  cv.data ((cv.head + index) % cv.capacity)

/-- `operator[](size_t index) = value` (used for tombstoning). -/
def set (cv : CircularVector E) (index : ℕ) (value : E) : CircularVector E :=
  { cv with data := Function.update cv.data ((cv.head + index) % cv.capacity) value }

/-- `bool empty() const { return head == tail; }` -/
def empty (cv : CircularVector E) : Bool := cv.head == cv.tail

/-- `size_t size() const`. -/
def size (cv : CircularVector E) : ℕ :=
  if cv.head ≤ cv.tail then cv.tail - cv.head
  else cv.capacity - cv.head + cv.tail

/-- Sequential sequence of pushes (the value-returning pairs dropped). -/
def pushList (cv : CircularVector E) : List E → CircularVector E
  | [] => cv
  | x :: xs => ((cv.push x).2).pushList xs

theorem pushList_capacity (cv : CircularVector E) (l : List E) :
    (cv.pushList l).capacity = cv.capacity := by
  induction l generalizing cv with
  | nil => rfl
  | cons x xs ih => simpa [pushList, push] using ih _

theorem pushList_head (cv : CircularVector E) (l : List E) :
    (cv.pushList l).head = cv.head := by
  induction l generalizing cv with
  | nil => rfl
  | cons x xs ih => simpa [pushList, push] using ih _

/-- Tail evolution: each push moves the tail by one, modulo capacity. -/
theorem pushList_tail (cv : CircularVector E) (hlt : cv.tail < cv.capacity) (l : List E) :
    (cv.pushList l).tail = (cv.tail + l.length) % cv.capacity := by
  induction l generalizing cv with
  | nil =>
    simp [pushList, Nat.mod_eq_of_lt, hlt]
  | cons x xs ih =>
    have hc : 0 < cv.capacity := by omega
    rw [pushList, ih _ (by simp [push]; exact Nat.mod_lt _ hc)]
    simp only [push]
    rw [Nat.mod_add_mod]
    congr 1
    simp only [List.length_cons]
    omega

/-- After `k` pushes on a cleared slot the tail is `k % capacity`. -/
theorem pushList_tail_of_cleared (cv : CircularVector E) (hc : 0 < cv.capacity)
    (ht : cv.tail = 0) (l : List E) :
    (cv.pushList l).tail = l.length % cv.capacity := by
  rw [pushList_tail cv (by omega) l, ht, Nat.zero_add]

theorem pushList_append (cv : CircularVector E) (l₁ l₂ : List E) :
    cv.pushList (l₁ ++ l₂) = (cv.pushList l₁).pushList l₂ := by
  induction l₁ generalizing cv with
  | nil => rfl
  | cons x xs ih => simp [pushList, ih]

/-- While the pushes do not wrap, the cells below the starting tail (and at
or above the final tail) are untouched. -/
theorem push_tail_no_wrap (cv : CircularVector E) (x : E)
    (h : cv.tail + 1 < cv.capacity) : ((cv.push x).2).tail = cv.tail + 1 := by
  simp only [push]
  exact Nat.mod_eq_of_lt h

theorem push_data_self (cv : CircularVector E) (x : E) :
    ((cv.push x).2).data cv.tail = x := by
  simp only [push]
  exact Function.update_same _ _ _

theorem push_data_other (cv : CircularVector E) (x : E) (j : ℕ) (hj : j ≠ cv.tail) :
    ((cv.push x).2).data j = cv.data j := by
  simp only [push]
  exact Function.update_noteq hj _ _

theorem pushList_data_stable (cv : CircularVector E) (l : List E)
    (hnw : cv.tail + l.length ≤ cv.capacity) (j : ℕ)
    (hj : j < cv.tail ∨ cv.tail + l.length ≤ j) :
    (cv.pushList l).data j = cv.data j := by
  induction l generalizing cv with
  | nil => rfl
  | cons x xs ih =>
    simp only [List.length_cons] at hnw hj
    rcases eq_or_ne xs [] with hxs | hxs
    · subst hxs
      rw [pushList, pushList]
      exact push_data_other cv x j (by omega)
    · have hlen : 0 < xs.length := List.length_pos.mpr hxs
      have htail2 := push_tail_no_wrap cv x (by omega)
      rw [pushList, ih (cv.push x).2
        (by rw [htail2]; show cv.tail + 1 + xs.length ≤ cv.capacity; omega)
        (by rw [htail2]; omega)]
      exact push_data_other cv x j (by omega)

/-- While the pushes do not wrap, the `i`-th pushed value lands in cell
`tail + i`. -/
theorem pushList_data_at (cv : CircularVector E) (l : List E)
    (hnw : cv.tail + l.length ≤ cv.capacity) (i : ℕ) (hi : i < l.length) :
    (cv.pushList l).data (cv.tail + i) = l[i] := by
  induction l generalizing cv i with
  | nil => simp at hi
  | cons x xs ih =>
    simp only [List.length_cons] at hnw hi
    rcases eq_or_ne xs [] with hxs | hxs
    · subst hxs
      have hi0 : i = 0 := by simp at hi; omega
      subst hi0
      rw [pushList, pushList, Nat.add_zero]
      exact (push_data_self cv x).trans rfl
    · have hlen : 0 < xs.length := List.length_pos.mpr hxs
      have htail2 := push_tail_no_wrap cv x (by omega)
      rw [pushList]
      cases i with
      | zero =>
        rw [Nat.add_zero,
          pushList_data_stable (cv.push x).2 xs
            (by rw [htail2]; show cv.tail + 1 + xs.length ≤ cv.capacity; omega)
            cv.tail (by rw [htail2]; omega)]
        exact (push_data_self cv x).trans rfl
      | succ k =>
        have := ih (cv.push x).2
          (by rw [htail2]; show cv.tail + 1 + xs.length ≤ cv.capacity; omega) k (by omega)
        rw [htail2] at this
        rw [show cv.tail + (k + 1) = cv.tail + 1 + k by omega, this]
        rfl

/-- Reading back the `i`-th element after a non-wrapping push sequence on a
cleared slot. -/
theorem pushList_get_of_cleared (cv : CircularVector E) (l : List E)
    (hle : l.length ≤ cv.capacity) (i : ℕ) (hi : i < l.length) :
    (cv.clear.pushList l).get i = l[i] := by
  have hhead : (cv.clear.pushList l).head = 0 := pushList_head cv.clear l
  have hcap : (cv.clear.pushList l).capacity = cv.capacity := pushList_capacity cv.clear l
  have hd : (cv.clear.pushList l).data (0 + i) = l[i] :=
    pushList_data_at cv.clear l (by show 0 + l.length ≤ cv.capacity; omega) i hi
  simp only [get, hhead, hcap, Nat.zero_add] at hd ⊢
  rwa [Nat.mod_eq_of_lt (by omega)]

end CircularVector

/-! ### Claims C7 and C10: the concurrent bucket slot -/

/-- **C10** — The bucket slot is circular, not append-only: `push` advances
the tail to `(tail + 1) % capacity`; after `k` single-threaded pushes
following `clear()` on a slot of capacity `c`, `size()` returns `k % c`;
in particular after exactly `c` pushes `size()` returns `0` and `empty()`
returns true, and the `(c+1)`-th push writes cell `0` — the cell holding
the value stored by the first push — replacing it. -/
theorem claim_C10_circular_wraparound (cv : CircularVector ℤ) (hc : 0 < cv.capacity)
    (l : List ℤ) :
    (∀ x, ((cv.push x).2).tail = (cv.tail + 1) % cv.capacity) ∧
    ((cv.clear.pushList l).size = l.length % cv.capacity) ∧
    (l.length = cv.capacity →
      (cv.clear.pushList l).size = 0 ∧
      (cv.clear.pushList l).empty = true ∧
      ∀ x xs y, l = x :: xs →
        (cv.clear.pushList l).data 0 = x ∧
        (((cv.clear.pushList l).push y).2).data 0 = y) := by
  have hhead : (cv.clear.pushList l).head = 0 := CircularVector.pushList_head _ _
  have htail : (cv.clear.pushList l).tail = l.length % cv.capacity :=
    CircularVector.pushList_tail_of_cleared cv.clear (by show 0 < cv.capacity; omega) rfl l
  refine ⟨fun x => rfl, ?_, ?_⟩
  · simp [CircularVector.size, hhead, htail]
  · intro hfull
    have htail0 : (cv.clear.pushList l).tail = 0 := by rw [htail, hfull, Nat.mod_self]
    refine ⟨by simp [CircularVector.size, hhead, htail0],
            by simp [CircularVector.empty, hhead, htail0], ?_⟩
    intro x xs y hl
    subst hl
    constructor
    · have hd : (cv.clear.pushList (x :: xs)).data (0 + 0) = (x :: xs)[0] :=
        CircularVector.pushList_data_at cv.clear (x :: xs)
          (by show 0 + (x :: xs).length ≤ cv.capacity; omega) 0 (by simp)
      simpa using hd
    · have hd := CircularVector.push_data_self (cv.clear.pushList (x :: xs)) y
      rwa [htail0] at hd

/-- Witness for C10 at a concrete slot of capacity 2 with 2 pushes. -/
theorem claim_C10_circular_wraparound_witness :
    ((CircularVector.new 2 (0:ℤ)).clear.pushList [5, 7]).size = 0 ∧
    ((CircularVector.new 2 (0:ℤ)).clear.pushList [5, 7]).empty = true ∧
    ((CircularVector.new 2 (0:ℤ)).clear.pushList [5, 7]).data 0 = 5 ∧
    ((((CircularVector.new 2 (0:ℤ)).clear.pushList [5, 7]).push 9).2).data 0 = 9 := by
  have h := claim_C10_circular_wraparound (CircularVector.new 2 (0:ℤ)) (by decide) [5, 7]
  obtain ⟨-, -, h3⟩ := h
  obtain ⟨ha, hb, hco⟩ := h3 rfl
  exact ⟨ha, hb, (hco 5 [7] 9 rfl).1, (hco 5 [7] 9 rfl).2⟩

/-- **C7 counterexample** — one push after `clear()` on a slot of capacity 1:
the claim says `size()` then returns the number of pushes since `clear()`,
namely 1, but it returns `1 % 1 = 0`. -/
theorem claim_C7_counterexample :
    ¬ ((((CircularVector.new 1 (0:ℤ)).clear.push 42).2).size = 1) := by
  decide

/-- **C7 (amended)** — for every sequence of *fewer than `capacity`* push
calls following a `clear()`: the `i`-th push (from 0) returns index `i` and
stores the pushed vertex at position `i`; at any point `size()` returns the
number of pushes since the `clear()`; `empty()` returns true exactly when
`size() = 0`; and `clear()` resets the tail to 0.  (Without the
push-count bound the tail wraps, see C10.) -/
theorem claim_C7_bucket_slot_contract (cv : CircularVector ℤ) (l : List ℤ)
    (hlen : l.length < cv.capacity) :
    (∀ pre x suf, l = pre ++ x :: suf →
        ((cv.clear.pushList pre).push x).1 = pre.length ∧
        (cv.clear.pushList l).get pre.length = x) ∧
    (∀ pre suf, l = pre ++ suf →
        (cv.clear.pushList pre).size = pre.length ∧
        ((cv.clear.pushList pre).empty = true ↔ (cv.clear.pushList pre).size = 0)) ∧
    cv.clear.tail = 0 := by
  have hc : 0 < cv.capacity := by omega
  have basic : ∀ pre : List ℤ, pre.length ≤ l.length →
      (cv.clear.pushList pre).head = 0 ∧ (cv.clear.pushList pre).tail = pre.length := by
    intro pre hpre
    refine ⟨CircularVector.pushList_head _ _, ?_⟩
    have h : (cv.clear.pushList pre).tail = pre.length % cv.capacity :=
      CircularVector.pushList_tail_of_cleared cv.clear
        (by show 0 < cv.capacity; omega) rfl pre
    rw [h]
    exact Nat.mod_eq_of_lt (by omega)
  refine ⟨?_, ?_, rfl⟩
  · intro pre x suf hl
    subst hl
    have hpre : pre.length ≤ (pre ++ x :: suf).length := by
      simp only [List.length_append, List.length_cons]; omega
    have hplt : pre.length < (pre ++ x :: suf).length := by
      simp only [List.length_append, List.length_cons]; omega
    obtain ⟨hh, ht⟩ := basic pre hpre
    constructor
    · simp [CircularVector.push, hh, ht]
    · have hget := CircularVector.pushList_get_of_cleared cv (pre ++ x :: suf)
        (by omega) pre.length (by omega)
      rw [hget]
      rw [List.getElem_append_right (Nat.le_refl pre.length)]
      simp
  · intro pre suf hl
    subst hl
    have hpre : pre.length ≤ (pre ++ suf).length := by
      simp only [List.length_append]; omega
    obtain ⟨hh, ht⟩ := basic pre hpre
    have hsz : (cv.clear.pushList pre).size = pre.length := by
      simp [CircularVector.size, hh, ht]
    refine ⟨hsz, ?_⟩
    simp only [CircularVector.empty, hh, ht, beq_iff_eq, hsz]
    exact eq_comm

/-- Witness for the amended C7 on a capacity-3 slot with 2 pushes. -/
theorem claim_C7_bucket_slot_contract_witness :
    (((CircularVector.new 3 (0:ℤ)).clear.pushList [5]).push 7).1 = 1 ∧
    ((CircularVector.new 3 (0:ℤ)).clear.pushList [5, 7]).get 1 = 7 ∧
    ((CircularVector.new 3 (0:ℤ)).clear.pushList [5, 7]).size = 2 := by
  have h := claim_C7_bucket_slot_contract (CircularVector.new 3 (0:ℤ)) [5, 7] (by decide)
  refine ⟨(h.1 [5] 7 [] rfl).1, (h.1 [5] 7 [] rfl).2, (h.2.1 [5, 7] [] rfl).1⟩

/-! ## Sequential Δ-stepping (src/delta_stepping_sequential.h)

`std::unordered_set<int>` buckets are modeled as duplicate-free lists in
insertion order (the C++ iteration order is unspecified; the embedding fixes
insertion order).  `insert` is a no-op on a present element, `erase` removes
the element if present — exactly the set semantics of the source. -/

/-- `unordered_set::insert`. -/
def setInsert (l : List ℕ) (v : ℕ) : List ℕ :=
  if v ∈ l then l else l ++ [v]

namespace Seq

/-- The mutable state of `DeltaSteppingSequential::compute`: the distance
array and the growable vector of buckets. -/
structure State where
  dist : ℕ → Dist
  buckets : List (List ℕ)

/-- `get_bucket`: `-1` for infinite distance, else `int(dist[v] / delta)`
(the C++ truncating cast; all values arising are non-negative, where the
cast agrees with `⌊·⌋`). -/
def getBucket (δ : ℚ) (d : Dist) : ℤ :=
  if d = ⊤ then -1 else ⌊d.untop' 0 / δ⌋

/-- `relax(u, v, w)` of the sequential solver.  A negative `new_bucket`
cannot arise for the non-negative weights the solver supports (the source
would have undefined behavior there); the embedding indexes with `toNat`. -/
def relax (δ : ℚ) (st : State) (u v : ℕ) (w : ℚ) : State :=
  if st.dist u + (w : Dist) < st.dist v then
    let old_bucket := getBucket δ (st.dist v)
    let dist' := Function.update st.dist v (st.dist u + (w : Dist))
    let new_bucket := getBucket δ (dist' v)
    let buckets1 :=
      if 0 ≤ old_bucket then
        st.buckets.set old_bucket.toNat ((st.buckets.getD old_bucket.toNat []).erase v)
      else st.buckets
    let buckets2 :=
      if (buckets1.length : ℤ) ≤ new_bucket then
        buckets1 ++ List.replicate (new_bucket.toNat + 1 - buckets1.length) []
      else buckets1
    let buckets3 :=
      buckets2.set new_bucket.toNat (setInsert (buckets2.getD new_bucket.toNat []) v)
    { dist := dist', buckets := buckets3 }
  else st

/-- Light-edge relaxation of one snapshot vertex `u`, followed by
`S.insert(u)`. -/
def processNode (δ : ℚ) (light : ℕ → List (ℕ × ℚ)) (stS : State × List ℕ) (u : ℕ) :
    State × List ℕ :=
  ((light u).foldl (fun s vw => relax δ s u vw.1 vw.2) stS.1, setInsert stS.2 u)

/-- One pass of the inner `while`: snapshot bucket `i`, clear it, process
every snapshot vertex. -/
def innerPass (δ : ℚ) (light : ℕ → List (ℕ × ℚ)) (i : ℕ) (st : State) (S : List ℕ) :
    State × List ℕ :=
  let curr_bucket := st.buckets.getD i []
  let st1 : State := { st with buckets := st.buckets.set i [] }
  curr_bucket.foldl (processNode δ light) (st1, S)

/-- `relax` when the tentative distance does not improve: no-op. -/
theorem relax_of_not_lt (δ : ℚ) (st : State) (u v : ℕ) (w : ℚ)
    (h : ¬ st.dist u + (w : Dist) < st.dist v) : relax δ st u v w = st := by
  simp only [relax, if_neg h]

/-- `relax` on improvement: the distance entry is written. -/
theorem relax_dist_of_lt (δ : ℚ) (st : State) (u v : ℕ) (w : ℚ)
    (h : st.dist u + (w : Dist) < st.dist v) :
    (relax δ st u v w).dist = Function.update st.dist v (st.dist u + (w : Dist)) := by
  simp only [relax, if_pos h]

theorem relax_dist_le (δ : ℚ) (st : State) (u v : ℕ) (w : ℚ) (x : ℕ) :
    (relax δ st u v w).dist x ≤ st.dist x := by
  by_cases h : st.dist u + (w : Dist) < st.dist v
  · rw [relax_dist_of_lt δ st u v w h]
    rcases eq_or_ne x v with rfl | hne
    · rw [Function.update_same]; exact le_of_lt h
    · rw [Function.update_noteq hne]
  · rw [relax_of_not_lt δ st u v w h]

/-- Every actual write by the sequential `relax` is a strict decrease at the
target vertex. -/
theorem relax_dist_strict (δ : ℚ) (st : State) (u v x : ℕ) (w : ℚ)
    (hch : (relax δ st u v w).dist x ≠ st.dist x) :
    (relax δ st u v w).dist x < st.dist x ∧ x = v := by
  refine ⟨lt_of_le_of_ne (relax_dist_le δ st u v w x) hch, ?_⟩
  by_cases h : st.dist u + (w : Dist) < st.dist v
  · rcases eq_or_ne x v with rfl | hne
    · rfl
    · exact absurd (by rw [relax_dist_of_lt δ st u v w h, Function.update_noteq hne]) hch
  · rw [relax_of_not_lt δ st u v w h] at hch
    exact absurd rfl hch

theorem edgeFold_dist_le (δ : ℚ) (u : ℕ) (es : List (ℕ × ℚ)) (st : State) (x : ℕ) :
    (es.foldl (fun s vw => relax δ s u vw.1 vw.2) st).dist x ≤ st.dist x := by
  induction es generalizing st with
  | nil => exact le_refl _
  | cons e es ih => exact le_trans (ih _) (relax_dist_le δ st u e.1 e.2 x)

theorem processNode_dist_le (δ : ℚ) (light : ℕ → List (ℕ × ℚ))
    (stS : State × List ℕ) (u x : ℕ) :
    (processNode δ light stS u).1.dist x ≤ stS.1.dist x :=
  edgeFold_dist_le δ u (light u) stS.1 x

theorem nodeFold_dist_le (δ : ℚ) (light : ℕ → List (ℕ × ℚ)) (l : List ℕ)
    (stS : State × List ℕ) (x : ℕ) :
    (l.foldl (processNode δ light) stS).1.dist x ≤ stS.1.dist x := by
  induction l generalizing stS with
  | nil => exact le_refl _
  | cons u us ih => exact le_trans (ih _) (processNode_dist_le δ light stS u x)

theorem innerPass_dist_le (δ : ℚ) (light : ℕ → List (ℕ × ℚ)) (i : ℕ)
    (st : State) (S : List ℕ) (x : ℕ) :
    (innerPass δ light i st S).1.dist x ≤ st.dist x :=
  nodeFold_dist_le δ light _ _ x

/-- `while (!buckets[i].empty())`, fuel-indexed. -/
def innerLoop (δ : ℚ) (light : ℕ → List (ℕ × ℚ)) (i : ℕ) :
    ℕ → State × List ℕ → Option (State × List ℕ)
  | 0, _ => none
  | fuel + 1, (st, S) =>
    if (st.buckets.getD i []).isEmpty then some (st, S)
    else innerLoop δ light i fuel (innerPass δ light i st S)

/-- `for (u : S) for ((v,w) : heavy[u]) relax(u, v, w)`. -/
def heavyPhase (δ : ℚ) (heavy : ℕ → List (ℕ × ℚ)) (st : State) (S : List ℕ) : State :=
  S.foldl (fun s u => (heavy u).foldl (fun s2 vw => relax δ s2 u vw.1 vw.2) s) st

/-- `for (int i = 0; i < buckets.size(); ++i)`, fuel-indexed since the
vector grows while iterating. -/
def outerLoop (δ : ℚ) (light heavy : ℕ → List (ℕ × ℚ)) :
    ℕ → ℕ → State → Option State
  | 0, _, _ => none
  | fuel + 1, i, st =>
    if i < st.buckets.length then
      match innerLoop δ light i (fuel + 1) (st, []) with
      | none => none
      | some (st2, S) => outerLoop δ light heavy fuel (i + 1) (heavyPhase δ heavy st2 S)
    else some st

theorem innerLoop_dist_le (δ : ℚ) (light : ℕ → List (ℕ × ℚ)) (i fuel : ℕ)
    (st : State) (S : List ℕ) (st' : State) (S' : List ℕ)
    (h : innerLoop δ light i fuel (st, S) = some (st', S')) (x : ℕ) :
    st'.dist x ≤ st.dist x := by
  induction fuel generalizing st S with
  | zero => simp [innerLoop] at h
  | succ n ih =>
    rw [innerLoop] at h
    split at h
    · cases h; exact le_refl _
    · rcases hp : innerPass δ light i st S with ⟨st2, S2⟩
      rw [hp] at h
      exact le_trans (ih _ _ h) (by
        have := innerPass_dist_le δ light i st S x
        rwa [hp] at this)

theorem heavyPhase_dist_le (δ : ℚ) (heavy : ℕ → List (ℕ × ℚ)) (st : State)
    (S : List ℕ) (x : ℕ) : (heavyPhase δ heavy st S).dist x ≤ st.dist x := by
  unfold heavyPhase
  induction S generalizing st with
  | nil => exact le_refl _
  | cons u us ih => exact le_trans (ih _) (edgeFold_dist_le δ u (heavy u) st x)

theorem outerLoop_dist_le (δ : ℚ) (light heavy : ℕ → List (ℕ × ℚ)) (fuel i : ℕ)
    (st st' : State) (h : outerLoop δ light heavy fuel i st = some st') (x : ℕ) :
    st'.dist x ≤ st.dist x := by
  induction fuel generalizing i st with
  | zero => simp [outerLoop] at h
  | succ n ih =>
    rw [outerLoop] at h
    split at h
    · rcases hil : innerLoop δ light i (n + 1) (st, []) with _ | ⟨st2, S⟩
      · rw [hil] at h; cases h
      · rw [hil] at h
        exact le_trans (ih _ _ h) (le_trans (heavyPhase_dist_le δ heavy st2 S x)
          (innerLoop_dist_le δ light i (n + 1) st [] st2 S hil x))
    · cases h; exact le_refl _

/-- `DeltaSteppingSequential::compute`, fuel-indexed (`none` = fuel ran
out; termination is proved separately). -/
def compute (δ : ℚ) (g : Graph) (source : ℕ) (fuel : ℕ) : Option (List Dist) :=
  let light := fun u => (g.adj u).filter (fun vw => vw.2 < δ)
  let heavy := fun u => (g.adj u).filter (fun vw => ¬ vw.2 < δ)
  let st0 : State :=
    { dist := Function.update (fun _ => (⊤ : Dist)) source (0 : ℚ)
      buckets := [[source]] }
  match outerLoop δ light heavy fuel 0 st0 with
  | none => none
  | some st => some ((List.range g.n).map st.dist)

end Seq

/-! ### Light/heavy edge split and relaxedness predicates (shared) -/

/-- The light adjacency (`w < delta`), as built by both solvers. -/
def lightAdj (g : Graph) (δ : ℚ) (u : ℕ) : List (ℕ × ℚ) :=
  (g.adj u).filter (fun vw => vw.2 < δ)

/-- The heavy adjacency (`w >= delta`). -/
def heavyAdj (g : Graph) (δ : ℚ) (u : ℕ) : List (ℕ × ℚ) :=
  (g.adj u).filter (fun vw => ¬ vw.2 < δ)

/-- All light edges out of `v` are non-tense. -/
def Lrel (g : Graph) (δ : ℚ) (dist : ℕ → Dist) (v : ℕ) : Prop :=
  ∀ vw ∈ lightAdj g δ v, dist vw.1 ≤ dist v + (vw.2 : Dist)

/-- All heavy edges out of `v` are non-tense. -/
def Hrel (g : Graph) (δ : ℚ) (dist : ℕ → Dist) (v : ℕ) : Prop :=
  ∀ vw ∈ heavyAdj g δ v, dist vw.1 ≤ dist v + (vw.2 : Dist)

theorem mem_adj_split (g : Graph) (δ : ℚ) (u : ℕ) (vw : ℕ × ℚ) :
    vw ∈ g.adj u ↔ vw ∈ lightAdj g δ u ∨ vw ∈ heavyAdj g δ u := by
  simp only [lightAdj, heavyAdj, List.mem_filter, decide_eq_true_eq]
  by_cases h : vw.2 < δ <;> simp [h]

theorem noTense_of_rel (g : Graph) (δ : ℚ) (dist : ℕ → Dist)
    (h : ∀ v, dist v ≠ ⊤ → Lrel g δ dist v ∧ Hrel g δ dist v) :
    NoTense g dist := by
  intro u vw hmem
  by_cases htop : dist u = ⊤
  · rw [htop, top_add]
    exact le_top
  · obtain ⟨hl, hh⟩ := h u htop
    rcases (mem_adj_split g δ u vw).mp hmem with h2 | h2
    · exact hl vw h2
    · exact hh vw h2

/-- `Lrel`/`Hrel` survive pointwise decreases that fix `dist v`. -/
theorem lrel_mono (g : Graph) (δ : ℚ) (dist dist' : ℕ → Dist) (v : ℕ)
    (hle : ∀ x, dist' x ≤ dist x) (hv : dist' v = dist v)
    (h : Lrel g δ dist v) : Lrel g δ dist' v := by
  intro vw hmem
  calc dist' vw.1 ≤ dist vw.1 := hle vw.1
    _ ≤ dist v + (vw.2 : Dist) := h vw hmem
    _ = dist' v + (vw.2 : Dist) := by rw [hv]

theorem hrel_mono (g : Graph) (δ : ℚ) (dist dist' : ℕ → Dist) (v : ℕ)
    (hle : ∀ x, dist' x ≤ dist x) (hv : dist' v = dist v)
    (h : Hrel g δ dist v) : Hrel g δ dist' v := by
  intro vw hmem
  calc dist' vw.1 ≤ dist vw.1 := hle vw.1
    _ ≤ dist v + (vw.2 : Dist) := h vw hmem
    _ = dist' v + (vw.2 : Dist) := by rw [hv]

/-! ### Generic `getD` helpers -/

theorem getD_set_of_ne {α : Type} (l : List α) (i j : ℕ) (x d : α)
    (h : i ≠ j) : (l.set i x).getD j d = l.getD j d := by
  simp only [List.getD_eq_getElem?_getD, List.getElem?_set]
  rw [if_neg h]

theorem getD_set_self_of_lt {α : Type} (l : List α) (i : ℕ) (x d : α)
    (h : i < l.length) : (l.set i x).getD i d = x := by
  simp only [List.getD_eq_getElem?_getD, List.getElem?_set, if_pos rfl]
  simp [h]

theorem getD_append_rep_nil (l : List (List ℕ)) (k j : ℕ) :
    (l ++ List.replicate k ([] : List ℕ)).getD j [] = l.getD j [] := by
  simp only [List.getD_eq_getElem?_getD]
  rcases Nat.lt_or_ge j l.length with h | h
  · rw [List.getElem?_append, if_pos h]
  · rw [List.getElem?_eq_none h, List.getElem?_append, if_neg (by omega)]
    rcases Nat.lt_or_ge (j - l.length) k with h2 | h2
    · rw [List.getElem?_eq_getElem (by simpa using h2)]
      simp [List.getElem_replicate]
    · rw [List.getElem?_eq_none (by simpa using h2)]

theorem setInsert_nodup (l : List ℕ) (v : ℕ) (h : l.Nodup) :
    (setInsert l v).Nodup := by
  unfold setInsert
  split
  · exact h
  · rename_i hv
    simpa [List.nodup_append, h] using hv

theorem mem_setInsert (l : List ℕ) (v x : ℕ) :
    x ∈ setInsert l v ↔ x = v ∨ x ∈ l := by
  unfold setInsert
  split
  · rename_i hv
    constructor
    · exact Or.inr
    · rintro (rfl | h) <;> [exact hv; exact h]
  · simp [or_comm]

/-! ### `getBucket` arithmetic (sequential form) -/

theorem Seq.getBucket_coe (δ : ℚ) (q : ℚ) :
    Seq.getBucket δ ((q : ℚ) : Dist) = ⌊q / δ⌋ := by
  rw [Seq.getBucket, if_neg WithTop.coe_ne_top]
  rfl

theorem Seq.getBucket_nonneg (δ : ℚ) (hδ : 0 < δ) (q : ℚ) (h0 : 0 ≤ q) :
    0 ≤ Seq.getBucket δ ((q : ℚ) : Dist) := by
  rw [Seq.getBucket_coe]
  exact Int.floor_nonneg.mpr (div_nonneg h0 (le_of_lt hδ))

theorem Seq.le_getBucket (δ : ℚ) (hδ : 0 < δ) (q : ℚ) (i : ℕ)
    (h : (i : ℚ) * δ ≤ q) : (i : ℤ) ≤ Seq.getBucket δ ((q : ℚ) : Dist) := by
  rw [Seq.getBucket_coe]
  exact Int.le_floor.mpr (by rwa [le_div_iff hδ])

theorem Seq.getBucket_le_val (δ : ℚ) (hδ : 0 < δ) (q : ℚ) (i : ℤ)
    (h : i ≤ Seq.getBucket δ ((q : ℚ) : Dist)) : (i : ℚ) * δ ≤ q := by
  rw [Seq.getBucket_coe] at h
  have := le_trans (Int.cast_le.mpr h) (Int.floor_le (q / δ))
  rwa [← le_div_iff hδ]

/-! ### Decomposition of the sequential `relax` bucket surgery -/

/-- Erase the target from its old bucket (when it had one). -/
def eraseOld (b : List (List ℕ)) (ob : ℤ) (v : ℕ) : List (List ℕ) :=
  if 0 ≤ ob then b.set ob.toNat ((b.getD ob.toNat []).erase v) else b

/-- `buckets.resize(new_bucket + 1)` when needed. -/
def resizeTo (b : List (List ℕ)) (nbZ : ℤ) : List (List ℕ) :=
  if (b.length : ℤ) ≤ nbZ then b ++ List.replicate (nbZ.toNat + 1 - b.length) []
  else b

/-- `buckets[new_bucket].insert(v)`. -/
def insertNew (b : List (List ℕ)) (nbZ : ℤ) (v : ℕ) : List (List ℕ) :=
  b.set nbZ.toNat (setInsert (b.getD nbZ.toNat []) v)

/-- The whole bucket update performed by a firing sequential `relax`. -/
def relaxB (b : List (List ℕ)) (ob nbZ : ℤ) (v : ℕ) : List (List ℕ) :=
  insertNew (resizeTo (eraseOld b ob v) nbZ) nbZ v

theorem Seq.relax_eq_fired (δ : ℚ) (st : State) (u v : ℕ) (w : ℚ)
    (hlt : st.dist u + (w : Dist) < st.dist v) :
    Seq.relax δ st u v w =
      { dist := Function.update st.dist v (st.dist u + (w : Dist))
        buckets := relaxB st.buckets (Seq.getBucket δ (st.dist v))
          (Seq.getBucket δ (st.dist u + (w : Dist))) v } := by
  simp only [Seq.relax, if_pos hlt, relaxB, eraseOld, resizeTo, insertNew,
    Function.update_same]

theorem eraseOld_mem_ne (b : List (List ℕ)) (ob : ℤ) (v x : ℕ) (hx : x ≠ v) :
    ∀ j, x ∈ (eraseOld b ob v).getD j [] ↔ x ∈ b.getD j [] := by
  intro j
  unfold eraseOld
  split
  · rcases eq_or_ne ob.toNat j with rfl | hne
    · rcases Nat.lt_or_ge ob.toNat b.length with hlt | hge
      · rw [getD_set_self_of_lt _ _ _ _ hlt]
        exact List.mem_erase_of_ne hx
      · rw [List.set_eq_of_length_le hge]
    · rw [getD_set_of_ne _ _ _ _ _ hne]
  · exact Iff.rfl

theorem eraseOld_not_mem_v (b : List (List ℕ)) (ob : ℤ) (v : ℕ)
    (hov : ∀ j, v ∈ b.getD j [] → 0 ≤ ob ∧ j = ob.toNat)
    (hnodup : ∀ j, (b.getD j []).Nodup) :
    ∀ j, v ∉ (eraseOld b ob v).getD j [] := by
  intro j hmem
  unfold eraseOld at hmem
  by_cases hob : 0 ≤ ob
  · rw [if_pos hob] at hmem
    rcases eq_or_ne ob.toNat j with rfl | hne
    · rcases Nat.lt_or_ge ob.toNat b.length with hlt | hge
      · rw [getD_set_self_of_lt _ _ _ _ hlt] at hmem
        exact absurd (((hnodup ob.toNat).mem_erase_iff.mp hmem).1) (by simp)
      · rw [List.set_eq_of_length_le hge] at hmem
        have hnil : b.getD ob.toNat [] = [] := by
          rw [List.getD_eq_getElem?_getD, List.getElem?_eq_none hge]
          rfl
        rw [hnil] at hmem
        simp at hmem
    · rw [getD_set_of_ne _ _ _ _ _ hne] at hmem
      exact hne ((hov j hmem).2.symm)
  · rw [if_neg hob] at hmem
    exact hob (hov j hmem).1

theorem eraseOld_nodup (b : List (List ℕ)) (ob : ℤ) (v : ℕ)
    (hnodup : ∀ j, (b.getD j []).Nodup) :
    ∀ j, ((eraseOld b ob v).getD j []).Nodup := by
  intro j
  unfold eraseOld
  split
  · rcases eq_or_ne ob.toNat j with rfl | hne
    · rcases Nat.lt_or_ge ob.toNat b.length with hlt | hge
      · rw [getD_set_self_of_lt _ _ _ _ hlt]
        exact (hnodup ob.toNat).erase v
      · rw [List.set_eq_of_length_le hge]
        exact hnodup _
    · rw [getD_set_of_ne _ _ _ _ _ hne]
      exact hnodup j
  · exact hnodup j

theorem eraseOld_length (b : List (List ℕ)) (ob : ℤ) (v : ℕ) :
    (eraseOld b ob v).length = b.length := by
  unfold eraseOld
  split
  · exact List.length_set _ _ _
  · rfl

theorem resizeTo_getD (b : List (List ℕ)) (nbZ : ℤ) :
    ∀ j, (resizeTo b nbZ).getD j [] = b.getD j [] := by
  intro j
  unfold resizeTo
  split
  · exact getD_append_rep_nil b _ j
  · rfl

theorem resizeTo_length (b : List (List ℕ)) (nbZ : ℤ) (hnb0 : 0 ≤ nbZ) :
    (resizeTo b nbZ).length = max b.length (nbZ.toNat + 1) := by
  unfold resizeTo
  split
  · rename_i h
    rw [List.length_append, List.length_replicate]
    have : b.length ≤ nbZ.toNat := by omega
    omega
  · rename_i h
    have : nbZ.toNat < b.length := by omega
    omega

theorem insertNew_mem (b : List (List ℕ)) (nbZ : ℤ) (v : ℕ)
    (hlen : nbZ.toNat < b.length) :
    ∀ j x, x ∈ (insertNew b nbZ v).getD j [] ↔
      ((j = nbZ.toNat ∧ (x = v ∨ x ∈ b.getD j [])) ∨
       (j ≠ nbZ.toNat ∧ x ∈ b.getD j [])) := by
  intro j x
  unfold insertNew
  rcases eq_or_ne nbZ.toNat j with rfl | hne
  · rw [getD_set_self_of_lt _ _ _ _ hlen, mem_setInsert]
    simp
  · rw [getD_set_of_ne _ _ _ _ _ hne]
    simp [Ne.symm hne]

theorem insertNew_nodup (b : List (List ℕ)) (nbZ : ℤ) (v : ℕ)
    (hnodup : ∀ j, (b.getD j []).Nodup) :
    ∀ j, ((insertNew b nbZ v).getD j []).Nodup := by
  intro j
  unfold insertNew
  rcases eq_or_ne nbZ.toNat j with rfl | hne
  · rcases Nat.lt_or_ge nbZ.toNat b.length with hlt | hge
    · rw [getD_set_self_of_lt _ _ _ _ hlt]
      exact setInsert_nodup _ _ (hnodup nbZ.toNat)
    · rw [List.set_eq_of_length_le hge]
      exact hnodup _
  · rw [getD_set_of_ne _ _ _ _ _ hne]
    exact hnodup j

theorem insertNew_length (b : List (List ℕ)) (nbZ : ℤ) (v : ℕ) :
    (insertNew b nbZ v).length = b.length :=
  List.length_set _ _ _

/-- The full membership characterization of the fired bucket update. -/
theorem relaxB_mem (b : List (List ℕ)) (ob nbZ : ℤ) (v : ℕ)
    (hnb0 : 0 ≤ nbZ)
    (hov : ∀ j, v ∈ b.getD j [] → 0 ≤ ob ∧ j = ob.toNat)
    (hnodup : ∀ j, (b.getD j []).Nodup) :
    ∀ j x, x ∈ (relaxB b ob nbZ v).getD j [] ↔
      ((x = v ∧ j = nbZ.toNat) ∨ (x ≠ v ∧ x ∈ b.getD j [])) := by
  intro j x
  unfold relaxB
  have hlenE := eraseOld_length b ob v
  have hlenR := resizeTo_length (eraseOld b ob v) nbZ hnb0
  have hlt : nbZ.toNat < (resizeTo (eraseOld b ob v) nbZ).length := by
    rw [hlenR]; omega
  rw [insertNew_mem _ _ _ hlt]
  have hgd : ∀ j', (resizeTo (eraseOld b ob v) nbZ).getD j' [] =
      (eraseOld b ob v).getD j' [] := resizeTo_getD _ _
  simp only [hgd]
  constructor
  · rintro (⟨rfl, (rfl | hmem)⟩ | ⟨hne, hmem⟩)
    · exact Or.inl ⟨rfl, rfl⟩
    · rcases eq_or_ne x v with rfl | hxv
      · exact absurd hmem (eraseOld_not_mem_v b ob x hov hnodup _)
      · exact Or.inr ⟨hxv, (eraseOld_mem_ne b ob v x hxv _).mp hmem⟩
    · rcases eq_or_ne x v with rfl | hxv
      · exact absurd hmem (eraseOld_not_mem_v b ob x hov hnodup _)
      · exact Or.inr ⟨hxv, (eraseOld_mem_ne b ob v x hxv _).mp hmem⟩
  · rintro (⟨rfl, rfl⟩ | ⟨hxv, hmem⟩)
    · exact Or.inl ⟨rfl, Or.inl rfl⟩
    · rcases eq_or_ne j nbZ.toNat with rfl | hjne
      · exact Or.inl ⟨rfl, Or.inr ((eraseOld_mem_ne b ob v x hxv _).mpr hmem)⟩
      · exact Or.inr ⟨hjne, (eraseOld_mem_ne b ob v x hxv _).mpr hmem⟩

theorem relaxB_nodup (b : List (List ℕ)) (ob nbZ : ℤ) (v : ℕ)
    (hnodup : ∀ j, (b.getD j []).Nodup) :
    ∀ j, ((relaxB b ob nbZ v).getD j []).Nodup := by
  unfold relaxB
  apply insertNew_nodup
  intro j
  rw [resizeTo_getD]
  exact eraseOld_nodup b ob v hnodup j

theorem relaxB_length (b : List (List ℕ)) (ob nbZ : ℤ) (v : ℕ)
    (hnb0 : 0 ≤ nbZ) :
    (relaxB b ob nbZ v).length = max b.length (nbZ.toNat + 1) := by
  unfold relaxB
  rw [insertNew_length, resizeTo_length _ _ hnb0, eraseOld_length]

/-! ### The sequential solver's state invariant -/

/-- Upper bound on the number of buckets the sequential solver can ever
allocate. -/
def Seq.BL (g : Graph) (δ : ℚ) : ℕ :=
  (⌊(g.n : ℚ) * g.get_max_edge_weight / δ⌋).toNat + 1

/-- `v` sits in the bucket matching its current distance. -/
def Seq.inHome (δ : ℚ) (st : Seq.State) (v : ℕ) : Prop :=
  v ∈ st.buckets.getD (Seq.getBucket δ (st.dist v)).toNat []

/-- The structural invariant of the sequential solver's state. -/
structure Seq.SInv (g : Graph) (δ : ℚ) (s : ℕ) (st : Seq.State) : Prop where
  di : DistInv g s st.dist
  acc : ∀ j, ∀ v ∈ st.buckets.getD j [], st.dist v ≠ ⊤ ∧
    Seq.getBucket δ (st.dist v) = (j : ℤ)
  nodup : ∀ j, (st.buckets.getD j []).Nodup
  blen : st.buckets.length ≤ Seq.BL g δ

theorem Seq.relax_fired_data (δ : ℚ) (st : Seq.State) (u v : ℕ) (w : ℚ)
    (hlt : st.dist u + (w : Dist) < st.dist v) :
    ∃ qu : ℚ, st.dist u = ((qu : ℚ) : Dist) ∧
      st.dist u + (w : Dist) = ((qu + w : ℚ) : Dist) := by
  have hne : st.dist u ≠ ⊤ := by
    intro htop
    rw [htop, top_add] at hlt
    exact not_top_lt hlt
  obtain ⟨qu, hqu⟩ := WithTop.ne_top_iff_exists.mp hne
  refine ⟨qu, hqu.symm, ?_⟩
  rw [← hqu, ← WithTop.coe_add]

/-- The `hov` premise of `relaxB_mem`, from bucket accuracy. -/
theorem Seq.acc_hov (g : Graph) (δ : ℚ) (s : ℕ) (st : Seq.State)
    (hsi : Seq.SInv g δ s st) (v : ℕ) :
    ∀ j, v ∈ st.buckets.getD j [] →
      0 ≤ Seq.getBucket δ (st.dist v) ∧ j = (Seq.getBucket δ (st.dist v)).toNat := by
  intro j hmem
  obtain ⟨hfin, hgb⟩ := hsi.acc j v hmem
  constructor
  · rw [hgb]; exact_mod_cast Nat.zero_le j
  · rw [hgb]; simp

theorem Seq.relax_sinv (g : Graph) (δ : ℚ) (s : ℕ) (hwf : g.WF)
    (hnn : g.NonNeg) (hδ : 0 < δ) (st : Seq.State) (u v : ℕ) (w : ℚ)
    (hmem : (v, w) ∈ g.adj u) (hsi : Seq.SInv g δ s st) :
    Seq.SInv g δ s (Seq.relax δ st u v w) := by
  by_cases hlt : st.dist u + (w : Dist) < st.dist v
  · obtain ⟨qu, hqu, hc⟩ := Seq.relax_fired_data δ st u v w hlt
    have h0qu : 0 ≤ qu := (hsi.di.1 u qu hqu).nonneg hnn
    have h0w : 0 ≤ w := adj_weight_nonneg g hnn u (v, w) hmem
    have h0c : 0 ≤ qu + w := by linarith
    have hvlt : v < g.n := (adj_target_lt g hwf u (v, w) hmem).1
    have hnb0 : 0 ≤ Seq.getBucket δ ((qu + w : ℚ) : Dist) :=
      Seq.getBucket_nonneg δ hδ _ h0c
    have hL : 0 ≤ g.get_max_edge_weight := max_weight_nonneg g
    have hkey := Seq.relax_eq_fired δ st u v w hlt
    have hdi' : DistInv g s (Function.update st.dist v ((qu + w : ℚ) : Dist)) := by
      apply distInv_update g s hnn st.dist hsi.di v hvlt (qu + w)
        (by rw [← hc]; exact hlt)
        (by
          have := (hsi.di.1 u qu hqu).cons hmem
          exact this)
      calc qu + w ≤ g.get_max_edge_weight * (finCount g.n st.dist : ℚ) +
            g.get_max_edge_weight := by
            have h1 := hsi.di.2.2.2 u qu hqu
            have h2 := weight_le_max g u (v, w) hmem
            exact add_le_add h1 h2
        _ = g.get_max_edge_weight * ((finCount g.n st.dist : ℚ) + 1) := by ring
    have hmemiff := relaxB_mem st.buckets (Seq.getBucket δ (st.dist v))
      (Seq.getBucket δ (st.dist u + (w : Dist))) v
      (by rw [hc]; exact hnb0) (Seq.acc_hov g δ s st hsi v) hsi.nodup
    refine ⟨?_, ?_, ?_, ?_⟩
    · rw [hkey]
      show DistInv g s (Function.update st.dist v (st.dist u + (w : Dist)))
      rw [hc]
      exact hdi'
    · intro j x hx
      rw [hkey] at hx
      rw [hkey]
      show (Function.update st.dist v (st.dist u + (w : Dist))) x ≠ ⊤ ∧
        Seq.getBucket δ ((Function.update st.dist v (st.dist u + (w : Dist))) x) = (j : ℤ)
      rcases (hmemiff j x).mp hx with ⟨rfl, rfl⟩ | ⟨hxv, hold⟩
      · rw [Function.update_same, hc]
        refine ⟨WithTop.coe_ne_top, ?_⟩
        rw [Int.toNat_of_nonneg hnb0]
      · rw [Function.update_noteq hxv]
        exact hsi.acc j x hold
    · intro j
      rw [hkey]
      exact relaxB_nodup st.buckets _ _ v hsi.nodup j
    · rw [hkey]
      show (relaxB st.buckets (Seq.getBucket δ (st.dist v))
        (Seq.getBucket δ (st.dist u + (w : Dist))) v).length ≤ Seq.BL g δ
      rw [relaxB_length st.buckets _ _ v (by rw [hc]; exact hnb0)]
      have hble : (Seq.getBucket δ (st.dist u + (w : Dist))).toNat + 1 ≤ Seq.BL g δ := by
        rw [hc]
        have hbd : qu + w ≤ (g.n : ℚ) * g.get_max_edge_weight := by
          have h1 := hdi'.2.2.2 v (qu + w) (by rw [Function.update_same])
          calc qu + w ≤ g.get_max_edge_weight *
              (finCount g.n (Function.update st.dist v ((qu + w : ℚ) : Dist)) : ℚ) := h1
            _ ≤ g.get_max_edge_weight * (g.n : ℚ) := by
                apply mul_le_mul_of_nonneg_left _ hL
                exact_mod_cast finCount_le g.n _
            _ = (g.n : ℚ) * g.get_max_edge_weight := mul_comm _ _
        have hfl : Seq.getBucket δ ((qu + w : ℚ) : Dist) ≤
            ⌊(g.n : ℚ) * g.get_max_edge_weight / δ⌋ := by
          rw [Seq.getBucket_coe]
          apply Int.floor_le_floor
          gcongr
        rw [Seq.BL]
        have := Int.toNat_le_toNat hfl
        omega
      exact max_le hsi.blen hble
  · rw [Seq.relax_of_not_lt δ st u v w hlt]
    exact hsi

theorem Seq.relax_keep_empty (g : Graph) (δ : ℚ) (s : ℕ) (hδ : 0 < δ)
    (st : Seq.State) (u v : ℕ) (w : ℚ) (hsi : Seq.SInv g δ s st) (j : ℕ)
    (qv : ℚ) (hqv : ((qv : ℚ) : Dist) ≤ st.dist u + (w : Dist))
    (hcut : ((j : ℚ) + 1) * δ ≤ qv)
    (hemp : st.buckets.getD j [] = []) :
    (Seq.relax δ st u v w).buckets.getD j [] = [] := by
  by_cases hlt : st.dist u + (w : Dist) < st.dist v
  · obtain ⟨qu, hqu, hc⟩ := Seq.relax_fired_data δ st u v w hlt
    have hqvc : qv ≤ qu + w := by
      rw [hc] at hqv
      exact_mod_cast hqv
    have h0c : 0 ≤ qu + w := by
      have h0 : (0 : ℚ) ≤ ((j : ℚ) + 1) * δ := by positivity
      linarith
    have hnb0 : 0 ≤ Seq.getBucket δ ((qu + w : ℚ) : Dist) :=
      Seq.getBucket_nonneg δ hδ _ h0c
    have hbuckets : (Seq.relax δ st u v w).buckets =
        relaxB st.buckets (Seq.getBucket δ (st.dist v))
          (Seq.getBucket δ (st.dist u + (w : Dist))) v := by
      rw [Seq.relax_eq_fired δ st u v w hlt]
    rw [hbuckets]
    apply List.eq_nil_iff_forall_not_mem.mpr
    intro x hx
    have hnb0' : 0 ≤ Seq.getBucket δ (st.dist u + (w : Dist)) := by
      rw [hc]; exact hnb0
    rcases (relaxB_mem st.buckets _ _ v hnb0'
        (Seq.acc_hov g δ s st hsi v) hsi.nodup j x).mp hx with ⟨rfl, rfl⟩ | ⟨hxv, hold⟩
    · have hval : (((Seq.getBucket δ (st.dist u + (w : Dist))).toNat + 1 : ℕ) : ℚ) * δ
          ≤ qu + w := by
        push_cast
        push_cast at hcut
        linarith
      have h2 := Seq.le_getBucket δ hδ (qu + w)
        ((Seq.getBucket δ (st.dist u + (w : Dist))).toNat + 1) hval
      rw [← hc] at h2
      omega
    · rw [hemp] at hold
      simp at hold
  · rw [Seq.relax_of_not_lt δ st u v w hlt]
    exact hemp

theorem Seq.relax_lb (δ : ℚ) (st : Seq.State) (u v : ℕ) (w : ℚ) (b : ℚ)
    (hbv : ((b : ℚ) : Dist) ≤ st.dist u + (w : Dist)) (x : ℕ)
    (hx : ((b : ℚ) : Dist) ≤ st.dist x) :
    ((b : ℚ) : Dist) ≤ (Seq.relax δ st u v w).dist x := by
  by_cases hlt : st.dist u + (w : Dist) < st.dist v
  · rw [Seq.relax_dist_of_lt δ st u v w hlt]
    rcases eq_or_ne x v with rfl | hne
    · rw [Function.update_same]
      exact hbv
    · rwa [Function.update_noteq hne]
  · rwa [Seq.relax_of_not_lt δ st u v w hlt]

theorem Seq.relax_dist_src (δ : ℚ) (st : Seq.State) (u v : ℕ) (w : ℚ)
    (h0w : 0 ≤ w) : (Seq.relax δ st u v w).dist u = st.dist u := by
  by_cases hlt : st.dist u + (w : Dist) < st.dist v
  · rw [Seq.relax_dist_of_lt δ st u v w hlt]
    rcases eq_or_ne u v with rfl | hne
    · exfalso
      have hle : st.dist u ≤ st.dist u + (w : Dist) :=
        le_add_of_nonneg_right (by exact_mod_cast h0w)
      exact absurd (lt_of_le_of_lt hle hlt) (lt_irrefl _)
    · rw [Function.update_noteq hne]
  · rw [Seq.relax_of_not_lt δ st u v w hlt]

theorem Seq.relax_home_keep (g : Graph) (δ : ℚ) (s : ℕ) (hδ : 0 < δ)
    (hnn : g.NonNeg) (st : Seq.State) (u v : ℕ) (w : ℚ) (h0w : 0 ≤ w)
    (hsi : Seq.SInv g δ s st) (x : ℕ)
    (hd : (Seq.relax δ st u v w).dist x = st.dist x)
    (hh : Seq.inHome δ st x) : Seq.inHome δ (Seq.relax δ st u v w) x := by
  by_cases hlt : st.dist u + (w : Dist) < st.dist v
  · obtain ⟨qu, hqu, hc⟩ := Seq.relax_fired_data δ st u v w hlt
    have h0qu : 0 ≤ qu := (hsi.di.1 u qu hqu).nonneg hnn
    have hxv : x ≠ v := by
      rintro rfl
      rw [Seq.relax_dist_of_lt δ st u x w hlt, Function.update_same] at hd
      exact absurd hd (ne_of_lt hlt)
    have hbuckets : (Seq.relax δ st u v w).buckets =
        relaxB st.buckets (Seq.getBucket δ (st.dist v))
          (Seq.getBucket δ (st.dist u + (w : Dist))) v := by
      rw [Seq.relax_eq_fired δ st u v w hlt]
    have hnb0' : 0 ≤ Seq.getBucket δ (st.dist u + (w : Dist)) := by
      rw [hc]
      exact Seq.getBucket_nonneg δ hδ _ (by linarith)
    unfold Seq.inHome
    rw [hbuckets, hd]
    exact (relaxB_mem st.buckets _ _ v hnb0'
      (Seq.acc_hov g δ s st hsi v) hsi.nodup _ x).mpr (Or.inr ⟨hxv, hh⟩)
  · rw [Seq.relax_of_not_lt δ st u v w hlt]
    exact hh

theorem Seq.relax_home_new (g : Graph) (δ : ℚ) (s : ℕ) (hδ : 0 < δ)
    (hnn : g.NonNeg) (st : Seq.State) (u v : ℕ) (w : ℚ) (h0w : 0 ≤ w)
    (hsi : Seq.SInv g δ s st) (x : ℕ)
    (hd : (Seq.relax δ st u v w).dist x ≠ st.dist x) :
    Seq.inHome δ (Seq.relax δ st u v w) x := by
  by_cases hlt : st.dist u + (w : Dist) < st.dist v
  · obtain ⟨qu, hqu, hc⟩ := Seq.relax_fired_data δ st u v w hlt
    obtain ⟨-, rfl⟩ := Seq.relax_dist_strict δ st u v x w hd
    have h0qu : 0 ≤ qu := (hsi.di.1 u qu hqu).nonneg hnn
    have hnb0' : 0 ≤ Seq.getBucket δ (st.dist u + (w : Dist)) := by
      rw [hc]
      exact Seq.getBucket_nonneg δ hδ _ (by linarith)
    have hbuckets : (Seq.relax δ st u x w).buckets =
        relaxB st.buckets (Seq.getBucket δ (st.dist x))
          (Seq.getBucket δ (st.dist u + (w : Dist))) x := by
      rw [Seq.relax_eq_fired δ st u x w hlt]
    unfold Seq.inHome
    rw [hbuckets]
    have hdx : (Seq.relax δ st u x w).dist x = st.dist u + (w : Dist) := by
      rw [Seq.relax_dist_of_lt δ st u x w hlt, Function.update_same]
    rw [hdx]
    exact (relaxB_mem st.buckets _ _ x hnb0'
      (Seq.acc_hov g δ s st hsi x) hsi.nodup _ x).mpr (Or.inl ⟨rfl, rfl⟩)
  · exact absurd (by rw [Seq.relax_of_not_lt δ st u v w hlt]) hd

theorem Seq.relax_eq_of_dist_eq (δ : ℚ) (st : Seq.State) (u v : ℕ) (w : ℚ)
    (hd : ∀ x, (Seq.relax δ st u v w).dist x = st.dist x) :
    Seq.relax δ st u v w = st := by
  by_cases hlt : st.dist u + (w : Dist) < st.dist v
  · exfalso
    have := hd v
    rw [Seq.relax_dist_of_lt δ st u v w hlt, Function.update_same] at this
    exact absurd this (ne_of_lt hlt)
  · exact Seq.relax_of_not_lt δ st u v w hlt

/-- After a `relax(u,v,w)` call the edge `(u,v,w)` is not tense. -/
theorem Seq.relax_post (δ : ℚ) (st : Seq.State) (u v : ℕ) (w : ℚ)
    (h0w : 0 ≤ w) : (Seq.relax δ st u v w).dist v ≤
      (Seq.relax δ st u v w).dist u + (w : Dist) := by
  have hu := Seq.relax_dist_src δ st u v w h0w
  by_cases hlt : st.dist u + (w : Dist) < st.dist v
  · rw [hu, Seq.relax_dist_of_lt δ st u v w hlt, Function.update_same]
  · rw [hu, Seq.relax_of_not_lt δ st u v w hlt]
    exact not_lt.mp hlt

/-- The fold over an edge list performed when a vertex is processed. -/
def Seq.edgeFold (δ : ℚ) (u : ℕ) (es : List (ℕ × ℚ)) (st : Seq.State) :
    Seq.State :=
  es.foldl (fun s2 vw => Seq.relax δ s2 u vw.1 vw.2) st

theorem Seq.edgeFold_dist_le' (δ : ℚ) (u : ℕ) (es : List (ℕ × ℚ))
    (st : Seq.State) (x : ℕ) :
    (Seq.edgeFold δ u es st).dist x ≤ st.dist x :=
  Seq.edgeFold_dist_le δ u es st x

/-- The complete specification of one edge-list fold. -/
theorem Seq.edgeFold_spec (g : Graph) (δ : ℚ) (s : ℕ) (hwf : g.WF)
    (hnn : g.NonNeg) (hδ : 0 < δ) (u : ℕ) (es : List (ℕ × ℚ))
    (hes : ∀ vw ∈ es, vw ∈ g.adj u) (st : Seq.State)
    (hsi : Seq.SInv g δ s st) (qb wmin : ℚ) (h0wmin : 0 ≤ wmin)
    (hwmin : ∀ vw ∈ es, wmin ≤ vw.2)
    (hqb : ((qb : ℚ) : Dist) ≤ st.dist u) :
    Seq.SInv g δ s (Seq.edgeFold δ u es st) ∧
    (Seq.edgeFold δ u es st).dist u = st.dist u ∧
    (∀ x, ((qb : ℚ) : Dist) ≤ st.dist x →
      ((qb : ℚ) : Dist) ≤ (Seq.edgeFold δ u es st).dist x) ∧
    (∀ j : ℕ, ((j : ℚ) + 1) * δ ≤ qb + wmin → st.buckets.getD j [] = [] →
      (Seq.edgeFold δ u es st).buckets.getD j [] = []) ∧
    (∀ x, (Seq.edgeFold δ u es st).dist x = st.dist x →
      Seq.inHome δ st x → Seq.inHome δ (Seq.edgeFold δ u es st) x) ∧
    (∀ x, (Seq.edgeFold δ u es st).dist x ≠ st.dist x →
      Seq.inHome δ (Seq.edgeFold δ u es st) x) ∧
    (∀ vw ∈ es, (Seq.edgeFold δ u es st).dist vw.1 ≤
      (Seq.edgeFold δ u es st).dist u + (vw.2 : Dist)) ∧
    ((∀ x, (Seq.edgeFold δ u es st).dist x = st.dist x) →
      Seq.edgeFold δ u es st = st) := by
  induction es generalizing st with
  | nil =>
    refine ⟨hsi, rfl, fun x h => h, fun j _ h => h, fun x _ h => h,
      fun x h => absurd rfl h, fun vw h => absurd h (by simp), fun _ => rfl⟩
  | cons vw es ih =>
    have hmem : vw ∈ g.adj u := hes vw (List.mem_cons_self vw es)
    have h0w : 0 ≤ vw.2 :=
      le_trans h0wmin (hwmin vw (List.mem_cons_self vw es))
    have hFc : Seq.edgeFold δ u (vw :: es) st =
        Seq.edgeFold δ u es (Seq.relax δ st u vw.1 vw.2) := rfl
    have hsi1 : Seq.SInv g δ s (Seq.relax δ st u vw.1 vw.2) :=
      Seq.relax_sinv g δ s hwf hnn hδ st u vw.1 vw.2 hmem hsi
    have hsrc1 : (Seq.relax δ st u vw.1 vw.2).dist u = st.dist u :=
      Seq.relax_dist_src δ st u vw.1 vw.2 h0w
    have hqb1 : ((qb : ℚ) : Dist) ≤ (Seq.relax δ st u vw.1 vw.2).dist u := by
      rw [hsrc1]; exact hqb
    obtain ⟨ih1, ih2, ih3, ih4, ih5, ih6, ih7, ih8⟩ :=
      ih (fun vw2 h => hes vw2 (List.mem_cons_of_mem vw h))
        (Seq.relax δ st u vw.1 vw.2) hsi1
        (fun vw2 h => hwmin vw2 (List.mem_cons_of_mem vw h)) hqb1
    have hdist_le1 : ∀ x, (Seq.relax δ st u vw.1 vw.2).dist x ≤ st.dist x :=
      Seq.relax_dist_le δ st u vw.1 vw.2
    have hdist_leF : ∀ x, (Seq.edgeFold δ u (vw :: es) st).dist x ≤
        (Seq.relax δ st u vw.1 vw.2).dist x := by
      intro x
      rw [hFc]
      exact Seq.edgeFold_dist_le' δ u es _ x
    refine ⟨by rw [hFc]; exact ih1, ?_, ?_, ?_, ?_, ?_, ?_, ?_⟩
    · rw [hFc, ih2, hsrc1]
    · intro x hx
      rw [hFc]
      apply ih3
      apply Seq.relax_lb δ st u vw.1 vw.2 qb _ x hx
      calc ((qb : ℚ) : Dist) ≤ st.dist u := hqb
        _ ≤ st.dist u + (vw.2 : Dist) :=
          le_add_of_nonneg_right (by exact_mod_cast h0w)
    · intro j hcut hemp
      rw [hFc]
      apply ih4 j hcut
      apply Seq.relax_keep_empty g δ s hδ st u vw.1 vw.2 hsi j (qb + wmin)
        _ hcut hemp
      rw [WithTop.coe_add]
      apply add_le_add hqb
      exact_mod_cast hwmin vw (List.mem_cons_self vw es)
    · intro x hdx hh
      rw [hFc] at hdx ⊢
      have h1x : (Seq.relax δ st u vw.1 vw.2).dist x = st.dist x :=
        le_antisymm (hdist_le1 x) (by rw [← hdx]; exact hdist_leF x)
      apply ih5 x (by rw [hdx, h1x])
      exact Seq.relax_home_keep g δ s hδ hnn st u vw.1 vw.2 h0w hsi x h1x hh
    · intro x hdx
      rw [hFc] at hdx ⊢
      by_cases h1x : (Seq.edgeFold δ u es (Seq.relax δ st u vw.1 vw.2)).dist x =
          (Seq.relax δ st u vw.1 vw.2).dist x
      · have hne1 : (Seq.relax δ st u vw.1 vw.2).dist x ≠ st.dist x := by
          rw [← h1x]; exact hdx
        apply ih5 x h1x
        exact Seq.relax_home_new g δ s hδ hnn st u vw.1 vw.2 h0w hsi x hne1
      · exact ih6 x h1x
    · intro vw2 hvw2
      rcases List.mem_cons.mp hvw2 with rfl | hvw2'
      · have hpost := Seq.relax_post δ st u vw2.1 vw2.2 h0w
        calc (Seq.edgeFold δ u (vw2 :: es) st).dist vw2.1
            ≤ (Seq.relax δ st u vw2.1 vw2.2).dist vw2.1 := hdist_leF vw2.1
          _ ≤ (Seq.relax δ st u vw2.1 vw2.2).dist u + (vw2.2 : Dist) := hpost
          _ = (Seq.edgeFold δ u (vw2 :: es) st).dist u + (vw2.2 : Dist) := by
              rw [hFc, ih2]
      · rw [hFc]
        exact ih7 vw2 hvw2'
    · intro hall
      have h1all : ∀ x, (Seq.relax δ st u vw.1 vw.2).dist x = st.dist x := by
        intro x
        exact le_antisymm (hdist_le1 x) (by rw [← hall x]; exact hdist_leF x)
      have heq1 : Seq.relax δ st u vw.1 vw.2 = st :=
        Seq.relax_eq_of_dist_eq δ st u vw.1 vw.2 h1all
      have hmain : Seq.edgeFold δ u es (Seq.relax δ st u vw.1 vw.2) =
          Seq.relax δ st u vw.1 vw.2 := by
        apply ih8
        intro x
        rw [h1all x, ← hFc]
        exact hall x
      rw [hFc, hmain, heq1]

/-- A vertex is accounted for: live in its home bucket, or light-relaxed
and pending heavy relaxation (in `S`) or fully relaxed. -/
def Seq.Good (g : Graph) (δ : ℚ) (st : Seq.State) (S : List ℕ) (v : ℕ) : Prop :=
  Seq.inHome δ st v ∨
    (Lrel g δ st.dist v ∧ (v ∈ S ∨ Hrel g δ st.dist v))

theorem lightAdj_sub (g : Graph) (δ : ℚ) (u : ℕ) :
    ∀ vw ∈ lightAdj g δ u, vw ∈ g.adj u := by
  intro vw h
  exact (List.mem_filter.mp h).1

theorem heavyAdj_sub (g : Graph) (δ : ℚ) (u : ℕ) :
    ∀ vw ∈ heavyAdj g δ u, vw ∈ g.adj u := by
  intro vw h
  exact (List.mem_filter.mp h).1

theorem heavyAdj_wmin (g : Graph) (δ : ℚ) (u : ℕ) :
    ∀ vw ∈ heavyAdj g δ u, δ ≤ vw.2 := by
  intro vw h
  have := (List.mem_filter.mp h).2
  simp only [decide_eq_true_eq] at this
  exact not_lt.mp this

/-- The complete specification of the snapshot-processing fold of one
inner pass (light phase). -/
theorem Seq.nodeFold_spec (g : Graph) (δ : ℚ) (s : ℕ) (hwf : g.WF)
    (hnn : g.NonNeg) (hδ : 0 < δ) (i : ℕ) (rest : List ℕ)
    (st : Seq.State) (S : List ℕ) (hsi : Seq.SInv g δ s st)
    (hb1 : ∀ j < i, st.buckets.getD j [] = [])
    (hgood : ∀ v, st.dist v ≠ ⊤ → Seq.Good g δ st S v ∨ v ∈ rest)
    (hslb : ∀ v ∈ S, (((i : ℚ) * δ : ℚ) : Dist) ≤ st.dist v)
    (hrlb : ∀ v ∈ rest, (((i : ℚ) * δ : ℚ) : Dist) ≤ st.dist v) :
    Seq.SInv g δ s (rest.foldl (Seq.processNode δ (lightAdj g δ)) (st, S)).1 ∧
    (∀ j < i, (rest.foldl (Seq.processNode δ (lightAdj g δ)) (st, S)).1.buckets.getD j [] = []) ∧
    (∀ v, (rest.foldl (Seq.processNode δ (lightAdj g δ)) (st, S)).1.dist v ≠ ⊤ →
      Seq.Good g δ (rest.foldl (Seq.processNode δ (lightAdj g δ)) (st, S)).1
        (rest.foldl (Seq.processNode δ (lightAdj g δ)) (st, S)).2 v) ∧
    (∀ v ∈ (rest.foldl (Seq.processNode δ (lightAdj g δ)) (st, S)).2,
      (((i : ℚ) * δ : ℚ) : Dist) ≤
        (rest.foldl (Seq.processNode δ (lightAdj g δ)) (st, S)).1.dist v) ∧
    ((∀ x, (rest.foldl (Seq.processNode δ (lightAdj g δ)) (st, S)).1.dist x = st.dist x) →
      (rest.foldl (Seq.processNode δ (lightAdj g δ)) (st, S)).1 = st) := by
  induction rest generalizing st S with
  | nil =>
    refine ⟨hsi, hb1, ?_, hslb, fun _ => rfl⟩
    intro v hv
    rcases hgood v hv with h | h
    · exact h
    · simp at h
  | cons u rest ih =>
    have hfold : (u :: rest).foldl (Seq.processNode δ (lightAdj g δ)) (st, S) =
        rest.foldl (Seq.processNode δ (lightAdj g δ))
          (Seq.edgeFold δ u (lightAdj g δ u) st, setInsert S u) := rfl
    have hqb : (((i : ℚ) * δ : ℚ) : Dist) ≤ st.dist u :=
      hrlb u (List.mem_cons_self u rest)
    obtain ⟨e1, e2, e3, e4, e5, e6, e7, e8⟩ :=
      Seq.edgeFold_spec g δ s hwf hnn hδ u (lightAdj g δ u)
        (lightAdj_sub g δ u) st hsi ((i : ℚ) * δ) 0 (le_refl 0)
        (fun vw hvw => adj_weight_nonneg g hnn u vw (lightAdj_sub g δ u vw hvw))
        hqb
    rw [hfold]
    have hb1_2 : ∀ j < i,
        (Seq.edgeFold δ u (lightAdj g δ u) st).buckets.getD j [] = [] := by
      intro j hj
      apply e4 j _ (hb1 j hj)
      rw [add_zero]
      have hji : ((j : ℚ) + 1) ≤ (i : ℚ) := by exact_mod_cast hj
      exact mul_le_mul_of_nonneg_right hji (le_of_lt hδ)
    have hEle : ∀ x, (Seq.edgeFold δ u (lightAdj g δ u) st).dist x ≤ st.dist x :=
      Seq.edgeFold_dist_le' δ u (lightAdj g δ u) st
    have hgood2 : ∀ v, (Seq.edgeFold δ u (lightAdj g δ u) st).dist v ≠ ⊤ →
        Seq.Good g δ (Seq.edgeFold δ u (lightAdj g δ u) st) (setInsert S u) v ∨
          v ∈ rest := by
      intro v hv
      by_cases hch : (Seq.edgeFold δ u (lightAdj g δ u) st).dist v = st.dist v
      · have hvfin : st.dist v ≠ ⊤ := by rw [← hch]; exact hv
        rcases hgood v hvfin with hg | hmemrest
        · rcases hg with hh | ⟨hL, hSH⟩
          · exact Or.inl (Or.inl (e5 v hch hh))
          · refine Or.inl (Or.inr
              ⟨lrel_mono g δ st.dist _ v hEle hch hL, ?_⟩)
            rcases hSH with hS | hH
            · exact Or.inl ((mem_setInsert S u v).mpr (Or.inr hS))
            · exact Or.inr (hrel_mono g δ st.dist _ v hEle hch hH)
        · rcases List.mem_cons.mp hmemrest with rfl | hr
          · exact Or.inl (Or.inr ⟨e7, Or.inl ((mem_setInsert S v v).mpr (Or.inl rfl))⟩)
          · exact Or.inr hr
      · exact Or.inl (Or.inl (e6 v hch))
    have hslb2 : ∀ v ∈ setInsert S u, (((i : ℚ) * δ : ℚ) : Dist) ≤
        (Seq.edgeFold δ u (lightAdj g δ u) st).dist v := by
      intro v hv
      rcases (mem_setInsert S u v).mp hv with rfl | hS
      · rw [e2]; exact hqb
      · exact e3 v (hslb v hS)
    have hrlb2 : ∀ v ∈ rest, (((i : ℚ) * δ : ℚ) : Dist) ≤
        (Seq.edgeFold δ u (lightAdj g δ u) st).dist v := by
      intro v hv
      exact e3 v (hrlb v (List.mem_cons_of_mem u hv))
    obtain ⟨i1, i2, i3, i4, i5⟩ := ih (Seq.edgeFold δ u (lightAdj g δ u) st)
      (setInsert S u) e1 hb1_2 hgood2 hslb2 hrlb2
    refine ⟨i1, i2, i3, i4, ?_⟩
    intro hall
    have h2le : ∀ x, (rest.foldl (Seq.processNode δ (lightAdj g δ))
        (Seq.edgeFold δ u (lightAdj g δ u) st, setInsert S u)).1.dist x ≤
        (Seq.edgeFold δ u (lightAdj g δ u) st).dist x := by
      intro x
      exact Seq.nodeFold_dist_le δ (lightAdj g δ) rest _ x
    have h2eq : ∀ x, (Seq.edgeFold δ u (lightAdj g δ u) st).dist x = st.dist x := by
      intro x
      exact le_antisymm (hEle x) (by rw [← hall x]; exact h2le x)
    have hE : Seq.edgeFold δ u (lightAdj g δ u) st = st := e8 h2eq
    have hF : (rest.foldl (Seq.processNode δ (lightAdj g δ))
        (Seq.edgeFold δ u (lightAdj g δ u) st, setInsert S u)).1 =
        Seq.edgeFold δ u (lightAdj g δ u) st := by
      apply i5
      intro x
      rw [hall x, h2eq x]
    rw [hF, hE]

theorem getD_set_nil (l : List (List ℕ)) (i : ℕ) :
    (l.set i ([] : List ℕ)).getD i [] = [] := by
  rcases Nat.lt_or_ge i l.length with h | h
  · exact getD_set_self_of_lt l i [] [] h
  · rw [List.set_eq_of_length_le h, List.getD_eq_getElem?_getD,
      List.getElem?_eq_none h]
    rfl

theorem Seq.innerPass_eq (δ : ℚ) (light : ℕ → List (ℕ × ℚ)) (i : ℕ)
    (st : Seq.State) (S : List ℕ) :
    Seq.innerPass δ light i st S =
      (st.buckets.getD i []).foldl (Seq.processNode δ light)
        ({ st with buckets := st.buckets.set i [] }, S) := rfl

/-- One full inner pass: clears bucket `i`, processes its snapshot; all
invariants are preserved, and a pass that writes nothing leaves bucket `i`
empty. -/
theorem Seq.innerPass_spec (g : Graph) (δ : ℚ) (s : ℕ) (hwf : g.WF)
    (hnn : g.NonNeg) (hδ : 0 < δ) (i : ℕ) (st : Seq.State) (S : List ℕ)
    (hsi : Seq.SInv g δ s st)
    (hb1 : ∀ j < i, st.buckets.getD j [] = [])
    (hgood : ∀ v, st.dist v ≠ ⊤ → Seq.Good g δ st S v)
    (hslb : ∀ v ∈ S, (((i : ℚ) * δ : ℚ) : Dist) ≤ st.dist v) :
    Seq.SInv g δ s (Seq.innerPass δ (lightAdj g δ) i st S).1 ∧
    (∀ j < i, (Seq.innerPass δ (lightAdj g δ) i st S).1.buckets.getD j [] = []) ∧
    (∀ v, (Seq.innerPass δ (lightAdj g δ) i st S).1.dist v ≠ ⊤ →
      Seq.Good g δ (Seq.innerPass δ (lightAdj g δ) i st S).1
        (Seq.innerPass δ (lightAdj g δ) i st S).2 v) ∧
    (∀ v ∈ (Seq.innerPass δ (lightAdj g δ) i st S).2,
      (((i : ℚ) * δ : ℚ) : Dist) ≤ (Seq.innerPass δ (lightAdj g δ) i st S).1.dist v) ∧
    ((∀ x, (Seq.innerPass δ (lightAdj g δ) i st S).1.dist x = st.dist x) →
      (Seq.innerPass δ (lightAdj g δ) i st S).1.buckets.getD i [] = []) := by
  set st1 : Seq.State := { st with buckets := st.buckets.set i [] } with hst1
  have hdist1 : st1.dist = st.dist := rfl
  have hsi1 : Seq.SInv g δ s st1 := by
    refine ⟨hsi.di, ?_, ?_, ?_⟩
    · intro j v hv
      rcases eq_or_ne i j with rfl | hne
      · rw [show st1.buckets = st.buckets.set i [] from rfl, getD_set_nil] at hv
        simp at hv
      · rw [show st1.buckets = st.buckets.set i [] from rfl,
          getD_set_of_ne _ _ _ _ _ hne] at hv
        exact hsi.acc j v hv
    · intro j
      rcases eq_or_ne i j with rfl | hne
      · rw [show st1.buckets = st.buckets.set i [] from rfl, getD_set_nil]
        exact List.nodup_nil
      · rw [show st1.buckets = st.buckets.set i [] from rfl,
          getD_set_of_ne _ _ _ _ _ hne]
        exact hsi.nodup j
    · rw [show st1.buckets = st.buckets.set i [] from rfl, List.length_set]
      exact hsi.blen
  have hb1_1 : ∀ j < i, st1.buckets.getD j [] = [] := by
    intro j hj
    rw [show st1.buckets = st.buckets.set i [] from rfl,
      getD_set_of_ne _ _ _ _ _ (by omega)]
    exact hb1 j hj
  have hgood1 : ∀ v, st1.dist v ≠ ⊤ →
      Seq.Good g δ st1 S v ∨ v ∈ st.buckets.getD i [] := by
    intro v hv
    rcases hgood v hv with hh | hrest
    · unfold Seq.inHome at hh
      rcases eq_or_ne (Seq.getBucket δ (st.dist v)).toNat i with heq | hne
      · rw [heq] at hh
        exact Or.inr hh
      · refine Or.inl (Or.inl ?_)
        unfold Seq.inHome
        rw [hdist1, show st1.buckets = st.buckets.set i [] from rfl,
          getD_set_of_ne _ _ _ _ _ (Ne.symm hne)]
        exact hh
    · exact Or.inl (Or.inr hrest)
  have hrlb1 : ∀ v ∈ st.buckets.getD i [], (((i : ℚ) * δ : ℚ) : Dist) ≤ st1.dist v := by
    intro v hv
    obtain ⟨hfin, hgb⟩ := hsi.acc i v hv
    obtain ⟨q, hq⟩ := WithTop.ne_top_iff_exists.mp hfin
    have hle : ((i : ℤ) : ℚ) * δ ≤ q := by
      apply Seq.getBucket_le_val δ hδ q i
      rw [hq, hgb]
    have h2 : (i : ℚ) * δ ≤ q := by exact_mod_cast hle
    have h3 : (((i : ℚ) * δ : ℚ) : Dist) ≤ ((q : ℚ) : Dist) := by
      exact_mod_cast h2
    rw [show st1.dist v = st.dist v from rfl, ← hq]
    exact h3
  obtain ⟨n1, n2, n3, n4, n5⟩ := Seq.nodeFold_spec g δ s hwf hnn hδ i
    (st.buckets.getD i []) st1 S hsi1 hb1_1 hgood1
    (by intro v hv; rw [hdist1]; exact hslb v hv) hrlb1
  rw [Seq.innerPass_eq]
  refine ⟨n1, n2, n3, n4, ?_⟩
  intro hall
  have heq : ((st.buckets.getD i []).foldl (Seq.processNode δ (lightAdj g δ))
      (st1, S)).1 = st1 := by
    apply n5
    intro x
    rw [hdist1]
    exact hall x
  rw [heq, show st1.buckets = st.buckets.set i [] from rfl, getD_set_nil]

/-- Fuel-uniform specification of the inner `while` loop, including
termination. -/
theorem Seq.innerLoop_spec (g : Graph) (δ : ℚ) (s : ℕ) (hwf : g.WF)
    (hnn : g.NonNeg) (hδ : 0 < δ) (i : ℕ) (m : ℕ) :
    ∀ st S, muDist g st.dist ≤ m → Seq.SInv g δ s st →
    (∀ j < i, st.buckets.getD j [] = []) →
    (∀ v, st.dist v ≠ ⊤ → Seq.Good g δ st S v) →
    (∀ v ∈ S, (((i : ℚ) * δ : ℚ) : Dist) ≤ st.dist v) →
    ∃ F st' S', (∀ f, F ≤ f →
        Seq.innerLoop δ (lightAdj g δ) i f (st, S) = some (st', S')) ∧
      Seq.SInv g δ s st' ∧
      (∀ j < i, st'.buckets.getD j [] = []) ∧
      (∀ v, st'.dist v ≠ ⊤ → Seq.Good g δ st' S' v) ∧
      (∀ v ∈ S', (((i : ℚ) * δ : ℚ) : Dist) ≤ st'.dist v) ∧
      (∀ x, st'.dist x ≤ st.dist x) ∧
      st'.buckets.getD i [] = [] := by
  induction m with
  | zero =>
    intro st S hm hsi hb1 hgood hslb
    by_cases hemp : (st.buckets.getD i []).isEmpty
    · refine ⟨1, st, S, ?_, hsi, hb1, hgood, hslb, fun x => le_refl _,
        List.isEmpty_iff.mp hemp⟩
      intro f hf
      match f, hf with
      | f + 1, _ =>
        rw [Seq.innerLoop, if_pos hemp]
    · obtain ⟨p1, p2, p3, p4, p5⟩ := Seq.innerPass_spec g δ s hwf hnn hδ i st S
        hsi hb1 hgood hslb
      have hle : ∀ x, (Seq.innerPass δ (lightAdj g δ) i st S).1.dist x ≤ st.dist x := by
        intro x
        rw [Seq.innerPass_eq]
        exact Seq.nodeFold_dist_le δ (lightAdj g δ) _ _ x
      have hall : ∀ x, (Seq.innerPass δ (lightAdj g δ) i st S).1.dist x = st.dist x := by
        intro x
        by_contra hne
        have hstrict : (Seq.innerPass δ (lightAdj g δ) i st S).1.dist x < st.dist x :=
          lt_of_le_of_ne (hle x) hne
        have hxfin : (Seq.innerPass δ (lightAdj g δ) i st S).1.dist x ≠ ⊤ := by
          intro htop
          rw [htop] at hstrict
          exact absurd hstrict (by simp)
        have hxlt : x < g.n := p1.di.2.2.1 x hxfin
        have := muDist_lt g st.dist (Seq.innerPass δ (lightAdj g δ) i st S).1.dist
          (distInv_rankOK g s st.dist hnn hsi.di)
          (distInv_rankOK g s _ hnn p1.di) hle x hxlt hstrict
        omega
      have hempty2 := p5 hall
      refine ⟨2, (Seq.innerPass δ (lightAdj g δ) i st S).1,
        (Seq.innerPass δ (lightAdj g δ) i st S).2, ?_, p1, p2, p3, p4, hle, hempty2⟩
      intro f hf
      match f, hf with
      | f + 2, _ =>
        rw [Seq.innerLoop, if_neg hemp]
        rw [Seq.innerLoop]
        rw [if_pos (List.isEmpty_iff.mpr hempty2)]
  | succ m ihm =>
    intro st S hm hsi hb1 hgood hslb
    by_cases hemp : (st.buckets.getD i []).isEmpty
    · refine ⟨1, st, S, ?_, hsi, hb1, hgood, hslb, fun x => le_refl _,
        List.isEmpty_iff.mp hemp⟩
      intro f hf
      match f, hf with
      | f + 1, _ =>
        rw [Seq.innerLoop, if_pos hemp]
    · obtain ⟨p1, p2, p3, p4, p5⟩ := Seq.innerPass_spec g δ s hwf hnn hδ i st S
        hsi hb1 hgood hslb
      have hle : ∀ x, (Seq.innerPass δ (lightAdj g δ) i st S).1.dist x ≤ st.dist x := by
        intro x
        rw [Seq.innerPass_eq]
        exact Seq.nodeFold_dist_le δ (lightAdj g δ) _ _ x
      by_cases hch : ∀ x, (Seq.innerPass δ (lightAdj g δ) i st S).1.dist x = st.dist x
      · have hempty2 := p5 hch
        refine ⟨2, (Seq.innerPass δ (lightAdj g δ) i st S).1,
          (Seq.innerPass δ (lightAdj g δ) i st S).2, ?_, p1, p2, p3, p4, hle, hempty2⟩
        intro f hf
        match f, hf with
        | f + 2, _ =>
          rw [Seq.innerLoop, if_neg hemp]
          rw [Seq.innerLoop]
          rw [if_pos (List.isEmpty_iff.mpr hempty2)]
      · push_neg at hch
        obtain ⟨x, hx⟩ := hch
        have hstrict : (Seq.innerPass δ (lightAdj g δ) i st S).1.dist x < st.dist x :=
          lt_of_le_of_ne (hle x) hx
        have hxfin : (Seq.innerPass δ (lightAdj g δ) i st S).1.dist x ≠ ⊤ := by
          intro htop
          rw [htop] at hstrict
          exact absurd hstrict (by simp)
        have hxlt : x < g.n := p1.di.2.2.1 x hxfin
        have hmu := muDist_lt g st.dist (Seq.innerPass δ (lightAdj g δ) i st S).1.dist
          (distInv_rankOK g s st.dist hnn hsi.di)
          (distInv_rankOK g s _ hnn p1.di) hle x hxlt hstrict
        obtain ⟨F2, st', S', hF2, c1, c2, c3, c4, c5, c6⟩ :=
          ihm (Seq.innerPass δ (lightAdj g δ) i st S).1
            (Seq.innerPass δ (lightAdj g δ) i st S).2 (by omega) p1 p2 p3 p4
        refine ⟨F2 + 1, st', S', ?_, c1, c2, c3, c4,
          fun x2 => le_trans (c5 x2) (hle x2), c6⟩
        intro f hf
        match f, hf with
        | f + 1, hf =>
          rw [Seq.innerLoop, if_neg hemp]
          have : (Seq.innerPass δ (lightAdj g δ) i st S) =
              ((Seq.innerPass δ (lightAdj g δ) i st S).1,
               (Seq.innerPass δ (lightAdj g δ) i st S).2) := rfl
          rw [this]
          exact hF2 f (by omega)

theorem Seq.heavyPhase_cons (δ : ℚ) (heavy : ℕ → List (ℕ × ℚ))
    (st : Seq.State) (u : ℕ) (Srest : List ℕ) :
    Seq.heavyPhase δ heavy st (u :: Srest) =
      Seq.heavyPhase δ heavy (Seq.edgeFold δ u (heavy u) st) Srest := rfl

/-- The heavy-edge phase: processes all pending vertices, after which
every finite vertex is either live in its home bucket or fully relaxed;
buckets up to `i` stay empty. -/
theorem Seq.heavyFold_spec (g : Graph) (δ : ℚ) (s : ℕ) (hwf : g.WF)
    (hnn : g.NonNeg) (hδ : 0 < δ) (i : ℕ) (Srest : List ℕ) :
    ∀ st : Seq.State, Seq.SInv g δ s st →
    (∀ j < i + 1, st.buckets.getD j [] = []) →
    (∀ v, st.dist v ≠ ⊤ → Seq.Good g δ st Srest v) →
    (∀ v ∈ Srest, (((i : ℚ) * δ : ℚ) : Dist) ≤ st.dist v) →
    Seq.SInv g δ s (Seq.heavyPhase δ (heavyAdj g δ) st Srest) ∧
    (∀ j < i + 1,
      (Seq.heavyPhase δ (heavyAdj g δ) st Srest).buckets.getD j [] = []) ∧
    (∀ v, (Seq.heavyPhase δ (heavyAdj g δ) st Srest).dist v ≠ ⊤ →
      Seq.inHome δ (Seq.heavyPhase δ (heavyAdj g δ) st Srest) v ∨
      (Lrel g δ (Seq.heavyPhase δ (heavyAdj g δ) st Srest).dist v ∧
       Hrel g δ (Seq.heavyPhase δ (heavyAdj g δ) st Srest).dist v)) ∧
    (∀ x, (Seq.heavyPhase δ (heavyAdj g δ) st Srest).dist x ≤ st.dist x) := by
  induction Srest with
  | nil =>
    intro st hsi hb1 hgood hslb
    refine ⟨hsi, hb1, ?_, fun x => le_refl _⟩
    intro v hv
    rcases hgood v hv with hh | ⟨hL, hSH⟩
    · exact Or.inl hh
    · rcases hSH with hS | hH
      · simp at hS
      · exact Or.inr ⟨hL, hH⟩
  | cons u Srest ih =>
    intro st hsi hb1 hgood hslb
    have hqb : (((i : ℚ) * δ : ℚ) : Dist) ≤ st.dist u :=
      hslb u (List.mem_cons_self u Srest)
    obtain ⟨e1, e2, e3, e4, e5, e6, e7, e8⟩ :=
      Seq.edgeFold_spec g δ s hwf hnn hδ u (heavyAdj g δ u)
        (heavyAdj_sub g δ u) st hsi ((i : ℚ) * δ) δ (le_of_lt hδ)
        (heavyAdj_wmin g δ u) hqb
    have hEle : ∀ x, (Seq.edgeFold δ u (heavyAdj g δ u) st).dist x ≤ st.dist x :=
      Seq.edgeFold_dist_le' δ u (heavyAdj g δ u) st
    have hb1_2 : ∀ j < i + 1,
        (Seq.edgeFold δ u (heavyAdj g δ u) st).buckets.getD j [] = [] := by
      intro j hj
      apply e4 j _ (hb1 j hj)
      have hji : ((j : ℚ) + 1) ≤ (i : ℚ) + 1 := by exact_mod_cast hj
      calc ((j : ℚ) + 1) * δ ≤ ((i : ℚ) + 1) * δ :=
          mul_le_mul_of_nonneg_right hji (le_of_lt hδ)
        _ = (i : ℚ) * δ + δ := by ring
    have hgood2 : ∀ v, (Seq.edgeFold δ u (heavyAdj g δ u) st).dist v ≠ ⊤ →
        Seq.Good g δ (Seq.edgeFold δ u (heavyAdj g δ u) st) Srest v := by
      intro v hv
      by_cases hch : (Seq.edgeFold δ u (heavyAdj g δ u) st).dist v = st.dist v
      · have hvfin : st.dist v ≠ ⊤ := by rw [← hch]; exact hv
        rcases hgood v hvfin with hh | ⟨hL, hSH⟩
        · exact Or.inl (e5 v hch hh)
        · refine Or.inr ⟨lrel_mono g δ st.dist _ v hEle hch hL, ?_⟩
          rcases hSH with hS | hH
          · rcases List.mem_cons.mp hS with rfl | hr
            · exact Or.inr e7
            · exact Or.inl hr
          · exact Or.inr (hrel_mono g δ st.dist _ v hEle hch hH)
      · exact Or.inl (e6 v hch)
    have hslb2 : ∀ v ∈ Srest, (((i : ℚ) * δ : ℚ) : Dist) ≤
        (Seq.edgeFold δ u (heavyAdj g δ u) st).dist v := by
      intro v hv
      exact e3 v (hslb v (List.mem_cons_of_mem u hv))
    obtain ⟨i1, i2, i3, i4⟩ := ih (Seq.edgeFold δ u (heavyAdj g δ u) st)
      e1 hb1_2 hgood2 hslb2
    rw [Seq.heavyPhase_cons]
    exact ⟨i1, i2, i3, fun x => le_trans (i4 x) (hEle x)⟩

theorem getD_ne_nil_lt_length (l : List (List ℕ)) (j : ℕ)
    (h : l.getD j [] ≠ []) : j < l.length := by
  by_contra hge
  push_neg at hge
  apply h
  rw [List.getD_eq_getElem?_getD, List.getElem?_eq_none hge]
  rfl

/-- Fuel-uniform specification of the outer `for` loop, including
termination: the final state has no tense edge. -/
theorem Seq.outerLoop_spec (g : Graph) (δ : ℚ) (s : ℕ) (hwf : g.WF)
    (hnn : g.NonNeg) (hδ : 0 < δ) (m : ℕ) :
    ∀ i st, Seq.BL g δ - i ≤ m → Seq.SInv g δ s st →
    (∀ j < i, st.buckets.getD j [] = []) →
    (∀ v, st.dist v ≠ ⊤ → Seq.inHome δ st v ∨
      (Lrel g δ st.dist v ∧ Hrel g δ st.dist v)) →
    ∃ F st', (∀ f, F ≤ f →
        Seq.outerLoop δ (lightAdj g δ) (heavyAdj g δ) f i st = some st') ∧
      Seq.SInv g δ s st' ∧
      (∀ v, st'.dist v ≠ ⊤ → Lrel g δ st'.dist v ∧ Hrel g δ st'.dist v) := by
  induction m with
  | zero =>
    intro i st hm hsi hb1 hgood
    have hexit : ¬ i < st.buckets.length := by
      intro hcont
      have := hsi.blen
      omega
    refine ⟨1, st, ?_, hsi, ?_⟩
    · intro f hf
      match f, hf with
      | f + 1, _ =>
        rw [Seq.outerLoop, if_neg hexit]
    · intro v hv
      rcases hgood v hv with hh | hd
      · exfalso
        unfold Seq.inHome at hh
        have hne : st.buckets.getD (Seq.getBucket δ (st.dist v)).toNat [] ≠ [] := by
          intro hnil
          rw [hnil] at hh
          simp at hh
        have hlt := getD_ne_nil_lt_length _ _ hne
        have := hb1 (Seq.getBucket δ (st.dist v)).toNat (by omega)
        rw [this] at hh
        simp at hh
      · exact hd
  | succ m ihm =>
    intro i st hm hsi hb1 hgood
    by_cases hcont : i < st.buckets.length
    · obtain ⟨F1, st2, S2, hF1, j1, j2, j3, j4, j5, j6⟩ :=
        Seq.innerLoop_spec g δ s hwf hnn hδ i (muDist g st.dist) st []
          (le_refl _) hsi hb1
          (by
            intro v hv
            rcases hgood v hv with hh | hd
            · exact Or.inl hh
            · exact Or.inr ⟨hd.1, Or.inr hd.2⟩)
          (by intro v hv; simp at hv)
      obtain ⟨k1, k2, k3, k4⟩ := Seq.heavyFold_spec g δ s hwf hnn hδ i S2 st2
        j1 (by
          intro j hj
          rcases Nat.lt_or_ge j i with hji | hji
          · exact j2 j hji
          · have : j = i := by omega
            rw [this]
            exact j6)
        j3 j4
      obtain ⟨F2, st', hF2, c1, c2⟩ := ihm (i + 1)
        (Seq.heavyPhase δ (heavyAdj g δ) st2 S2) (by
          have := hsi.blen
          omega) k1 k2 k3
      refine ⟨max F1 F2 + 1, st', ?_, c1, c2⟩
      intro f hf
      match f, hf with
      | f + 1, hf =>
        rw [Seq.outerLoop, if_pos hcont, hF1 (f + 1) (by omega)]
        exact hF2 f (by omega)
    · refine ⟨1, st, ?_, hsi, ?_⟩
      · intro f hf
        match f, hf with
        | f + 1, _ =>
          rw [Seq.outerLoop, if_neg hcont]
      · intro v hv
        rcases hgood v hv with hh | hd
        · exfalso
          unfold Seq.inHome at hh
          have hne : st.buckets.getD (Seq.getBucket δ (st.dist v)).toNat [] ≠ [] := by
            intro hnil
            rw [hnil] at hh
            simp at hh
          have hlt := getD_ne_nil_lt_length _ _ hne
          have := hb1 (Seq.getBucket δ (st.dist v)).toNat (by omega)
          rw [this] at hh
          simp at hh
        · exact hd

/-- The initial state of the sequential solver satisfies the invariant. -/
theorem Seq.init_sinv (g : Graph) (δ : ℚ) (source : ℕ) (hnn : g.NonNeg)
    (hδ : 0 < δ) (hs : source < g.n) :
    Seq.SInv g δ source
      { dist := Function.update (fun _ => (⊤ : Dist)) source ((0 : ℚ) : Dist)
        buckets := [[source]] } := by
  have hd0 : ∀ x, (Function.update (fun _ => (⊤ : Dist)) source ((0 : ℚ) : Dist)) x =
      if x = source then ((0 : ℚ) : Dist) else ⊤ := by
    intro x
    rcases eq_or_ne x source with rfl | hne
    · rw [Function.update_same, if_pos rfl]
    · rw [Function.update_noteq hne, if_neg hne]
  refine ⟨⟨?_, ?_, ?_, ?_⟩, ?_, ?_, ?_⟩ <;> dsimp only
  · intro v q hq
    rw [hd0 v] at hq
    split at hq
    · rename_i hv
      have hq0 : (0 : ℚ) = q := by exact_mod_cast hq
      rw [hv, ← hq0]
      exact Reaches.nil
    · exact absurd hq (by simp)
  · rw [Function.update_same]
  · intro v hv
    rw [hd0 v] at hv
    split at hv
    · rename_i h; rw [h]; exact hs
    · exact absurd rfl hv
  · intro v q hq
    rw [hd0 v] at hq
    split at hq
    · have hq0 : (0 : ℚ) = q := by exact_mod_cast hq
      rw [← hq0]
      exact mul_nonneg (max_weight_nonneg g) (by positivity)
    · exact absurd hq (by simp)
  · intro j v hv
    match j with
    | 0 =>
      have hv' : v = source := by
        simpa using hv
      rw [hv', Function.update_same]
      refine ⟨WithTop.coe_ne_top, ?_⟩
      rw [Seq.getBucket_coe, zero_div, Int.floor_zero]
      rfl
    | j + 1 =>
      exact absurd hv (by simp)
  · intro j
    match j with
    | 0 => simpa using List.nodup_singleton source
    | j + 1 => simp
  · show 1 ≤ Seq.BL g δ
    rw [Seq.BL]
    omega

/-- Full correctness and termination of `DeltaSteppingSequential::compute`:
with enough fuel it returns the shortest-path distance vector. -/
theorem Seq.compute_correct (g : Graph) (δ : ℚ) (source : ℕ) (hwf : g.WF)
    (hnn : g.NonNeg) (hδ : 0 < δ) (hs : source < g.n) :
    ∃ F dv, (∀ f, F ≤ f → Seq.compute δ g source f = some dv) ∧
      IsDistVector g source dv := by
  have hsi0 := Seq.init_sinv g δ source hnn hδ hs
  obtain ⟨F, st', hF, c1, c2⟩ := Seq.outerLoop_spec g δ source hwf hnn hδ
    (Seq.BL g δ) 0
    { dist := Function.update (fun _ => (⊤ : Dist)) source ((0 : ℚ) : Dist)
      buckets := [[source]] }
    (by omega) hsi0 (by intro j hj; omega)
    (by
      intro v hv
      left
      have hv' : v = source := by
        by_contra hne
        apply hv
        show (Function.update (fun _ => (⊤ : Dist)) source ((0 : ℚ) : Dist)) v = ⊤
        rw [Function.update_noteq hne]
      unfold Seq.inHome
      rw [hv']
      show source ∈ List.getD [[source]]
        (Seq.getBucket δ ((Function.update (fun _ => (⊤ : Dist)) source
          ((0 : ℚ) : Dist)) source)).toNat []
      rw [Function.update_same, Seq.getBucket_coe, zero_div, Int.floor_zero]
      simp)
  refine ⟨F, (List.range g.n).map st'.dist, ?_, ?_⟩
  · intro f hf
    have hunfold : Seq.compute δ g source f =
        match Seq.outerLoop δ (lightAdj g δ) (heavyAdj g δ) f 0
          { dist := Function.update (fun _ => (⊤ : Dist)) source ((0 : ℚ) : Dist)
            buckets := [[source]] } with
        | none => none
        | some st => some ((List.range g.n).map st.dist) := rfl
    rw [hunfold, hF f hf]
  · constructor
    · simp
    · intro v hlen
      have hdvv : ((List.range g.n).map st'.dist)[v] = st'.dist v := by
        simp at hlen ⊢
      have hok := final_state_correct g source st'.dist c1.di.2.1 c1.di.1
        (noTense_of_rel g δ st'.dist c2) v
      rw [hdvv]
      exact hok

/-! ## Dijkstra oracle (src/dijkstra.h)

`std::priority_queue<std::pair<double,int>>` holds `(-dist, v)` pairs and
pops a lexicographically maximal pair; it is embedded as a list with an
explicit maximum extraction (heap order among distinct equal-key pairs is
unspecified in C++ and irrelevant to the returned vector). -/

/-- Lexicographic maximum of two `(key, vertex)` pairs, as
`std::pair`'s `operator<`. -/
def Dij.pairMax (a b : ℚ × ℕ) : ℚ × ℕ :=
  if a.1 < b.1 ∨ (a.1 = b.1 ∧ a.2 < b.2) then b else a

/-- The maximal entry of `x :: l`. -/
def Dij.maxOf (x : ℚ × ℕ) (l : List (ℚ × ℕ)) : ℚ × ℕ :=
  l.foldl Dij.pairMax x

/-- The body of `if (dist[u] + w < dist[v]) { dist[v] = ...; pq.push(...); }`. -/
def Dij.relaxEdge (u : ℕ) (p : (ℕ → Dist) × List (ℚ × ℕ)) (vw : ℕ × ℚ) :
    (ℕ → Dist) × List (ℚ × ℕ) :=
  if p.1 u + (vw.2 : Dist) < p.1 vw.1 then
    (Function.update p.1 vw.1 (p.1 u + (vw.2 : Dist)),
     (-((p.1 u + (vw.2 : Dist)).untop' 0), vw.1) :: p.2)
  else p

/-- The `while (!pq.empty())` loop, fuel-indexed. -/
def Dij.loop (g : Graph) : ℕ → (ℕ → Dist) → (ℕ → Bool) → List (ℚ × ℕ) →
    Option (ℕ → Dist)
  | 0, _, _, _ => none
  | fuel + 1, dist, vis, pq =>
    match pq with
    | [] => some dist
    | x :: rest =>
      if vis (Dij.maxOf x rest).2 then
        Dij.loop g fuel dist vis ((x :: rest).erase (Dij.maxOf x rest))
      else
        Dij.loop g fuel
          ((g.adj (Dij.maxOf x rest).2).foldl
            (Dij.relaxEdge (Dij.maxOf x rest).2)
            (dist, (x :: rest).erase (Dij.maxOf x rest))).1
          (Function.update vis (Dij.maxOf x rest).2 true)
          ((g.adj (Dij.maxOf x rest).2).foldl
            (Dij.relaxEdge (Dij.maxOf x rest).2)
            (dist, (x :: rest).erase (Dij.maxOf x rest))).2

/-- `Dijkstra::compute`, fuel-indexed. -/
def Dij.compute (g : Graph) (source : ℕ) (fuel : ℕ) : Option (List Dist) :=
  match Dij.loop g fuel
      (Function.update (fun _ => (⊤ : Dist)) source ((0 : ℚ) : Dist))
      (fun _ => false) [((0 : ℚ), source)] with
  | none => none
  | some dist => some ((List.range g.n).map dist)

theorem Dij.pairMax_cases (a b : ℚ × ℕ) :
    Dij.pairMax a b = a ∨ Dij.pairMax a b = b := by
  unfold Dij.pairMax
  split
  · exact Or.inr rfl
  · exact Or.inl rfl

theorem Dij.pairMax_key (a b : ℚ × ℕ) :
    a.1 ≤ (Dij.pairMax a b).1 ∧ b.1 ≤ (Dij.pairMax a b).1 := by
  unfold Dij.pairMax
  split
  · rename_i h
    rcases h with h | ⟨h, -⟩
    · exact ⟨le_of_lt h, le_refl _⟩
    · exact ⟨le_of_eq h, le_refl _⟩
  · rename_i h
    push_neg at h
    exact ⟨le_refl _, h.1⟩

theorem Dij.maxOf_mem (x : ℚ × ℕ) (l : List (ℚ × ℕ)) :
    Dij.maxOf x l ∈ x :: l := by
  induction l generalizing x with
  | nil => exact List.mem_singleton.mpr rfl
  | cons y ys ih =>
    have hfold : Dij.maxOf x (y :: ys) = Dij.maxOf (Dij.pairMax x y) ys := rfl
    rw [hfold]
    rcases List.mem_cons.mp (ih (Dij.pairMax x y)) with h3 | h3
    · rw [h3]
      rcases Dij.pairMax_cases x y with he | he <;> rw [he]
      · exact List.mem_cons_self x (y :: ys)
      · exact List.mem_cons_of_mem x (List.mem_cons_self y ys)
    · exact List.mem_cons_of_mem x (List.mem_cons_of_mem y h3)

theorem Dij.maxOf_key (x : ℚ × ℕ) (l : List (ℚ × ℕ)) :
    ∀ e ∈ x :: l, e.1 ≤ (Dij.maxOf x l).1 := by
  induction l generalizing x with
  | nil =>
    intro e he
    rcases List.mem_cons.mp he with rfl | h
    · exact le_refl _
    · simp at h
  | cons y ys ih =>
    intro e he
    have hstep : ∀ e2 ∈ Dij.pairMax x y :: ys, e2.1 ≤ (Dij.maxOf (Dij.pairMax x y) ys).1 :=
      ih (Dij.pairMax x y)
    have hm : (Dij.pairMax x y).1 ≤ (Dij.maxOf (Dij.pairMax x y) ys).1 :=
      hstep (Dij.pairMax x y) (List.mem_cons_self _ _)
    have hxk := (Dij.pairMax_key x y).1
    have hyk := (Dij.pairMax_key x y).2
    rcases List.mem_cons.mp he with rfl | h
    · exact le_trans hxk hm
    · rcases List.mem_cons.mp h with rfl | h2
      · exact le_trans hyk hm
      · exact hstep e (List.mem_cons_of_mem _ h2)

theorem Dij.relaxEdge_of_not_lt (u : ℕ) (p : (ℕ → Dist) × List (ℚ × ℕ))
    (vw : ℕ × ℚ) (h : ¬ p.1 u + (vw.2 : Dist) < p.1 vw.1) :
    Dij.relaxEdge u p vw = p := by
  unfold Dij.relaxEdge
  rw [if_neg h]

theorem Dij.relaxEdge_of_lt (u : ℕ) (p : (ℕ → Dist) × List (ℚ × ℕ))
    (vw : ℕ × ℚ) (h : p.1 u + (vw.2 : Dist) < p.1 vw.1) :
    Dij.relaxEdge u p vw =
      (Function.update p.1 vw.1 (p.1 u + (vw.2 : Dist)),
       (-((p.1 u + (vw.2 : Dist)).untop' 0), vw.1) :: p.2) := by
  unfold Dij.relaxEdge
  rw [if_pos h]

theorem Dij.relaxEdge_dist_le (u : ℕ) (p : (ℕ → Dist) × List (ℚ × ℕ))
    (vw : ℕ × ℚ) (x : ℕ) : (Dij.relaxEdge u p vw).1 x ≤ p.1 x := by
  by_cases h : p.1 u + (vw.2 : Dist) < p.1 vw.1
  · rw [Dij.relaxEdge_of_lt u p vw h]
    rcases eq_or_ne x vw.1 with rfl | hne
    · show Function.update p.1 vw.1 (p.1 u + (vw.2 : Dist)) vw.1 ≤ p.1 vw.1
      rw [Function.update_same]
      exact le_of_lt h
    · show Function.update p.1 vw.1 (p.1 u + (vw.2 : Dist)) x ≤ p.1 x
      rw [Function.update_noteq hne]
  · rw [Dij.relaxEdge_of_not_lt u p vw h]

/-- The complete specification of the edge fold performed when a vertex
is settled. -/
theorem Dij.fold_spec (g : Graph) (s : ℕ) (hwf : g.WF) (hnn : g.NonNeg)
    (u : ℕ) (es : List (ℕ × ℚ)) (hes : ∀ vw ∈ es, vw ∈ g.adj u)
    (vis : ℕ → Bool) :
    ∀ dist pq, DistInv g s dist → dist u ≠ ⊤ →
    (∀ e ∈ pq, dist e.2 ≠ ⊤ ∧ dist e.2 ≤ ((-e.1 : ℚ) : Dist)) →
    (∀ v, dist v ≠ ⊤ → vis v = false → v ≠ u →
      ∃ k, (k, v) ∈ pq ∧ ((-k : ℚ) : Dist) = dist v) →
    (∀ x, vis x = true → dist x ≤ dist u) →
    DistInv g s (es.foldl (Dij.relaxEdge u) (dist, pq)).1 ∧
    (es.foldl (Dij.relaxEdge u) (dist, pq)).1 u = dist u ∧
    (∀ x, (es.foldl (Dij.relaxEdge u) (dist, pq)).1 x ≤ dist x) ∧
    (∀ x, vis x = true → (es.foldl (Dij.relaxEdge u) (dist, pq)).1 x = dist x) ∧
    (∀ e ∈ (es.foldl (Dij.relaxEdge u) (dist, pq)).2,
      (es.foldl (Dij.relaxEdge u) (dist, pq)).1 e.2 ≠ ⊤ ∧
      (es.foldl (Dij.relaxEdge u) (dist, pq)).1 e.2 ≤ ((-e.1 : ℚ) : Dist)) ∧
    (∀ v, (es.foldl (Dij.relaxEdge u) (dist, pq)).1 v ≠ ⊤ → vis v = false → v ≠ u →
      ∃ k, (k, v) ∈ (es.foldl (Dij.relaxEdge u) (dist, pq)).2 ∧
        ((-k : ℚ) : Dist) = (es.foldl (Dij.relaxEdge u) (dist, pq)).1 v) ∧
    (∀ vw ∈ es, (es.foldl (Dij.relaxEdge u) (dist, pq)).1 vw.1 ≤
      (es.foldl (Dij.relaxEdge u) (dist, pq)).1 u + (vw.2 : Dist)) ∧
    (∀ v, dist u ≤ dist v → dist u ≤ (es.foldl (Dij.relaxEdge u) (dist, pq)).1 v) ∧
    ((∀ x, (es.foldl (Dij.relaxEdge u) (dist, pq)).1 x = dist x) →
      es.foldl (Dij.relaxEdge u) (dist, pq) = (dist, pq)) := by
  induction es with
  | nil =>
    intro dist pq hdi hufin hqent hcover hsle
    exact ⟨hdi, rfl, fun x => le_refl _, fun x _ => rfl, hqent,
      fun v hv hvis hne => hcover v hv hvis hne, fun vw h => absurd h (by simp),
      fun v h => h, fun _ => rfl⟩
  | cons vw es ih =>
    intro dist pq hdi hufin hqent hcover hsle
    have hmem : vw ∈ g.adj u := hes vw (List.mem_cons_self vw es)
    have h0w : 0 ≤ vw.2 := adj_weight_nonneg g hnn u vw hmem
    obtain ⟨du, hdu⟩ := WithTop.ne_top_iff_exists.mp hufin
    have h0du : 0 ≤ du := ((hdi.1 u du hdu.symm).nonneg hnn)
    have hfold : (vw :: es).foldl (Dij.relaxEdge u) (dist, pq) =
        es.foldl (Dij.relaxEdge u) (Dij.relaxEdge u (dist, pq) vw) := rfl
    rw [hfold]
    by_cases hlt : dist u + (vw.2 : Dist) < dist vw.1
    · have hltp : (dist, pq).1 u + (vw.2 : Dist) < (dist, pq).1 vw.1 := hlt
      have hstep := Dij.relaxEdge_of_lt u (dist, pq) vw hltp
      have hnd : dist u + (vw.2 : Dist) = ((du + vw.2 : ℚ) : Dist) := by
        rw [← hdu, ← WithTop.coe_add]
      have huntop : (dist u + (vw.2 : Dist)).untop' 0 = du + vw.2 := by
        rw [hnd]
        rfl
      have hv1n : vw.1 < g.n := (adj_target_lt g hwf u vw hmem).1
      have hv1u : vw.1 ≠ u := by
        rintro rfl
        have : dist vw.1 ≤ dist vw.1 + (vw.2 : Dist) :=
          le_add_of_nonneg_right (by exact_mod_cast h0w)
        exact absurd (lt_of_le_of_lt this hlt) (lt_irrefl _)
      have hdi1 : DistInv g s (Function.update dist vw.1 ((du + vw.2 : ℚ) : Dist)) := by
        apply distInv_update g s hnn dist hdi vw.1 hv1n (du + vw.2)
          (by rw [← hnd]; exact hlt)
          ((hdi.1 u du hdu.symm).cons hmem)
        calc du + vw.2 ≤ g.get_max_edge_weight * (finCount g.n dist : ℚ) +
              g.get_max_edge_weight :=
            add_le_add (hdi.2.2.2 u du hdu.symm) (weight_le_max g u vw hmem)
          _ = g.get_max_edge_weight * ((finCount g.n dist : ℚ) + 1) := by ring
      have hud : (Function.update dist vw.1 (dist u + (vw.2 : Dist))) u = dist u :=
        Function.update_noteq (Ne.symm hv1u) _ _
      have hq1 : ∀ e ∈ ((-((dist u + (vw.2 : Dist)).untop' 0), vw.1) :: pq),
          (Function.update dist vw.1 (dist u + (vw.2 : Dist))) e.2 ≠ ⊤ ∧
          (Function.update dist vw.1 (dist u + (vw.2 : Dist))) e.2 ≤ ((-e.1 : ℚ) : Dist) := by
        intro e he
        rcases List.mem_cons.mp he with rfl | he2
        · constructor
          · show Function.update dist vw.1 (dist u + (vw.2 : Dist)) vw.1 ≠ ⊤
            rw [Function.update_same, hnd]
            exact WithTop.coe_ne_top
          · show Function.update dist vw.1 (dist u + (vw.2 : Dist)) vw.1 ≤ _
            rw [Function.update_same, huntop, neg_neg, hnd]
        · obtain ⟨hfin2, hle2⟩ := hqent e he2
          rcases eq_or_ne e.2 vw.1 with heq | hne2
          · rw [heq, Function.update_same, hnd]
            refine ⟨WithTop.coe_ne_top, ?_⟩
            calc ((du + vw.2 : ℚ) : Dist) = dist u + (vw.2 : Dist) := hnd.symm
              _ ≤ dist e.2 := by rw [heq]; exact le_of_lt hlt
              _ ≤ ((-e.1 : ℚ) : Dist) := hle2
          · rw [Function.update_noteq hne2]
            exact ⟨hfin2, hle2⟩
      have hc1 : ∀ v, (Function.update dist vw.1 (dist u + (vw.2 : Dist))) v ≠ ⊤ →
          vis v = false → v ≠ u →
          ∃ k, (k, v) ∈ ((-((dist u + (vw.2 : Dist)).untop' 0), vw.1) :: pq) ∧
            ((-k : ℚ) : Dist) = (Function.update dist vw.1 (dist u + (vw.2 : Dist))) v := by
        intro v hvfin hvis hvu
        rcases eq_or_ne v vw.1 with rfl | hne2
        · refine ⟨-((dist u + (vw.2 : Dist)).untop' 0), List.mem_cons_self _ _, ?_⟩
          rw [Function.update_same, huntop, neg_neg, hnd]
        · rw [Function.update_noteq hne2] at hvfin ⊢
          obtain ⟨k, hk1, hk2⟩ := hcover v hvfin hvis hvu
          exact ⟨k, List.mem_cons_of_mem _ hk1, hk2⟩
      have hsv1 : vis vw.1 = false := by
        by_contra hx
        rw [Bool.not_eq_false] at hx
        have h1 : dist vw.1 ≤ dist u := hsle vw.1 hx
        have h2 : dist u ≤ dist u + (vw.2 : Dist) :=
          le_add_of_nonneg_right (by exact_mod_cast h0w)
        exact absurd (lt_of_lt_of_le hlt (le_trans h1 h2)) (lt_irrefl _)
      have hs1 : ∀ x, vis x = true →
          (Function.update dist vw.1 (dist u + (vw.2 : Dist))) x ≤
          (Function.update dist vw.1 (dist u + (vw.2 : Dist))) u := by
        intro x hx
        rw [hud]
        have hne2 : x ≠ vw.1 := by
          rintro rfl
          rw [hx] at hsv1
          cases hsv1
        rw [Function.update_noteq hne2]
        exact hsle x hx
      have hdi1' : DistInv g s (Function.update dist vw.1 (dist u + (vw.2 : Dist))) := by
        rw [hnd]
        exact hdi1
      have hufin' : (Function.update dist vw.1 (dist u + (vw.2 : Dist))) u ≠ ⊤ := by
        rw [hud]
        exact hufin
      rw [hstep]
      obtain ⟨i1, i2, i3, i4, i5, i6, i7, i8, i9⟩ :=
        ih (fun vw2 h => hes vw2 (List.mem_cons_of_mem vw h))
          (Function.update dist vw.1 (dist u + (vw.2 : Dist)))
          ((-((dist u + (vw.2 : Dist)).untop' 0), vw.1) :: pq)
          hdi1' hufin' hq1 hc1 hs1
      have hD1le : ∀ x, (Function.update dist vw.1 (dist u + (vw.2 : Dist))) x ≤ dist x := by
        intro x
        rcases eq_or_ne x vw.1 with rfl | hne2
        · rw [Function.update_same]
          exact le_of_lt hlt
        · rw [Function.update_noteq hne2]
      refine ⟨i1, ?_, ?_, ?_, i5, i6, ?_, ?_, ?_⟩
      · rw [i2, hud]
      · intro x
        exact le_trans (i3 x) (hD1le x)
      · intro x hx
        rw [i4 x hx]
        have hne2 : x ≠ vw.1 := by
          rintro rfl
          rw [hx] at hsv1
          cases hsv1
        rw [Function.update_noteq hne2]
      · intro vw2 hvw2
        rcases List.mem_cons.mp hvw2 with rfl | hvw2'
        · calc (es.foldl (Dij.relaxEdge u)
              (Function.update dist vw2.1 (dist u + (vw2.2 : Dist)),
               (-((dist u + (vw2.2 : Dist)).untop' 0), vw2.1) :: pq)).1 vw2.1
              ≤ (Function.update dist vw2.1 (dist u + (vw2.2 : Dist))) vw2.1 := i3 vw2.1
            _ = dist u + (vw2.2 : Dist) := Function.update_same _ _ _
            _ = (es.foldl (Dij.relaxEdge u)
              (Function.update dist vw2.1 (dist u + (vw2.2 : Dist)),
               (-((dist u + (vw2.2 : Dist)).untop' 0), vw2.1) :: pq)).1 u + (vw2.2 : Dist) := by
                rw [i2, hud]
        · exact i7 vw2 hvw2'
      · intro v hv
        have hD1v : (Function.update dist vw.1 (dist u + (vw.2 : Dist))) u ≤
            (Function.update dist vw.1 (dist u + (vw.2 : Dist))) v := by
          rw [hud]
          rcases eq_or_ne v vw.1 with rfl | hne2
          · rw [Function.update_same]
            exact le_add_of_nonneg_right (by exact_mod_cast h0w)
          · rw [Function.update_noteq hne2]
            exact hv
        have := i8 v hD1v
        rw [hud] at this
        exact this
      · intro hall
        exfalso
        have h1 := hall vw.1
        have h2 : (es.foldl (Dij.relaxEdge u)
            (Function.update dist vw.1 (dist u + (vw.2 : Dist)),
             (-((dist u + (vw.2 : Dist)).untop' 0), vw.1) :: pq)).1 vw.1 ≤
            dist u + (vw.2 : Dist) := by
          have := i3 vw.1
          rwa [Function.update_same] at this
        rw [h1] at h2
        exact absurd (lt_of_le_of_lt h2 hlt) (lt_irrefl _)
    · have hstep := Dij.relaxEdge_of_not_lt u (dist, pq) vw hlt
      rw [hstep]
      obtain ⟨i1, i2, i3, i4, i5, i6, i7, i8, i9⟩ :=
        ih (fun vw2 h => hes vw2 (List.mem_cons_of_mem vw h)) dist pq hdi hufin
          hqent hcover hsle
      refine ⟨i1, i2, i3, i4, i5, i6, ?_, i8, i9⟩
      intro vw2 hvw2
      rcases List.mem_cons.mp hvw2 with rfl | hvw2'
      · calc (es.foldl (Dij.relaxEdge u) (dist, pq)).1 vw2.1 ≤ dist vw2.1 := i3 vw2.1
          _ ≤ dist u + (vw2.2 : Dist) := not_lt.mp hlt
          _ = (es.foldl (Dij.relaxEdge u) (dist, pq)).1 u + (vw2.2 : Dist) := by rw [i2]
      · exact i7 vw2 hvw2'

/-- The loop invariant of the lazy-deletion Dijkstra. -/
def Dij.Inv (g : Graph) (s : ℕ) (dist : ℕ → Dist) (vis : ℕ → Bool)
    (pq : List (ℚ × ℕ)) : Prop :=
  DistInv g s dist ∧
  (∀ e ∈ pq, dist e.2 ≠ ⊤ ∧ dist e.2 ≤ ((-e.1 : ℚ) : Dist)) ∧
  (∀ v, dist v ≠ ⊤ → vis v = false →
    ∃ k, (k, v) ∈ pq ∧ ((-k : ℚ) : Dist) = dist v) ∧
  (∀ u, vis u = true → ∀ vw ∈ g.adj u, dist vw.1 ≤ dist u + (vw.2 : Dist)) ∧
  (∀ u, vis u = true → dist u ≠ ⊤ ∧
    ∀ v, vis v = false → dist v ≠ ⊤ → dist u ≤ dist v)

theorem Dij.nil_done (g : Graph) (s : ℕ) (dist : ℕ → Dist) (vis : ℕ → Bool)
    (h : Dij.Inv g s dist vis []) : NoTense g dist := by
  obtain ⟨hdi, hq, hcover, hsettled, hsmin⟩ := h
  intro u vw hmem
  by_cases htop : dist u = ⊤
  · rw [htop, top_add]
    exact le_top
  · rcases hviscase : vis u with _ | _
    · obtain ⟨k, hk, -⟩ := hcover u htop hviscase
      simp at hk
    · exact hsettled u hviscase vw hmem

theorem Dij.skip_step (g : Graph) (s : ℕ) (dist : ℕ → Dist) (vis : ℕ → Bool)
    (x : ℚ × ℕ) (rest : List (ℚ × ℕ))
    (h : Dij.Inv g s dist vis (x :: rest))
    (hvisM : vis (Dij.maxOf x rest).2 = true) :
    Dij.Inv g s dist vis ((x :: rest).erase (Dij.maxOf x rest)) := by
  obtain ⟨hdi, hq, hcover, hsettled, hsmin⟩ := h
  refine ⟨hdi, ?_, ?_, hsettled, hsmin⟩
  · intro e he
    exact hq e (List.erase_subset _ _ he)
  · intro v hv hvis
    obtain ⟨k, hk, hk2⟩ := hcover v hv hvis
    refine ⟨k, ?_, hk2⟩
    apply List.mem_erase_of_ne _ |>.mpr hk
    intro heq
    have : v = (Dij.maxOf x rest).2 := by
      rw [← heq]
    rw [this, hvisM] at hvis
    cases hvis

theorem Dij.settle_step (g : Graph) (s : ℕ) (hwf : g.WF) (hnn : g.NonNeg)
    (dist : ℕ → Dist) (vis : ℕ → Bool) (x : ℚ × ℕ) (rest : List (ℚ × ℕ))
    (h : Dij.Inv g s dist vis (x :: rest))
    (hvisM : vis (Dij.maxOf x rest).2 = false) :
    Dij.Inv g s
      ((g.adj (Dij.maxOf x rest).2).foldl (Dij.relaxEdge (Dij.maxOf x rest).2)
        (dist, (x :: rest).erase (Dij.maxOf x rest))).1
      (Function.update vis (Dij.maxOf x rest).2 true)
      ((g.adj (Dij.maxOf x rest).2).foldl (Dij.relaxEdge (Dij.maxOf x rest).2)
        (dist, (x :: rest).erase (Dij.maxOf x rest))).2 ∧
    (∀ y, ((g.adj (Dij.maxOf x rest).2).foldl (Dij.relaxEdge (Dij.maxOf x rest).2)
        (dist, (x :: rest).erase (Dij.maxOf x rest))).1 y ≤ dist y) ∧
    ((∀ y, ((g.adj (Dij.maxOf x rest).2).foldl (Dij.relaxEdge (Dij.maxOf x rest).2)
        (dist, (x :: rest).erase (Dij.maxOf x rest))).1 y = dist y) →
      (g.adj (Dij.maxOf x rest).2).foldl (Dij.relaxEdge (Dij.maxOf x rest).2)
        (dist, (x :: rest).erase (Dij.maxOf x rest)) =
        (dist, (x :: rest).erase (Dij.maxOf x rest))) := by
  obtain ⟨hdi, hq, hcover, hsettled, hsmin⟩ := h
  have hMmem := Dij.maxOf_mem x rest
  obtain ⟨hMfin, hMle⟩ := hq (Dij.maxOf x rest) hMmem
  obtain ⟨k0, hk0mem, hk0eq⟩ := hcover (Dij.maxOf x rest).2 hMfin hvisM
  have hk0le : k0 ≤ (Dij.maxOf x rest).1 :=
    Dij.maxOf_key x rest (k0, (Dij.maxOf x rest).2) hk0mem
  have hdM : dist (Dij.maxOf x rest).2 = (((-(Dij.maxOf x rest).1 : ℚ)) : Dist) := by
    apply le_antisymm hMle
    rw [← hk0eq]
    exact_mod_cast neg_le_neg hk0le
  have hminM : ∀ v, vis v = false → dist (Dij.maxOf x rest).2 ≤ dist v := by
    intro v hvis
    by_cases hvfin : dist v = ⊤
    · rw [hvfin]; exact le_top
    · obtain ⟨kv, hkvmem, hkveq⟩ := hcover v hvfin hvis
      have hkvle : kv ≤ (Dij.maxOf x rest).1 :=
        Dij.maxOf_key x rest (kv, v) hkvmem
      rw [hdM, ← hkveq]
      exact_mod_cast neg_le_neg hkvle
  have hsleM : ∀ y, vis y = true → dist y ≤ dist (Dij.maxOf x rest).2 := by
    intro y hy
    exact (hsmin y hy).2 (Dij.maxOf x rest).2 hvisM hMfin
  have hqent' : ∀ e ∈ (x :: rest).erase (Dij.maxOf x rest),
      dist e.2 ≠ ⊤ ∧ dist e.2 ≤ ((-e.1 : ℚ) : Dist) := by
    intro e he
    exact hq e (List.erase_subset _ _ he)
  have hcover' : ∀ v, dist v ≠ ⊤ → vis v = false → v ≠ (Dij.maxOf x rest).2 →
      ∃ k, (k, v) ∈ (x :: rest).erase (Dij.maxOf x rest) ∧
        ((-k : ℚ) : Dist) = dist v := by
    intro v hv hvis hne
    obtain ⟨k, hk, hk2⟩ := hcover v hv hvis
    refine ⟨k, ?_, hk2⟩
    apply List.mem_erase_of_ne _ |>.mpr hk
    intro heq
    apply hne
    rw [← heq]
  obtain ⟨f1, f2, f3, f4, f5, f6, f7, f8, f9⟩ :=
    Dij.fold_spec g s hwf hnn (Dij.maxOf x rest).2 (g.adj (Dij.maxOf x rest).2)
      (fun vw h => h) vis dist ((x :: rest).erase (Dij.maxOf x rest))
      hdi hMfin hqent' hcover' hsleM
  refine ⟨⟨f1, f5, ?_, ?_, ?_⟩, f3, f9⟩
  · intro v hv hvis
    have hvv : vis v = false := by
      by_contra hvv
      rw [Bool.not_eq_false] at hvv
      have hne : v ≠ (Dij.maxOf x rest).2 := by
        rintro rfl
        rw [hvv] at hvisM
        cases hvisM
      rw [Function.update_noteq hne, hvv] at hvis
      cases hvis
    have hne : v ≠ (Dij.maxOf x rest).2 := by
      rintro rfl
      rw [Function.update_same] at hvis
      cases hvis
    exact f6 v hv hvv hne
  · intro u hu vw hmem
    rcases eq_or_ne u (Dij.maxOf x rest).2 with rfl | hne
    · exact f7 vw hmem
    · rw [Function.update_noteq hne] at hu
      have h4 := f4 u hu
      rw [h4]
      calc ((g.adj (Dij.maxOf x rest).2).foldl (Dij.relaxEdge (Dij.maxOf x rest).2)
            (dist, (x :: rest).erase (Dij.maxOf x rest))).1 vw.1 ≤ dist vw.1 := f3 vw.1
        _ ≤ dist u + (vw.2 : Dist) := hsettled u hu vw hmem
  · intro u hu
    have hmin' : ∀ v, (Function.update vis (Dij.maxOf x rest).2 true) v = false →
        ((g.adj (Dij.maxOf x rest).2).foldl (Dij.relaxEdge (Dij.maxOf x rest).2)
          (dist, (x :: rest).erase (Dij.maxOf x rest))).1 v ≠ ⊤ →
        dist (Dij.maxOf x rest).2 ≤
        ((g.adj (Dij.maxOf x rest).2).foldl (Dij.relaxEdge (Dij.maxOf x rest).2)
          (dist, (x :: rest).erase (Dij.maxOf x rest))).1 v := by
      intro v hvis _
      have hne : v ≠ (Dij.maxOf x rest).2 := by
        rintro rfl
        rw [Function.update_same] at hvis
        cases hvis
      have hvv : vis v = false := by
        rw [Function.update_noteq hne] at hvis
        exact hvis
      exact f8 v (hminM v hvv)
    rcases eq_or_ne u (Dij.maxOf x rest).2 with rfl | hne
    · constructor
      · rw [f2]
        exact hMfin
      · intro v hvis hvfin
        rw [f2]
        exact hmin' v hvis hvfin
    · rw [Function.update_noteq hne] at hu
      constructor
      · rw [f4 u hu]
        exact (hsmin u hu).1
      · intro v hvis hvfin
        rw [f4 u hu]
        calc dist u ≤ dist (Dij.maxOf x rest).2 := hsleM u hu
          _ ≤ _ := hmin' v hvis hvfin

/-- One unfolding of the Dijkstra loop on a non-empty queue. -/
theorem Dij.loop_cons (g : Graph) (f : ℕ) (dist : ℕ → Dist) (vis : ℕ → Bool)
    (x : ℚ × ℕ) (rest : List (ℚ × ℕ)) :
    Dij.loop g (f + 1) dist vis (x :: rest) =
      if vis (Dij.maxOf x rest).2 then
        Dij.loop g f dist vis ((x :: rest).erase (Dij.maxOf x rest))
      else
        Dij.loop g f
          ((g.adj (Dij.maxOf x rest).2).foldl
            (Dij.relaxEdge (Dij.maxOf x rest).2)
            (dist, (x :: rest).erase (Dij.maxOf x rest))).1
          (Function.update vis (Dij.maxOf x rest).2 true)
          ((g.adj (Dij.maxOf x rest).2).foldl
            (Dij.relaxEdge (Dij.maxOf x rest).2)
            (dist, (x :: rest).erase (Dij.maxOf x rest))).2 := rfl

/-- Fuel-uniform specification of the Dijkstra loop, with termination. -/
theorem Dij.loop_spec (g : Graph) (s : ℕ) (hwf : g.WF) (hnn : g.NonNeg)
    (m1 : ℕ) : ∀ m2 dist vis pq, muDist g dist ≤ m1 → pq.length ≤ m2 →
    Dij.Inv g s dist vis pq →
    ∃ F dist', (∀ f, F ≤ f → Dij.loop g f dist vis pq = some dist') ∧
      DistInv g s dist' ∧ NoTense g dist' := by
  induction m1 with
  | zero =>
    intro m2
    induction m2 with
    | zero =>
      intro dist vis pq hm1 hm2 hinv
      match pq, hm2 with
      | [], _ =>
        refine ⟨1, dist, ?_, hinv.1, Dij.nil_done g s dist vis hinv⟩
        intro f hf
        match f, hf with
        | f + 1, _ => rfl
    | succ m2 ih2 =>
      intro dist vis pq hm1 hm2 hinv
      match pq with
      | [] =>
        refine ⟨1, dist, ?_, hinv.1, Dij.nil_done g s dist vis hinv⟩
        intro f hf
        match f, hf with
        | f + 1, _ => rfl
      | x :: rest =>
        have hlen : ((x :: rest).erase (Dij.maxOf x rest)).length = rest.length :=
          by rw [List.length_erase_of_mem (Dij.maxOf_mem x rest)]; rfl
        by_cases hv : vis (Dij.maxOf x rest).2
        · obtain ⟨F0, dist', hF0, hc1, hc2⟩ := ih2 dist vis
            ((x :: rest).erase (Dij.maxOf x rest)) hm1
            (by rw [hlen]; simpa using hm2)
            (Dij.skip_step g s dist vis x rest hinv hv)
          refine ⟨F0 + 1, dist', ?_, hc1, hc2⟩
          intro f hf
          match f, hf with
          | f + 1, hf =>
            rw [Dij.loop_cons, if_pos hv]
            exact hF0 f (by omega)
        · have hvf : vis (Dij.maxOf x rest).2 = false := by
            rw [Bool.not_eq_true] at hv
            exact hv
          obtain ⟨hinv', hle, hid⟩ := Dij.settle_step g s hwf hnn dist vis x rest hinv hvf
          by_cases hch : ∀ y, ((g.adj (Dij.maxOf x rest).2).foldl
              (Dij.relaxEdge (Dij.maxOf x rest).2)
              (dist, (x :: rest).erase (Dij.maxOf x rest))).1 y = dist y
          · have hidf := hid hch
            rw [hidf] at hinv'
            obtain ⟨F0, dist', hF0, hc1, hc2⟩ := ih2 dist
              (Function.update vis (Dij.maxOf x rest).2 true)
              ((x :: rest).erase (Dij.maxOf x rest)) hm1
              (by rw [hlen]; simpa using hm2) hinv'
            refine ⟨F0 + 1, dist', ?_, hc1, hc2⟩
            intro f hf
            match f, hf with
            | f + 1, hf =>
              rw [Dij.loop_cons, if_neg hv, hidf]
              exact hF0 f (by omega)
          · exfalso
            push_neg at hch
            obtain ⟨y, hy⟩ := hch
            have hstrict := lt_of_le_of_ne (hle y) hy
            have hyfin : ((g.adj (Dij.maxOf x rest).2).foldl
                (Dij.relaxEdge (Dij.maxOf x rest).2)
                (dist, (x :: rest).erase (Dij.maxOf x rest))).1 y ≠ ⊤ := by
              intro htop
              rw [htop] at hstrict
              exact absurd hstrict (by simp)
            have hylt : y < g.n := hinv'.1.2.2.1 y hyfin
            have := muDist_lt g dist _ (distInv_rankOK g s dist hnn hinv.1)
              (distInv_rankOK g s _ hnn hinv'.1) hle y hylt hstrict
            omega
  | succ m1 ih1 =>
    intro m2
    induction m2 with
    | zero =>
      intro dist vis pq hm1 hm2 hinv
      match pq, hm2 with
      | [], _ =>
        refine ⟨1, dist, ?_, hinv.1, Dij.nil_done g s dist vis hinv⟩
        intro f hf
        match f, hf with
        | f + 1, _ => rfl
    | succ m2 ih2 =>
      intro dist vis pq hm1 hm2 hinv
      match pq with
      | [] =>
        refine ⟨1, dist, ?_, hinv.1, Dij.nil_done g s dist vis hinv⟩
        intro f hf
        match f, hf with
        | f + 1, _ => rfl
      | x :: rest =>
        have hlen : ((x :: rest).erase (Dij.maxOf x rest)).length = rest.length :=
          by rw [List.length_erase_of_mem (Dij.maxOf_mem x rest)]; rfl
        by_cases hv : vis (Dij.maxOf x rest).2
        · obtain ⟨F0, dist', hF0, hc1, hc2⟩ := ih2 dist vis
            ((x :: rest).erase (Dij.maxOf x rest)) hm1
            (by rw [hlen]; simpa using hm2)
            (Dij.skip_step g s dist vis x rest hinv hv)
          refine ⟨F0 + 1, dist', ?_, hc1, hc2⟩
          intro f hf
          match f, hf with
          | f + 1, hf =>
            rw [Dij.loop_cons, if_pos hv]
            exact hF0 f (by omega)
        · have hvf : vis (Dij.maxOf x rest).2 = false := by
            rw [Bool.not_eq_true] at hv
            exact hv
          obtain ⟨hinv', hle, hid⟩ := Dij.settle_step g s hwf hnn dist vis x rest hinv hvf
          by_cases hch : ∀ y, ((g.adj (Dij.maxOf x rest).2).foldl
              (Dij.relaxEdge (Dij.maxOf x rest).2)
              (dist, (x :: rest).erase (Dij.maxOf x rest))).1 y = dist y
          · have hidf := hid hch
            rw [hidf] at hinv'
            obtain ⟨F0, dist', hF0, hc1, hc2⟩ := ih2 dist
              (Function.update vis (Dij.maxOf x rest).2 true)
              ((x :: rest).erase (Dij.maxOf x rest)) hm1
              (by rw [hlen]; simpa using hm2) hinv'
            refine ⟨F0 + 1, dist', ?_, hc1, hc2⟩
            intro f hf
            match f, hf with
            | f + 1, hf =>
              rw [Dij.loop_cons, if_neg hv, hidf]
              exact hF0 f (by omega)
          · push_neg at hch
            obtain ⟨y, hy⟩ := hch
            have hstrict := lt_of_le_of_ne (hle y) hy
            have hyfin : ((g.adj (Dij.maxOf x rest).2).foldl
                (Dij.relaxEdge (Dij.maxOf x rest).2)
                (dist, (x :: rest).erase (Dij.maxOf x rest))).1 y ≠ ⊤ := by
              intro htop
              rw [htop] at hstrict
              exact absurd hstrict (by simp)
            have hylt : y < g.n := hinv'.1.2.2.1 y hyfin
            have hmu := muDist_lt g dist _ (distInv_rankOK g s dist hnn hinv.1)
              (distInv_rankOK g s _ hnn hinv'.1) hle y hylt hstrict
            obtain ⟨F0, dist', hF0, hc1, hc2⟩ := ih1
              (((g.adj (Dij.maxOf x rest).2).foldl
                (Dij.relaxEdge (Dij.maxOf x rest).2)
                (dist, (x :: rest).erase (Dij.maxOf x rest))).2.length)
              ((g.adj (Dij.maxOf x rest).2).foldl
                (Dij.relaxEdge (Dij.maxOf x rest).2)
                (dist, (x :: rest).erase (Dij.maxOf x rest))).1
              (Function.update vis (Dij.maxOf x rest).2 true)
              ((g.adj (Dij.maxOf x rest).2).foldl
                (Dij.relaxEdge (Dij.maxOf x rest).2)
                (dist, (x :: rest).erase (Dij.maxOf x rest))).2
              (by omega) (le_refl _) hinv'
            refine ⟨F0 + 1, dist', ?_, hc1, hc2⟩
            intro f hf
            match f, hf with
            | f + 1, hf =>
              rw [Dij.loop_cons, if_neg hv]
              exact hF0 f (by omega)

/-- Full correctness and termination of `Dijkstra::compute`. -/
theorem Dij.compute_correct_dij (g : Graph) (source : ℕ) (hwf : g.WF)
    (hnn : g.NonNeg) (hs : source < g.n) :
    ∃ F dv, (∀ f, F ≤ f → Dij.compute g source f = some dv) ∧
      IsDistVector g source dv := by
  have hd0 : ∀ x, (Function.update (fun _ => (⊤ : Dist)) source ((0 : ℚ) : Dist)) x =
      if x = source then ((0 : ℚ) : Dist) else ⊤ := by
    intro x
    rcases eq_or_ne x source with rfl | hne
    · rw [Function.update_same, if_pos rfl]
    · rw [Function.update_noteq hne, if_neg hne]
  have hdi0 : DistInv g source
      (Function.update (fun _ => (⊤ : Dist)) source ((0 : ℚ) : Dist)) := by
    refine ⟨?_, ?_, ?_, ?_⟩
    · intro v q hq
      rw [hd0 v] at hq
      split at hq
      · rename_i hv
        have hq0 : (0 : ℚ) = q := by exact_mod_cast hq
        rw [hv, ← hq0]
        exact Reaches.nil
      · exact absurd hq (by simp)
    · rw [Function.update_same]
    · intro v hv
      rw [hd0 v] at hv
      split at hv
      · rename_i h; rw [h]; exact hs
      · exact absurd rfl hv
    · intro v q hq
      rw [hd0 v] at hq
      split at hq
      · have hq0 : (0 : ℚ) = q := by exact_mod_cast hq
        rw [← hq0]
        exact mul_nonneg (max_weight_nonneg g) (by positivity)
      · exact absurd hq (by simp)
  obtain ⟨F, dist', hF, hc1, hc2⟩ := Dij.loop_spec g source hwf hnn
    (muDist g (Function.update (fun _ => (⊤ : Dist)) source ((0 : ℚ) : Dist))) 1
    (Function.update (fun _ => (⊤ : Dist)) source ((0 : ℚ) : Dist))
    (fun _ => false) [((0 : ℚ), source)] (le_refl _) (by simp)
    (by
      refine ⟨hdi0, ?_, ?_, ?_, ?_⟩
      · intro e he
        have he' : e = ((0 : ℚ), source) := by simpa using he
        rw [he']
        show (Function.update (fun _ => (⊤ : Dist)) source ((0 : ℚ) : Dist)) source ≠ ⊤ ∧ _
        rw [Function.update_same]
        refine ⟨WithTop.coe_ne_top, ?_⟩
        rw [show (-(0 : ℚ)) = (0 : ℚ) from neg_zero]
      · intro v hv _
        have hv' : v = source := by
          by_contra hne
          apply hv
          rw [hd0 v, if_neg hne]
        refine ⟨0, ?_, ?_⟩
        · rw [hv']
          exact List.mem_singleton.mpr rfl
        · rw [hv', Function.update_same, neg_zero]
      · intro u hu
        cases hu
      · intro u hu
        cases hu)
  refine ⟨F, (List.range g.n).map dist', ?_, ?_⟩
  · intro f hf
    have hunfold : Dij.compute g source f =
        match Dij.loop g f
            (Function.update (fun _ => (⊤ : Dist)) source ((0 : ℚ) : Dist))
            (fun _ => false) [((0 : ℚ), source)] with
        | none => none
        | some dist => some ((List.range g.n).map dist) := rfl
    rw [hunfold, hF f hf]
  · constructor
    · simp
    · intro v hlen
      have hdvv : ((List.range g.n).map dist')[v] = dist' v := by
        simp at hlen ⊢
      rw [hdvv]
      exact final_state_correct g source dist' hc1.2.1 hc1.1 hc2 v

/-! ## Parallel Δ-stepping (src/algo/completely_balanced_delta_stepping.h,
class `CompletelyBalancedDeltaStepping`)

The barrier-separated phases are embedded by their serialization: inside a
phase the worker bodies for `tid = 0, 1, ...` run in order.  During Loop 1
(request generation) no `dist` entry changes, and during Loops 2/3 each
requested vertex is relaxed exactly once, so this serialization realizes
one of the admissible interleavings of the source. -/

namespace Par

/-- The default used for out-of-range bucket reads (never reached under the
invariants proved below; out-of-range indexing is UB in the source). -/
def cvD : CircularVector ℤ := CircularVector.new 0 0

/-- `MAX_BUCKET_COUNT = (int)std::ceil(max_w / delta) + 5`. -/
def MAX_BUCKET_COUNT (g : Graph) (δ : ℚ) : ℤ :=
  ⌈g.get_max_edge_weight / δ⌉ + 5

/-- A request-slot array together with its requested-vertex index buffer
(`*_request_map`, `*_nodes_requested` with its atomic counter; the counter
is the buffer length). -/
structure ReqMap where
  req : ℕ → Dist
  nodes : List ℕ

/-- The state shared by `relax` (dist, position_in_bucket, buckets). -/
structure Core where
  dist : ℕ → Dist
  pos : ℕ → ℤ
  buckets : List (CircularVector ℤ)

/-- `get_bucket`: `-1` on `+∞`, else `int(dist[v]/delta) % MAX_BUCKET_COUNT`.
All values arising are non-negative, where the C++ truncating cast and `%`
agree with `⌊·⌋` and `Int.emod`. -/
def getBucket (δ : ℚ) (H : ℕ) (d : Dist) : ℤ :=
  if d = ⊤ then -1 else ⌊d.untop' 0 / δ⌋ % (H : ℤ)

/-- `relax(v, requests)`: drain the slot by exchanging with `+∞`, and on
improvement update `dist`, tombstone the old entry unless it is in the
currently-draining bucket or the bucket does not change, and re-push into
the new bucket when the old bucket was the current one or changed. -/
def relax (δ : ℚ) (H : ℕ) (cg : ℕ) (c : Core) (rm : ReqMap) (v : ℕ) :
    Core × ReqMap :=
  let new_distance := rm.req v
  let rm' : ReqMap := { rm with req := Function.update rm.req v ⊤ }
  if new_distance < c.dist v then
    let old_bucket := getBucket δ H (c.dist v)
    let dist' := Function.update c.dist v new_distance
    let new_bucket := getBucket δ H (dist' v)
    let buckets1 :=
      if old_bucket ≠ -1 ∧ old_bucket ≠ (cg : ℤ) ∧ old_bucket ≠ new_bucket then
        c.buckets.set old_bucket.toNat
          ((c.buckets.getD old_bucket.toNat cvD).set (c.pos v).toNat (-1))
      else c.buckets
    if old_bucket = (cg : ℤ) ∨ old_bucket ≠ new_bucket then
      let pr := (buckets1.getD new_bucket.toNat cvD).push (v : ℤ)
      ({ dist := dist'
         pos := Function.update c.pos v (pr.1 : ℤ)
         buckets := buckets1.set new_bucket.toNat pr.2 }, rm')
    else ({ dist := dist', pos := c.pos, buckets := buckets1 }, rm')
  else (c, rm')

/-- `add_request(requested_nodes, idx_counter, requests, {u, v, w})`,
serialized: install on the `+∞ → finite` transition (appending `v` to the
index buffer), then lower to the minimum. -/
def add_request (dist : ℕ → Dist) (rm : ReqMap) (u v : ℕ) (w : ℚ) : ReqMap :=
  let new_distance := dist u + (w : Dist)
  let rm1 : ReqMap :=
    if rm.req v = ⊤ then
      { req := Function.update rm.req v new_distance, nodes := rm.nodes ++ [v] }
    else rm
  if new_distance < rm1.req v then
    { rm1 with req := Function.update rm1.req v new_distance }
  else rm1

/-- The whole solver state. -/
structure State where
  dist : ℕ → Dist
  pos : ℕ → ℤ
  buckets : List (CircularVector ℤ)
  light : ReqMap
  heavy : ReqMap

def State.core (st : State) : Core := ⟨st.dist, st.pos, st.buckets⟩

/-- The inclusive prefix sums over the bucket snapshot that Loop 1's master
thread computes (`prefix[i] = prefix[i-1] + (u >= 0 ? adj_sizes[u] : 0)`). -/
def prefixSums (g : Graph) (acc : ℕ) : List ℤ → List ℕ
  | [] => []
  | e :: es =>
    let acc' := acc + (if 0 ≤ e then (g.adj e.toNat).length else 0)
    acc' :: prefixSums g acc' es

/-- `std::upper_bound` over the (sorted, non-decreasing) prefix array:
index of the first entry exceeding `x`, or the length if none. -/
def upperBound (l : List ℕ) (x : ℕ) : ℕ := l.findIdx (fun p => x < p)

/-- The per-worker edge walk of Loop 1: starting at a snapshot suffix with
`edge_off` edges of its first vertex already skipped, visit edges until the
global edge counter reaches `end_e`, skipping tombstoned entries. -/
def walk (g : Graph) : List ℤ → ℕ → ℕ → ℕ → List (ℕ × ℕ × ℚ)
  | [], _, _, _ => []
  | e :: rest, edge_off, curr_edge, end_e =>
    if curr_edge < end_e then
      if 0 ≤ e then
        let u := e.toNat
        let deg := (g.adj u).length
        let cnt := min (deg - edge_off) (end_e - curr_edge)
        (((g.adj u).drop edge_off).take cnt).map (fun vw => (u, vw.1, vw.2))
          ++ walk g rest 0 (curr_edge + cnt) end_e
      else walk g rest 0 curr_edge end_e
    else []

/-- The edge range worker `tid` visits in Loop 1. -/
def tidEdges (g : Graph) (T : ℕ) (entries : List ℤ) (pfx : List ℕ)
    (total : ℕ) (tid : ℕ) : List (ℕ × ℕ × ℚ) :=
  let edge_chunk := (total + T - 1) / T
  let start_e := tid * edge_chunk
  let end_e := min total (start_e + edge_chunk)
  if start_e ≥ end_e then []
  else
    let node_idx := upperBound pfx start_e
    let edge_off := start_e - (if 0 < node_idx then pfx.getD (node_idx - 1) 0 else 0)
    walk g (entries.drop node_idx) edge_off start_e end_e

/-- The request for one visited edge (the body of Loop 1's inner loop). -/
def requestEdge (δ : ℚ) (st : State) (e : ℕ × ℕ × ℚ) : State :=
  let (u, v, w) := e
  if st.dist u + (w : Dist) < st.dist v then
    if w < δ then { st with light := add_request st.dist st.light u v w }
    else { st with heavy := add_request st.dist st.heavy u v w }
  else st

/-- The snapshot contents of a bucket slot (its cells `[0, size)`). -/
def snapshot (cv : CircularVector ℤ) : List ℤ :=
  (List.range cv.size).map cv.get

/-- Loop 1 (request generation, serialized over `tid`), followed by
`curr_bucket.clear()`. -/
def phaseA (g : Graph) (δ : ℚ) (T : ℕ) (cg : ℕ) (st : State) : State :=
  let curr := st.buckets.getD cg cvD
  let entries := snapshot curr
  let pfx := prefixSums g 0 entries
  let total := pfx.getD (entries.length - 1) 0
  let edges := (List.range T).flatMap (tidEdges g T entries pfx total)
  let st1 := edges.foldl (requestEdge δ) st
  { st1 with buckets := st1.buckets.set cg curr.clear }

/-- The serialized processing order of Loops 2/3: worker `idx` handles the
requested-node range `[idx*chunk, min(idx*chunk + chunk, requests_size))`. -/
def chunked (T : ℕ) (l : List ℕ) : List ℕ :=
  let requests_size := l.length
  let chunk_size := (requests_size + T - 1) / T
  (List.range T).flatMap (fun idx =>
    (l.drop (idx * chunk_size)).take
      (min (idx * chunk_size + chunk_size) requests_size - idx * chunk_size))

/-- Loop 2 (light relaxation, serialized over `tid`), then the counter
reset. -/
def phaseB (δ : ℚ) (H T : ℕ) (cg : ℕ) (st : State) : State :=
  let res := (chunked T st.light.nodes).foldl
    (fun (p : Core × ReqMap) v => relax δ H cg p.1 p.2 v) (st.core, st.light)
  { dist := res.1.dist, pos := res.1.pos, buckets := res.1.buckets
    light := { req := res.2.req, nodes := [] }, heavy := st.heavy }

/-- Loop 3 (heavy relaxation), then the counter reset. -/
def phaseC (δ : ℚ) (H T : ℕ) (cg : ℕ) (st : State) : State :=
  let res := (chunked T st.heavy.nodes).foldl
    (fun (p : Core × ReqMap) v => relax δ H cg p.1 p.2 v) (st.core, st.heavy)
  { dist := res.1.dist, pos := res.1.pos, buckets := res.1.buckets
    light := st.light, heavy := { req := res.2.req, nodes := [] } }

/-- The contiguous ascending `tid` chunks cover the list exactly once, in
order. -/
theorem chunked_eq (T : ℕ) (hT : 0 < T) (l : List ℕ) : chunked T l = l := by
  have key : ∀ (c k : ℕ),
      (List.range k).flatMap (fun idx => (l.drop (idx * c)).take c) = l.take (k * c) := by
    intro c k
    induction k with
    | zero => simp
    | succ m ih =>
      rw [List.range_succ, List.flatMap_append, ih, List.flatMap_singleton,
        Nat.succ_mul, List.take_add]
  have main : ∀ c : ℕ, l.length ≤ T * c →
      ((List.range T).flatMap fun idx =>
        (l.drop (idx * c)).take (min (idx * c + c) l.length - idx * c)) = l := by
    intro c hcov
    have heq : (fun idx => (l.drop (idx * c)).take
          (min (idx * c + c) l.length - idx * c))
        = (fun idx => (l.drop (idx * c)).take c) := by
      funext idx
      rcases le_or_lt (idx * c + c) l.length with h | h
      · rw [min_eq_left h]
        congr 1
        omega
      · rw [min_eq_right (by omega)]
        have h1 : (l.drop (idx * c)).length = l.length - idx * c := List.length_drop _ _
        rw [List.take_of_length_le (by omega), List.take_of_length_le (by omega)]
    rw [heq, key c T, List.take_of_length_le hcov]
  have hdm : T * ((l.length + T - 1) / T) + (l.length + T - 1) % T = l.length + T - 1 :=
    Nat.div_add_mod _ _
  have hr : (l.length + T - 1) % T < T := Nat.mod_lt _ hT
  exact main ((l.length + T - 1) / T) (by omega)

/-- `while (!buckets[current_generation].empty())`; the loop body resets
`generations_without_bucket` to `0`. -/
def innerLoop (g : Graph) (δ : ℚ) (H T cg : ℕ) :
    ℕ → State → ℕ → Option (State × ℕ)
  | 0, _, _ => none
  | fuel + 1, st, gwb =>
    if (st.buckets.getD cg cvD).empty then some (st, gwb)
    else innerLoop g δ H T cg fuel (phaseB δ H T cg (phaseA g δ T cg st)) 0

/-- The outer generation loop. -/
def outerLoop (g : Graph) (δ : ℚ) (H T : ℕ) :
    ℕ → ℕ → ℕ → State → Option State
  | 0, _, _, _ => none
  | fuel + 1, cg, gwb, st =>
    if H ≤ gwb then some st
    else
      let cg' := if H ≤ cg then 0 else cg
      match innerLoop g δ H T cg' (fuel + 1) st gwb with
      | none => none
      | some (st2, gwb2) =>
        outerLoop g δ H T fuel (cg' + 1) (gwb2 + 1) (phaseC δ H T cg' st2)

/-- `CompletelyBalancedDeltaStepping::compute`, fuel-indexed. -/
def compute (δ : ℚ) (T : ℕ) (g : Graph) (source : ℕ) (fuel : ℕ) :
    Option (List Dist) :=
  let n := g.n
  let H := (MAX_BUCKET_COUNT g δ).toNat
  let buckets0 := List.replicate H (CircularVector.new n (0 : ℤ))
  let st0 : State :=
    { dist := Function.update (fun _ => (⊤ : Dist)) source (0 : ℚ)
      pos := Function.update (fun _ => (-1 : ℤ)) source 0
      buckets := buckets0.set 0 ((CircularVector.new n (0 : ℤ)).push (source : ℤ)).2
      light := { req := fun _ => ⊤, nodes := [] }
      heavy := { req := fun _ => ⊤, nodes := [] } }
  match outerLoop g δ H T fuel 0 0 st0 with
  | none => none
  | some st => some ((List.range n).map st.dist)

/-! ### Loop 1 chunk/walk equivalence: the per-thread edge walks
concatenate to the natural edge order of the snapshot. -/

/-- The edge weight of a snapshot entry for the prefix sums. -/
def wOf (g : Graph) (e : ℤ) : ℕ := if 0 ≤ e then (g.adj e.toNat).length else 0

/-- The edges contributed by one snapshot entry. -/
def entryEdges (g : Graph) (e : ℤ) : List (ℕ × ℕ × ℚ) :=
  if 0 ≤ e then (g.adj e.toNat).map (fun vw => (e.toNat, vw.1, vw.2)) else []

/-- The natural edge order of a snapshot: all edges of all live entries
in order. -/
def natEdges (g : Graph) (entries : List ℤ) : List (ℕ × ℕ × ℚ) :=
  entries.flatMap (entryEdges g)

theorem entryEdges_length (g : Graph) (e : ℤ) :
    (entryEdges g e).length = wOf g e := by
  unfold entryEdges wOf
  split <;> simp

theorem natEdges_cons (g : Graph) (e : ℤ) (ES : List ℤ) :
    natEdges g (e :: ES) = entryEdges g e ++ natEdges g ES := by
  unfold natEdges
  rw [List.flatMap_cons]

theorem natEdges_append (g : Graph) (A B : List ℤ) :
    natEdges g (A ++ B) = natEdges g A ++ natEdges g B := by
  unfold natEdges
  rw [List.flatMap_append]

theorem natEdges_length (g : Graph) (ES : List ℤ) :
    (natEdges g ES).length = (ES.map (wOf g)).sum := by
  induction ES with
  | nil => rfl
  | cons e es ih =>
    rw [natEdges_cons, List.length_append, ih, List.map_cons, List.sum_cons,
      entryEdges_length]

theorem prefixSums_cons (g : Graph) (acc : ℕ) (e : ℤ) (ES : List ℤ) :
    prefixSums g acc (e :: ES) =
      (acc + wOf g e) :: prefixSums g (acc + wOf g e) ES := rfl

theorem prefixSums_length (g : Graph) (acc : ℕ) (ES : List ℤ) :
    (prefixSums g acc ES).length = ES.length := by
  induction ES generalizing acc with
  | nil => rfl
  | cons e es ih =>
    rw [prefixSums_cons]
    simp [ih]

theorem prefixSums_getD (g : Graph) (acc : ℕ) (ES : List ℤ) :
    ∀ i < ES.length, (prefixSums g acc ES).getD i 0 =
      acc + ((ES.take (i + 1)).map (wOf g)).sum := by
  induction ES generalizing acc with
  | nil => intro i hi; simp at hi
  | cons e es ih =>
    intro i hi
    rw [prefixSums_cons]
    match i with
    | 0 => simp
    | i + 1 =>
      have hi' : i < es.length := by simpa using hi
      have := ih (acc + wOf g e) i hi'
      simp only [List.getD_cons_succ, List.take_succ_cons, List.map_cons,
        List.sum_cons]
      rw [this]
      ring

/-- The total over the snapshot equals the length of the natural edge
list. -/
theorem prefixSums_total (g : Graph) (ES : List ℤ) :
    (prefixSums g 0 ES).getD (ES.length - 1) 0 = (natEdges g ES).length := by
  rw [natEdges_length]
  match ES with
  | [] => rfl
  | e :: es =>
    have hlen : e :: es ≠ [] := by simp
    have h := prefixSums_getD g 0 (e :: es) ((e :: es).length - 1) (by simp)
    rw [h]
    have : (e :: es).take ((e :: es).length - 1 + 1) = e :: es := by
      apply List.take_of_length_le
      simp
    rw [this]
    omega

/-- `upperBound` on the prefix array: every earlier prefix is `≤ x`, the
found one (if any) exceeds `x`. -/
theorem upperBound_spec (l : List ℕ) (x : ℕ) :
    upperBound l x ≤ l.length ∧
    (∀ j < upperBound l x, l.getD j 0 ≤ x) ∧
    (upperBound l x < l.length → x < l.getD (upperBound l x) 0) := by
  unfold upperBound
  induction l with
  | nil => exact ⟨by simp, by intro j hj; simp at hj, by intro h; simp at h⟩
  | cons y ys ih =>
    by_cases hy : x < y
    · have hd : decide (x < y) = true := decide_eq_true hy
      rw [List.findIdx_cons, hd, cond_true]
      refine ⟨by simp, by intro j hj; omega, by intro _; simpa using hy⟩
    · have hd : decide (x < y) = false := decide_eq_false hy
      rw [List.findIdx_cons, hd, cond_false]
      obtain ⟨h1, h2, h3⟩ := ih
      refine ⟨by simpa using Nat.succ_le_succ h1, ?_, ?_⟩
      · intro j hj
        match j with
        | 0 => simpa using not_lt.mp hy
        | j + 1 =>
          rw [List.getD_cons_succ]
          exact h2 j (by omega)
      · intro h
        rw [List.getD_cons_succ]
        exact h3 (by simpa using h)

/-- The split identity for dropping within the head block. -/
theorem natEdges_drop_take (g : Graph) (e : ℤ) (ES : List ℤ) (off k : ℕ)
    (he : 0 ≤ e) (hoff : off ≤ (g.adj e.toNat).length) :
    ((natEdges g (e :: ES)).drop off).take k =
      ((((g.adj e.toNat).drop off).take k).map (fun vw => (e.toNat, vw.1, vw.2)))
        ++ (natEdges g ES).take (k - ((g.adj e.toNat).length - off)) := by
  rw [natEdges_cons]
  have hee : entryEdges g e = (g.adj e.toNat).map (fun vw => (e.toNat, vw.1, vw.2)) := by
    unfold entryEdges
    rw [if_pos he]
  rw [hee]
  rw [List.drop_append_of_le_length (by simpa using hoff)]
  rw [List.take_append_eq_append_take]
  congr 1
  · rw [← List.map_drop, ← List.map_take]
  · congr 1
    rw [List.length_drop, List.length_map]

theorem walk_cons (g : Graph) (e : ℤ) (rest : List ℤ) (off curr endv : ℕ) :
    walk g (e :: rest) off curr endv =
      if curr < endv then
        (if 0 ≤ e then
          (((g.adj e.toNat).drop off).take
            (min ((g.adj e.toNat).length - off) (endv - curr))).map
              (fun vw => (e.toNat, vw.1, vw.2)) ++
          walk g rest 0
            (curr + min ((g.adj e.toNat).length - off) (endv - curr)) endv
        else walk g rest 0 curr endv)
      else [] := rfl

/-- The walk enumerates exactly the global edge slice `[curr, endv)` of the
remaining entries (shifted by the head offset). -/
theorem walk_char (g : Graph) : ∀ (ES : List ℤ) (off curr endv : ℕ),
    (off = 0 ∨ ∃ e0 ES', ES = e0 :: ES' ∧ 0 ≤ e0 ∧ off ≤ (g.adj e0.toNat).length) →
    walk g ES off curr endv = ((natEdges g ES).drop off).take (endv - curr) := by
  intro ES
  induction ES with
  | nil =>
    intro off curr endv hoff
    rw [show walk g [] off curr endv = [] from rfl]
    rw [show natEdges g [] = [] from rfl]
    simp
  | cons e rest ih =>
    intro off curr endv hoff
    rw [walk_cons]
    by_cases hce : curr < endv
    · rw [if_pos hce]
      by_cases he : 0 ≤ e
      · rw [if_pos he]
        have hoff' : off ≤ (g.adj e.toNat).length := by
          rcases hoff with rfl | ⟨e0, ES', heq, he0, hle⟩
          · exact Nat.zero_le _
          · cases heq
            exact hle
        rw [natEdges_drop_take g e rest off (endv - curr) he hoff']
        have hih := ih 0 (curr + min ((g.adj e.toNat).length - off) (endv - curr))
          endv (Or.inl rfl)
        rw [hih]
        rw [show (natEdges g rest).drop 0 = natEdges g rest from rfl]
        congr 1
        · congr 1
          apply List.take_eq_take.mpr
          rw [List.length_drop]
          omega
        · congr 1
          omega
      · rw [if_neg he]
        have hoff0 : off = 0 := by
          rcases hoff with rfl | ⟨e0, ES', heq, he0, hle⟩
          · rfl
          · cases heq
            exact absurd he0 he
        subst hoff0
        rw [ih 0 curr endv (Or.inl rfl)]
        rw [natEdges_cons, show entryEdges g e = [] from by unfold entryEdges; rw [if_neg he]]
        rfl
    · rw [if_neg hce]
      have : endv - curr = 0 := by omega
      rw [this]
      simp

theorem tidEdges_eq (g : Graph) (T : ℕ) (entries : List ℤ) (pfx : List ℕ)
    (total tid : ℕ) :
    tidEdges g T entries pfx total tid =
      if tid * ((total + T - 1) / T) ≥
          min total (tid * ((total + T - 1) / T) + (total + T - 1) / T) then []
      else
        walk g (entries.drop (upperBound pfx (tid * ((total + T - 1) / T))))
          (tid * ((total + T - 1) / T) -
            (if 0 < upperBound pfx (tid * ((total + T - 1) / T)) then
              pfx.getD (upperBound pfx (tid * ((total + T - 1) / T)) - 1) 0 else 0))
          (tid * ((total + T - 1) / T))
          (min total (tid * ((total + T - 1) / T) + (total + T - 1) / T)) := rfl

/-- Each worker's Loop-1 walk is exactly its slice of the natural edge
order. -/
theorem tid_slice (g : Graph) (T : ℕ) (entries : List ℤ) (tid : ℕ) :
    tidEdges g T entries (prefixSums g 0 entries)
      ((prefixSums g 0 entries).getD (entries.length - 1) 0) tid =
    ((natEdges g entries).drop
        (tid * (((natEdges g entries).length + T - 1) / T))).take
      (min (natEdges g entries).length
        (tid * (((natEdges g entries).length + T - 1) / T) +
          ((natEdges g entries).length + T - 1) / T) -
        tid * (((natEdges g entries).length + T - 1) / T)) := by
  rw [tidEdges_eq, prefixSums_total]
  set N := (natEdges g entries).length with hN
  set c := (N + T - 1) / T with hc
  set start_e := tid * c with hstart
  set end_e := min N (start_e + c) with hend
  by_cases hse : start_e ≥ end_e
  · rw [if_pos hse]
    have : end_e - start_e = 0 := by omega
    rw [this]
    simp
  · rw [if_neg hse]
    push_neg at hse
    have hlt : start_e < N := by omega
    have hlenp : (prefixSums g 0 entries).length = entries.length :=
      prefixSums_length g 0 entries
    obtain ⟨hub1, hub2, hub3⟩ := upperBound_spec (prefixSums g 0 entries) start_e
    have hne : entries ≠ [] := by
      rintro rfl
      rw [show natEdges g [] = [] from rfl] at hN
      simp [hN] at hlt
    have hlen1 : 1 ≤ entries.length := by
      rcases entries with _ | ⟨a, b⟩
      · exact absurd rfl hne
      · simp
    have hidxlt : upperBound (prefixSums g 0 entries) start_e < entries.length := by
      rcases Nat.lt_or_ge (upperBound (prefixSums g 0 entries) start_e)
        (prefixSums g 0 entries).length with h | h
      · rwa [hlenp] at h
      · exfalso
        have h2 := hub2 (entries.length - 1) (by omega)
        rw [prefixSums_total] at h2
        omega
    set k := upperBound (prefixSums g 0 entries) start_e with hk
    have hacc : (if 0 < k then (prefixSums g 0 entries).getD (k - 1) 0 else 0) =
        (natEdges g (entries.take k)).length := by
      rcases Nat.eq_zero_or_pos k with hk0 | hkpos
      · rw [if_neg (by omega), hk0]
        rfl
      · rw [if_pos hkpos]
        rw [prefixSums_getD g 0 entries (k - 1) (by omega)]
        rw [natEdges_length]
        have : entries.take (k - 1 + 1) = entries.take k := by
          congr 1
          omega
        rw [this, List.map_take]
        simp
    set acc := (if 0 < k then (prefixSums g 0 entries).getD (k - 1) 0 else 0)
      with hnacc
    have haccle : acc ≤ start_e := by
      rcases Nat.eq_zero_or_pos k with hk0 | hkpos
      · rw [hnacc, if_neg (by omega)]
        exact Nat.zero_le _
      · rw [hnacc, if_pos hkpos]
        exact hub2 (k - 1) (by omega)
    have hurng : start_e < (prefixSums g 0 entries).getD k 0 := by
      apply hub3
      rw [hlenp]
      exact hidxlt
    have hkval : (prefixSums g 0 entries).getD k 0 =
        acc + wOf g (entries.getD k 0) := by
      rw [prefixSums_getD g 0 entries k hidxlt]
      rw [hacc, natEdges_length]
      have htk : entries.take (k + 1) = entries.take k ++ [entries.getD k 0] := by
        rw [← List.take_concat_get' entries k hidxlt]
        congr 1
        rw [List.getD_eq_getElem?_getD, List.getElem?_eq_getElem hidxlt]
        rfl
      rw [htk, List.map_append, List.sum_append, List.map_take]
      simp
    have hoffw : start_e - acc < wOf g (entries.getD k 0) := by omega
    have hepos : 0 ≤ entries.getD k 0 := by
      by_contra hneg
      rw [wOf, if_neg hneg] at hoffw
      omega
    have hoffdeg : start_e - acc < (g.adj (entries.getD k 0).toNat).length := by
      rw [wOf, if_pos hepos] at hoffw
      exact hoffw
    have hdropk : entries.drop k = entries.getD k 0 :: entries.drop (k + 1) := by
      rw [List.getD_eq_getElem?_getD, List.getElem?_eq_getElem hidxlt]
      exact List.drop_eq_getElem_cons hidxlt
    rw [walk_char g (entries.drop k) (start_e - acc) start_e end_e
      (Or.inr ⟨entries.getD k 0, entries.drop (k + 1), hdropk, hepos,
        le_of_lt hoffdeg⟩)]
    congr 1
    have hsplit : natEdges g entries =
        natEdges g (entries.take k) ++ natEdges g (entries.drop k) := by
      rw [← natEdges_append, List.take_append_drop]
    rw [hsplit]
    rw [List.drop_append_eq_append_drop]
    have hA : (natEdges g (entries.take k)).drop start_e = [] := by
      apply List.drop_eq_nil_of_le
      omega
    rw [hA, List.nil_append]
    congr 1
    omega

/-- Contiguous ascending slices of width `chunk` cover a list exactly. -/
theorem flatMap_slices {α : Type} (T : ℕ) (hT : 0 < T) (l : List α) :
    (List.range T).flatMap (fun tid =>
      (l.drop (tid * ((l.length + T - 1) / T))).take
        (min l.length (tid * ((l.length + T - 1) / T) + (l.length + T - 1) / T) -
          tid * ((l.length + T - 1) / T))) = l := by
  have key : ∀ (c k : ℕ),
      (List.range k).flatMap (fun idx => (l.drop (idx * c)).take c) = l.take (k * c) := by
    intro c k
    induction k with
    | zero => simp
    | succ m ih =>
      rw [List.range_succ, List.flatMap_append, ih, List.flatMap_singleton,
        Nat.succ_mul, List.take_add]
  have main : ∀ c : ℕ, l.length ≤ T * c →
      ((List.range T).flatMap fun idx =>
        (l.drop (idx * c)).take (min l.length (idx * c + c) - idx * c)) = l := by
    intro c hcov
    have heq : (fun idx => (l.drop (idx * c)).take
          (min l.length (idx * c + c) - idx * c))
        = (fun idx => (l.drop (idx * c)).take c) := by
      funext idx
      rcases le_or_lt (idx * c + c) l.length with h | h
      · rw [min_eq_right h]
        congr 1
        omega
      · rw [min_eq_left (by omega)]
        have h1 : (l.drop (idx * c)).length = l.length - idx * c := List.length_drop _ _
        rw [List.take_of_length_le (by omega), List.take_of_length_le (by omega)]
    rw [heq, key c T, List.take_of_length_le hcov]
  have hdm : T * ((l.length + T - 1) / T) + (l.length + T - 1) % T = l.length + T - 1 :=
    Nat.div_add_mod _ _
  have hr : (l.length + T - 1) % T < T := Nat.mod_lt _ hT
  exact main ((l.length + T - 1) / T) (by omega)

/-- Loop 1's workers together visit exactly the natural edge order of the
snapshot. -/
theorem phaseA_edges (g : Graph) (T : ℕ) (hT : 0 < T) (entries : List ℤ) :
    (List.range T).flatMap (tidEdges g T entries (prefixSums g 0 entries)
      ((prefixSums g 0 entries).getD (entries.length - 1) 0)) =
    natEdges g entries := by
  have hfun : tidEdges g T entries (prefixSums g 0 entries)
      ((prefixSums g 0 entries).getD (entries.length - 1) 0) =
      (fun tid => ((natEdges g entries).drop
        (tid * (((natEdges g entries).length + T - 1) / T))).take
      (min (natEdges g entries).length
        (tid * (((natEdges g entries).length + T - 1) / T) +
          ((natEdges g entries).length + T - 1) / T) -
        tid * (((natEdges g entries).length + T - 1) / T))) := by
    funext tid
    exact tid_slice g T entries tid
  rw [hfun]
  exact flatMap_slices T hT (natEdges g entries)

/-! ### The parallel solver's invariant

The cyclic buckets are described by per-slot ghost cell lists: each cell is
either the unique live entry of a vertex or a tombstone that remembers (as
ghost data) which vertex left it and at which unreduced bucket value. -/

/-- The unreduced bucket value `int(dist/delta)` of a finite distance. -/
def BV (δ : ℚ) (d : Dist) : ℤ := ⌊d.untop' 0 / δ⌋

theorem getBucket_eq_BV (δ : ℚ) (H : ℕ) (d : Dist) (hfin : d ≠ ⊤) :
    getBucket δ H d = BV δ d % (H : ℤ) := by
  unfold getBucket BV
  rw [if_neg hfin]

theorem BV_coe (δ : ℚ) (q : ℚ) : BV δ ((q : ℚ) : Dist) = ⌊q / δ⌋ := rfl

theorem le_BV (δ : ℚ) (hδ : 0 < δ) (q : ℚ) (i : ℤ) (h : (i : ℚ) * δ ≤ q) :
    i ≤ BV δ ((q : ℚ) : Dist) := by
  rw [BV_coe]
  exact Int.le_floor.mpr (by rwa [le_div_iff hδ])

theorem BV_le_val (δ : ℚ) (hδ : 0 < δ) (q : ℚ) (i : ℤ)
    (h : i ≤ BV δ ((q : ℚ) : Dist)) : (i : ℚ) * δ ≤ q := by
  rw [BV_coe] at h
  have := le_trans (Int.cast_le.mpr h) (Int.floor_le (q / δ))
  rwa [← le_div_iff hδ]

theorem BV_mono (δ : ℚ) (hδ : 0 < δ) (q q' : ℚ) (h : q' ≤ q) :
    BV δ ((q' : ℚ) : Dist) ≤ BV δ ((q : ℚ) : Dist) := by
  rw [BV_coe, BV_coe]
  exact Int.floor_le_floor (by gcongr)

/-- Ghost description of one bucket cell: `(x, none)` is the live entry of
vertex `x`; `(x, some b)` is a tombstone left by `x` at unreduced bucket
value `b`. -/
abbrev CellG : Type := ℕ × Option ℤ

/-- Validity of one described cell at position `p` of slot `s`, at virtual
generation `G`. -/
def cellOK (g : Graph) (δ : ℚ) (H G : ℕ) (dist : ℕ → Dist) (pos : ℕ → ℤ)
    (s : ℕ) (cv : CircularVector ℤ) (p : ℕ) (ci : CellG) : Prop :=
  match ci with
  | (x, none) =>
      cv.data p = (x : ℤ) ∧ x < g.n ∧ dist x ≠ ⊤ ∧
      BV δ (dist x) % (H : ℤ) = (s : ℤ) ∧ pos x = (p : ℤ) ∧
      (G : ℤ) ≤ BV δ (dist x) ∧ BV δ (dist x) ≤ (G : ℤ) + (H : ℤ) - 4
  | (x, some b) =>
      cv.data p = -1 ∧ x < g.n ∧ dist x ≠ ⊤ ∧ b % (H : ℤ) = (s : ℤ) ∧
      BV δ (dist x) < b ∧ b ≤ (G : ℤ) + (H : ℤ) - 4

/-- Validity of one whole slot against its ghost list. -/
def slotOK (g : Graph) (δ : ℚ) (H G : ℕ) (dist : ℕ → Dist) (pos : ℕ → ℤ)
    (s : ℕ) (cv : CircularVector ℤ) (L : List CellG) : Prop :=
  cv.capacity = g.n ∧ cv.head = 0 ∧ cv.tail = L.length ∧
  (∀ p (hp : p < L.length), cellOK g δ H G dist pos s cv p (L.get ⟨p, hp⟩)) ∧
  (L.map Prod.fst).Nodup

def SlotsOK (g : Graph) (δ : ℚ) (H G : ℕ) (st : State)
    (LS : ℕ → List CellG) : Prop :=
  ∀ s, s < H → slotOK g δ H G st.dist st.pos s (st.buckets.getD s cvD) (LS s)

/-- `x` has a live entry in some slot. -/
def LiveIn (LS : ℕ → List CellG) (H : ℕ) (x : ℕ) : Prop :=
  ∃ s, s < H ∧ (x, (none : Option ℤ)) ∈ LS s

/-- All light edges of `x` are non-tense or covered by a pending light
request. -/
def LrelPend (g : Graph) (δ : ℚ) (dist : ℕ → Dist) (lreq : ℕ → Dist)
    (x : ℕ) : Prop :=
  ∀ vw ∈ lightAdj g δ x,
    dist vw.1 ≤ dist x + (vw.2 : Dist) ∨ lreq vw.1 ≤ dist x + (vw.2 : Dist)

/-- All heavy edges of `x` are non-tense or covered by a pending heavy
request. -/
def HrelPend (g : Graph) (δ : ℚ) (dist : ℕ → Dist) (hreq : ℕ → Dist)
    (x : ℕ) : Prop :=
  ∀ vw ∈ heavyAdj g δ x,
    dist vw.1 ≤ dist x + (vw.2 : Dist) ∨ hreq vw.1 ≤ dist x + (vw.2 : Dist)

/-- The value/coverage facts of a request map: finite slots hold walk
weights in the admissible band, the node buffer is duplicate-free and
covers exactly the finite slots. -/
def ReqVals (g : Graph) (δ : ℚ) (H : ℕ) (src : ℕ) (G : ℕ) (b0 : ℚ)
    (dist : ℕ → Dist) (rm : ReqMap) : Prop :=
  (∀ v, rm.req v ≠ ⊤ → v < g.n ∧ v ≠ src ∧ ∃ q : ℚ, rm.req v = ((q : ℚ) : Dist) ∧
    Reaches g src v q ∧ b0 ≤ q ∧ Par.BV δ ((q : ℚ) : Dist) ≤ (G : ℤ) + (H : ℤ) - 4 ∧
    q ≤ g.get_max_edge_weight * ((finCount g.n dist : ℚ) + 1)) ∧
  rm.nodes.Nodup ∧ (∀ v, v ∈ rm.nodes ↔ rm.req v ≠ ⊤)

/-- The pass-boundary invariant of the parallel solver at virtual
generation `G`. -/
def PInv (g : Graph) (δ : ℚ) (src : ℕ) (H G : ℕ) (st : State) : Prop :=
  DistInv g src st.dist ∧ st.buckets.length = H ∧
  ReqVals g δ H src G (((G : ℚ) + 1) * δ) st.dist st.heavy ∧
  (st.light.req = (fun _ => (⊤ : Dist)) ∧ st.light.nodes = []) ∧
  ∃ LS : ℕ → List CellG, SlotsOK g δ H G st LS ∧
    (∀ s, s < H → s ≠ G % H → ∀ ci ∈ LS s, ci.1 ≠ src) ∧
    (∀ x, st.dist x ≠ ⊤ → LiveIn LS H x ∨
      (BV δ (st.dist x) ≤ (G : ℤ) ∧ Lrel g δ st.dist x ∧
        HrelPend g δ st.dist st.heavy.req x))

/-- Two values congruent mod `H` inside a window of width `< H` are
equal. -/
theorem window_eq (H : ℕ) (G a b : ℤ) (hH : (5 : ℤ) ≤ H)
    (ha1 : G ≤ a) (ha2 : a ≤ G + H - 4) (hb1 : G ≤ b) (hb2 : b ≤ G + H - 4)
    (hmod : a % (H : ℤ) = b % (H : ℤ)) : a = b := by
  have hdvd : (H : ℤ) ∣ (a - b) := by
    have h0 : (a - b) % (H : ℤ) = 0 := by
      rw [Int.sub_emod, hmod, sub_self, Int.zero_emod]
    exact Int.dvd_of_emod_eq_zero h0
  obtain ⟨k, hk⟩ := hdvd
  have hb : -(H - 4) ≤ (H : ℤ) * k ∧ (H : ℤ) * k ≤ H - 4 := by
    constructor <;> [linarith [hk ▸ (by linarith : -(H - 4 : ℤ) ≤ a - b)];
      linarith [hk ▸ (by linarith : a - b ≤ ((H : ℤ) - 4))]]
  have hk0 : k = 0 := by
    rcases lt_trichotomy k 0 with h | h | h
    · nlinarith [hb.1]
    · exact h
    · nlinarith [hb.2]
  have : a - b = 0 := by rw [hk, hk0, mul_zero]
  linarith

/-- A smaller value congruent mod `H` is at least `H` below. -/
theorem window_block (H : ℕ) (a b : ℤ) (hH : (0 : ℤ) < H)
    (hmod : a % (H : ℤ) = b % (H : ℤ)) (hlt : a < b) : a ≤ b - H := by
  have hdvd : (H : ℤ) ∣ (b - a) := by
    have h0 : (b - a) % (H : ℤ) = 0 := by
      rw [Int.sub_emod, hmod, sub_self, Int.zero_emod]
    exact Int.dvd_of_emod_eq_zero h0
  obtain ⟨k, hk⟩ := hdvd
  have hk1 : 1 ≤ k := by
    by_contra hk1
    push_neg at hk1
    have : k ≤ 0 := by omega
    nlinarith [hk ▸ (by linarith : (0 : ℤ) < b - a)]
  nlinarith [hk ▸ (le_refl (b - a))]

/-- A duplicate-free list of vertices below `n` avoiding `src < n` has at
most `n - 1` elements. -/
theorem owners_card (n src : ℕ) (hsrc : src < n) (l : List ℕ)
    (hnd : l.Nodup) (hlt : ∀ x ∈ l, x < n) (hne : ∀ x ∈ l, x ≠ src) :
    l.length ≤ n - 1 := by
  have hsub : l.toFinset ⊆ (Finset.range n).erase src := by
    intro x hx
    rw [List.mem_toFinset] at hx
    exact Finset.mem_erase.mpr ⟨hne x hx, Finset.mem_range.mpr (hlt x hx)⟩
  have hcard := Finset.card_le_card hsub
  rw [List.toFinset_card_of_nodup hnd] at hcard
  rw [Finset.card_erase_of_mem (Finset.mem_range.mpr hsrc), Finset.card_range] at hcard
  exact hcard

/-- Locate the unique live cell of a live vertex. -/
theorem live_cell (g : Graph) (δ : ℚ) (H G : ℕ) (dist : ℕ → Dist)
    (pos : ℕ → ℤ) (s : ℕ) (cv : CircularVector ℤ) (L : List CellG)
    (hso : slotOK g δ H G dist pos s cv L) (x : ℕ)
    (hmem : (x, (none : Option ℤ)) ∈ L) :
    ∃ p : Fin L.length, L.get p = (x, (none : Option ℤ)) ∧
      cv.data p = (x : ℤ) ∧ x < g.n ∧ dist x ≠ ⊤ ∧
      BV δ (dist x) % (H : ℤ) = (s : ℤ) ∧ pos x = (p : ℤ) ∧
      (G : ℤ) ≤ BV δ (dist x) ∧ BV δ (dist x) ≤ (G : ℤ) + (H : ℤ) - 4 := by
  obtain ⟨p, hp⟩ := List.get_of_mem hmem
  have hcell := hso.2.2.2.1 p p.isLt
  rw [show (⟨(p : ℕ), p.isLt⟩ : Fin L.length) = p from rfl, hp] at hcell
  exact ⟨p, hp, hcell⟩

/-- Locate a tombstone cell. -/
theorem dead_cell (g : Graph) (δ : ℚ) (H G : ℕ) (dist : ℕ → Dist)
    (pos : ℕ → ℤ) (s : ℕ) (cv : CircularVector ℤ) (L : List CellG)
    (hso : slotOK g δ H G dist pos s cv L) (x : ℕ) (b : ℤ)
    (hmem : (x, some b) ∈ L) :
    x < g.n ∧ dist x ≠ ⊤ ∧ b % (H : ℤ) = (s : ℤ) ∧
    BV δ (dist x) < b ∧ b ≤ (G : ℤ) + (H : ℤ) - 4 := by
  obtain ⟨p, hp⟩ := List.get_of_mem hmem
  have hcell := hso.2.2.2.1 p p.isLt
  rw [show (⟨(p : ℕ), p.isLt⟩ : Fin L.length) = p from rfl, hp] at hcell
  exact ⟨hcell.2.1, hcell.2.2.1, hcell.2.2.2.1, hcell.2.2.2.2⟩

theorem mem_of_mem_set {α : Type} (l : List α) (i : ℕ) (b a : α)
    (h : a ∈ l.set i b) : a ∈ l ∨ a = b := by
  obtain ⟨j, hj, hget⟩ := List.mem_iff_getElem.mp h
  rw [List.length_set] at hj
  rw [List.getElem_set] at hget
  by_cases hij : i = j
  · rw [if_pos hij] at hget
    exact Or.inr hget.symm
  · rw [if_neg hij] at hget
    exact Or.inl (hget ▸ List.getElem_mem hj)

theorem mem_set_of_mem {α : Type} (l : List α) (i : ℕ) (b a : α)
    (ha : a ∈ l) (hne : ∀ h : i < l.length, l[i] ≠ a) : a ∈ l.set i b := by
  obtain ⟨j, hj, hget⟩ := List.mem_iff_getElem.mp ha
  refine List.mem_iff_getElem.mpr ⟨j, by rw [List.length_set]; exact hj, ?_⟩
  rw [List.getElem_set, if_neg ?_]
  · exact hget
  · intro hij
    exact hne (hij ▸ hj) (hij ▸ hget)

/-- `push` on a gap-free slot with room: the returned index is the tail,
the value lands at the tail, and the tail advances by one without
wrapping. -/
theorem push_spec (cv : CircularVector ℤ) (x : ℤ) (n : ℕ)
    (hcap : cv.capacity = n) (hh : cv.head = 0) (ht : cv.tail + 1 < n) :
    (cv.push x).1 = cv.tail ∧
    (cv.push x).2.data = Function.update cv.data cv.tail x ∧
    (cv.push x).2.head = 0 ∧ (cv.push x).2.tail = cv.tail + 1 ∧
    (cv.push x).2.capacity = n := by
  unfold CircularVector.push
  refine ⟨?_, rfl, hh, ?_, hcap⟩
  · dsimp only
    rw [if_pos (by omega), hh]
    omega
  · dsimp only
    rw [hcap, Nat.mod_eq_of_lt ht]

/-- `set` on a gap-free slot with an in-range cell index writes that cell
directly. -/
theorem set_spec (cv : CircularVector ℤ) (p : ℕ) (y : ℤ) (n : ℕ)
    (hcap : cv.capacity = n) (hh : cv.head = 0) (hp : p < n) :
    (cv.set p y).data = Function.update cv.data p y ∧
    (cv.set p y).head = 0 ∧ (cv.set p y).tail = cv.tail ∧
    (cv.set p y).capacity = n := by
  unfold CircularVector.set
  refine ⟨?_, hh, rfl, hcap⟩
  rw [hh, Nat.zero_add, hcap, Nat.mod_eq_of_lt hp]

/-- A slot is untouched by lowering the distance of a vertex that keeps
its bucket value (or has no live cell here) and whose position entry may
change only if it owns no cell here at all. -/
theorem slotOK_update_keep (g : Graph) (δ : ℚ) (H G : ℕ) (dist : ℕ → Dist)
    (pos : ℕ → ℤ) (s : ℕ) (cv : CircularVector ℤ) (L : List CellG)
    (hso : slotOK g δ H G dist pos s cv L) (v : ℕ) (q : ℚ)
    (hkeep : BV δ ((q : ℚ) : Dist) = BV δ (dist v)) :
    slotOK g δ H G (Function.update dist v ((q : ℚ) : Dist)) pos s cv L := by
  obtain ⟨hcap, hh, ht, hcells, hnd⟩ := hso
  refine ⟨hcap, hh, ht, ?_, hnd⟩
  intro p hp
  have hcell := hcells p hp
  rcases hLp : L.get ⟨p, hp⟩ with ⟨x, bo⟩
  rw [hLp] at hcell
  rcases eq_or_ne x v with rfl | hxv
  · rcases bo with _ | b
    · obtain ⟨h1, h2, _, h4, h5, h6, h7⟩ := hcell
      exact ⟨h1, h2, by rw [Function.update_same]; exact WithTop.coe_ne_top,
        by rw [Function.update_same, hkeep]; exact h4, h5,
        by rw [Function.update_same, hkeep]; exact h6,
        by rw [Function.update_same, hkeep]; exact h7⟩
    · obtain ⟨h1, h2, _, h4, h5, h6⟩ := hcell
      exact ⟨h1, h2, by rw [Function.update_same]; exact WithTop.coe_ne_top, h4,
        by rw [Function.update_same, hkeep]; exact h5, h6⟩
  · rcases bo with _ | b
    · obtain ⟨h1, h2, h3, h4, h5, h6, h7⟩ := hcell
      exact ⟨h1, h2, by rwa [Function.update_noteq hxv],
        by rwa [Function.update_noteq hxv], h5,
        by rwa [Function.update_noteq hxv], by rwa [Function.update_noteq hxv]⟩
    · obtain ⟨h1, h2, h3, h4, h5, h6⟩ := hcell
      exact ⟨h1, h2, by rwa [Function.update_noteq hxv], h4,
        by rwa [Function.update_noteq hxv], h6⟩

/-- A slot holding no live cell of `v` is untouched by lowering `v`'s
distance (bucket value non-increasing) and rewriting `v`'s position. -/
theorem slotOK_update_away (g : Graph) (δ : ℚ) (H G : ℕ) (dist : ℕ → Dist)
    (pos : ℕ → ℤ) (s : ℕ) (cv : CircularVector ℤ) (L : List CellG)
    (hso : slotOK g δ H G dist pos s cv L) (v : ℕ) (q : ℚ) (t : ℤ)
    (hdead : ∀ b : ℤ, (v, some b) ∈ L → BV δ ((q : ℚ) : Dist) < b)
    (hnl : (v, (none : Option ℤ)) ∉ L) :
    slotOK g δ H G (Function.update dist v ((q : ℚ) : Dist))
      (Function.update pos v t) s cv L := by
  obtain ⟨hcap, hh, ht, hcells, hnd⟩ := hso
  refine ⟨hcap, hh, ht, ?_, hnd⟩
  intro p hp
  have hcell := hcells p hp
  rcases hLp : L.get ⟨p, hp⟩ with ⟨x, bo⟩
  rw [hLp] at hcell
  rcases eq_or_ne x v with rfl | hxv
  · rcases bo with _ | b
    · exact absurd (hLp ▸ L.get_mem p hp) hnl
    · obtain ⟨h1, h2, _, h4, h5, h6⟩ := hcell
      exact ⟨h1, h2, by rw [Function.update_same]; exact WithTop.coe_ne_top, h4,
        by rw [Function.update_same]; exact hdead b (hLp ▸ L.get_mem p hp), h6⟩
  · rcases bo with _ | b
    · obtain ⟨h1, h2, h3, h4, h5, h6, h7⟩ := hcell
      exact ⟨h1, h2, by rwa [Function.update_noteq hxv],
        by rwa [Function.update_noteq hxv],
        by rwa [Function.update_noteq hxv],
        by rwa [Function.update_noteq hxv], by rwa [Function.update_noteq hxv]⟩
    · obtain ⟨h1, h2, h3, h4, h5, h6⟩ := hcell
      exact ⟨h1, h2, by rwa [Function.update_noteq hxv], h4,
        by rwa [Function.update_noteq hxv], h6⟩

theorem set_self_eq {α : Type} (l : List α) (i : ℕ) (a : α)
    (ha : ∀ h : i < l.length, l[i] = a) : l.set i a = l := by
  apply List.ext_getElem (by rw [List.length_set])
  intro j h1 h2
  rw [List.getElem_set]
  by_cases hij : i = j
  · rw [if_pos hij]
    subst hij
    exact (ha h2).symm
  · rw [if_neg hij]

/-- Owners are unique positions in a slot. -/
theorem owner_unique (L : List CellG) (hnd : (L.map Prod.fst).Nodup)
    (p p' : ℕ) (hp : p < L.length) (hp' : p' < L.length)
    (h : (L[p]).1 = (L[p']).1) : p = p' := by
  have hq : p < (L.map Prod.fst).length := by
    rw [List.length_map]
    exact hp
  have hq' : p' < (L.map Prod.fst).length := by
    rw [List.length_map]
    exact hp'
  have h1 : (L.map Prod.fst)[p] = (L.map Prod.fst)[p'] := by
    rw [List.getElem_map, List.getElem_map]
    exact h
  exact hnd.getElem_inj_iff.mp h1

/-- Tombstoning the live cell of `v` (which moves to a strictly smaller
bucket value) keeps the slot valid, with the cell replaced by a ghost
tombstone recording `v`'s old bucket value. -/
theorem slotOK_tombstone (g : Graph) (δ : ℚ) (H G : ℕ) (dist : ℕ → Dist)
    (pos : ℕ → ℤ) (sv : ℕ) (cv : CircularVector ℤ) (L : List CellG)
    (hso : slotOK g δ H G dist pos sv cv L) (v : ℕ) (q : ℚ) (t : ℤ)
    (pidx : ℕ) (hpidx : pidx < L.length)
    (hget : L[pidx] = ((v, none) : CellG))
    (hroom : L.length ≤ g.n - 1) (hn0 : 0 < g.n)
    (hlt : BV δ ((q : ℚ) : Dist) < BV δ (dist v)) :
    slotOK g δ H G (Function.update dist v ((q : ℚ) : Dist))
      (Function.update pos v t) sv (cv.set pidx (-1))
      (L.set pidx (v, some (BV δ (dist v)))) := by
  obtain ⟨hcap, hh, ht, hcells, hnd⟩ := hso
  have hvcell := hcells pidx hpidx
  rw [List.get_eq_getElem, hget] at hvcell
  obtain ⟨hdata, hvn, hfin, hmod, hpos, hlo, hhi⟩ := hvcell
  have hsp := set_spec cv pidx (-1) g.n hcap hh (by omega)
  refine ⟨hsp.2.2.2, hsp.2.1, by rw [hsp.2.2.1, ht, List.length_set], ?_, ?_⟩
  · intro p hp
    rw [List.length_set] at hp
    rw [List.get_eq_getElem, List.getElem_set]
    by_cases hpp : pidx = p
    · rw [if_pos hpp]
      subst hpp
      refine ⟨by rw [hsp.1, Function.update_same], hvn,
        by rw [Function.update_same]; exact WithTop.coe_ne_top, hmod, ?_, hhi⟩
      rw [Function.update_same]
      exact hlt
    · rw [if_neg hpp]
      have hcell := hcells p hp
      rw [List.get_eq_getElem] at hcell
      have hxv : (L[p]).1 ≠ v := by
        intro hx
        exact hpp (owner_unique L hnd pidx p hpidx hp (by rw [hget]; exact hx.symm))
      rcases hLp : L[p] with ⟨x, bo⟩
      rw [hLp] at hcell hxv
      have hxv' : x ≠ v := hxv
      rcases bo with _ | b
      · obtain ⟨h1, h2, h3, h4, h5, h6, h7⟩ := hcell
        exact ⟨by rw [hsp.1, Function.update_noteq (Ne.symm hpp)]; exact h1, h2,
          by rwa [Function.update_noteq hxv'],
          by rwa [Function.update_noteq hxv'],
          by rwa [Function.update_noteq hxv'],
          by rwa [Function.update_noteq hxv'],
          by rwa [Function.update_noteq hxv']⟩
      · obtain ⟨h1, h2, h3, h4, h5, h6⟩ := hcell
        exact ⟨by rw [hsp.1, Function.update_noteq (Ne.symm hpp)]; exact h1, h2,
          by rwa [Function.update_noteq hxv'], h4,
          by rwa [Function.update_noteq hxv'], h6⟩
  · rw [List.map_set]
    rw [set_self_eq]
    · exact hnd
    · intro h
      rw [List.getElem_map]
      have h2 : (L[pidx]).1 = v := congrArg Prod.fst hget
      exact h2

/-- Pushing `v` into a slot holding no cell of `v`, with room, appends a
valid live cell and returns the cell index. -/
theorem slotOK_push (g : Graph) (δ : ℚ) (H G : ℕ) (dist : ℕ → Dist)
    (pos : ℕ → ℤ) (s : ℕ) (cv : CircularVector ℤ) (L : List CellG)
    (hso : slotOK g δ H G dist pos s cv L) (v : ℕ) (q : ℚ)
    (hnov : ∀ ci ∈ L, ci.1 ≠ v)
    (hroom : L.length + 1 < g.n) (hvn : v < g.n)
    (hmod : BV δ ((q : ℚ) : Dist) % (H : ℤ) = (s : ℤ))
    (hlo : (G : ℤ) ≤ BV δ ((q : ℚ) : Dist))
    (hhi : BV δ ((q : ℚ) : Dist) ≤ (G : ℤ) + (H : ℤ) - 4) :
    slotOK g δ H G (Function.update dist v ((q : ℚ) : Dist))
      (Function.update pos v (L.length : ℤ)) s ((cv.push (v : ℤ)).2)
      (L ++ [((v, none) : CellG)]) ∧ (cv.push (v : ℤ)).1 = L.length := by
  obtain ⟨hcap, hh, ht, hcells, hnd⟩ := hso
  have hps := push_spec cv (v : ℤ) g.n hcap hh (by omega)
  refine ⟨⟨hps.2.2.2.2, hps.2.2.1, by rw [hps.2.2.2.1, ht, List.length_append]; rfl,
    ?_, ?_⟩, by rw [hps.1, ht]⟩
  · intro p hp
    rw [List.length_append] at hp
    rw [List.get_eq_getElem]
    by_cases hpl : p < L.length
    · rw [List.getElem_append_left hpl]
      have hcell := hcells p hpl
      rw [List.get_eq_getElem] at hcell
      rcases hLp : L[p] with ⟨x, bo⟩
      rw [hLp] at hcell
      have hxv : x ≠ v := by
        have := hnov (x, bo) (hLp ▸ List.getElem_mem hpl)
        exact this
      rcases bo with _ | b
      · obtain ⟨h1, h2, h3, h4, h5, h6, h7⟩ := hcell
        refine ⟨?_, h2, by rwa [Function.update_noteq hxv],
          by rwa [Function.update_noteq hxv],
          by rwa [Function.update_noteq hxv],
          by rwa [Function.update_noteq hxv],
          by rwa [Function.update_noteq hxv]⟩
        rw [hps.2.1, Function.update_noteq (by omega)]
        exact h1
      · obtain ⟨h1, h2, h3, h4, h5, h6⟩ := hcell
        refine ⟨?_, h2, by rwa [Function.update_noteq hxv], h4,
          by rwa [Function.update_noteq hxv], h6⟩
        rw [hps.2.1, Function.update_noteq (by omega)]
        exact h1
    · have hpl' : p = L.length := by
        simp only [List.length_singleton] at hp
        omega
      subst hpl'
      rw [List.getElem_concat_length _ _ _ rfl]
      refine ⟨?_, hvn, by rw [Function.update_same]; exact WithTop.coe_ne_top,
        by rw [Function.update_same]; exact hmod,
        by rw [Function.update_same], by rw [Function.update_same]; exact hlo,
        by rw [Function.update_same]; exact hhi⟩
      rw [hps.2.1, ht, Function.update_same]
  · rw [List.map_append]
    rw [List.nodup_append]
    refine ⟨hnd, List.nodup_singleton _, ?_⟩
    intro a ha hb
    simp only [List.map_cons, List.map_nil, List.mem_singleton] at hb
    subst hb
    obtain ⟨ci, hci, hfst⟩ := List.mem_map.mp ha
    exact hnov ci hci hfst

/-- Every described cell's owner is a finite below-`n` vertex. -/
theorem cell_facts (g : Graph) (δ : ℚ) (H G : ℕ) (dist : ℕ → Dist)
    (pos : ℕ → ℤ) (s : ℕ) (cv : CircularVector ℤ) (L : List CellG)
    (hso : slotOK g δ H G dist pos s cv L) :
    ∀ ci ∈ L, ci.1 < g.n ∧ dist ci.1 ≠ ⊤ := by
  intro ci hci
  obtain ⟨p, hp⟩ := List.get_of_mem hci
  have hcell := hso.2.2.2.1 p p.isLt
  rw [show (⟨(p : ℕ), p.isLt⟩ : Fin L.length) = p from rfl, hp] at hcell
  rcases ci with ⟨x, _ | b⟩
  · exact ⟨hcell.2.1, hcell.2.2.1⟩
  · exact ⟨hcell.2.1, hcell.2.2.1⟩

theorem getBucket_top (δ : ℚ) (H : ℕ) : getBucket δ H (⊤ : Dist) = -1 := by
  unfold getBucket
  rw [if_pos rfl]

theorem listSet_getD_ne (l : List (CircularVector ℤ)) (i j : ℕ) (x : CircularVector ℤ)
    (h : i ≠ j) (d : CircularVector ℤ) : (l.set i x).getD j d = l.getD j d := by
  simp [List.getD_eq_getElem?_getD, List.getElem?_set, h]

theorem listSet_getD_self (l : List (CircularVector ℤ)) (i : ℕ) (x : CircularVector ℤ)
    (h : i < l.length) (d : CircularVector ℤ) : (l.set i x).getD i d = x := by
  simp [List.getD_eq_getElem?_getD, List.getElem?_set, h]

/-- The full effect contract of one `relax` call against the ghost cell
lists: `c` is the incoming core, `cp` the outgoing one, `LS`/`LS'` the
ghost lists before and after. -/
def StepOut (g : Graph) (δ : ℚ) (src H G v : ℕ) (c : Core) (cp : Core)
    (LS LS' : ℕ → List CellG) : Prop :=
  DistInv g src cp.dist ∧
  cp.buckets.length = H ∧
  (∀ s, s < H → slotOK g δ H G cp.dist cp.pos s (cp.buckets.getD s cvD) (LS' s)) ∧
  (∀ s, s < H → ∀ ci ∈ LS' s, ci.1 ≠ src) ∧
  (∀ x, x ≠ v → (LiveIn LS' H x ↔ LiveIn LS H x)) ∧
  (∀ x, cp.dist x ≠ c.dist x → x = v ∧ LiveIn LS' H v) ∧
  (∀ x, cp.dist x ≤ c.dist x) ∧
  ((∀ x, cp.dist x = c.dist x) → cp = c ∧ LS' = LS) ∧
  (∀ ci ∈ LS' (G % H), ci ∈ LS (G % H) ∨ ci = ((v, none) : CellG))

/-- The write-and-push shape of `relax` when the written vertex owns no
cell in its target slot and no live cell anywhere: the target slot gains
`v`'s fresh live cell. -/
theorem stepOut_push (g : Graph) (δ : ℚ) (src H G v : ℕ) (c : Core)
    (LS : ℕ → List CellG) (q : ℚ) (ns : ℕ)
    (hsrc : src < g.n) (hvn : v < g.n) (hvsrc : v ≠ src)
    (Hdi' : DistInv g src (Function.update c.dist v ((q : ℚ) : Dist)))
    (Hlen : c.buckets.length = H)
    (Hslots : ∀ s, s < H →
      slotOK g δ H G c.dist c.pos s (c.buckets.getD s cvD) (LS s))
    (Hnosrc : ∀ s, s < H → ∀ ci ∈ LS s, ci.1 ≠ src)
    (himp : ((q : ℚ) : Dist) < c.dist v)
    (hnl : ∀ s, s < H → (v, (none : Option ℤ)) ∉ LS s)
    (hdead : ∀ s, s < H → ∀ b : ℤ, (v, some b) ∈ LS s → BV δ ((q : ℚ) : Dist) < b)
    (hnov : ∀ ci ∈ LS ns, ci.1 ≠ v)
    (hns : ns < H)
    (hmod : BV δ ((q : ℚ) : Dist) % (H : ℤ) = (ns : ℤ))
    (hqlo : (G : ℤ) ≤ BV δ ((q : ℚ) : Dist))
    (hqhi : BV δ ((q : ℚ) : Dist) ≤ (G : ℤ) + (H : ℤ) - 4) :
    StepOut g δ src H G v c
      { dist := Function.update c.dist v ((q : ℚ) : Dist)
        pos := Function.update c.pos v
          ((((c.buckets.getD ns cvD).push ((v : ℕ) : ℤ)).1 : ℤ))
        buckets := c.buckets.set ns
          ((c.buckets.getD ns cvD).push ((v : ℕ) : ℤ)).2 }
      LS (Function.update LS ns (LS ns ++ [((v, none) : CellG)])) := by
  have hnd := (Hslots ns hns).2.2.2.2
  have hcf := cell_facts g δ H G c.dist c.pos ns _ _ (Hslots ns hns)
  have h1 : ((LS ns).map Prod.fst ++ [v]).Nodup := by
    rw [List.nodup_append]
    refine ⟨hnd, List.nodup_singleton _, ?_⟩
    intro a ha hb
    rw [List.mem_singleton] at hb
    subst hb
    obtain ⟨ci, hci, hfst⟩ := List.mem_map.mp ha
    exact hnov ci hci hfst
  have h2 : ∀ x ∈ (LS ns).map Prod.fst ++ [v], x < g.n := by
    intro x hx
    rcases List.mem_append.mp hx with hx | hx
    · obtain ⟨ci, hci, hfst⟩ := List.mem_map.mp hx
      exact hfst ▸ (hcf ci hci).1
    · rw [List.mem_singleton] at hx
      exact hx ▸ hvn
  have h3 : ∀ x ∈ (LS ns).map Prod.fst ++ [v], x ≠ src := by
    intro x hx
    rcases List.mem_append.mp hx with hx | hx
    · obtain ⟨ci, hci, hfst⟩ := List.mem_map.mp hx
      exact hfst ▸ Hnosrc ns hns ci hci
    · rw [List.mem_singleton] at hx
      exact hx ▸ hvsrc
  have hcard := owners_card g.n src hsrc _ h1 h2 h3
  rw [List.length_append, List.length_map] at hcard
  simp only [List.length_singleton] at hcard
  have hroom : (LS ns).length + 1 < g.n := by omega
  have hps := slotOK_push g δ H G c.dist c.pos ns (c.buckets.getD ns cvD)
    (LS ns) (Hslots ns hns) v q hnov hroom hvn hmod hqlo hqhi
  refine ⟨Hdi', by dsimp only; rw [List.length_set]; exact Hlen,
    ?_, ?_, ?_, ?_, ?_, ?_, ?_⟩
  · intro s hs
    dsimp only
    by_cases hsns : s = ns
    · subst hsns
      rw [listSet_getD_self _ _ _ (by rw [Hlen]; exact hs) _,
        Function.update_same, hps.2]
      exact hps.1
    · rw [listSet_getD_ne _ _ _ _ (fun h => hsns h.symm) _,
        Function.update_noteq hsns]
      exact slotOK_update_away g δ H G c.dist c.pos s _ (LS s) (Hslots s hs)
        v q _ (hdead s hs) (hnl s hs)
  · intro s hs ci hci
    by_cases hsns : s = ns
    · subst hsns
      rw [Function.update_same] at hci
      rcases List.mem_append.mp hci with h | h
      · exact Hnosrc s hs ci h
      · rw [List.mem_singleton] at h
        subst h
        exact hvsrc
    · rw [Function.update_noteq hsns] at hci
      exact Hnosrc s hs ci hci
  · intro x hxv
    constructor
    · rintro ⟨s, hs, hmem⟩
      by_cases hsns : s = ns
      · subst hsns
        rw [Function.update_same] at hmem
        rcases List.mem_append.mp hmem with h | h
        · exact ⟨s, hs, h⟩
        · rw [List.mem_singleton] at h
          exact absurd (congrArg Prod.fst h) hxv
      · rw [Function.update_noteq hsns] at hmem
        exact ⟨s, hs, hmem⟩
    · rintro ⟨s, hs, hmem⟩
      by_cases hsns : s = ns
      · subst hsns
        exact ⟨s, hs, by
          rw [Function.update_same]; exact List.mem_append_left _ hmem⟩
      · exact ⟨s, hs, by rw [Function.update_noteq hsns]; exact hmem⟩
  · intro x hch
    dsimp only at hch
    rcases eq_or_ne x v with rfl | hxv
    · refine ⟨rfl, ns, hns, ?_⟩
      rw [Function.update_same]
      exact List.mem_append_right _ (List.mem_singleton_self _)
    · rw [Function.update_noteq hxv] at hch
      exact absurd rfl hch
  · intro x
    dsimp only
    rcases eq_or_ne x v with rfl | hxv
    · rw [Function.update_same]
      exact le_of_lt himp
    · rw [Function.update_noteq hxv]
  · intro hall
    exfalso
    have hv := hall v
    dsimp only at hv
    rw [Function.update_same] at hv
    exact absurd (hv ▸ himp) (lt_irrefl _)
  · intro ci hmem
    by_cases hgns : G % H = ns
    · rw [hgns, Function.update_same] at hmem
      rcases List.mem_append.mp hmem with h | h
      · exact Or.inl (by rw [hgns]; exact h)
      · rw [List.mem_singleton] at h
        exact Or.inr h
    · rw [Function.update_noteq hgns] at hmem
      exact Or.inl hmem

/-- The move shape of `relax`: the written vertex's live cell (in a slot
other than the current one) is tombstoned and a fresh live cell is pushed
into the strictly lower target slot. -/
theorem stepOut_move (g : Graph) (δ : ℚ) (src H G v : ℕ) (c : Core)
    (LS : ℕ → List CellG) (q : ℚ) (sv ns : ℕ)
    (hH : 5 ≤ H)
    (hsrc : src < g.n) (hvn : v < g.n) (hvsrc : v ≠ src)
    (Hdi' : DistInv g src (Function.update c.dist v ((q : ℚ) : Dist)))
    (Hlen : c.buckets.length = H)
    (Hslots : ∀ s, s < H →
      slotOK g δ H G c.dist c.pos s (c.buckets.getD s cvD) (LS s))
    (Hnosrc : ∀ s, s < H → ∀ ci ∈ LS s, ci.1 ≠ src)
    (himp : ((q : ℚ) : Dist) < c.dist v)
    (hmem : (v, (none : Option ℤ)) ∈ LS sv)
    (hsv : sv < H) (hsvcg : sv ≠ G % H) (hsvns : sv ≠ ns)
    (hBVlt : BV δ ((q : ℚ) : Dist) < BV δ (c.dist v))
    (hns : ns < H)
    (hmod : BV δ ((q : ℚ) : Dist) % (H : ℤ) = (ns : ℤ))
    (hqlo : (G : ℤ) ≤ BV δ ((q : ℚ) : Dist))
    (hqhi : BV δ ((q : ℚ) : Dist) ≤ (G : ℤ) + (H : ℤ) - 4) :
    StepOut g δ src H G v c
      { dist := Function.update c.dist v ((q : ℚ) : Dist)
        pos := Function.update c.pos v
          ((((c.buckets.set sv ((c.buckets.getD sv cvD).set (c.pos v).toNat
              (-1))).getD ns cvD).push ((v : ℕ) : ℤ)).1 : ℤ)
        buckets := (c.buckets.set sv ((c.buckets.getD sv cvD).set
            (c.pos v).toNat (-1))).set ns
          (((c.buckets.set sv ((c.buckets.getD sv cvD).set (c.pos v).toNat
              (-1))).getD ns cvD).push ((v : ℕ) : ℤ)).2 }
      LS
      (Function.update (Function.update LS sv
          ((LS sv).set (c.pos v).toNat ((v, some (BV δ (c.dist v))) : CellG)))
        ns (LS ns ++ [((v, none) : CellG)])) := by
  have hBVle : BV δ ((q : ℚ) : Dist) ≤ BV δ (c.dist v) := le_of_lt hBVlt
  obtain ⟨pidx, hget, hdata, hvn', hfin, hmodsv, hposv, hlosv, hhisv⟩ :=
    live_cell g δ H G c.dist c.pos sv _ (LS sv) (Hslots sv hsv) v hmem
  have hpt : (c.pos v).toNat = (pidx : ℕ) := by rw [hposv]; rfl
  have hb1 : (c.buckets.set sv ((c.buckets.getD sv cvD).set (c.pos v).toNat
      (-1))).getD ns cvD = c.buckets.getD ns cvD :=
    listSet_getD_ne _ _ _ _ hsvns _
  have hnl_all : ∀ s, s < H → s ≠ sv → (v, (none : Option ℤ)) ∉ LS s := by
    intro s hs hssv hmem'
    obtain ⟨_, _, _, _, _, hmods, _, _, _⟩ :=
      live_cell g δ H G c.dist c.pos s _ (LS s) (Hslots s hs) v hmem'
    apply hssv
    have : (s : ℤ) = (sv : ℤ) := by rw [← hmods, hmodsv]
    exact_mod_cast this
  have hdead_all : ∀ s, s < H → ∀ b : ℤ, (v, some b) ∈ LS s →
      BV δ ((q : ℚ) : Dist) < b := by
    intro s hs b hmem'
    have hd := dead_cell g δ H G c.dist c.pos s _ (LS s) (Hslots s hs) v b hmem'
    exact lt_of_le_of_lt hBVle hd.2.2.2.1
  have hnov_ns : ∀ ci ∈ LS ns, ci.1 ≠ v := by
    intro ci hci hciv
    rcases ci with ⟨x, bo⟩
    rcases bo with _ | b
    · exact hnl_all ns hns (fun h => hsvns h.symm) (hciv ▸ hci)
    · have hci' : (v, some b) ∈ LS ns := hciv ▸ hci
      have hd := dead_cell g δ H G c.dist c.pos ns _ (LS ns) (Hslots ns hns)
        v b hci'
      have hblo : (G : ℤ) < b := lt_of_le_of_lt (le_trans hqlo hBVle) hd.2.2.2.1
      have heq : BV δ ((q : ℚ) : Dist) = b :=
        window_eq H (G : ℤ) _ b (by exact_mod_cast hH) hqlo hqhi
          (le_of_lt hblo) hd.2.2.2.2 (by rw [hmod, hd.2.2.1])
    -- the ghost blocks re-entry: the tombstone's recorded value exceeds
    -- the new bucket value, yet window congruence would force equality
      have : BV δ ((q : ℚ) : Dist) < b := lt_of_le_of_lt hBVle hd.2.2.2.1
      omega
  have hcf_ns := cell_facts g δ H G c.dist c.pos ns _ _ (Hslots ns hns)
  have hnd_ns := (Hslots ns hns).2.2.2.2
  have h1 : ((LS ns).map Prod.fst ++ [v]).Nodup := by
    rw [List.nodup_append]
    refine ⟨hnd_ns, List.nodup_singleton _, ?_⟩
    intro a ha hb
    rw [List.mem_singleton] at hb
    subst hb
    obtain ⟨ci, hci, hfst⟩ := List.mem_map.mp ha
    exact hnov_ns ci hci hfst
  have h2 : ∀ x ∈ (LS ns).map Prod.fst ++ [v], x < g.n := by
    intro x hx
    rcases List.mem_append.mp hx with hx | hx
    · obtain ⟨ci, hci, hfst⟩ := List.mem_map.mp hx
      exact hfst ▸ (hcf_ns ci hci).1
    · rw [List.mem_singleton] at hx
      exact hx ▸ hvn
  have h3 : ∀ x ∈ (LS ns).map Prod.fst ++ [v], x ≠ src := by
    intro x hx
    rcases List.mem_append.mp hx with hx | hx
    · obtain ⟨ci, hci, hfst⟩ := List.mem_map.mp hx
      exact hfst ▸ Hnosrc ns hns ci hci
    · rw [List.mem_singleton] at hx
      exact hx ▸ hvsrc
  have hcard := owners_card g.n src hsrc _ h1 h2 h3
  rw [List.length_append, List.length_map] at hcard
  simp only [List.length_singleton] at hcard
  have hroom_ns : (LS ns).length + 1 < g.n := by omega
  have hps := slotOK_push g δ H G c.dist c.pos ns (c.buckets.getD ns cvD)
    (LS ns) (Hslots ns hns) v q hnov_ns hroom_ns hvn hmod hqlo hqhi
  have hcf_sv := cell_facts g δ H G c.dist c.pos sv _ _ (Hslots sv hsv)
  have hcard_sv := owners_card g.n src hsrc ((LS sv).map Prod.fst)
    (Hslots sv hsv).2.2.2.2
    (by intro x hx
        obtain ⟨ci, hci, hfst⟩ := List.mem_map.mp hx
        exact hfst ▸ (hcf_sv ci hci).1)
    (by intro x hx
        obtain ⟨ci, hci, hfst⟩ := List.mem_map.mp hx
        exact hfst ▸ Hnosrc sv hsv ci hci)
  rw [List.length_map] at hcard_sv
  have hn0 : 0 < g.n := lt_of_le_of_lt (Nat.zero_le _) hsrc
  have hts := slotOK_tombstone g δ H G c.dist c.pos sv
    (c.buckets.getD sv cvD) (LS sv) (Hslots sv hsv) v q
    ((((c.buckets.set sv ((c.buckets.getD sv cvD).set ((pidx : ℕ))
        (-1))).getD ns cvD).push ((v : ℕ) : ℤ)).1 : ℤ)
    (pidx : ℕ) pidx.isLt (by rw [← List.get_eq_getElem]; exact hget)
    hcard_sv hn0 hBVlt
  refine ⟨Hdi', by dsimp only; rw [List.length_set, List.length_set]; exact Hlen,
    ?_, ?_, ?_, ?_, ?_, ?_, ?_⟩
  · intro s hs
    dsimp only
    rcases eq_or_ne s ns with rfl | hsns
    · rw [listSet_getD_self _ _ _ (by rw [List.length_set, Hlen]; exact hs) _,
        Function.update_same, hb1, hps.2]
      exact hps.1
    · rw [listSet_getD_ne _ _ _ _ (fun h => hsns h.symm) _,
        Function.update_noteq hsns]
      rcases eq_or_ne s sv with rfl | hssv
      · rw [listSet_getD_self _ _ _ (by rw [Hlen]; exact hs) _,
          Function.update_same, hpt]
        exact hts
      · rw [listSet_getD_ne _ _ _ _ (fun h => hssv h.symm) _,
          Function.update_noteq hssv]
        exact slotOK_update_away g δ H G c.dist c.pos s _ (LS s) (Hslots s hs)
          v q _ (hdead_all s hs) (hnl_all s hs hssv)
  · intro s hs ci hci
    rcases eq_or_ne s ns with rfl | hsns
    · rw [Function.update_same] at hci
      rcases List.mem_append.mp hci with h | h
      · exact Hnosrc s hs ci h
      · rw [List.mem_singleton] at h
        subst h
        exact hvsrc
    · rw [Function.update_noteq hsns] at hci
      rcases eq_or_ne s sv with rfl | hssv
      · rw [Function.update_same] at hci
        rcases mem_of_mem_set _ _ _ _ hci with h | h
        · exact Hnosrc s hs ci h
        · subst h
          exact hvsrc
      · rw [Function.update_noteq hssv] at hci
        exact Hnosrc s hs ci hci
  · intro x hxv
    constructor
    · rintro ⟨s, hs, hm⟩
      rcases eq_or_ne s ns with rfl | hsns
      · rw [Function.update_same] at hm
        rcases List.mem_append.mp hm with h | h
        · exact ⟨s, hs, h⟩
        · rw [List.mem_singleton] at h
          exact absurd (congrArg Prod.fst h) hxv
      · rw [Function.update_noteq hsns] at hm
        rcases eq_or_ne s sv with rfl | hssv
        · rw [Function.update_same] at hm
          rcases mem_of_mem_set _ _ _ _ hm with h | h
          · exact ⟨s, hs, h⟩
          · exact absurd (congrArg Prod.snd h) (by simp)
        · rw [Function.update_noteq hssv] at hm
          exact ⟨s, hs, hm⟩
    · rintro ⟨s, hs, hm⟩
      rcases eq_or_ne s ns with rfl | hsns
      · exact ⟨s, hs, by
          rw [Function.update_same]; exact List.mem_append_left _ hm⟩
      · rcases eq_or_ne s sv with rfl | hssv
        · refine ⟨s, hs, ?_⟩
          rw [Function.update_noteq hsns, Function.update_same]
          apply mem_set_of_mem _ _ _ _ hm
          intro h hx
          apply hxv
          simp only [hpt] at hx
          rw [List.get_eq_getElem] at hget
          exact congrArg Prod.fst (hx.symm.trans hget)
        · exact ⟨s, hs, by
            rw [Function.update_noteq hsns, Function.update_noteq hssv]
            exact hm⟩
  · intro x hch
    dsimp only at hch
    rcases eq_or_ne x v with rfl | hxv
    · refine ⟨rfl, ns, hns, ?_⟩
      rw [Function.update_same]
      exact List.mem_append_right _ (List.mem_singleton_self _)
    · rw [Function.update_noteq hxv] at hch
      exact absurd rfl hch
  · intro x
    dsimp only
    rcases eq_or_ne x v with rfl | hxv
    · rw [Function.update_same]
      exact le_of_lt himp
    · rw [Function.update_noteq hxv]
  · intro hall
    exfalso
    have hv := hall v
    dsimp only at hv
    rw [Function.update_same] at hv
    exact absurd (hv ▸ himp) (lt_irrefl _)
  · intro ci hm
    by_cases hgns : G % H = ns
    · rw [hgns, Function.update_same] at hm
      rcases List.mem_append.mp hm with h | h
      · exact Or.inl (by rw [hgns]; exact h)
      · rw [List.mem_singleton] at h
        exact Or.inr h
    · rw [Function.update_noteq hgns,
        Function.update_noteq (fun h => hsvcg h.symm)] at hm
      exact Or.inl hm

/-- The in-place shape of `relax`: the written vertex keeps its bucket
value, so no slot changes. -/
theorem stepOut_keep (g : Graph) (δ : ℚ) (src H G v : ℕ) (c : Core)
    (LS : ℕ → List CellG) (q : ℚ) (sv : ℕ)
    (Hdi' : DistInv g src (Function.update c.dist v ((q : ℚ) : Dist)))
    (Hlen : c.buckets.length = H)
    (Hslots : ∀ s, s < H →
      slotOK g δ H G c.dist c.pos s (c.buckets.getD s cvD) (LS s))
    (Hnosrc : ∀ s, s < H → ∀ ci ∈ LS s, ci.1 ≠ src)
    (himp : ((q : ℚ) : Dist) < c.dist v)
    (hmem : (v, (none : Option ℤ)) ∈ LS sv) (hsv : sv < H)
    (hkeep : BV δ ((q : ℚ) : Dist) = BV δ (c.dist v)) :
    StepOut g δ src H G v c
      { dist := Function.update c.dist v ((q : ℚ) : Dist)
        pos := c.pos, buckets := c.buckets } LS LS := by
  refine ⟨Hdi', Hlen, ?_, Hnosrc, fun x _ => Iff.rfl, ?_, ?_, ?_,
    fun ci h => Or.inl h⟩
  · intro s hs
    dsimp only
    exact slotOK_update_keep g δ H G c.dist c.pos s _ (LS s) (Hslots s hs)
      v q hkeep
  · intro x hch
    dsimp only at hch
    rcases eq_or_ne x v with rfl | hxv
    · exact ⟨rfl, sv, hsv, hmem⟩
    · rw [Function.update_noteq hxv] at hch
      exact absurd rfl hch
  · intro x
    dsimp only
    rcases eq_or_ne x v with rfl | hxv
    · rw [Function.update_same]
      exact le_of_lt himp
    · rw [Function.update_noteq hxv]
  · intro hall
    exfalso
    have hv := hall v
    dsimp only at hv
    rw [Function.update_same] at hv
    exact absurd (hv ▸ himp) (lt_irrefl _)

/-! ### Monotonicity of `dist` (claim C5) -/

/-- `relax` when the drained value does not improve: only the slot drain
happens. -/
theorem relax_of_not_lt_par (δ : ℚ) (H cg : ℕ) (c : Core) (rm : ReqMap) (v : ℕ)
    (h : ¬ rm.req v < c.dist v) :
    relax δ H cg c rm v = (c, { rm with req := Function.update rm.req v ⊤ }) := by
  simp only [relax, if_neg h]

/-- `relax` on improvement: the distance entry is written with the drained
value, the slot is drained, the node buffer is untouched. -/
theorem relax_of_lt (δ : ℚ) (H cg : ℕ) (c : Core) (rm : ReqMap) (v : ℕ)
    (h : rm.req v < c.dist v) :
    (relax δ H cg c rm v).1.dist = Function.update c.dist v (rm.req v) ∧
    (relax δ H cg c rm v).2 = { rm with req := Function.update rm.req v ⊤ } := by
  simp only [relax, if_pos h]
  split <;> exact ⟨rfl, rfl⟩

theorem relax_dist_le_par (δ : ℚ) (H cg : ℕ) (c : Core) (rm : ReqMap) (v x : ℕ) :
    (relax δ H cg c rm v).1.dist x ≤ c.dist x := by
  by_cases h : rm.req v < c.dist v
  · rw [(relax_of_lt δ H cg c rm v h).1]
    rcases eq_or_ne x v with rfl | hne
    · rw [Function.update_same]; exact le_of_lt h
    · rw [Function.update_noteq hne]
  · rw [relax_of_not_lt_par δ H cg c rm v h]

/-- Every actual write to a `dist` entry by `relax` is a strict decrease,
targets the drained vertex, and stores the drained value. -/
theorem relax_dist_strict_par (δ : ℚ) (H cg : ℕ) (c : Core) (rm : ReqMap) (v x : ℕ)
    (hch : (relax δ H cg c rm v).1.dist x ≠ c.dist x) :
    (relax δ H cg c rm v).1.dist x < c.dist x ∧ x = v ∧
      (relax δ H cg c rm v).1.dist v = rm.req v := by
  have hle := relax_dist_le_par δ H cg c rm v x
  refine ⟨lt_of_le_of_ne hle hch, ?_⟩
  by_cases h : rm.req v < c.dist v
  · obtain ⟨hd, -⟩ := relax_of_lt δ H cg c rm v h
    rcases eq_or_ne x v with rfl | hne
    · exact ⟨rfl, by rw [hd, Function.update_same]⟩
    · exact absurd (by rw [hd, Function.update_noteq hne]) hch
  · rw [relax_of_not_lt_par δ H cg c rm v h] at hch
    exact absurd rfl hch

theorem requestEdge_dist (δ : ℚ) (st : State) (e : ℕ × ℕ × ℚ) :
    (requestEdge δ st e).dist = st.dist := by
  unfold requestEdge
  rcases e with ⟨u, v, w⟩
  dsimp only
  split
  · split <;> rfl
  · rfl

theorem requestEdge_core (δ : ℚ) (st : State) (e : ℕ × ℕ × ℚ) :
    (requestEdge δ st e).dist = st.dist ∧ (requestEdge δ st e).pos = st.pos ∧
      (requestEdge δ st e).buckets = st.buckets := by
  unfold requestEdge
  rcases e with ⟨u, v, w⟩
  dsimp only
  split
  · split <;> exact ⟨rfl, rfl, rfl⟩
  · exact ⟨rfl, rfl, rfl⟩

/-- Loop 1 does not write `dist` (request generation only fills the request
maps). -/
theorem phaseA_dist (g : Graph) (δ : ℚ) (T cg : ℕ) (st : State) :
    (phaseA g δ T cg st).dist = st.dist := by
  unfold phaseA
  dsimp only
  generalize (List.range T).flatMap _ = edges
  induction edges generalizing st with
  | nil => rfl
  | cons e es ih =>
    rw [List.foldl_cons]
    rw [show ∀ s, (es.foldl (requestEdge δ) s).dist = s.dist from fun s => by
      have := ih s; simpa using this]
    exact requestEdge_dist δ st e

/-- The relax folds of Loops 2/3 only lower `dist`. -/
theorem relaxFold_dist_le (δ : ℚ) (H cg : ℕ) (l : List ℕ) (p : Core × ReqMap) (x : ℕ) :
    (l.foldl (fun (p : Core × ReqMap) v => relax δ H cg p.1 p.2 v) p).1.dist x
      ≤ p.1.dist x := by
  induction l generalizing p with
  | nil => exact le_refl _
  | cons v vs ih =>
    rw [List.foldl_cons]
    exact le_trans (ih _) (relax_dist_le_par δ H cg p.1 p.2 v x)

theorem phaseB_dist_le (δ : ℚ) (H T cg : ℕ) (st : State) (x : ℕ) :
    (phaseB δ H T cg st).dist x ≤ st.dist x := by
  unfold phaseB
  exact relaxFold_dist_le δ H cg _ _ x

theorem phaseC_dist_le (δ : ℚ) (H T cg : ℕ) (st : State) (x : ℕ) :
    (phaseC δ H T cg st).dist x ≤ st.dist x := by
  unfold phaseC
  exact relaxFold_dist_le δ H cg _ _ x

theorem innerLoop_dist_le_par (g : Graph) (δ : ℚ) (H T cg : ℕ) (fuel : ℕ)
    (st : State) (gwb : ℕ) (st' : State) (gwb' : ℕ)
    (h : innerLoop g δ H T cg fuel st gwb = some (st', gwb')) (x : ℕ) :
    st'.dist x ≤ st.dist x := by
  induction fuel generalizing st gwb with
  | zero => simp [innerLoop] at h
  | succ n ih =>
    rw [innerLoop] at h
    split at h
    · cases h; exact le_refl _
    · refine le_trans (ih _ _ h) ?_
      have h1 := phaseB_dist_le δ H T cg (phaseA g δ T cg st) x
      rwa [phaseA_dist g δ T cg st] at h1

theorem outerLoop_dist_le_par (g : Graph) (δ : ℚ) (H T : ℕ) (fuel : ℕ)
    (cg gwb : ℕ) (st : State) (st' : State)
    (h : outerLoop g δ H T fuel cg gwb st = some st') (x : ℕ) :
    st'.dist x ≤ st.dist x := by
  induction fuel generalizing cg gwb st with
  | zero => simp [outerLoop] at h
  | succ n ih =>
    rw [outerLoop] at h
    split at h
    · cases h; exact le_refl _
    · dsimp only at h
      rcases hh : innerLoop g δ H T (if H ≤ cg then 0 else cg) (n + 1) st gwb with _ | ⟨st2, gwb2⟩
      · rw [hh] at h; cases h
      · rw [hh] at h
        refine le_trans (ih _ _ _ h) ?_
        exact le_trans (phaseC_dist_le δ H T _ st2 x)
          (innerLoop_dist_le_par g δ H T _ _ st gwb st2 gwb2 hh x)

/-! ### `add_request` facts (claim C6) -/

/-- A phase starts with all request slots `+∞` and the counter `0`. -/
def cleanReqMap : ReqMap := ⟨fun _ => ⊤, []⟩

/-- A sequence of `add_request` calls within one phase. -/
def applyRequests (dist : ℕ → Dist) (rm : ReqMap) (rs : List (ℕ × ℕ × ℚ)) : ReqMap :=
  rs.foldl (fun m r => add_request dist m r.1 r.2.1 r.2.2) rm

theorem add_request_of_top (dist : ℕ → Dist) (rm : ReqMap) (u v : ℕ) (w : ℚ)
    (h : rm.req v = ⊤) :
    add_request dist rm u v w
      = { req := Function.update rm.req v (dist u + (w : Dist)), nodes := rm.nodes ++ [v] } := by
  simp only [add_request, if_pos h]
  rw [if_neg]
  rw [Function.update_same]
  exact lt_irrefl _

theorem add_request_of_ne_top (dist : ℕ → Dist) (rm : ReqMap) (u v : ℕ) (w : ℚ)
    (h : ¬ rm.req v = ⊤) :
    add_request dist rm u v w
      = if dist u + (w : Dist) < rm.req v then
          { rm with req := Function.update rm.req v (dist u + (w : Dist)) }
        else rm := by
  simp only [add_request, if_neg h]

/-- After the call, the slot is at most `dist[u] + w`. -/
theorem add_request_req_le (dist : ℕ → Dist) (rm : ReqMap) (u v : ℕ) (w : ℚ) :
    (add_request dist rm u v w).req v ≤ dist u + (w : Dist) := by
  by_cases h : rm.req v = ⊤
  · rw [add_request_of_top dist rm u v w h]
    dsimp only
    rw [Function.update_same]
  · rw [add_request_of_ne_top dist rm u v w h]
    split
    · dsimp only
      rw [Function.update_same]
    · rename_i hlt
      exact le_of_not_lt hlt

/-- Slots only decrease under further calls. -/
theorem add_request_req_mono (dist : ℕ → Dist) (rm : ReqMap) (u v x : ℕ) (w : ℚ) :
    (add_request dist rm u v w).req x ≤ rm.req x := by
  rcases eq_or_ne x v with rfl | hne
  · by_cases h : rm.req x = ⊤
    · rw [h]; exact le_top
    · rw [add_request_of_ne_top dist rm u x w h]
      split
      · dsimp only
        rw [Function.update_same]
        rename_i hlt
        exact le_of_lt hlt
      · exact le_refl _
  · by_cases h : rm.req v = ⊤
    · rw [add_request_of_top dist rm u v w h]
      dsimp only
      rw [Function.update_noteq hne]
    · rw [add_request_of_ne_top dist rm u v w h]
      split
      · dsimp only
        rw [Function.update_noteq hne]
      · exact le_refl _

theorem applyRequests_req_mono (dist : ℕ → Dist) (rs : List (ℕ × ℕ × ℚ))
    (rm : ReqMap) (x : ℕ) :
    (applyRequests dist rm rs).req x ≤ rm.req x := by
  induction rs generalizing rm with
  | nil => exact le_refl _
  | cons r rest ih =>
    exact le_trans (ih _) (add_request_req_mono dist rm r.1 r.2.1 x r.2.2)

/-- The node buffer is appended exactly on the `+∞ → finite` transition. -/
theorem add_request_nodes (dist : ℕ → Dist) (rm : ReqMap) (u v : ℕ) (w : ℚ) :
    (add_request dist rm u v w).nodes
      = if rm.req v = ⊤ then rm.nodes ++ [v] else rm.nodes := by
  by_cases h : rm.req v = ⊤
  · rw [add_request_of_top dist rm u v w h, if_pos h]
  · rw [add_request_of_ne_top dist rm u v w h, if_neg h]
    split <;> rfl

/-- The slot becomes and stays finite exactly for requested targets (given
the finite request values occurring in a phase). -/
theorem add_request_req_top_iff (dist : ℕ → Dist) (rm : ReqMap) (u v x : ℕ) (w : ℚ)
    (hfin : dist u ≠ ⊤) :
    ((add_request dist rm u v w).req x = ⊤ ↔ rm.req x = ⊤ ∧ x ≠ v) := by
  have hd : dist u + (w : Dist) ≠ ⊤ := by
    intro hc
    rcases WithTop.add_eq_top.mp hc with h | h
    · exact hfin h
    · exact WithTop.coe_ne_top h
  by_cases h : rm.req v = ⊤
  · rw [add_request_of_top dist rm u v w h]
    dsimp only
    rcases eq_or_ne x v with rfl | hne
    · simp [Function.update_same, hd]
    · simp [Function.update_noteq hne, hne]
  · rw [add_request_of_ne_top dist rm u v w h]
    split
    · dsimp only
      rcases eq_or_ne x v with rfl | hne
      · simp [Function.update_same, hd, h]
      · simp [Function.update_noteq hne, hne]
    · rcases eq_or_ne x v with rfl | hne
      · simp [h]
      · simp [hne]

theorem applyRequests_cons (dist : ℕ → Dist) (rm : ReqMap) (r : ℕ × ℕ × ℚ)
    (rs : List (ℕ × ℕ × ℚ)) :
    applyRequests dist rm (r :: rs)
      = applyRequests dist (add_request dist rm r.1 r.2.1 r.2.2) rs := rfl

/-- The joint induction invariant for a phase: the buffer is duplicate-free
and holds exactly the finite slots, which are exactly the requested targets. -/
theorem applyRequests_inv (dist : ℕ → Dist) (rs : List (ℕ × ℕ × ℚ))
    (hfin : ∀ r ∈ rs, dist r.1 ≠ ⊤) (rm : ReqMap) (hnd : rm.nodes.Nodup)
    (hmem : ∀ x, x ∈ rm.nodes ↔ rm.req x ≠ ⊤) :
    (applyRequests dist rm rs).nodes.Nodup ∧
    (∀ x, x ∈ (applyRequests dist rm rs).nodes ↔ (applyRequests dist rm rs).req x ≠ ⊤) ∧
    (∀ x, (applyRequests dist rm rs).req x ≠ ⊤ ↔
      (rm.req x ≠ ⊤ ∨ x ∈ rs.map (fun r => r.2.1))) := by
  induction rs generalizing rm with
  | nil =>
    refine ⟨hnd, hmem, ?_⟩
    intro x
    simp [applyRequests]
  | cons r rest ih =>
    obtain ⟨u, v, w⟩ := r
    rw [applyRequests_cons]
    have hfu : dist u ≠ ⊤ := hfin ⟨u, v, w⟩ (List.mem_cons_self _ _)
    have hstep : ∀ x, (add_request dist rm u v w).req x = ⊤ ↔ rm.req x = ⊤ ∧ x ≠ v :=
      fun x => add_request_req_top_iff dist rm u v x w hfu
    have hiff : ∀ x, ((add_request dist rm u v w).req x ≠ ⊤ ↔ (rm.req x ≠ ⊤ ∨ x = v)) := by
      intro x
      rw [ne_eq, hstep x]
      push_neg
      constructor
      · intro h
        by_cases hA : rm.req x = ⊤
        · exact Or.inr (h hA)
        · exact Or.inl hA
      · rintro (h | h)
        · intro hc; exact absurd hc h
        · intro _; exact h
    have hnodes := add_request_nodes dist rm u v w
    have hnd2 : (add_request dist rm u v w).nodes.Nodup := by
      rw [hnodes]
      split
      · rename_i htop
        refine List.Nodup.append hnd (List.nodup_singleton v) ?_
        intro a ha hb
        rw [List.mem_singleton] at hb
        subst hb
        exact ((hmem a).mp ha) htop
      · exact hnd
    have hmem2 : ∀ x, x ∈ (add_request dist rm u v w).nodes ↔
        (add_request dist rm u v w).req x ≠ ⊤ := by
      intro x
      rw [hnodes, hiff x]
      split
      · rename_i htop
        rw [List.mem_append, List.mem_singleton, hmem x]
      · rename_i htop
        rw [hmem x]
        constructor
        · exact Or.inl
        · rintro (h | rfl)
          · exact h
          · exact htop
    obtain ⟨i1, i2, i3⟩ := ih (fun r hr => hfin r (List.mem_cons_of_mem _ hr))
      (add_request dist rm u v w) hnd2 hmem2
    refine ⟨i1, i2, ?_⟩
    intro x
    rw [i3 x, hiff x]
    simp only [List.map_cons, List.mem_cons]
    constructor
    · rintro ((h | h) | h)
      · exact Or.inl h
      · exact Or.inr (Or.inl h)
      · exact Or.inr (Or.inr h)
    · rintro (h | h | h)
      · exact Or.inl (Or.inl h)
      · exact Or.inl (Or.inr h)
      · exact Or.inr h

theorem applyRequests_append (dist : ℕ → Dist) (rm : ReqMap)
    (a b : List (ℕ × ℕ × ℚ)) :
    applyRequests dist rm (a ++ b) = applyRequests dist (applyRequests dist rm a) b :=
  List.foldl_append _ _ _ _

/-! ### `relax` characterization (claim C4) -/

/-- The bucket index of any distance is `-1` or non-negative (for a positive
horizon). -/
theorem getBucket_cases (δ : ℚ) (H : ℕ) (hH : 0 < H) (d : Dist) :
    getBucket δ H d = -1 ∨ 0 ≤ getBucket δ H d := by
  unfold getBucket
  split
  · exact Or.inl rfl
  · refine Or.inr (Int.emod_nonneg _ ?_)
    exact_mod_cast hH.ne'

theorem getBucket_ne_neg_one_iff (δ : ℚ) (H : ℕ) (hH : 0 < H) (d : Dist) :
    (getBucket δ H d ≠ -1) ↔ 0 ≤ getBucket δ H d := by
  rcases getBucket_cases δ H hH d with h | h
  · rw [h]; simp
  · constructor
    · intro _; exact h
    · intro _; omega

/-- The full effect of `relax` on improvement, with the new bucket read off
the freshly written `dist[v]`. -/
theorem relax_core_of_lt (δ : ℚ) (H cg : ℕ) (c : Core) (rm : ReqMap) (v : ℕ)
    (h : rm.req v < c.dist v) :
    (relax δ H cg c rm v).1 =
      (let old := getBucket δ H (c.dist v)
       let nw := getBucket δ H (rm.req v)
       let buckets1 :=
         if old ≠ -1 ∧ old ≠ (cg : ℤ) ∧ old ≠ nw then
           c.buckets.set old.toNat
             ((c.buckets.getD old.toNat cvD).set (c.pos v).toNat (-1))
         else c.buckets
       if old = (cg : ℤ) ∨ old ≠ nw then
         { dist := Function.update c.dist v (rm.req v)
           pos := Function.update c.pos v
             (((buckets1.getD nw.toNat cvD).push (v : ℤ)).1 : ℤ)
           buckets := buckets1.set nw.toNat
             ((buckets1.getD nw.toNat cvD).push (v : ℤ)).2 }
       else
         { dist := Function.update c.dist v (rm.req v), pos := c.pos
           buckets := buckets1 }) := by
  simp only [relax, if_pos h, Function.update_same]
  split <;> rfl

/-- One `relax` call under the slot invariants: full case analysis of the
write, tombstone and push behaviour against the ghost cell lists. -/
theorem relax_step (g : Graph) (δ : ℚ) (src H G cg : ℕ) (hδ : 0 < δ)
    (hH : 5 ≤ H) (hnn : g.NonNeg) (hsrc : src < g.n) (hcg : cg = G % H)
    (c : Core) (rm : ReqMap) (LS : ℕ → List CellG) (v : ℕ) (b0 : ℚ)
    (hb0 : (G : ℚ) * δ ≤ b0)
    (Hdi : DistInv g src c.dist)
    (Hlen : c.buckets.length = H)
    (Hslots : ∀ s, s < H →
      slotOK g δ H G c.dist c.pos s (c.buckets.getD s cvD) (LS s))
    (Hnosrc : ∀ s, s < H → ∀ ci ∈ LS s, ci.1 ≠ src)
    (Hvc : (v, (none : Option ℤ)) ∉ LS (G % H))
    (Hgv : c.dist v ≠ ⊤ → LiveIn LS H v ∨ BV δ (c.dist v) ≤ (G : ℤ))
    (Hrv : rm.req v ≠ ⊤ → v < g.n ∧ v ≠ src ∧ ∃ q : ℚ,
      rm.req v = ((q : ℚ) : Dist) ∧ Reaches g src v q ∧ b0 ≤ q ∧
      BV δ ((q : ℚ) : Dist) ≤ (G : ℤ) + (H : ℤ) - 4 ∧
      q ≤ g.get_max_edge_weight * ((finCount g.n c.dist : ℚ) + 1)) :
    ∃ LS', StepOut g δ src H G v c (relax δ H cg c rm v).1 LS LS' ∧
      (relax δ H cg c rm v).2 =
        { req := Function.update rm.req v ⊤, nodes := rm.nodes } := by
  by_cases hlt : rm.req v < c.dist v
  case neg =>
    refine ⟨LS, ?_, ?_⟩
    · rw [relax_of_not_lt_par δ H cg c rm v hlt]
      exact ⟨Hdi, Hlen, Hslots, Hnosrc, fun x _ => Iff.rfl,
        fun x hx => absurd rfl hx, fun x => le_refl _,
        fun _ => ⟨rfl, rfl⟩, fun ci h => Or.inl h⟩
    · rw [relax_of_not_lt_par δ H cg c rm v hlt]
  case pos =>
    have hreqne : rm.req v ≠ ⊤ := fun h => not_top_lt (h ▸ hlt)
    obtain ⟨hvn, hvsrc, q, hq, hreach, hqb0, hqhi, hqbd⟩ := Hrv hreqne
    have himp : ((q : ℚ) : Dist) < c.dist v := hq ▸ hlt
    have Hdi' := distInv_update g src hnn c.dist Hdi v hvn q himp hreach hqbd
    have hqlo : (G : ℤ) ≤ BV δ ((q : ℚ) : Dist) := by
      apply le_BV δ hδ q
      calc ((G : ℤ) : ℚ) * δ = (G : ℚ) * δ := by norm_num
        _ ≤ b0 := hb0
        _ ≤ q := hqb0
    have hH0 : (0 : ℤ) < (H : ℤ) := by omega
    have hnwv : getBucket δ H (rm.req v) = BV δ ((q : ℚ) : Dist) % (H : ℤ) := by
      rw [hq]
      exact getBucket_eq_BV δ H _ WithTop.coe_ne_top
    have hnw0 : 0 ≤ BV δ ((q : ℚ) : Dist) % (H : ℤ) :=
      Int.emod_nonneg _ (ne_of_gt hH0)
    have hnwlt : BV δ ((q : ℚ) : Dist) % (H : ℤ) < (H : ℤ) :=
      Int.emod_lt_of_pos _ hH0
    have hns : (BV δ ((q : ℚ) : Dist) % (H : ℤ)).toNat < H := by omega
    have hmodns : BV δ ((q : ℚ) : Dist) % (H : ℤ) =
        (((BV δ ((q : ℚ) : Dist) % (H : ℤ)).toNat : ℕ) : ℤ) :=
      (Int.toNat_of_nonneg hnw0).symm
    have hcore := relax_core_of_lt δ H cg c rm v hlt
    dsimp only at hcore
    by_cases htop : c.dist v = ⊤
    · -- the target was unreached: fresh push, no cells of `v` anywhere
      have hold : getBucket δ H (c.dist v) = -1 := by
        rw [htop]
        exact getBucket_top δ H
      rw [hold, hnwv] at hcore
      have hA : ¬((-1 : ℤ) ≠ -1 ∧ (-1 : ℤ) ≠ (cg : ℤ) ∧
          (-1 : ℤ) ≠ BV δ ((q : ℚ) : Dist) % (H : ℤ)) :=
        fun hA' => hA'.1 rfl
      have hB : (-1 : ℤ) = (cg : ℤ) ∨
          (-1 : ℤ) ≠ BV δ ((q : ℚ) : Dist) % (H : ℤ) := Or.inr (by omega)
      rw [if_neg hA, if_pos hB, hq] at hcore
      have hnoc : ∀ s, s < H → ∀ ci ∈ LS s, ci.1 ≠ v := by
        intro s hs ci hci hciv
        have hcf := (cell_facts g δ H G c.dist c.pos s _ _ (Hslots s hs)) ci hci
        exact (hciv ▸ hcf.2) htop
      refine ⟨Function.update LS ((BV δ ((q : ℚ) : Dist) % (H : ℤ)).toNat)
        (LS ((BV δ ((q : ℚ) : Dist) % (H : ℤ)).toNat) ++ [((v, none) : CellG)]),
        ?_, (relax_of_lt δ H cg c rm v hlt).2⟩
      rw [hcore]
      exact stepOut_push g δ src H G v c LS q
        ((BV δ ((q : ℚ) : Dist) % (H : ℤ)).toNat) hsrc hvn hvsrc Hdi' Hlen
        Hslots Hnosrc himp
        (fun s hs hm => hnoc s hs _ hm rfl)
        (fun s hs b hm => absurd rfl (hnoc s hs _ hm))
        (hnoc _ hns) hns hmodns hqlo hqhi
    · obtain ⟨qv, hqv⟩ := WithTop.ne_top_iff_exists.mp htop
      have hold : getBucket δ H (c.dist v) = BV δ (c.dist v) % (H : ℤ) :=
        getBucket_eq_BV δ H _ htop
      have hold0 : 0 ≤ BV δ (c.dist v) % (H : ℤ) :=
        Int.emod_nonneg _ (ne_of_gt hH0)
      have hBVle : BV δ ((q : ℚ) : Dist) ≤ BV δ (c.dist v) := by
        rw [← hqv]
        apply BV_mono δ hδ qv q
        rw [← hqv] at himp
        exact_mod_cast le_of_lt himp
      rw [hold, hnwv] at hcore
      by_cases hlive : LiveIn LS H v
      · obtain ⟨sv, hsv, hmem⟩ := hlive
        obtain ⟨pidx0, hget0, _, _, _, hmodsv, hposv0, hlosv, hhisv⟩ :=
          live_cell g δ H G c.dist c.pos sv _ (LS sv) (Hslots sv hsv) v hmem
        have hsvcg : sv ≠ G % H := fun h => Hvc (h ▸ hmem)
        have holdcgne : BV δ (c.dist v) % (H : ℤ) ≠ (cg : ℤ) := by
          rw [hmodsv, hcg]
          intro h
          exact hsvcg (by exact_mod_cast h)
        by_cases hkeep : BV δ ((q : ℚ) : Dist) = BV δ (c.dist v)
        · have hB : ¬(BV δ (c.dist v) % (H : ℤ) = (cg : ℤ) ∨
              BV δ (c.dist v) % (H : ℤ) ≠ BV δ ((q : ℚ) : Dist) % (H : ℤ)) := by
            rintro (h | h)
            · exact holdcgne h
            · exact h (by rw [hkeep])
          have hA : ¬(BV δ (c.dist v) % (H : ℤ) ≠ -1 ∧
              BV δ (c.dist v) % (H : ℤ) ≠ (cg : ℤ) ∧
              BV δ (c.dist v) % (H : ℤ) ≠ BV δ ((q : ℚ) : Dist) % (H : ℤ)) :=
            fun hA' => hA'.2.2 (by rw [hkeep])
          rw [if_neg hA, if_neg hB, hq] at hcore
          refine ⟨LS, ?_, (relax_of_lt δ H cg c rm v hlt).2⟩
          rw [hcore]
          exact stepOut_keep g δ src H G v c LS q sv Hdi' Hlen Hslots Hnosrc
            himp hmem hsv hkeep
        · have hBVlt : BV δ ((q : ℚ) : Dist) < BV δ (c.dist v) :=
            lt_of_le_of_ne hBVle hkeep
          have hresne : BV δ (c.dist v) % (H : ℤ) ≠
              BV δ ((q : ℚ) : Dist) % (H : ℤ) := by
            intro h
            exact hkeep (window_eq H (G : ℤ) _ _ (by exact_mod_cast hH)
              hqlo hqhi hlosv hhisv h.symm)
          have hA : BV δ (c.dist v) % (H : ℤ) ≠ -1 ∧
              BV δ (c.dist v) % (H : ℤ) ≠ (cg : ℤ) ∧
              BV δ (c.dist v) % (H : ℤ) ≠ BV δ ((q : ℚ) : Dist) % (H : ℤ) :=
            ⟨by omega, holdcgne, hresne⟩
          have hB : BV δ (c.dist v) % (H : ℤ) = (cg : ℤ) ∨
              BV δ (c.dist v) % (H : ℤ) ≠ BV δ ((q : ℚ) : Dist) % (H : ℤ) :=
            Or.inr hresne
          rw [if_pos hA, if_pos hB, hq] at hcore
          have hsveq : (BV δ (c.dist v) % (H : ℤ)).toNat = sv := by
            rw [hmodsv]
            rfl
          rw [hsveq] at hcore
          have hsvns : sv ≠ (BV δ ((q : ℚ) : Dist) % (H : ℤ)).toNat := by
            intro h
            apply hresne
            rw [hmodsv, hmodns, ← h]
          refine ⟨Function.update (Function.update LS sv
              ((LS sv).set (c.pos v).toNat
                ((v, some (BV δ (c.dist v))) : CellG)))
              ((BV δ ((q : ℚ) : Dist) % (H : ℤ)).toNat)
              (LS ((BV δ ((q : ℚ) : Dist) % (H : ℤ)).toNat) ++
                [((v, none) : CellG)]),
            ?_, (relax_of_lt δ H cg c rm v hlt).2⟩
          rw [hcore]
          exact stepOut_move g δ src H G v c LS q sv
            ((BV δ ((q : ℚ) : Dist) % (H : ℤ)).toNat) hH hsrc hvn hvsrc Hdi'
            Hlen Hslots Hnosrc himp hmem hsv hsvcg hsvns hBVlt hns
            hmodns hqlo hqhi
      · -- settled at the current generation: fresh push into the current slot
        have hGle : BV δ (c.dist v) ≤ (G : ℤ) := (Hgv htop).resolve_left hlive
        have hGge : (G : ℤ) ≤ BV δ (c.dist v) := le_trans hqlo hBVle
        have hGeq : BV δ (c.dist v) = (G : ℤ) := le_antisymm hGle hGge
        have hqG : BV δ ((q : ℚ) : Dist) = (G : ℤ) :=
          le_antisymm (hGeq ▸ hBVle) hqlo
        have hcgz : ((cg : ℕ) : ℤ) = (G : ℤ) % (H : ℤ) := by
          rw [hcg]
          push_cast
          rfl
        have holdcg : BV δ (c.dist v) % (H : ℤ) = (cg : ℤ) := by
          rw [hGeq, hcgz]
        have hA : ¬(BV δ (c.dist v) % (H : ℤ) ≠ -1 ∧
            BV δ (c.dist v) % (H : ℤ) ≠ (cg : ℤ) ∧
            BV δ (c.dist v) % (H : ℤ) ≠ BV δ ((q : ℚ) : Dist) % (H : ℤ)) :=
          fun hA' => hA'.2.1 holdcg
        have hB : BV δ (c.dist v) % (H : ℤ) = (cg : ℤ) ∨
            BV δ (c.dist v) % (H : ℤ) ≠ BV δ ((q : ℚ) : Dist) % (H : ℤ) :=
          Or.inl holdcg
        rw [if_neg hA, if_pos hB, hq] at hcore
        have hnl_all : ∀ s, s < H → (v, (none : Option ℤ)) ∉ LS s :=
          fun s hs hm => hlive ⟨s, hs, hm⟩
        have hdead_all : ∀ s, s < H → ∀ b : ℤ, (v, some b) ∈ LS s →
            BV δ ((q : ℚ) : Dist) < b := by
          intro s hs b hm
          have hd := dead_cell g δ H G c.dist c.pos s _ (LS s) (Hslots s hs)
            v b hm
          exact lt_of_le_of_lt hBVle hd.2.2.2.1
        have hnov_ns : ∀ ci ∈ LS ((BV δ ((q : ℚ) : Dist) % (H : ℤ)).toNat),
            ci.1 ≠ v := by
          intro ci hci hciv
          rcases ci with ⟨x, bo⟩
          rcases bo with _ | b
          · exact hnl_all _ hns (hciv ▸ hci)
          · have hci' : (v, some b) ∈
                LS ((BV δ ((q : ℚ) : Dist) % (H : ℤ)).toNat) := hciv ▸ hci
            have hd := dead_cell g δ H G c.dist c.pos _ _ _
              (Hslots _ hns) v b hci'
            have hbmod : b % (H : ℤ) = (G : ℤ) % (H : ℤ) := by
              rw [hd.2.2.1, ← hmodns, hqG]
            have hblk := window_block H (G : ℤ) b hH0 hbmod.symm
              (by rw [← hGeq]; exact hd.2.2.2.1)
            have := hd.2.2.2.2
            omega
        refine ⟨Function.update LS ((BV δ ((q : ℚ) : Dist) % (H : ℤ)).toNat)
          (LS ((BV δ ((q : ℚ) : Dist) % (H : ℤ)).toNat) ++
            [((v, none) : CellG)]),
          ?_, (relax_of_lt δ H cg c rm v hlt).2⟩
        rw [hcore]
        exact stepOut_push g δ src H G v c LS q
          ((BV δ ((q : ℚ) : Dist) % (H : ℤ)).toNat) hsrc hvn hvsrc Hdi' Hlen
          Hslots Hnosrc himp hnl_all hdead_all hnov_ns hns hmodns
          hqlo hqhi

/-- `dist[v]` ends at or below the drained request value. -/
theorem relax_dist_le_req (δ : ℚ) (H cg : ℕ) (c : Core) (rm : ReqMap)
    (v : ℕ) : (relax δ H cg c rm v).1.dist v ≤ rm.req v := by
  by_cases h : rm.req v < c.dist v
  · rw [(relax_of_lt δ H cg c rm v h).1, Function.update_same]
  · rw [relax_of_not_lt_par δ H cg c rm v h]
    exact le_of_not_lt h

/-- The relaxation fold of Loops 2/3 over a duplicate-free request-node
list: preserves all slot invariants, fully drains the map, and either is
the identity or strictly decreases the distance measure. -/
theorem relaxFold_spec (g : Graph) (δ : ℚ) (src H G cg : ℕ) (hδ : 0 < δ)
    (hH : 5 ≤ H) (hnn : g.NonNeg) (hsrc : src < g.n) (hcg : cg = G % H)
    (b0 : ℚ) (hb0 : (G : ℚ) * δ ≤ b0) (lst hst : ℕ → Dist) :
    ∀ (todo : List ℕ) (c : Core) (rm : ReqMap) (LS : ℕ → List CellG),
    DistInv g src c.dist →
    c.buckets.length = H →
    (∀ s, s < H → slotOK g δ H G c.dist c.pos s (c.buckets.getD s cvD) (LS s)) →
    (∀ s, s < H → ∀ ci ∈ LS s, ci.1 ≠ src) →
    todo.Nodup →
    (∀ x, rm.req x ≠ ⊤ → x ∈ todo) →
    (∀ x, rm.req x ≠ ⊤ → x < g.n ∧ x ≠ src ∧ ∃ q : ℚ,
      rm.req x = ((q : ℚ) : Dist) ∧ Reaches g src x q ∧ b0 ≤ q ∧
      BV δ ((q : ℚ) : Dist) ≤ (G : ℤ) + (H : ℤ) - 4 ∧
      q ≤ g.get_max_edge_weight * ((finCount g.n c.dist : ℚ) + 1)) →
    (∀ x ∈ todo, (x, (none : Option ℤ)) ∉ LS (G % H)) →
    (∀ x, c.dist x ≠ ⊤ → LiveIn LS H x ∨ (BV δ (c.dist x) ≤ (G : ℤ) ∧
      (∀ vw ∈ lightAdj g δ x, c.dist vw.1 ≤ c.dist x + (vw.2 : Dist) ∨
        rm.req vw.1 ≤ c.dist x + (vw.2 : Dist) ∨
        lst vw.1 ≤ c.dist x + (vw.2 : Dist)) ∧
      (∀ vw ∈ heavyAdj g δ x, c.dist vw.1 ≤ c.dist x + (vw.2 : Dist) ∨
        rm.req vw.1 ≤ c.dist x + (vw.2 : Dist) ∨
        hst vw.1 ≤ c.dist x + (vw.2 : Dist)))) →
    ∃ LS' : ℕ → List CellG,
      DistInv g src (todo.foldl
        (fun (p : Core × ReqMap) v => relax δ H cg p.1 p.2 v) (c, rm)).1.dist ∧
      (todo.foldl (fun (p : Core × ReqMap) v =>
        relax δ H cg p.1 p.2 v) (c, rm)).1.buckets.length = H ∧
      (∀ s, s < H → slotOK g δ H G
        (todo.foldl (fun (p : Core × ReqMap) v =>
          relax δ H cg p.1 p.2 v) (c, rm)).1.dist
        (todo.foldl (fun (p : Core × ReqMap) v =>
          relax δ H cg p.1 p.2 v) (c, rm)).1.pos s
        ((todo.foldl (fun (p : Core × ReqMap) v =>
          relax δ H cg p.1 p.2 v) (c, rm)).1.buckets.getD s cvD) (LS' s)) ∧
      (∀ s, s < H → ∀ ci ∈ LS' s, ci.1 ≠ src) ∧
      (∀ x, (todo.foldl (fun (p : Core × ReqMap) v =>
        relax δ H cg p.1 p.2 v) (c, rm)).2.req x = ⊤) ∧
      (todo.foldl (fun (p : Core × ReqMap) v =>
        relax δ H cg p.1 p.2 v) (c, rm)).2.nodes = rm.nodes ∧
      (∀ x, (todo.foldl (fun (p : Core × ReqMap) v =>
        relax δ H cg p.1 p.2 v) (c, rm)).1.dist x ≤ c.dist x) ∧
      (((todo.foldl (fun (p : Core × ReqMap) v =>
          relax δ H cg p.1 p.2 v) (c, rm)).1 = c ∧ LS' = LS) ∨
        muDist g (todo.foldl (fun (p : Core × ReqMap) v =>
          relax δ H cg p.1 p.2 v) (c, rm)).1.dist < muDist g c.dist) ∧
      (∀ x, (todo.foldl (fun (p : Core × ReqMap) v =>
          relax δ H cg p.1 p.2 v) (c, rm)).1.dist x ≠ ⊤ →
        LiveIn LS' H x ∨
        (BV δ ((todo.foldl (fun (p : Core × ReqMap) v =>
            relax δ H cg p.1 p.2 v) (c, rm)).1.dist x) ≤ (G : ℤ) ∧
          (∀ vw ∈ lightAdj g δ x,
            (todo.foldl (fun (p : Core × ReqMap) v =>
              relax δ H cg p.1 p.2 v) (c, rm)).1.dist vw.1 ≤
              (todo.foldl (fun (p : Core × ReqMap) v =>
                relax δ H cg p.1 p.2 v) (c, rm)).1.dist x + (vw.2 : Dist) ∨
            (todo.foldl (fun (p : Core × ReqMap) v =>
              relax δ H cg p.1 p.2 v) (c, rm)).2.req vw.1 ≤
              (todo.foldl (fun (p : Core × ReqMap) v =>
                relax δ H cg p.1 p.2 v) (c, rm)).1.dist x + (vw.2 : Dist) ∨
            lst vw.1 ≤ (todo.foldl (fun (p : Core × ReqMap) v =>
              relax δ H cg p.1 p.2 v) (c, rm)).1.dist x + (vw.2 : Dist)) ∧
          (∀ vw ∈ heavyAdj g δ x,
            (todo.foldl (fun (p : Core × ReqMap) v =>
              relax δ H cg p.1 p.2 v) (c, rm)).1.dist vw.1 ≤
              (todo.foldl (fun (p : Core × ReqMap) v =>
                relax δ H cg p.1 p.2 v) (c, rm)).1.dist x + (vw.2 : Dist) ∨
            (todo.foldl (fun (p : Core × ReqMap) v =>
              relax δ H cg p.1 p.2 v) (c, rm)).2.req vw.1 ≤
              (todo.foldl (fun (p : Core × ReqMap) v =>
                relax δ H cg p.1 p.2 v) (c, rm)).1.dist x + (vw.2 : Dist) ∨
            hst vw.1 ≤ (todo.foldl (fun (p : Core × ReqMap) v =>
              relax δ H cg p.1 p.2 v) (c, rm)).1.dist x + (vw.2 : Dist)))) ∧
      (∀ x, (todo.foldl (fun (p : Core × ReqMap) v =>
          relax δ H cg p.1 p.2 v) (c, rm)).1.dist x ≠ c.dist x →
        x ∈ todo ∧ ∃ q : ℚ, (todo.foldl (fun (p : Core × ReqMap) v =>
          relax δ H cg p.1 p.2 v) (c, rm)).1.dist x = ((q : ℚ) : Dist) ∧
          b0 ≤ q) ∧
      (∀ ci ∈ LS' (G % H), ci ∈ LS (G % H) ∨
        (ci = ((ci.1, none) : CellG) ∧
          (todo.foldl (fun (p : Core × ReqMap) v =>
            relax δ H cg p.1 p.2 v) (c, rm)).1.dist ci.1 ≠ c.dist ci.1)) := by
  have hL0 : 0 ≤ g.get_max_edge_weight := max_weight_nonneg g
  intro todo
  induction todo with
  | nil =>
    intro c rm LS Hdi Hlen Hslots Hnosrc hnd hreqcov hreqval hvcs hcov
    refine ⟨LS, Hdi, Hlen, Hslots, Hnosrc, ?_, rfl, fun x => le_refl _,
      Or.inl ⟨rfl, rfl⟩, hcov, fun x hx => absurd rfl hx,
      fun ci h => Or.inl h⟩
    intro x
    by_contra hx
    exact absurd (hreqcov x hx) (List.not_mem_nil x)
  | cons v rest ih =>
    intro c rm LS Hdi Hlen Hslots Hnosrc hnd hreqcov hreqval hvcs hcov
    obtain ⟨LS1, hSO, hrm1⟩ := relax_step g δ src H G cg hδ hH hnn hsrc hcg
      c rm LS v b0 hb0 Hdi Hlen Hslots Hnosrc (hvcs v (List.mem_cons_self _ _))
      (fun hfin => (hcov v hfin).imp_right And.left) (hreqval v)
    obtain ⟨D1, D2, D3, D4, D5, D6, D7, D8, D9⟩ := hSO
    have hstep_le_req := relax_dist_le_req δ H cg c rm v
    have hnodupr : rest.Nodup := (List.nodup_cons.mp hnd).2
    have hvrest : v ∉ rest := (List.nodup_cons.mp hnd).1
    have hreqcov1 : ∀ x, (relax δ H cg c rm v).2.req x ≠ ⊤ → x ∈ rest := by
      intro x hx
      rw [hrm1] at hx
      dsimp only at hx
      rcases eq_or_ne x v with rfl | hxv
      · rw [Function.update_same] at hx
        exact absurd rfl hx
      · rw [Function.update_noteq hxv] at hx
        rcases List.mem_cons.mp (hreqcov x hx) with h | h
        · exact absurd h hxv
        · exact h
    have hreqval1 : ∀ x, (relax δ H cg c rm v).2.req x ≠ ⊤ → x < g.n ∧
        x ≠ src ∧ ∃ q : ℚ, (relax δ H cg c rm v).2.req x = ((q : ℚ) : Dist) ∧
        Reaches g src x q ∧ b0 ≤ q ∧
        BV δ ((q : ℚ) : Dist) ≤ (G : ℤ) + (H : ℤ) - 4 ∧
        q ≤ g.get_max_edge_weight *
          ((finCount g.n (relax δ H cg c rm v).1.dist : ℚ) + 1) := by
      intro x hx
      rw [hrm1] at hx ⊢
      dsimp only at hx ⊢
      rcases eq_or_ne x v with rfl | hxv
      · rw [Function.update_same] at hx
        exact absurd rfl hx
      · rw [Function.update_noteq hxv] at hx
        obtain ⟨ha, hb, q, hq, hr, hb0q, hbv, hbd⟩ := hreqval x hx
        refine ⟨ha, hb, q, by rw [Function.update_noteq hxv]; exact hq,
          hr, hb0q, hbv, ?_⟩
        have hfc : finCount g.n c.dist ≤
            finCount g.n (relax δ H cg c rm v).1.dist :=
          finCount_mono g.n c.dist _ D7
        calc q ≤ g.get_max_edge_weight * ((finCount g.n c.dist : ℚ) + 1) := hbd
          _ ≤ _ := by
            apply mul_le_mul_of_nonneg_left _ hL0
            have : (finCount g.n c.dist : ℚ) ≤
                (finCount g.n (relax δ H cg c rm v).1.dist : ℚ) := by
              exact_mod_cast hfc
            linarith
    have hvcs1 : ∀ x ∈ rest, (x, (none : Option ℤ)) ∉ LS1 (G % H) := by
      intro x hx hmem
      rcases D9 (x, none) hmem with h | h
      · exact hvcs x (List.mem_cons_of_mem _ hx) h
      · have hxv : x = v := congrArg Prod.fst h
        exact hvrest (hxv ▸ hx)
    have hfam : ∀ (ad : List (ℕ × ℚ)) (stq : ℕ → Dist) (x : ℕ),
        (relax δ H cg c rm v).1.dist x = c.dist x →
        (∀ vw ∈ ad, c.dist vw.1 ≤ c.dist x + (vw.2 : Dist) ∨
          rm.req vw.1 ≤ c.dist x + (vw.2 : Dist) ∨
          stq vw.1 ≤ c.dist x + (vw.2 : Dist)) →
        ∀ vw ∈ ad, (relax δ H cg c rm v).1.dist vw.1 ≤
            (relax δ H cg c rm v).1.dist x + (vw.2 : Dist) ∨
          (relax δ H cg c rm v).2.req vw.1 ≤
            (relax δ H cg c rm v).1.dist x + (vw.2 : Dist) ∨
          stq vw.1 ≤ (relax δ H cg c rm v).1.dist x + (vw.2 : Dist) := by
      intro ad stq x hxd hold vw hvw
      rw [hxd, hrm1]
      dsimp only
      rcases eq_or_ne vw.1 v with hv1 | hv1
      · rcases hold vw hvw with h | h | h
        · exact Or.inl (by rw [hv1]; exact le_trans (D7 v) (hv1 ▸ h))
        · exact Or.inl (by rw [hv1]; exact le_trans hstep_le_req (hv1 ▸ h))
        · exact Or.inr (Or.inr h)
      · rcases hold vw hvw with h | h | h
        · exact Or.inl (le_trans (D7 vw.1) h)
        · exact Or.inr (Or.inl (by rw [Function.update_noteq hv1]; exact h))
        · exact Or.inr (Or.inr h)
    have hcov1 : ∀ x, (relax δ H cg c rm v).1.dist x ≠ ⊤ →
        LiveIn LS1 H x ∨ (BV δ ((relax δ H cg c rm v).1.dist x) ≤ (G : ℤ) ∧
        (∀ vw ∈ lightAdj g δ x,
          (relax δ H cg c rm v).1.dist vw.1 ≤
            (relax δ H cg c rm v).1.dist x + (vw.2 : Dist) ∨
          (relax δ H cg c rm v).2.req vw.1 ≤
            (relax δ H cg c rm v).1.dist x + (vw.2 : Dist) ∨
          lst vw.1 ≤ (relax δ H cg c rm v).1.dist x + (vw.2 : Dist)) ∧
        (∀ vw ∈ heavyAdj g δ x,
          (relax δ H cg c rm v).1.dist vw.1 ≤
            (relax δ H cg c rm v).1.dist x + (vw.2 : Dist) ∨
          (relax δ H cg c rm v).2.req vw.1 ≤
            (relax δ H cg c rm v).1.dist x + (vw.2 : Dist) ∨
          hst vw.1 ≤ (relax δ H cg c rm v).1.dist x + (vw.2 : Dist))) := by
      intro x hx
      by_cases hwr : (relax δ H cg c rm v).1.dist v = c.dist v
      · have hId : ∀ y, (relax δ H cg c rm v).1.dist y = c.dist y := by
          intro y
          by_contra h
          exact ((D6 y h).1 ▸ h) hwr
        obtain ⟨hc1, hLS1⟩ := D8 hId
        rw [hLS1]
        rw [hId x] at hx
        rcases hcov x hx with h | ⟨hbv, hle, hhe⟩
        · exact Or.inl h
        · exact Or.inr ⟨by rw [hId x]; exact hbv,
            hfam _ lst x (hId x) hle, hfam _ hst x (hId x) hhe⟩
      · rcases eq_or_ne x v with rfl | hxv
        · exact Or.inl (D6 x hwr).2
        · have hxd : (relax δ H cg c rm v).1.dist x = c.dist x := by
            by_contra h
            exact hxv (D6 x h).1
          rw [hxd] at hx
          rcases hcov x hx with h | ⟨hbv, hle, hhe⟩
          · exact Or.inl ((D5 x hxv).mpr h)
          · exact Or.inr ⟨by rw [hxd]; exact hbv,
              hfam _ lst x hxd hle, hfam _ hst x hxd hhe⟩
    obtain ⟨LS2, I1, I2, I3, I4, I5, I6, I7, I8, I9, I10, I11⟩ :=
      ih (relax δ H cg c rm v).1 (relax δ H cg c rm v).2 LS1 D1 D2 D3 D4
        hnodupr hreqcov1 hreqval1 hvcs1 hcov1
    rw [List.foldl_cons]
    refine ⟨LS2, I1, I2, I3, I4, I5, ?_, ?_, ?_, I9, ?_, ?_⟩
    · rw [I6, hrm1]
    · intro x
      exact le_trans (I7 x) (D7 x)
    · rcases I8 with ⟨hfc, hfLS⟩ | hmu
      · by_cases hwr : (relax δ H cg c rm v).1.dist v = c.dist v
        · have hId : ∀ y, (relax δ H cg c rm v).1.dist y = c.dist y := by
            intro y
            by_contra h
            exact ((D6 y h).1 ▸ h) hwr
          obtain ⟨hc1, hLS1⟩ := D8 hId
          exact Or.inl ⟨by rw [hfc, hc1], by rw [hfLS, hLS1]⟩
        · right
          rw [hfc]
          have hreqne : rm.req v ≠ ⊤ := by
            intro h
            apply hwr
            rw [relax_of_not_lt_par δ H cg c rm v (by rw [h]; exact not_top_lt)]
          exact muDist_lt g c.dist _ (distInv_rankOK g src c.dist hnn Hdi)
            (distInv_rankOK g src _ hnn D1) D7 v (hreqval v hreqne).1
            (lt_of_le_of_ne (D7 v) hwr)
      · right
        exact lt_of_lt_of_le hmu
          (muDist_le g c.dist _ (distInv_rankOK g src _ hnn D1) D7)
    · intro x hx2
      by_cases h2 : (rest.foldl (fun (p : Core × ReqMap) v =>
          relax δ H cg p.1 p.2 v)
          ((relax δ H cg c rm v).1, (relax δ H cg c rm v).2)).1.dist x
          = (relax δ H cg c rm v).1.dist x
      · have hst : (relax δ H cg c rm v).1.dist x ≠ c.dist x := by
          intro hc
          exact hx2 (h2.trans hc)
        obtain rfl := (D6 x hst).1
        have hreqne : rm.req x ≠ ⊤ := by
          intro h
          apply hst
          rw [relax_of_not_lt_par δ H cg c rm x (by rw [h]; exact not_top_lt)]
        obtain ⟨_, _, q, hq, _, hb0q, _, _⟩ := hreqval x hreqne
        refine ⟨List.mem_cons_self _ _, q, ?_, hb0q⟩
        rw [h2]
        rw [(relax_dist_strict_par δ H cg c rm x x hst).2.2, hq]
      · obtain ⟨hmem, q, hq, hb0q⟩ := I10 x h2
        exact ⟨List.mem_cons_of_mem _ hmem, q, hq, hb0q⟩
    · intro ci hmem2
      rcases I11 ci hmem2 with h | h
      · rcases D9 ci h with h2 | h2
        · exact Or.inl h2
        · by_cases hwr : (relax δ H cg c rm v).1.dist v = c.dist v
          · have hId : ∀ y, (relax δ H cg c rm v).1.dist y = c.dist y := by
              intro y
              by_contra hy
              exact ((D6 y hy).1 ▸ hy) hwr
            obtain ⟨hc1, hLS1⟩ := D8 hId
            rw [hLS1] at h
            exact Or.inl h
          · right
            refine ⟨by rw [h2], ?_⟩
            have hci1 : ci.1 = v := by rw [h2]
            rw [hci1]
            intro hc
            apply hwr
            have h1 := I7 v
            rw [hc] at h1
            exact le_antisymm (D7 v) h1
      · right
        refine ⟨h.1, ?_⟩
        intro hc
        exact h.2 (le_antisymm (I7 ci.1)
          (le_trans (D7 ci.1) (le_of_eq hc.symm)))

theorem chunked_nil (T : ℕ) : chunked T [] = [] := by
  simp [chunked]

/-- Bucket-value bounds transfer to value bounds. -/
theorem val_lt_of_BV_le (δ : ℚ) (hδ : 0 < δ) (q : ℚ) (i : ℤ)
    (h : BV δ ((q : ℚ) : Dist) ≤ i) : q < ((i : ℚ) + 1) * δ := by
  rw [BV_coe] at h
  have h1 : q / δ < (i : ℚ) + 1 :=
    lt_of_lt_of_le (Int.lt_floor_add_one _) (by exact_mod_cast add_le_add_right h 1)
  calc q = q / δ * δ := by field_simp
    _ < ((i : ℚ) + 1) * δ := by
        exact mul_lt_mul_of_pos_right h1 hδ

theorem BV_le_of_val_lt (δ : ℚ) (hδ : 0 < δ) (q : ℚ) (i : ℤ)
    (h : q < ((i : ℚ) + 1) * δ) : BV δ ((q : ℚ) : Dist) ≤ i := by
  rw [BV_coe]
  have h1 : q / δ < (i : ℚ) + 1 := by
    rw [div_lt_iff hδ]
    linarith
  have h2 : ⌊q / δ⌋ < i + 1 := by
    apply Int.floor_lt.mpr
    exact_mod_cast h1
  omega

/-- A live cell in the current-generation slot has unreduced bucket value
exactly `G` (the window argument). -/
theorem live_cg_BV (g : Graph) (δ : ℚ) (H G : ℕ) (dist : ℕ → Dist)
    (pos : ℕ → ℤ) (cv : CircularVector ℤ) (L : List CellG) (hH : 5 ≤ H)
    (hso : slotOK g δ H G dist pos (G % H) cv L) (x : ℕ)
    (hmem : (x, (none : Option ℤ)) ∈ L) : BV δ (dist x) = (G : ℤ) := by
  obtain ⟨p, _, _, _, _, hmod, _, hlo, hhi⟩ :=
    live_cell g δ H G dist pos (G % H) cv L hso x hmem
  apply window_eq H (G : ℤ) _ (G : ℤ) (by exact_mod_cast hH) hlo hhi
    (le_refl _) (by omega)
  rw [hmod]
  push_cast
  rfl

/-- A duplicate-free list of vertices below `n` has at most `n`
elements. -/
theorem owners_le (n : ℕ) (l : List ℕ) (hnd : l.Nodup)
    (hlt : ∀ x ∈ l, x < n) : l.length ≤ n := by
  have hsub : l.toFinset ⊆ Finset.range n := by
    intro x hx
    rw [List.mem_toFinset] at hx
    exact Finset.mem_range.mpr (hlt x hx)
  have hcard := Finset.card_le_card hsub
  rw [List.toFinset_card_of_nodup hnd, Finset.card_range] at hcard
  exact hcard

/-- The raw value a cell shows in the circular array. -/
def cellVal (ci : CellG) : ℤ :=
  match ci.2 with
  | none => (ci.1 : ℤ)
  | some _ => -1

/-- The edges one cell contributes to Loop 1 (tombstones contribute
none). -/
def cellEdges (g : Graph) (ci : CellG) : List (ℕ × ℕ × ℚ) :=
  match ci.2 with
  | none => (g.adj ci.1).map (fun vw => (ci.1, vw.1, vw.2))
  | some _ => []

/-- The snapshot of a slot is its cell values in order. -/
theorem snapshot_eq (g : Graph) (δ : ℚ) (H G : ℕ) (dist : ℕ → Dist)
    (pos : ℕ → ℤ) (s : ℕ) (cv : CircularVector ℤ) (L : List CellG)
    (hso : slotOK g δ H G dist pos s cv L) (hLn : L.length ≤ g.n) :
    snapshot cv = L.map cellVal := by
  obtain ⟨hcap, hh, ht, hcells, hnd⟩ := hso
  unfold snapshot
  have hsize : cv.size = L.length := by
    unfold CircularVector.size
    rw [hh, ht, if_pos (Nat.zero_le _)]
    omega
  rw [hsize]
  apply List.ext_getElem
  · rw [List.length_map, List.length_map, List.length_range]
  · intro i h1 h2
    rw [List.getElem_map, List.getElem_map, List.getElem_range]
    have hi : i < L.length := by
      rw [List.length_map, List.length_range] at h1
      exact h1
    have key : cv.get i = cellVal (L.get ⟨i, hi⟩) := by
      have hcell := hcells i hi
      unfold CircularVector.get
      rw [hh, hcap, Nat.zero_add, Nat.mod_eq_of_lt (lt_of_lt_of_le hi hLn)]
      rcases hL : L.get ⟨i, hi⟩ with ⟨x, _ | b⟩
      · rw [hL] at hcell
        exact hcell.1
      · rw [hL] at hcell
        exact hcell.1
    exact key

/-- The natural edge order of a cell snapshot: live owners' adjacency
lists in cell order. -/
theorem natEdges_cells (g : Graph) (L : List CellG) :
    natEdges g (L.map cellVal) = L.flatMap (cellEdges g) := by
  induction L with
  | nil => rfl
  | cons ci rest ih =>
    rw [List.map_cons, List.flatMap_cons]
    unfold natEdges at ih ⊢
    rw [List.flatMap_cons, ih]
    congr 1
    rcases ci with ⟨x, _ | b⟩
    · show entryEdges g ((x : ℤ)) = (g.adj x).map (fun vw => (x, vw.1, vw.2))
      unfold entryEdges
      rw [if_pos (by exact_mod_cast Nat.zero_le x)]
      norm_num
    · show entryEdges g (-1) = []
      unfold entryEdges
      rw [if_neg (by norm_num)]

/-- The guard-passing light requests of Loop 1. -/
def isLightReq (δ : ℚ) (dist : ℕ → Dist) (e : ℕ × ℕ × ℚ) : Bool :=
  decide (dist e.1 + (e.2.2 : Dist) < dist e.2.1) && decide (e.2.2 < δ)

/-- The guard-passing heavy requests of Loop 1. -/
def isHeavyReq (δ : ℚ) (dist : ℕ → Dist) (e : ℕ × ℕ × ℚ) : Bool :=
  decide (dist e.1 + (e.2.2 : Dist) < dist e.2.1) && !(decide (e.2.2 < δ))

/-- Loop 1's fold sorts the guard-passing edges into the two request
maps, leaving the core untouched. -/
theorem requestFold_eq (δ : ℚ) (es : List (ℕ × ℕ × ℚ)) : ∀ (st : State),
    es.foldl (requestEdge δ) st =
      { dist := st.dist, pos := st.pos, buckets := st.buckets
        light := applyRequests st.dist st.light (es.filter (isLightReq δ st.dist))
        heavy := applyRequests st.dist st.heavy (es.filter (isHeavyReq δ st.dist)) } := by
  induction es with
  | nil => intro st; rfl
  | cons e rest ih =>
    intro st
    rw [List.foldl_cons, ih (requestEdge δ st e)]
    rcases e with ⟨u, v, w⟩
    by_cases hg : st.dist u + (w : Dist) < st.dist v
    · by_cases hw : w < δ
      · have hre : requestEdge δ st (u, v, w)
            = { st with light := add_request st.dist st.light u v w } := by
          unfold requestEdge
          dsimp only
          rw [if_pos hg, if_pos hw]
        have h1 : isLightReq δ st.dist (u, v, w) = true := by
          simp [isLightReq, hg, hw]
        have h2 : isHeavyReq δ st.dist (u, v, w) = false := by
          simp [isHeavyReq, hw]
        rw [hre]
        dsimp only
        simp [List.filter_cons, h1, h2, applyRequests_cons]
      · have hre : requestEdge δ st (u, v, w)
            = { st with heavy := add_request st.dist st.heavy u v w } := by
          unfold requestEdge
          dsimp only
          rw [if_pos hg, if_neg hw]
        have h1 : isLightReq δ st.dist (u, v, w) = false := by
          simp [isLightReq, hw]
        have h2 : isHeavyReq δ st.dist (u, v, w) = true := by
          simp [isHeavyReq, hg, hw]
        rw [hre]
        dsimp only
        simp [List.filter_cons, h1, h2, applyRequests_cons]
    · have hre : requestEdge δ st (u, v, w) = st := by
        unfold requestEdge
        dsimp only
        rw [if_neg hg]
      have h1 : isLightReq δ st.dist (u, v, w) = false := by
        simp [isLightReq, hg]
      have h2 : isHeavyReq δ st.dist (u, v, w) = false := by
        simp [isHeavyReq, hg]
      rw [hre]
      simp [List.filter_cons, h1, h2]

/-- Each `add_request` leaves a slot alone or installs the offered
value. -/
theorem add_request_req_cases (dist : ℕ → Dist) (rm : ReqMap) (u v x : ℕ)
    (w : ℚ) : (add_request dist rm u v w).req x = rm.req x ∨
      ((add_request dist rm u v w).req x = dist u + (w : Dist) ∧ x = v) := by
  rcases eq_or_ne x v with rfl | hne
  · by_cases h : rm.req x = ⊤
    · rw [add_request_of_top dist rm u x w h]
      exact Or.inr ⟨by dsimp only; rw [Function.update_same], rfl⟩
    · rw [add_request_of_ne_top dist rm u x w h]
      split
      · exact Or.inr ⟨by dsimp only; rw [Function.update_same], rfl⟩
      · exact Or.inl rfl
  · by_cases h : rm.req v = ⊤
    · rw [add_request_of_top dist rm u v w h]
      exact Or.inl (by dsimp only; rw [Function.update_noteq hne])
    · rw [add_request_of_ne_top dist rm u v w h]
      split
      · exact Or.inl (by dsimp only; rw [Function.update_noteq hne])
      · exact Or.inl rfl

/-- Any final slot value is the initial one or one of the offered
values. -/
theorem applyRequests_req_cases (dist : ℕ → Dist) (rs : List (ℕ × ℕ × ℚ)) :
    ∀ (rm : ReqMap) (x : ℕ),
    (applyRequests dist rm rs).req x = rm.req x ∨
      ∃ r ∈ rs, (applyRequests dist rm rs).req x = dist r.1 + (r.2.2 : Dist) ∧
        x = r.2.1 := by
  induction rs with
  | nil =>
    intro rm x
    exact Or.inl rfl
  | cons r rest ih =>
    intro rm x
    rw [applyRequests_cons]
    rcases ih (add_request dist rm r.1 r.2.1 r.2.2) x with h | ⟨r', hr', h1, h2⟩
    · rcases add_request_req_cases dist rm r.1 r.2.1 x r.2.2 with h2 | ⟨h2, h3⟩
      · exact Or.inl (h.trans h2)
      · exact Or.inr ⟨r, List.mem_cons_self _ _, h.trans h2, h3⟩
    · exact Or.inr ⟨r', List.mem_cons_of_mem _ hr', h1, h2⟩

/-- Every offered request bounds the final slot of its target. -/
theorem applyRequests_le_of_mem (dist : ℕ → Dist) (rs : List (ℕ × ℕ × ℚ)) :
    ∀ (rm : ReqMap) (r : ℕ × ℕ × ℚ), r ∈ rs →
    (applyRequests dist rm rs).req r.2.1 ≤ dist r.1 + (r.2.2 : Dist) := by
  induction rs with
  | nil =>
    intro rm r hr
    exact absurd hr (List.not_mem_nil r)
  | cons a rest ih =>
    intro rm r hr
    rw [applyRequests_cons]
    rcases List.mem_cons.mp hr with rfl | hr'
    · exact le_trans (applyRequests_req_mono dist rest _ _)
        (add_request_req_le dist rm r.1 r.2.1 r.2.2)
    · exact ih _ r hr'

/-- `ReqVals` for a request map built by a phase of admissible offers on
an admissible base. -/
theorem applyRequests_val (g : Graph) (δ : ℚ) (H src G : ℕ) (b0 : ℚ)
    (dist : ℕ → Dist) (rm : ReqMap) (rs : List (ℕ × ℕ × ℚ))
    (hrm : ReqVals g δ H src G b0 dist rm)
    (hrs : ∀ r ∈ rs, r.2.1 < g.n ∧ r.2.1 ≠ src ∧ dist r.1 ≠ ⊤ ∧
      ∃ q : ℚ, dist r.1 + (r.2.2 : Dist) = ((q : ℚ) : Dist) ∧
        Reaches g src r.2.1 q ∧ b0 ≤ q ∧
        BV δ ((q : ℚ) : Dist) ≤ (G : ℤ) + (H : ℤ) - 4 ∧
        q ≤ g.get_max_edge_weight * ((finCount g.n dist : ℚ) + 1)) :
    ReqVals g δ H src G b0 dist (applyRequests dist rm rs) := by
  obtain ⟨hval, hnd, hiff⟩ := hrm
  have hinv := applyRequests_inv dist rs
    (fun r hr => (hrs r hr).2.2.1) rm hnd hiff
  refine ⟨?_, hinv.1, hinv.2.1⟩
  intro v hv
  rcases applyRequests_req_cases dist rs rm v with h | ⟨r, hr, h1, h2⟩
  · rw [h] at hv ⊢
    exact hval v hv
  · obtain ⟨ha, hb, hc, q, hq, hre, hb0q, hbv, hbd⟩ := hrs r hr
    subst h2
    exact ⟨ha, hb, q, h1.trans hq, hre, hb0q, hbv, hbd⟩

/-- The mid-pass invariant holding right after Loop 1 (and its bucket
clear): like `PInv` but with slot `G % H` empty, no source cells at all,
and the coverage allowed to lean on pending light requests. -/
def PInvA (g : Graph) (δ : ℚ) (src H G : ℕ) (st : State) : Prop :=
  DistInv g src st.dist ∧ st.buckets.length = H ∧
  ReqVals g δ H src G ((G : ℚ) * δ) st.dist st.light ∧
  ReqVals g δ H src G (((G : ℚ) + 1) * δ) st.dist st.heavy ∧
  ∃ LS : ℕ → List CellG, SlotsOK g δ H G st LS ∧
    (∀ s, s < H → ∀ ci ∈ LS s, ci.1 ≠ src) ∧ LS (G % H) = [] ∧
    (∀ x, st.dist x ≠ ⊤ → LiveIn LS H x ∨ (BV δ (st.dist x) ≤ (G : ℤ) ∧
      LrelPend g δ st.dist st.light.req x ∧
      HrelPend g δ st.dist st.heavy.req x))

/-- Loop 1 (request generation and the bucket clear) turns the
pass-boundary invariant into the mid-pass invariant, without touching
`dist`. -/
theorem phaseA_spec (g : Graph) (δ : ℚ) (src H G T cg : ℕ)
    (hδ : 0 < δ) (hH : 5 ≤ H) (hwf : g.WF) (hnn : g.NonNeg)
    (hsrc : src < g.n) (hT : 0 < T) (hcg : cg = G % H)
    (hLH : g.get_max_edge_weight ≤ ((H : ℚ) - 5) * δ)
    (st : State) (hPI : PInv g δ src H G st) :
    PInvA g δ src H G (phaseA g δ T cg st) ∧
    (phaseA g δ T cg st).dist = st.dist ∧
    (phaseA g δ T cg st).pos = st.pos ∧
    (phaseA g δ T cg st).buckets
      = st.buckets.set cg ((st.buckets.getD cg cvD).clear) := by
  obtain ⟨Hdi, Hlen, Hheavy, ⟨Hlq, Hln⟩, LS, Hslots, Hsrcs, Hcov⟩ := hPI
  have hH0 : 0 < H := by omega
  have hcgH : cg < H := by rw [hcg]; exact Nat.mod_lt _ hH0
  have hsoc := Hslots cg hcgH
  have hsoc' : slotOK g δ H G st.dist st.pos (G % H)
      (st.buckets.getD cg cvD) (LS cg) := by rw [← hcg]; exact hsoc
  have hcf := cell_facts g δ H G st.dist st.pos cg _ _ hsoc
  have hLn : (LS cg).length ≤ g.n := by
    have := owners_le g.n ((LS cg).map Prod.fst) hsoc.2.2.2.2
      (by intro x hx
          obtain ⟨ci, hci, hfst⟩ := List.mem_map.mp hx
          exact hfst ▸ (hcf ci hci).1)
    rwa [List.length_map] at this
  have hsnap : snapshot (st.buckets.getD cg cvD) = (LS cg).map cellVal :=
    snapshot_eq g δ H G st.dist st.pos cg _ (LS cg) hsoc hLn
  have hPA : phaseA g δ T cg st =
      { dist := st.dist, pos := st.pos
        buckets := st.buckets.set cg ((st.buckets.getD cg cvD).clear)
        light := applyRequests st.dist st.light
          (((LS cg).flatMap (cellEdges g)).filter (isLightReq δ st.dist))
        heavy := applyRequests st.dist st.heavy
          (((LS cg).flatMap (cellEdges g)).filter (isHeavyReq δ st.dist)) } := by
    unfold phaseA
    dsimp only
    rw [phaseA_edges g T hT, hsnap, natEdges_cells, requestFold_eq]
  have hBVG : ∀ x, (x, (none : Option ℤ)) ∈ LS cg →
      BV δ (st.dist x) = (G : ℤ) := by
    intro x hx
    exact live_cg_BV g δ H G st.dist st.pos _ (LS cg) hH hsoc' x hx
  have hEfacts : ∀ e ∈ (LS cg).flatMap (cellEdges g),
      (e.1, (none : Option ℤ)) ∈ LS cg ∧ (e.2.1, e.2.2) ∈ g.adj e.1 := by
    intro e he
    obtain ⟨ci, hci, hecell⟩ := List.mem_flatMap.mp he
    rcases ci with ⟨x, _ | b⟩
    · obtain ⟨vw, hvw, hevw⟩ := List.mem_map.mp hecell
      subst hevw
      exact ⟨hci, hvw⟩
    · exact absurd hecell (List.not_mem_nil e)
  have hEcover : ∀ x, (x, (none : Option ℤ)) ∈ LS cg →
      ∀ vw ∈ g.adj x, (x, vw.1, vw.2) ∈ (LS cg).flatMap (cellEdges g) := by
    intro x hx vw hvw
    exact List.mem_flatMap.mpr ⟨(x, none), hx,
      List.mem_map.mpr ⟨vw, hvw, rfl⟩⟩
  -- the common value facts of one guard-passing edge
  have hval : ∀ e ∈ (LS cg).flatMap (cellEdges g),
      st.dist e.1 + ((e.2.2 : ℚ) : Dist) < st.dist e.2.1 →
      e.2.1 < g.n ∧ e.2.1 ≠ src ∧ st.dist e.1 ≠ ⊤ ∧
      ∃ q : ℚ, st.dist e.1 + ((e.2.2 : ℚ) : Dist) = ((q : ℚ) : Dist) ∧
        Reaches g src e.2.1 q ∧ (G : ℚ) * δ + e.2.2 ≤ q ∧ 0 ≤ e.2.2 ∧
        q < ((G : ℚ) + 1) * δ + e.2.2 ∧
        q ≤ g.get_max_edge_weight * ((finCount g.n st.dist : ℚ) + 1) := by
    intro e he hg
    obtain ⟨hlive, hadj⟩ := hEfacts e he
    have hfinu : st.dist e.1 ≠ ⊤ := (hcf _ hlive).2
    obtain ⟨qu, hqu⟩ := WithTop.ne_top_iff_exists.mp hfinu
    have hru : Reaches g src e.1 qu := Hdi.1 e.1 qu hqu.symm
    have hw0 : 0 ≤ e.2.2 := adj_weight_nonneg g hnn e.1 _ hadj
    have hwL : e.2.2 ≤ g.get_max_edge_weight := weight_le_max g e.1 _ hadj
    have hBVu : BV δ ((qu : ℚ) : Dist) = (G : ℤ) := by
      rw [hqu]
      exact hBVG e.1 hlive
    have hqulo : (G : ℚ) * δ ≤ qu := by
      have := BV_le_val δ hδ qu (G : ℤ) (le_of_eq hBVu.symm)
      exact_mod_cast this
    have hquhi : qu < ((G : ℚ) + 1) * δ := by
      have := val_lt_of_BV_le δ hδ qu (G : ℤ) (le_of_eq hBVu)
      exact_mod_cast this
    have hsum : st.dist e.1 + ((e.2.2 : ℚ) : Dist)
        = ((qu + e.2.2 : ℚ) : Dist) := by
      rw [← hqu, ← WithTop.coe_add]
    refine ⟨(adj_target_lt g hwf e.1 _ hadj).1, ?_, hfinu, qu + e.2.2,
      hsum, Reaches.cons hru ?_, by linarith, hw0, by linarith, ?_⟩
    · intro hcsrc
      rw [hsum, hcsrc] at hg
      have hlt := lt_of_lt_of_le hg Hdi.2.1
      have : qu + e.2.2 < 0 := by exact_mod_cast hlt
      have hGd : 0 ≤ (G : ℚ) * δ := by positivity
      linarith
    · have : (e.2.1, e.2.2) ∈ g.adj e.1 := hadj
      exact this
    · have hbd := Hdi.2.2.2 e.1 qu hqu.symm
      have hfc : (0 : ℚ) ≤ g.get_max_edge_weight := max_weight_nonneg g
      calc qu + e.2.2
          ≤ g.get_max_edge_weight * (finCount g.n st.dist : ℚ)
            + g.get_max_edge_weight := by linarith
        _ = g.get_max_edge_weight * ((finCount g.n st.dist : ℚ) + 1) := by ring
  have hlbase : ReqVals g δ H src G ((G : ℚ) * δ) st.dist st.light := by
    refine ⟨?_, by rw [Hln]; exact List.nodup_nil, ?_⟩
    · intro v hv
      rw [Hlq] at hv
      exact absurd rfl hv
    · intro v
      rw [Hln, Hlq]
      simp
  have hlight : ReqVals g δ H src G ((G : ℚ) * δ) st.dist
      (applyRequests st.dist st.light
        (((LS cg).flatMap (cellEdges g)).filter (isLightReq δ st.dist))) := by
    apply applyRequests_val g δ H src G _ st.dist st.light _ hlbase
    intro r hr
    rw [List.mem_filter] at hr
    obtain ⟨hrE, hrb⟩ := hr
    have hg : st.dist r.1 + ((r.2.2 : ℚ) : Dist) < st.dist r.2.1 := by
      simp only [isLightReq, Bool.and_eq_true, decide_eq_true_eq] at hrb
      exact hrb.1
    have hwlt : r.2.2 < δ := by
      simp only [isLightReq, Bool.and_eq_true, decide_eq_true_eq] at hrb
      exact hrb.2
    obtain ⟨h1, h2, h3, q, hq, hre, hqlo, hw0, hqhi, hbd⟩ := hval r hrE hg
    refine ⟨h1, h2, h3, q, hq, hre, by linarith, ?_, hbd⟩
    have hb1 : BV δ ((q : ℚ) : Dist) ≤ (G : ℤ) + 1 := by
      apply BV_le_of_val_lt δ hδ q ((G : ℤ) + 1)
      push_cast
      linarith
    have hH' : (5 : ℤ) ≤ (H : ℤ) := by exact_mod_cast hH
    omega
  have hheavy : ReqVals g δ H src G (((G : ℚ) + 1) * δ) st.dist
      (applyRequests st.dist st.heavy
        (((LS cg).flatMap (cellEdges g)).filter (isHeavyReq δ st.dist))) := by
    apply applyRequests_val g δ H src G _ st.dist st.heavy _ Hheavy
    intro r hr
    rw [List.mem_filter] at hr
    obtain ⟨hrE, hrb⟩ := hr
    have hg : st.dist r.1 + ((r.2.2 : ℚ) : Dist) < st.dist r.2.1 := by
      simp only [isHeavyReq, Bool.and_eq_true, decide_eq_true_eq,
        Bool.not_eq_true', decide_eq_false_iff_not] at hrb
      exact hrb.1
    have hwge : δ ≤ r.2.2 := by
      simp only [isHeavyReq, Bool.and_eq_true, decide_eq_true_eq,
        Bool.not_eq_true', decide_eq_false_iff_not] at hrb
      exact le_of_not_lt hrb.2
    obtain ⟨h1, h2, h3, q, hq, hre, hqlo, hw0, hqhi, hbd⟩ := hval r hrE hg
    have hwL : r.2.2 ≤ g.get_max_edge_weight :=
      weight_le_max g r.1 _ (hEfacts r hrE).2
    refine ⟨h1, h2, h3, q, hq, hre, by linarith, ?_, hbd⟩
    have hb1 : BV δ ((q : ℚ) : Dist) ≤ (G : ℤ) + (H : ℤ) - 5 := by
      apply BV_le_of_val_lt δ hδ q ((G : ℤ) + (H : ℤ) - 5)
      push_cast
      have : q < ((G : ℚ) + 1) * δ + ((H : ℚ) - 5) * δ := by linarith
      linarith
    omega
  refine ⟨?_, by rw [hPA], by rw [hPA], by rw [hPA]⟩
  rw [hPA]
  refine ⟨Hdi, by dsimp only; rw [List.length_set]; exact Hlen,
    hlight, hheavy, Function.update LS cg [], ?_, ?_, ?_, ?_⟩
  · intro s hs
    dsimp only
    by_cases hscg : s = cg
    · subst hscg
      rw [listSet_getD_self _ _ _ (by rw [Hlen]; exact hs) _,
        Function.update_same]
      refine ⟨?_, rfl, rfl, ?_, List.nodup_nil⟩
      · show (st.buckets.getD s cvD).capacity = g.n
        exact hsoc.1
      · intro p hp
        exact absurd hp (by simp)
    · rw [listSet_getD_ne _ _ _ _ (fun h => hscg h.symm) _,
        Function.update_noteq hscg]
      exact Hslots s hs
  · intro s hs ci hci
    by_cases hscg : s = cg
    · subst hscg
      rw [Function.update_same] at hci
      exact absurd hci (List.not_mem_nil ci)
    · rw [Function.update_noteq hscg] at hci
      exact Hsrcs s hs (fun h => hscg (h ▸ hcg.symm)) ci hci
  · rw [← hcg, Function.update_same]
  · intro x hx
    dsimp only at hx ⊢
    rcases Hcov x hx with ⟨s, hs, hmem⟩ | ⟨hbv, hLrel, hHpend⟩
    · by_cases hscg : s = cg
      · subst hscg
        right
        refine ⟨le_of_eq (hBVG x hmem), ?_, ?_⟩
        · intro vw hvw
          rw [lightAdj, List.mem_filter] at hvw
          obtain ⟨hadj, hwlt⟩ := hvw
          rw [decide_eq_true_eq] at hwlt
          by_cases hg : st.dist x + ((vw.2 : ℚ) : Dist) < st.dist vw.1
          · right
            have hmem2 : (x, vw.1, vw.2) ∈
                (((LS s).flatMap (cellEdges g)).filter
                  (isLightReq δ st.dist)) := by
              rw [List.mem_filter]
              refine ⟨hEcover x hmem vw hadj, ?_⟩
              simp [isLightReq, hg, hwlt]
            exact applyRequests_le_of_mem st.dist _ st.light _ hmem2
          · exact Or.inl (le_of_not_lt hg)
        · intro vw hvw
          rw [heavyAdj, List.mem_filter] at hvw
          obtain ⟨hadj, hwge⟩ := hvw
          rw [decide_eq_true_eq] at hwge
          by_cases hg : st.dist x + ((vw.2 : ℚ) : Dist) < st.dist vw.1
          · right
            have hmem2 : (x, vw.1, vw.2) ∈
                (((LS s).flatMap (cellEdges g)).filter
                  (isHeavyReq δ st.dist)) := by
              rw [List.mem_filter]
              refine ⟨hEcover x hmem vw hadj, ?_⟩
              simp [isHeavyReq, hg, hwge]
            exact applyRequests_le_of_mem st.dist _ st.heavy _ hmem2
          · exact Or.inl (le_of_not_lt hg)
      · exact Or.inl ⟨s, hs, by rw [Function.update_noteq hscg]; exact hmem⟩
    · right
      refine ⟨hbv, ?_, ?_⟩
      · intro vw hvw
        exact Or.inl (hLrel vw hvw)
      · intro vw hvw
        rcases hHpend vw hvw with h | h
        · exact Or.inl h
        · exact Or.inr (le_trans (applyRequests_req_mono st.dist _ _ _) h)

theorem not_top_le_add (d : Dist) (w : ℚ) (hd : d ≠ ⊤) :
    ¬ ((⊤ : Dist) ≤ d + (w : Dist)) := by
  intro h
  rcases WithTop.add_eq_top.mp (top_le_iff.mp h) with h2 | h2
  · exact hd h2
  · exact WithTop.coe_ne_top h2

/-- Loop 2 (light relaxation with the counter reset) restores the
pass-boundary invariant; it leaves the buckets alone or strictly
decreases the distance measure, and does not touch the heavy map. -/
theorem phaseB_spec (g : Graph) (δ : ℚ) (src H G T cg : ℕ) (hδ : 0 < δ)
    (hH : 5 ≤ H) (hnn : g.NonNeg) (hsrc : src < g.n) (hT : 0 < T)
    (hcg : cg = G % H) (st : State) (hPA : PInvA g δ src H G st) :
    PInv g δ src H G (phaseB δ H T cg st) ∧
    (∀ x, (phaseB δ H T cg st).dist x ≤ st.dist x) ∧
    ((phaseB δ H T cg st).buckets = st.buckets ∨
      muDist g (phaseB δ H T cg st).dist < muDist g st.dist) ∧
    (phaseB δ H T cg st).heavy = st.heavy := by
  obtain ⟨Hdi, Hlen, Hlight, Hheavy, LS, Hslots, Hnosrc, Hcge, Hcov⟩ := hPA
  obtain ⟨hlv, hlnd, hliff⟩ := Hlight
  have hL0 : (0 : ℚ) ≤ g.get_max_edge_weight := max_weight_nonneg g
  obtain ⟨LS', I1, I2, I3, I4, I5, I6, I7, I8, I9, I10, I11⟩ :=
    relaxFold_spec g δ src H G cg hδ hH hnn hsrc hcg ((G : ℚ) * δ)
      (le_refl _) (fun _ => (⊤ : Dist)) st.heavy.req st.light.nodes st.core
      st.light LS Hdi Hlen Hslots Hnosrc hlnd
      (fun x hx => (hliff x).mpr hx) hlv
      (fun x _ => by rw [Hcge]; exact List.not_mem_nil _)
      (by
        intro x hx
        rcases Hcov x hx with h | ⟨hbv, hLP, hHP⟩
        · exact Or.inl h
        · refine Or.inr ⟨hbv, ?_, ?_⟩
          · intro vw hvw
            rcases hLP vw hvw with h | h
            · exact Or.inl h
            · exact Or.inr (Or.inl h)
          · intro vw hvw
            rcases hHP vw hvw with h | h
            · exact Or.inl h
            · exact Or.inr (Or.inr h))
  have hPB : phaseB δ H T cg st =
      { dist := (st.light.nodes.foldl (fun (p : Core × ReqMap) v =>
          relax δ H cg p.1 p.2 v) (st.core, st.light)).1.dist
        pos := (st.light.nodes.foldl (fun (p : Core × ReqMap) v =>
          relax δ H cg p.1 p.2 v) (st.core, st.light)).1.pos
        buckets := (st.light.nodes.foldl (fun (p : Core × ReqMap) v =>
          relax δ H cg p.1 p.2 v) (st.core, st.light)).1.buckets
        light := { req := (st.light.nodes.foldl (fun (p : Core × ReqMap) v =>
          relax δ H cg p.1 p.2 v) (st.core, st.light)).2.req, nodes := [] }
        heavy := st.heavy } := by
    unfold phaseB
    dsimp only
    rw [chunked_eq T hT]
  rw [hPB]
  refine ⟨⟨I1, I2, ?_, ⟨?_, rfl⟩, LS', I3, fun s hs _ => I4 s hs, ?_⟩,
    I7, ?_, rfl⟩
  · refine ⟨?_, Hheavy.2.1, Hheavy.2.2⟩
    intro v hv
    obtain ⟨ha, hb, q, hq, hre, hb0q, hbv, hbd⟩ := Hheavy.1 v hv
    refine ⟨ha, hb, q, hq, hre, hb0q, hbv, ?_⟩
    have hfc : finCount g.n st.dist ≤ finCount g.n
        (st.light.nodes.foldl (fun (p : Core × ReqMap) v =>
          relax δ H cg p.1 p.2 v) (st.core, st.light)).1.dist :=
      finCount_mono g.n st.dist _ I7
    have hfc' : (finCount g.n st.dist : ℚ) ≤ (finCount g.n
        (st.light.nodes.foldl (fun (p : Core × ReqMap) v =>
          relax δ H cg p.1 p.2 v) (st.core, st.light)).1.dist : ℚ) := by
      exact_mod_cast hfc
    calc q ≤ g.get_max_edge_weight * ((finCount g.n st.dist : ℚ) + 1) := hbd
      _ ≤ _ := by
          apply mul_le_mul_of_nonneg_left _ hL0
          linarith
  · funext x
    exact I5 x
  · intro x hx
    rcases I9 x hx with h | ⟨hbv, hle, hhe⟩
    · exact Or.inl h
    · refine Or.inr ⟨hbv, ?_, ?_⟩
      · intro vw hvw
        have hxfin : (st.light.nodes.foldl (fun (p : Core × ReqMap) v =>
            relax δ H cg p.1 p.2 v) (st.core, st.light)).1.dist x ≠ ⊤ := hx
        rcases hle vw hvw with h | h | h
        · exact h
        · exfalso
          rw [I5 vw.1] at h
          exact not_top_le_add _ _ hxfin h
        · exact absurd h (not_top_le_add _ _ hxfin)
      · intro vw hvw
        have hxfin : (st.light.nodes.foldl (fun (p : Core × ReqMap) v =>
            relax δ H cg p.1 p.2 v) (st.core, st.light)).1.dist x ≠ ⊤ := hx
        rcases hhe vw hvw with h | h | h
        · exact Or.inl h
        · exfalso
          rw [I5 vw.1] at h
          exact not_top_le_add _ _ hxfin h
        · exact Or.inr h
  · rcases I8 with ⟨hceq, _⟩ | hmu
    · exact Or.inl (congrArg Core.buckets hceq)
    · exact Or.inr hmu

/-- A slot is empty exactly when its ghost list is. -/
theorem slot_empty_ghost (g : Graph) (δ : ℚ) (H G : ℕ) (dist : ℕ → Dist)
    (pos : ℕ → ℤ) (s : ℕ) (cv : CircularVector ℤ) (L : List CellG)
    (hso : slotOK g δ H G dist pos s cv L) :
    cv.empty = true ↔ L = [] := by
  obtain ⟨_, hh, ht, _, _⟩ := hso
  unfold CircularVector.empty
  rw [hh, ht]
  constructor
  · intro h
    have h0 : 0 = L.length := by simpa using h
    exact List.eq_nil_of_length_eq_zero h0.symm
  · intro h
    subst h
    rfl

/-- Advancing the virtual generation: once the current slot is empty,
every slot is valid one generation later. -/
theorem slotOK_shift (g : Graph) (δ : ℚ) (H G : ℕ) (dist : ℕ → Dist)
    (pos : ℕ → ℤ) (s : ℕ) (cv : CircularVector ℤ) (L : List CellG)
    (hH : 5 ≤ H) (hs : s < H)
    (hso : slotOK g δ H G dist pos s cv L)
    (hemp : s = G % H → L = []) :
    slotOK g δ H (G + 1) dist pos s cv L := by
  obtain ⟨hcap, hh, ht, hcells, hnd⟩ := hso
  refine ⟨hcap, hh, ht, ?_, hnd⟩
  intro p hp
  have hcell := hcells p hp
  have hH0 : 0 < H := by omega
  rcases hL : L.get ⟨p, hp⟩ with ⟨x, _ | b⟩
  · rw [hL] at hcell
    obtain ⟨h1, h2, h3, h4, h5, h6, h7⟩ := hcell
    have hne : BV δ (dist x) ≠ (G : ℤ) := by
      intro hBV
      have hsv : (s : ℤ) = ((G % H : ℕ) : ℤ) := by
        rw [← h4, hBV]
        push_cast
        rfl
      have : s = G % H := by exact_mod_cast hsv
      have : L = [] := hemp this
      subst this
      exact absurd hp (by simp)
    refine ⟨h1, h2, h3, h4, h5, ?_, ?_⟩
    · push_cast
      omega
    · push_cast
      push_cast at h7
      omega
  · rw [hL] at hcell
    obtain ⟨h1, h2, h3, h4, h5, h6⟩ := hcell
    refine ⟨h1, h2, h3, h4, h5, ?_⟩
    push_cast
    push_cast at h6
    omega

/-- Loop 3 (heavy relaxation with the counter reset) advances the
pass-boundary invariant to the next virtual generation: all heavy
requests are drained, the current slot stays empty, and the fold is the
identity on the core or strictly decreases the distance measure. -/
theorem phaseC_spec (g : Graph) (δ : ℚ) (src H G T cg : ℕ) (hδ : 0 < δ)
    (hH : 5 ≤ H) (hnn : g.NonNeg) (hsrc : src < g.n) (hT : 0 < T)
    (hcg : cg = G % H) (st : State) (hPI : PInv g δ src H G st)
    (hbe : (st.buckets.getD cg cvD).empty = true) :
    PInv g δ src H (G + 1) (phaseC δ H T cg st) ∧
    (∀ x, (phaseC δ H T cg st).dist x ≤ st.dist x) ∧
    (phaseC δ H T cg st).heavy.nodes = [] ∧
    (phaseC δ H T cg st).light = st.light ∧
    (((phaseC δ H T cg st).dist = st.dist ∧
      (phaseC δ H T cg st).buckets = st.buckets) ∨
      muDist g (phaseC δ H T cg st).dist < muDist g st.dist) ∧
    ((phaseC δ H T cg st).buckets.getD cg cvD).empty = true := by
  obtain ⟨Hdi, Hlen, Hheavy, Hlclean, LS, Hslots, Hsrcs, Hcov⟩ := hPI
  have hH0 : 0 < H := by omega
  have hcgH : cg < H := by rw [hcg]; exact Nat.mod_lt _ hH0
  have hLcg : LS cg = [] :=
    (slot_empty_ghost g δ H G st.dist st.pos cg _ (LS cg)
      (Hslots cg hcgH)).mp hbe
  have hLcg' : LS (G % H) = [] := by rw [← hcg]; exact hLcg
  have Hnosrc : ∀ s, s < H → ∀ ci ∈ LS s, ci.1 ≠ src := by
    intro s hs ci hci
    by_cases hscg : s = G % H
    · subst hscg
      rw [hLcg'] at hci
      exact absurd hci (List.not_mem_nil ci)
    · exact Hsrcs s hs hscg ci hci
  obtain ⟨hhv, hhnd, hhiff⟩ := Hheavy
  obtain ⟨LS', I1, I2, I3, I4, I5, I6, I7, I8, I9, I10, I11⟩ :=
    relaxFold_spec g δ src H G cg hδ hH hnn hsrc hcg (((G : ℚ) + 1) * δ)
      (by nlinarith) (fun _ => (⊤ : Dist)) (fun _ => (⊤ : Dist))
      st.heavy.nodes st.core st.heavy LS Hdi Hlen Hslots Hnosrc hhnd
      (fun x hx => (hhiff x).mpr hx) hhv
      (fun x _ => by rw [hLcg']; exact List.not_mem_nil _)
      (by
        intro x hx
        rcases Hcov x hx with h | ⟨hbv, hLrel, hHP⟩
        · exact Or.inl h
        · refine Or.inr ⟨hbv, ?_, ?_⟩
          · intro vw hvw
            exact Or.inl (hLrel vw hvw)
          · intro vw hvw
            rcases hHP vw hvw with h | h
            · exact Or.inl h
            · exact Or.inr (Or.inl h))
  have hPC : phaseC δ H T cg st =
      { dist := (st.heavy.nodes.foldl (fun (p : Core × ReqMap) v =>
          relax δ H cg p.1 p.2 v) (st.core, st.heavy)).1.dist
        pos := (st.heavy.nodes.foldl (fun (p : Core × ReqMap) v =>
          relax δ H cg p.1 p.2 v) (st.core, st.heavy)).1.pos
        buckets := (st.heavy.nodes.foldl (fun (p : Core × ReqMap) v =>
          relax δ H cg p.1 p.2 v) (st.core, st.heavy)).1.buckets
        light := st.light
        heavy := { req := (st.heavy.nodes.foldl (fun (p : Core × ReqMap) v =>
          relax δ H cg p.1 p.2 v) (st.core, st.heavy)).2.req, nodes := [] } } := by
    unfold phaseC
    dsimp only
    rw [chunked_eq T hT]
  have hLScg' : LS' (G % H) = [] := by
    rw [List.eq_nil_iff_forall_not_mem]
    intro ci hci
    rcases I11 ci hci with h | ⟨hcell, hchg⟩
    · rw [hLcg'] at h
      exact absurd h (List.not_mem_nil ci)
    · have hlive : (ci.1, (none : Option ℤ)) ∈ LS' (G % H) := hcell ▸ hci
      have hBV := live_cg_BV g δ H G
        (st.heavy.nodes.foldl (fun (p : Core × ReqMap) v =>
          relax δ H cg p.1 p.2 v) (st.core, st.heavy)).1.dist
        (st.heavy.nodes.foldl (fun (p : Core × ReqMap) v =>
          relax δ H cg p.1 p.2 v) (st.core, st.heavy)).1.pos
        _ (LS' (G % H)) hH (I3 (G % H) (Nat.mod_lt _ hH0)) ci.1 hlive
      obtain ⟨_, q, hq, hb0q⟩ := I10 ci.1 hchg
      have hBVq : (G : ℤ) + 1 ≤ BV δ ((q : ℚ) : Dist) := by
        apply le_BV δ hδ q ((G : ℤ) + 1)
        push_cast
        exact hb0q
      rw [hq] at hBV
      omega
  rw [hPC]
  refine ⟨⟨I1, I2, ?_, Hlclean, LS', ?_, fun s hs _ => I4 s hs, ?_⟩,
    I7, rfl, rfl, ?_, ?_⟩
  · refine ⟨fun v hv => absurd (I5 v) hv, List.nodup_nil, fun v =>
      ⟨fun h => absurd h (List.not_mem_nil v), fun h => absurd (I5 v) h⟩⟩
  · intro s hs
    exact slotOK_shift g δ H G _ _ s _ (LS' s) hH hs (I3 s hs)
      (fun hseq => by rw [hseq]; exact hLScg')
  · intro x hx
    rcases I9 x hx with h | ⟨hbv, hle, hhe⟩
    · exact Or.inl h
    · refine Or.inr ⟨le_trans hbv (by push_cast; omega), ?_, ?_⟩
      · intro vw hvw
        rcases hle vw hvw with h | h | h
        · exact h
        · exfalso
          rw [I5 vw.1] at h
          exact not_top_le_add _ _ hx h
        · exact absurd h (not_top_le_add _ _ hx)
      · intro vw hvw
        rcases hhe vw hvw with h | h | h
        · exact Or.inl h
        · exact Or.inr h
        · exact absurd h (not_top_le_add _ _ hx)
  · rcases I8 with ⟨hceq, _⟩ | hmu
    · exact Or.inl ⟨congrArg Core.dist hceq, congrArg Core.buckets hceq⟩
    · exact Or.inr hmu
  · exact (slot_empty_ghost g δ H G _ _ cg _ (LS' cg) (I3 cg hcgH)).mpr
      (by rw [hcg]; exact hLScg')

/-- Loop 3 with an empty request buffer only resets the (already empty)
counter. -/
theorem phaseC_of_nil (δ : ℚ) (H T cg : ℕ) (st : State) (hh : st.heavy.nodes = []) :
    phaseC δ H T cg st
      = { dist := st.dist, pos := st.pos, buckets := st.buckets
          light := st.light, heavy := ⟨st.heavy.req, []⟩ } := by
  rw [phaseC, hh, chunked_nil]
  rfl

/-- The inner while-loop: with enough fuel it terminates in a state that
still satisfies the pass invariant and whose current slot is empty; a
nontrivial run resets the no-work counter. -/
theorem innerLoop_spec_par (g : Graph) (δ : ℚ) (src H G T cg : ℕ)
    (hδ : 0 < δ) (hH : 5 ≤ H) (hwf : g.WF) (hnn : g.NonNeg)
    (hsrc : src < g.n) (hT : 0 < T) (hcg : cg = G % H)
    (hLH : g.get_max_edge_weight ≤ ((H : ℚ) - 5) * δ) :
    ∀ (fuel : ℕ) (st : State) (gwb : ℕ), PInv g δ src H G st →
    muDist g st.dist + 2 ≤ fuel →
    ∃ st2 gwb2, innerLoop g δ H T cg fuel st gwb = some (st2, gwb2) ∧
      PInv g δ src H G st2 ∧
      ((st2.buckets.getD cg cvD).empty = true) ∧
      (∀ x, st2.dist x ≤ st.dist x) ∧
      muDist g st2.dist ≤ muDist g st.dist ∧
      ((st2 = st ∧ gwb2 = gwb) ∨ (gwb2 = 0 ∧
        (muDist g st2.dist < muDist g st.dist ∨
          ((st.buckets.getD cg cvD).empty = false ∧
            st2.buckets
              = st.buckets.set cg ((st.buckets.getD cg cvD).clear))))) := by
  have hH0 : 0 < H := by omega
  have hcgH : cg < H := by rw [hcg]; exact Nat.mod_lt _ hH0
  intro fuel
  induction fuel with
  | zero => intro st gwb _ hf; omega
  | succ n ih =>
    intro st gwb hPI hf
    by_cases hemp : (st.buckets.getD cg cvD).empty = true
    · exact ⟨st, gwb, by rw [innerLoop, if_pos hemp], hPI, hemp,
        fun x => le_refl _, le_refl _, Or.inl ⟨rfl, rfl⟩⟩
    · have hlen : st.buckets.length = H := hPI.2.1
      obtain ⟨hPA, hAd, hAp, hAb⟩ :=
        phaseA_spec g δ src H G T cg hδ hH hwf hnn hsrc hT hcg hLH st hPI
      obtain ⟨hPB, hBd, hBb, hBh⟩ :=
        phaseB_spec g δ src H G T cg hδ hH hnn hsrc hT hcg _ hPA
      have hBd' : ∀ x,
          (phaseB δ H T cg (phaseA g δ T cg st)).dist x ≤ st.dist x := by
        intro x
        have h := hBd x
        rwa [hAd] at h
      have hBmule : muDist g (phaseB δ H T cg (phaseA g δ T cg st)).dist
          ≤ muDist g st.dist :=
        muDist_le g st.dist _ (distInv_rankOK g src _ hnn hPB.1) hBd'
      have hempf : (st.buckets.getD cg cvD).empty = false := by
        simp only [Bool.not_eq_true] at hemp
        exact hemp
      rcases hBb with hid | hmu
      · have hBemp : ((phaseB δ H T cg (phaseA g δ T cg st)).buckets.getD cg
            cvD).empty = true := by
          rw [hid, hAb, listSet_getD_self _ _ _ (by omega) _]
          rfl
        obtain ⟨m, rfl⟩ : ∃ m, n = m + 1 := ⟨n - 1, by omega⟩
        refine ⟨phaseB δ H T cg (phaseA g δ T cg st), 0, ?_, hPB, hBemp,
          hBd', hBmule, Or.inr ⟨rfl, Or.inr ⟨hempf, hid.trans hAb⟩⟩⟩
        rw [innerLoop, if_neg hemp, innerLoop, if_pos hBemp]
      · rw [hAd] at hmu
        obtain ⟨st2, gwb2, hrun, h1, h2, h3, h3m, h4⟩ :=
          ih (phaseB δ H T cg (phaseA g δ T cg st)) 0 hPB (by omega)
        have hgwb2 : gwb2 = 0 := by
          rcases h4 with ⟨_, h⟩ | ⟨h, _⟩
          · exact h
          · exact h
        refine ⟨st2, gwb2, ?_, h1, h2,
          fun x => le_trans (h3 x) (hBd' x),
          le_trans h3m (le_of_lt hmu),
          Or.inr ⟨hgwb2, Or.inl (lt_of_le_of_lt h3m hmu)⟩⟩
        rw [innerLoop, if_neg hemp]
        exact hrun

/-- At the horizon exit every slot has been seen empty and no request is
pending: no edge is tense. -/
theorem pinv_noTense (g : Graph) (δ : ℚ) (src H G : ℕ) (st : State)
    (hPI : PInv g δ src H G st)
    (hall : ∀ s, s < H → ((st.buckets.getD s cvD).empty = true))
    (hhn : st.heavy.nodes = []) :
    NoTense g st.dist := by
  obtain ⟨Hdi, Hlen, ⟨_, _, hhiff⟩, _, LS, Hslots, _, Hcov⟩ := hPI
  have hreq : ∀ x, st.heavy.req x = ⊤ := by
    intro x
    by_contra h
    have hm := (hhiff x).mpr h
    rw [hhn] at hm
    exact absurd hm (List.not_mem_nil x)
  have hLS : ∀ s, s < H → LS s = [] := by
    intro s hs
    exact (slot_empty_ghost g δ H G st.dist st.pos s _ (LS s)
      (Hslots s hs)).mp (hall s hs)
  apply noTense_of_rel g δ st.dist
  intro v hv
  rcases Hcov v hv with ⟨s, hs, hmem⟩ | ⟨_, hLrel, hHP⟩
  · rw [hLS s hs] at hmem
    exact absurd hmem (List.not_mem_nil _)
  · refine ⟨hLrel, ?_⟩
    intro vw hvw
    rcases hHP vw hvw with h | h
    · exact h
    · rw [hreq vw.1] at h
      exact absurd h (not_top_le_add _ _ hv)

/-- A full streak of `H` consecutive empty generations covers every
residue. -/
theorem streak_full_empty (H G : ℕ) (hH : 0 < H) (st : State)
    (hstreak : ∀ j, 1 ≤ j → j ≤ H →
      ((st.buckets.getD ((G + (H - j)) % H) cvD).empty = true)) :
    ∀ s, s < H → ((st.buckets.getD s cvD).empty = true) := by
  intro s hs
  have hd := Nat.mod_add_div G H
  have hGm : G % H < H := Nat.mod_lt _ hH
  by_cases hcase : G % H ≤ s
  · have h := hstreak (H - (s - G % H)) (by omega) (by omega)
    have harg : G + (H - (H - (s - G % H))) = H * (G / H) + s := by omega
    rw [harg, Nat.mul_add_mod, Nat.mod_eq_of_lt hs] at h
    exact h
  · push_neg at hcase
    have h := hstreak (G % H - s) (by omega) (by omega)
    have hm : H * (G / H + 1) = H * (G / H) + H := Nat.mul_succ H _
    have harg : G + (H - (G % H - s)) = H * (G / H + 1) + s := by omega
    rw [harg, Nat.mul_add_mod, Nat.mod_eq_of_lt hs] at h
    exact h

/-- The concrete generation counter tracks the virtual generation modulo
the horizon across one step (including the wrap reset). -/
theorem cg_step (H G cg : ℕ) (hH : 0 < H)
    (hcg : (if H ≤ cg then 0 else cg) = G % H) :
    (if H ≤ (if H ≤ cg then 0 else cg) + 1 then 0
      else (if H ≤ cg then 0 else cg) + 1) = (G + 1) % H := by
  have hd := Nat.mod_add_div G H
  have hGm : G % H < H := Nat.mod_lt _ hH
  rw [hcg]
  by_cases hcase : G % H + 1 = H
  · rw [if_pos (by omega)]
    have hm : H * (G / H + 1) = H * (G / H) + H := Nat.mul_succ H _
    have h2 : G + 1 = H * (G / H + 1) := by omega
    rw [h2, Nat.mul_mod_right]
  · rw [if_neg (by omega)]
    have h2 : G + 1 = H * (G / H) + (G % H + 1) := by omega
    rw [h2, Nat.mul_add_mod,
      Nat.mod_eq_of_lt (show G % H + 1 < H by omega)]

/-- The number of nonempty bucket slots (secondary termination measure). -/
def nuCount (H : ℕ) (st : State) : ℕ :=
  ((Finset.range H).filter
    (fun s => ¬((st.buckets.getD s cvD).empty = true))).card

theorem nuCount_le (H : ℕ) (st : State) : nuCount H st ≤ H := by
  have h := Finset.card_filter_le (Finset.range H)
    (fun s => ¬((st.buckets.getD s cvD).empty = true))
  rwa [Finset.card_range] at h

theorem nuCount_congr (H : ℕ) (st st' : State)
    (hb : st.buckets = st'.buckets) : nuCount H st = nuCount H st' := by
  unfold nuCount
  rw [hb]

theorem nuCount_clear_lt (H : ℕ) (st st2 : State) (cg : ℕ) (hcg : cg < H)
    (hlen : st.buckets.length = H)
    (hne : (st.buckets.getD cg cvD).empty = false)
    (hb : st2.buckets = st.buckets.set cg ((st.buckets.getD cg cvD).clear)) :
    nuCount H st2 < nuCount H st := by
  apply Finset.card_lt_card
  have hsub : (Finset.range H).filter
        (fun s => ¬((st2.buckets.getD s cvD).empty = true))
      ⊆ (Finset.range H).filter
        (fun s => ¬((st.buckets.getD s cvD).empty = true)) := by
    intro s hsmem
    rw [Finset.mem_filter] at hsmem ⊢
    obtain ⟨hr, hp⟩ := hsmem
    refine ⟨hr, ?_⟩
    rcases eq_or_ne s cg with rfl | hne2
    · exfalso
      apply hp
      rw [hb, listSet_getD_self _ _ _ (by omega) _]
      rfl
    · rw [hb, listSet_getD_ne _ _ _ _ (Ne.symm hne2) _] at hp
      exact hp
  rw [Finset.ssubset_iff_of_subset hsub]
  refine ⟨cg, ?_, ?_⟩
  · rw [Finset.mem_filter]
    refine ⟨Finset.mem_range.mpr hcg, ?_⟩
    rw [hne]
    exact Bool.false_ne_true
  · rw [Finset.mem_filter]
    rintro ⟨-, hp⟩
    apply hp
    rw [hb, listSet_getD_self _ _ _ (by omega) _]
    rfl

/-- The outer-loop termination measure. -/
def Mout (g : Graph) (H : ℕ) (st : State) (gwb : ℕ) : ℕ :=
  (muDist g st.dist * (H + 1) + nuCount H st) * (H + 1) + (H - gwb)

theorem measure_step_lt (H : ℕ) (B3 B x3 x : ℕ) (hB : B3 + 1 ≤ B)
    (hx3 : x3 ≤ H) : B3 * (H + 1) + x3 < B * (H + 1) + x := by
  have h := Nat.mul_le_mul_right (H + 1) hB
  rw [Nat.succ_mul] at h
  omega

theorem Mout_lt_mu (g : Graph) (H : ℕ) (st3 st : State) (gwb3 gwb : ℕ)
    (hmu : muDist g st3.dist < muDist g st.dist) :
    Mout g H st3 gwb3 < Mout g H st gwb := by
  unfold Mout
  apply measure_step_lt H _ _ _ _ ?_ (Nat.sub_le H gwb3)
  have h1 : (muDist g st3.dist + 1) * (H + 1)
      ≤ muDist g st.dist * (H + 1) :=
    Nat.mul_le_mul_right _ hmu
  rw [Nat.succ_mul] at h1
  have h2 := nuCount_le H st3
  omega

theorem Mout_lt_nu (g : Graph) (H : ℕ) (st3 st : State) (gwb3 gwb : ℕ)
    (hmu : muDist g st3.dist ≤ muDist g st.dist)
    (hnu : nuCount H st3 < nuCount H st) :
    Mout g H st3 gwb3 < Mout g H st gwb := by
  unfold Mout
  apply measure_step_lt H _ _ _ _ ?_ (Nat.sub_le H gwb3)
  have h1 : muDist g st3.dist * (H + 1) ≤ muDist g st.dist * (H + 1) :=
    Nat.mul_le_mul_right _ hmu
  omega

/-- The outer generation loop: from any invariant state, with enough fuel
it terminates, and at termination the distance array is fully relaxed. -/
theorem outerLoop_run (g : Graph) (δ : ℚ) (src H T : ℕ)
    (hδ : 0 < δ) (hH : 5 ≤ H) (hwf : g.WF) (hnn : g.NonNeg)
    (hsrc : src < g.n) (hT : 0 < T)
    (hLH : g.get_max_edge_weight ≤ ((H : ℚ) - 5) * δ) :
    ∀ (fuel G cg gwb : ℕ) (st : State),
    (if H ≤ cg then 0 else cg) = G % H →
    PInv g δ src H G st →
    gwb ≤ H →
    (∀ j, 1 ≤ j → j ≤ gwb →
      ((st.buckets.getD ((G + (H - j)) % H) cvD).empty = true)) →
    (1 ≤ gwb → st.heavy.nodes = []) →
    Mout g H st gwb + 1 ≤ fuel →
    ∃ st', outerLoop g δ H T fuel cg gwb st = some st' ∧
      DistInv g src st'.dist ∧ NoTense g st'.dist := by
  have hH0 : 0 < H := by omega
  intro fuel
  induction fuel with
  | zero => intro G cg gwb st _ _ _ _ _ hf; omega
  | succ n ih =>
    intro G cg gwb st hcg hPI hgwb hstreak hheavy hf
    by_cases hstop : H ≤ gwb
    · refine ⟨st, ?_, hPI.1, ?_⟩
      · rw [outerLoop, if_pos hstop]
      · apply pinv_noTense g δ src H G st hPI
        · apply streak_full_empty H G hH0 st
          intro j h1 h2
          exact hstreak j h1 (by omega)
        · exact hheavy (by omega)
    · have hcgG : (if H ≤ cg then 0 else cg) = G % H := hcg
      have hcgH : (if H ≤ cg then 0 else cg) < H := by
        rw [hcgG]
        exact Nat.mod_lt _ hH0
      have hlen : st.buckets.length = H := hPI.2.1
      have hfin : muDist g st.dist + 2 ≤ n + 1 := by
        have h2 : muDist g st.dist * (H + 1) ≤
            muDist g st.dist * (H + 1) + nuCount H st := Nat.le_add_right _ _
        have h3 : muDist g st.dist * (H + 1) * (H + 1) ≤
            (muDist g st.dist * (H + 1) + nuCount H st) * (H + 1) :=
          Nat.mul_le_mul_right _ h2
        have h4 : muDist g st.dist * (H + 1) * (H + 1) + (H - gwb)
            ≤ Mout g H st gwb := by
          unfold Mout
          omega
        have h36 : 6 * 6 ≤ (H + 1) * (H + 1) :=
          Nat.mul_le_mul (by omega) (by omega)
        have h5 : muDist g st.dist * 36 ≤
            muDist g st.dist * ((H + 1) * (H + 1)) :=
          Nat.mul_le_mul_left _ (by omega)
        have h6 : muDist g st.dist * ((H + 1) * (H + 1))
            = muDist g st.dist * (H + 1) * (H + 1) :=
          (Nat.mul_assoc _ _ _).symm
        omega
      obtain ⟨st2, gwb2, hrun, hPI2, hemp2, hle2, hmu2, hcase2⟩ :=
        innerLoop_spec_par g δ src H G T (if H ≤ cg then 0 else cg) hδ hH hwf hnn
          hsrc hT hcgG hLH (n + 1) st gwb hPI hfin
      obtain ⟨hPC1, hPC2, hPC3, hPC4, hPC5, hPC6⟩ :=
        phaseC_spec g δ src H G T (if H ≤ cg then 0 else cg) hδ hH hnn hsrc
          hT hcgG st2 hPI2 hemp2
      set st3 := phaseC δ H T (if H ≤ cg then 0 else cg) st2 with hst3
      have hR3 : RankOK g st3.dist := distInv_rankOK g src st3.dist hnn hPC1.1
      have hmu3 : muDist g st3.dist ≤ muDist g st2.dist :=
        muDist_le g st2.dist st3.dist hR3 hPC2
      have hgwb2le : gwb2 ≤ gwb := by
        rcases hcase2 with ⟨-, h⟩ | ⟨h, -⟩ <;> omega
      have hMdec : Mout g H st3 (gwb2 + 1) < Mout g H st gwb := by
        rcases hcase2 with ⟨hst2eq, hgwb2eq⟩ | ⟨hgwb20, hsub⟩
        · rcases hPC5 with ⟨hdeq, hbeq⟩ | hmu'
          · have hdeq' : st3.dist = st.dist := by rw [hdeq, hst2eq]
            have hmueq : muDist g st3.dist = muDist g st.dist := by
              rw [hdeq']
            have hnueq : nuCount H st3 = nuCount H st :=
              nuCount_congr H st3 st (by rw [hbeq, hst2eq])
            unfold Mout
            rw [hmueq, hnueq]
            omega
          · refine Mout_lt_mu g H st3 st _ _ ?_
            rw [← hst2eq]
            exact hmu'
        · rcases hsub with hmu2lt | ⟨hnef, hbeq2⟩
          · exact Mout_lt_mu g H st3 st _ _ (lt_of_le_of_lt hmu3 hmu2lt)
          · rcases hPC5 with ⟨hdeq, hbeq⟩ | hmu'
            · have hnult : nuCount H st3 < nuCount H st := by
                have h1 := nuCount_clear_lt H st st2
                  (if H ≤ cg then 0 else cg) hcgH hlen hnef hbeq2
                have h2 : nuCount H st3 = nuCount H st2 :=
                  nuCount_congr H st3 st2 hbeq
                omega
              exact Mout_lt_nu g H st3 st _ _ (le_trans hmu3 hmu2) hnult
            · exact Mout_lt_mu g H st3 st _ _ (lt_of_lt_of_le hmu' hmu2)
      have hcg' : (if H ≤ (if H ≤ cg then 0 else cg) + 1 then 0
          else (if H ≤ cg then 0 else cg) + 1) = (G + 1) % H :=
        cg_step H G cg hH0 hcg
      have hstreak' : ∀ j, 1 ≤ j → j ≤ gwb2 + 1 →
          ((st3.buckets.getD ((G + 1 + (H - j)) % H) cvD).empty = true) := by
        intro j h1 h2
        by_cases hj1 : j = 1
        · subst hj1
          have harg : G + 1 + (H - 1) = G + H := by omega
          rw [harg, Nat.add_mod_right, ← hcgG]
          exact hPC6
        · have hj2 : 2 ≤ j := by omega
          rcases hcase2 with ⟨hst2eq, hgwb2eq⟩ | ⟨hgwb20, -⟩
          · have hhn : st2.heavy.nodes = [] := by
              rw [hst2eq]
              exact hheavy (by omega)
            have hb3 : st3.buckets = st.buckets := by
              rw [hst3, phaseC_of_nil δ H T _ st2 hhn, hst2eq]
            have harg : G + 1 + (H - j) = G + (H - (j - 1)) := by omega
            rw [hb3, harg]
            exact hstreak (j - 1) (by omega) (by omega)
          · omega
      obtain ⟨st', hrun', hdi', hnt'⟩ :=
        ih (G + 1) ((if H ≤ cg then 0 else cg) + 1) (gwb2 + 1) st3 hcg' hPC1
          (by omega) hstreak' (fun _ => hPC3) (by omega)
      refine ⟨st', ?_, hdi', hnt'⟩
      rw [outerLoop, if_neg hstop]
      simp only [hrun]
      exact hrun'

/-- More fuel never changes a successful inner-loop run. -/
theorem innerLoop_mono (g : Graph) (δ : ℚ) (H T cg : ℕ) :
    ∀ f1 f2 (st : State) (gwb : ℕ) (r : State × ℕ), f1 ≤ f2 →
    innerLoop g δ H T cg f1 st gwb = some r →
    innerLoop g δ H T cg f2 st gwb = some r := by
  intro f1
  induction f1 with
  | zero =>
    intro f2 st gwb r _ h
    rw [innerLoop] at h
    exact Option.noConfusion h
  | succ n ih =>
    intro f2 st gwb r hle h
    obtain ⟨m, rfl⟩ : ∃ m, f2 = m + 1 := ⟨f2 - 1, by omega⟩
    rw [innerLoop] at h ⊢
    by_cases hemp : (st.buckets.getD cg cvD).empty = true
    · rw [if_pos hemp] at h ⊢
      exact h
    · rw [if_neg hemp] at h ⊢
      exact ih m _ _ r (by omega) h

/-- More fuel never changes a successful outer-loop run. -/
theorem outerLoop_mono (g : Graph) (δ : ℚ) (H T : ℕ) :
    ∀ f1 f2 cg gwb (st : State) (r : State), f1 ≤ f2 →
    outerLoop g δ H T f1 cg gwb st = some r →
    outerLoop g δ H T f2 cg gwb st = some r := by
  intro f1
  induction f1 with
  | zero =>
    intro f2 cg gwb st r _ h
    rw [outerLoop] at h
    exact Option.noConfusion h
  | succ n ih =>
    intro f2 cg gwb st r hle h
    obtain ⟨m, rfl⟩ : ∃ m, f2 = m + 1 := ⟨f2 - 1, by omega⟩
    rw [outerLoop] at h ⊢
    by_cases hstop : H ≤ gwb
    · rw [if_pos hstop] at h ⊢
      exact h
    · rw [if_neg hstop] at h ⊢
      dsimp only at h ⊢
      rcases hi : innerLoop g δ H T (if H ≤ cg then 0 else cg) (n + 1) st gwb
        with _ | ⟨st2, gwb2⟩
      · rw [hi] at h
        exact Option.noConfusion h
      · have hi2 := innerLoop_mono g δ H T (if H ≤ cg then 0 else cg) (n + 1)
          (m + 1) st gwb (st2, gwb2) (by omega) hi
        rw [hi] at h
        rw [hi2]
        exact ih m _ _ _ r (by omega) h

/-- Once every bucket slot is empty and no heavy requests are pending, the
outer loop idles through empty generations and stops when the
no-work counter reaches the horizon, leaving the state unchanged. -/
theorem outerLoop_of_empty (g : Graph) (δ : ℚ) (H T : ℕ) (fuel cg gwb : ℕ)
    (st : State) (hb : ∀ i, (st.buckets.getD i cvD).empty = true)
    (hh : st.heavy.nodes = []) (hgwb : gwb ≤ H) (hf : H < gwb + fuel) :
    ∃ st', outerLoop g δ H T fuel cg gwb st = some st' ∧
      st'.dist = st.dist := by
  induction fuel generalizing cg gwb st with
  | zero => omega
  | succ n ih =>
    rw [outerLoop]
    by_cases hstop : H ≤ gwb
    · rw [if_pos hstop]
      exact ⟨st, rfl, rfl⟩
    · rw [if_neg hstop]
      have hinner : innerLoop g δ H T (if H ≤ cg then 0 else cg) (n + 1) st gwb
          = some (st, gwb) := by
        rw [innerLoop, if_pos (hb _)]
      simp only [hinner]
      rw [phaseC_of_nil δ H T _ st hh]
      obtain ⟨st', h1, h2⟩ := ih _ (gwb + 1)
        { dist := st.dist, pos := st.pos, buckets := st.buckets
          light := st.light, heavy := ⟨st.heavy.req, []⟩ }
        (by intro i; exact hb i) rfl (by omega) (by omega)
      exact ⟨st', h1, h2⟩

/-- The state `compute` builds before entering the outer loop satisfies
the pass invariant at virtual generation `0`. -/
theorem init_pinv (g : Graph) (δ : ℚ) (src H : ℕ) (hδ : 0 < δ) (hH : 5 ≤ H)
    (hwf : g.WF) (hnn : g.NonNeg) (hsrc : src < g.n) :
    PInv g δ src H 0
      { dist := Function.update (fun _ => (⊤ : Dist)) src ((0 : ℚ) : Dist)
        pos := Function.update (fun _ => (-1 : ℤ)) src 0
        buckets := (List.replicate H (CircularVector.new g.n (0 : ℤ))).set 0
          (((CircularVector.new g.n (0 : ℤ)).push (src : ℤ)).2)
        light := { req := fun _ => ⊤, nodes := [] }
        heavy := { req := fun _ => ⊤, nodes := [] } } := by
  have hH0 : 0 < H := by omega
  have hHZ : (5 : ℤ) ≤ (H : ℤ) := by exact_mod_cast hH
  set d0 : ℕ → Dist :=
    Function.update (fun _ => (⊤ : Dist)) src ((0 : ℚ) : Dist) with hd0
  have hdx : ∀ x, x ≠ src → d0 x = ⊤ := fun x hx =>
    Function.update_noteq hx _ _
  have hds : d0 src = ((0 : ℚ) : Dist) := Function.update_same _ _ _
  have hBV0 : BV δ (d0 src) = 0 := by
    rw [hds, BV_coe, zero_div, Int.floor_zero]
  have hdi : DistInv g src d0 := by
    refine ⟨?_, ?_, ?_, ?_⟩
    · intro v q hq
      rcases eq_or_ne v src with rfl | hv
      · rw [hds] at hq
        have hq0 : (0 : ℚ) = q := by exact_mod_cast hq
        rw [← hq0]
        exact Reaches.nil
      · rw [hdx v hv] at hq
        exact absurd hq (by simp)
    · rw [hds]
    · intro v hv
      rcases eq_or_ne v src with rfl | hne
      · exact hsrc
      · exact absurd (hdx v hne) hv
    · intro v q hq
      rcases eq_or_ne v src with rfl | hne
      · rw [hds] at hq
        have hq0 : (0 : ℚ) = q := by exact_mod_cast hq
        rw [← hq0]
        exact mul_nonneg (max_weight_nonneg g) (by positivity)
      · rw [hdx v hne] at hq
        exact absurd hq (by simp)
  have hrepl : (List.replicate H (CircularVector.new g.n (0 : ℤ))).length
      = H := List.length_replicate _ _
  have hgetne : ∀ s, s < H → s ≠ 0 →
      ((List.replicate H (CircularVector.new g.n (0 : ℤ))).set 0
        (((CircularVector.new g.n (0 : ℤ)).push (src : ℤ)).2)).getD s cvD
      = CircularVector.new g.n (0 : ℤ) := by
    intro s hs hs0
    rw [listSet_getD_ne _ _ _ _ (Ne.symm hs0) _,
      List.getD_eq_getElem?_getD, List.getElem?_replicate, if_pos hs]
    rfl
  have hget0 :
      ((List.replicate H (CircularVector.new g.n (0 : ℤ))).set 0
        (((CircularVector.new g.n (0 : ℤ)).push (src : ℤ)).2)).getD 0 cvD
      = ((CircularVector.new g.n (0 : ℤ)).push (src : ℤ)).2 :=
    listSet_getD_self _ _ _ (by omega) _
  refine ⟨hdi, by rw [List.length_set, List.length_replicate], ?_,
    ⟨rfl, rfl⟩, ?_⟩
  · exact ⟨fun v hv => absurd rfl hv, List.nodup_nil,
      fun v => ⟨fun h => absurd h (List.not_mem_nil v),
        fun h => absurd rfl h⟩⟩
  · by_cases hn2 : 2 ≤ g.n
    · refine ⟨fun s => if s = 0 then [(src, (none : Option ℤ))] else [],
        ?_, ?_, ?_⟩
      · intro s hs
        by_cases hs0 : s = 0
        · subst hs0
          dsimp only
          rw [if_pos rfl, hget0]
          refine ⟨rfl, rfl, ?_, ?_, by simp⟩
          · show (0 + 1) % g.n = 1
            rw [Nat.mod_eq_of_lt (by omega)]
          · intro p hp
            have hp0 : p = 0 := by
              simp only [List.length_singleton] at hp
              omega
            subst hp0
            refine ⟨?_, hsrc, ?_, ?_, ?_, ?_, ?_⟩
            · show Function.update (fun _ => (0 : ℤ)) 0 (src : ℤ) 0 = (src : ℤ)
              rw [Function.update_same]
            · rw [hds]
              exact WithTop.coe_ne_top
            · rw [hBV0]
              simp
            · show Function.update (fun _ => (-1 : ℤ)) src 0 src = ((0 : ℕ) : ℤ)
              rw [Function.update_same]
              rfl
            · rw [hBV0]
              simp
            · rw [hBV0]
              omega
        · dsimp only
          rw [if_neg hs0, hgetne s hs hs0]
          exact ⟨rfl, rfl, rfl, fun p hp => absurd hp (by simp), by simp⟩
      · intro s hs hne ci hci
        rw [Nat.zero_mod] at hne
        dsimp only at hci
        rw [if_neg hne] at hci
        exact absurd hci (List.not_mem_nil ci)
      · intro x hx
        rcases eq_or_ne src x with rfl | hne
        · refine Or.inl ⟨0, hH0, ?_⟩
          dsimp only
          rw [if_pos rfl]
          exact List.mem_singleton.mpr rfl
        · exact absurd (hdx x (Ne.symm hne)) hx
    · refine ⟨fun _ => [], ?_, ?_, ?_⟩
      · intro s hs
        by_cases hs0 : s = 0
        · subst hs0
          dsimp only
          rw [hget0]
          refine ⟨rfl, rfl, ?_, fun p hp => absurd hp (by simp), by simp⟩
          show (0 + 1) % g.n = 0
          have hn1 : g.n = 1 := by omega
          rw [hn1]
        · dsimp only
          rw [hgetne s hs hs0]
          exact ⟨rfl, rfl, rfl, fun p hp => absurd hp (by simp), by simp⟩
      · intro s hs hne ci hci
        exact absurd hci (List.not_mem_nil ci)
      · intro x hx
        rcases eq_or_ne src x with rfl | hne
        · refine Or.inr ⟨by rw [hBV0]; simp, ?_, ?_⟩
          · intro vw hvw
            have hmem := lightAdj_sub g δ src vw hvw
            have hlt := (adj_target_lt g hwf src vw hmem).1
            have hw0 := adj_weight_nonneg g hnn src vw hmem
            have hv0 : vw.1 = src := by omega
            dsimp only
            rw [hv0, hds]
            exact le_add_of_nonneg_right (by exact_mod_cast hw0)
          · intro vw hvw
            left
            have hmem := heavyAdj_sub g δ src vw hvw
            have hlt := (adj_target_lt g hwf src vw hmem).1
            have hw0 := adj_weight_nonneg g hnn src vw hmem
            have hv0 : vw.1 = src := by omega
            dsimp only
            rw [hv0, hds]
            exact le_add_of_nonneg_right (by exact_mod_cast hw0)
        · exact absurd (hdx x (Ne.symm hne)) hx

/-- Full correctness and termination of
`CompletelyBalancedDeltaStepping::compute`: for every positive `Δ` and
thread count, with enough fuel it returns the shortest-path distance
vector. -/
theorem compute_correct_par (g : Graph) (δ : ℚ) (T : ℕ) (source : ℕ)
    (hwf : g.WF) (hnn : g.NonNeg) (hδ : 0 < δ) (hT : 0 < T)
    (hs : source < g.n) :
    ∃ F dv, (∀ f, F ≤ f → compute δ T g source f = some dv) ∧
      IsDistVector g source dv := by
  set H := (MAX_BUCKET_COUNT g δ).toNat with hHdef
  have hL0 : (0 : ℚ) ≤ g.get_max_edge_weight := max_weight_nonneg g
  have hc0 : (0 : ℤ) ≤ ⌈g.get_max_edge_weight / δ⌉ :=
    Int.ceil_nonneg (div_nonneg hL0 (le_of_lt hδ))
  have hH5 : 5 ≤ H := by
    rw [hHdef]
    unfold MAX_BUCKET_COUNT
    omega
  have hHc : (H : ℤ) = ⌈g.get_max_edge_weight / δ⌉ + 5 := by
    rw [hHdef]
    unfold MAX_BUCKET_COUNT
    omega
  have hLH : g.get_max_edge_weight ≤ ((H : ℚ) - 5) * δ := by
    have h1 : g.get_max_edge_weight / δ ≤ (⌈g.get_max_edge_weight / δ⌉ : ℚ) :=
      Int.le_ceil _
    have h3 : (H : ℚ) = (⌈g.get_max_edge_weight / δ⌉ : ℚ) + 5 := by
      exact_mod_cast hHc
    have h2 : ((H : ℚ) - 5) = (⌈g.get_max_edge_weight / δ⌉ : ℚ) := by
      linarith
    rw [h2]
    calc g.get_max_edge_weight = g.get_max_edge_weight / δ * δ := by
          field_simp
      _ ≤ (⌈g.get_max_edge_weight / δ⌉ : ℚ) * δ :=
          mul_le_mul_of_nonneg_right h1 (le_of_lt hδ)
  set ST : State :=
    { dist := Function.update (fun _ => (⊤ : Dist)) source ((0 : ℚ) : Dist)
      pos := Function.update (fun _ => (-1 : ℤ)) source 0
      buckets := (List.replicate H (CircularVector.new g.n (0 : ℤ))).set 0
        (((CircularVector.new g.n (0 : ℤ)).push (source : ℤ)).2)
      light := { req := fun _ => ⊤, nodes := [] }
      heavy := { req := fun _ => ⊤, nodes := [] } } with hST
  have hPI0 : PInv g δ source H 0 ST := by
    rw [hST]
    exact init_pinv g δ source H hδ hH5 hwf hnn hs
  have hcg0 : (if H ≤ 0 then 0 else 0) = 0 % H := by simp
  obtain ⟨st', hrun, hdi, hnt⟩ :=
    outerLoop_run g δ source H T hδ hH5 hwf hnn hs hT hLH
      (Mout g H ST 0 + 1) 0 0 0 ST hcg0 hPI0 (by omega)
      (fun j h1 h2 => absurd (le_trans h1 h2) (by omega))
      (fun h => absurd h (by omega)) (le_refl _)
  refine ⟨Mout g H ST 0 + 1, (List.range g.n).map st'.dist, ?_, ?_⟩
  · intro f hf
    have hrun' := outerLoop_mono g δ H T (Mout g H ST 0 + 1) f 0 0 ST st'
      hf hrun
    unfold compute
    dsimp only
    rw [← hHdef, ← hST]
    simp only [hrun']
  · refine ⟨by simp, ?_⟩
    intro v hv
    have hE := final_state_correct g source st'.dist hdi.2.1 hdi.1 hnt
    have hgv : ((List.range g.n).map st'.dist)[v] = st'.dist v := by
      rw [List.getElem_map, List.getElem_range]
    rw [hgv]
    exact hE v

end Par

theorem CircularVector.set_get_self (cv : CircularVector ℤ) (i : ℕ) (x : ℤ) :
    (cv.set i x).get i = x := by
  simp [CircularVector.set, CircularVector.get]

/-- **C4** — for every call `relax(v, req)`: the request slot for `v` is
exchanged with `+∞` (the node buffer untouched); `dist[v]` is overwritten
with the drained value `nd` exactly when `nd < dist[v]`; and in that case,
with `old`/`new` the bucket indices `⌊dist/Δ⌋ mod H` before/after the
write, `v`'s old entry is tombstoned (set to `-1`) exactly when
`old ≥ 0 ∧ old ≠ current_generation ∧ old ≠ new`, and `v` is re-pushed into
its new bucket, recording its position, exactly when
`old = current_generation ∨ old ≠ new`. -/
theorem claim_C4_relax_behavior (δ : ℚ) (H cg : ℕ) (hH : 0 < H)
    (c : Par.Core) (rm : Par.ReqMap) (v : ℕ) :
    (Par.relax δ H cg c rm v).2.req = Function.update rm.req v ⊤ ∧
    (Par.relax δ H cg c rm v).2.nodes = rm.nodes ∧
    (¬ rm.req v < c.dist v → (Par.relax δ H cg c rm v).1 = c) ∧
    (rm.req v < c.dist v →
      (Par.relax δ H cg c rm v).1.dist = Function.update c.dist v (rm.req v) ∧
      ∀ old nw : ℤ, old = Par.getBucket δ H (c.dist v) →
        nw = Par.getBucket δ H (rm.req v) →
        let buckets1 :=
          if 0 ≤ old ∧ old ≠ (cg : ℤ) ∧ old ≠ nw then
            c.buckets.set old.toNat
              ((c.buckets.getD old.toNat Par.cvD).set (c.pos v).toNat (-1))
          else c.buckets
        (0 ≤ old ∧ old ≠ (cg : ℤ) ∧ old ≠ nw → old.toNat < c.buckets.length →
          ((Par.relax δ H cg c rm v).1.buckets.getD old.toNat Par.cvD).get
              (c.pos v).toNat = -1) ∧
        (old = (cg : ℤ) ∨ old ≠ nw →
          (Par.relax δ H cg c rm v).1.buckets
              = buckets1.set nw.toNat
                  ((buckets1.getD nw.toNat Par.cvD).push (v : ℤ)).2 ∧
          (Par.relax δ H cg c rm v).1.pos
              = Function.update c.pos v
                  (((buckets1.getD nw.toNat Par.cvD).push (v : ℤ)).1 : ℤ)) ∧
        (¬(old = (cg : ℤ) ∨ old ≠ nw) →
          (Par.relax δ H cg c rm v).1.buckets = c.buckets ∧
          (Par.relax δ H cg c rm v).1.pos = c.pos)) := by
  by_cases himp : rm.req v < c.dist v
  · obtain ⟨hd, hrm⟩ := Par.relax_of_lt δ H cg c rm v himp
    refine ⟨by rw [hrm], by rw [hrm], fun hc => absurd himp hc, fun _ => ⟨hd, ?_⟩⟩
    intro old nw hold hnw
    have hndne : rm.req v ≠ ⊤ := (lt_of_lt_of_le himp le_top).ne
    have hnw0 : 0 ≤ nw := by
      rw [hnw]
      unfold Par.getBucket
      rw [if_neg hndne]
      exact Int.emod_nonneg _ (by exact_mod_cast hH.ne')
    have hiffA : (0 ≤ old ∧ old ≠ (cg : ℤ) ∧ old ≠ nw)
        ↔ (old ≠ -1 ∧ old ≠ (cg : ℤ) ∧ old ≠ nw) := by
      have h01 : (0 ≤ old) ↔ (old ≠ -1) := by
        rw [hold]
        exact (Par.getBucket_ne_neg_one_iff δ H hH (c.dist v)).symm
      rw [h01]
    have hcore := Par.relax_core_of_lt δ H cg c rm v himp
    rw [← hold, ← hnw] at hcore
    intro buckets1
    have hb1 : buckets1 = if old ≠ -1 ∧ old ≠ (cg : ℤ) ∧ old ≠ nw then
        c.buckets.set old.toNat
          ((c.buckets.getD old.toNat Par.cvD).set (c.pos v).toNat (-1))
      else c.buckets := by
    -- the claim phrases the tombstone condition with `0 ≤ old`, the source
    -- with `old != -1`; `hiffA` bridges them
      show (if 0 ≤ old ∧ old ≠ (cg : ℤ) ∧ old ≠ nw then _ else _) = _
      rw [if_congr hiffA rfl rfl]
    refine ⟨?_, ?_, ?_⟩
    · intro hA hlen
      have hB : old = (cg : ℤ) ∨ old ≠ nw := Or.inr hA.2.2
      rw [if_pos hB] at hcore
      rw [hcore]
      dsimp only
      have hne : nw.toNat ≠ old.toNat := by omega
      rw [← hb1,
        Par.listSet_getD_ne _ _ _ _ hne _,
        hb1, if_pos (hiffA.mp hA),
        Par.listSet_getD_self _ _ _ hlen _]
      exact CircularVector.set_get_self _ _ _
    · intro hB
      rw [if_pos hB] at hcore
      rw [hcore, ← hb1]
      exact ⟨rfl, rfl⟩
    · intro hB
      rw [if_neg hB] at hcore
      push_neg at hB
      have hA : ¬(old ≠ -1 ∧ old ≠ (cg : ℤ) ∧ old ≠ nw) := by
        intro hc
        exact hc.2.2 (hB.2)
      rw [if_neg hA] at hcore
      rw [hcore]
      exact ⟨rfl, rfl⟩
  · rw [Par.relax_of_not_lt_par δ H cg c rm v himp]
    exact ⟨rfl, rfl, fun _ => rfl, fun hc => absurd hc himp⟩

/-- **C8 counterexample** — `delta = -1 ≤ 0` is invalid input, yet the
sequential solver's `compute` performs no validation: it allocates its
state, runs the solving loop and returns a distance vector. -/
theorem claim_C8_counterexample :
    Seq.compute (-1) ⟨1, []⟩ 0 3 = some [((0 : ℚ) : Dist)] := rfl

/-- **C8 (amended)** — neither solver validates its inputs: `compute`
proceeds into the solving loop regardless of `delta ≤ 0` (shown here for
every `delta < 0` and every positive thread count on the one-vertex empty
graph, where both solvers run to completion and return `[0]`).
Out-of-range sources and thread counts `≤ 0` are undefined behavior in the
source, not rejections. -/
theorem claim_C8_no_input_validation (δ : ℚ) (hδ : δ < 0) (T : ℕ) (hT : 1 ≤ T) :
    Seq.compute δ ⟨1, []⟩ 0 3 = some [((0 : ℚ) : Dist)] ∧
    Par.compute δ T ⟨1, []⟩ 0 6 = some [((0 : ℚ) : Dist)] := by
  refine ⟨rfl, ?_⟩
  have hH : (Par.MAX_BUCKET_COUNT ⟨1, []⟩ δ).toNat = 5 := by
    show ((⌈(⟨1, []⟩ : Graph).get_max_edge_weight / δ⌉ + 5 : ℤ)).toNat = 5
    rw [show (⟨1, []⟩ : Graph).get_max_edge_weight = 0 from rfl, zero_div, Int.ceil_zero]
    rfl
  simp only [Par.compute, hH]
  have hb : ∀ i, ((((List.replicate 5 (CircularVector.new 1 (0 : ℤ))).set 0
      ((CircularVector.new 1 (0 : ℤ)).push ((0 : ℕ) : ℤ)).2)).getD i Par.cvD).empty
        = true := by
    intro i
    match i with
    | 0 => rfl
    | (j + 1) =>
      rw [Par.listSet_getD_ne _ _ _ _ (by omega) _]
      simp only [List.getD_eq_getElem?_getD, List.getElem?_replicate]
      split <;> rfl
  obtain ⟨st', h1, h2⟩ := Par.outerLoop_of_empty ⟨1, []⟩ δ 5 T 6 0 0
    { dist := Function.update (fun _ => (⊤ : Dist)) 0 ((0 : ℚ) : Dist)
      pos := Function.update (fun _ => (-1 : ℤ)) 0 0
      buckets := (List.replicate 5 (CircularVector.new 1 (0 : ℤ))).set 0
        ((CircularVector.new 1 (0 : ℤ)).push ((0 : ℕ) : ℤ)).2
      light := ⟨fun _ => ⊤, []⟩
      heavy := ⟨fun _ => ⊤, []⟩ } hb rfl (by omega) (by omega)
  rw [h1]
  simp only [Option.some.injEq]
  rw [h2]
  rfl

/-- Witness for C8's amended theorem at `delta = -1`, two threads. -/
theorem claim_C8_no_input_validation_witness :
    Par.compute (-1) 2 ⟨1, []⟩ 0 6 = some [((0 : ℚ) : Dist)] :=
  (claim_C8_no_input_validation (-1) (by norm_num) 2 (by norm_num)).2

/-- Witness for C4 at a concrete improving relax: `H = 5`,
`current_generation = 0`, one vertex moving from bucket `-1` (unreached) to
bucket `1`. -/
theorem claim_C4_relax_behavior_witness :
    (Par.relax 1 5 0 ⟨fun _ => ⊤, fun _ => -1, List.replicate 5 (CircularVector.new 2 0)⟩
        ⟨fun x => if x = 1 then ((3 : ℚ)/2 : ℚ) else ⊤, [1]⟩ 1).2.nodes = [1] := by
  have h := claim_C4_relax_behavior 1 5 0 (by decide)
    ⟨fun _ => ⊤, fun _ => -1, List.replicate 5 (CircularVector.new 2 0)⟩
    ⟨fun x => if x = 1 then ((3 : ℚ)/2 : ℚ) else ⊤, [1]⟩ 1
  exact h.2.1


/-- **C6** — within one phase (all request slots `+∞`, counter `0` at the
start): after `add_request(u, v, w)` returns (and from then to the end of
the phase) `req[v] ≤ dist[u] + w`; each distinct target is appended to the
requested-vertex index buffer exactly once, by the winner of the
`+∞ → finite` transition; and at the end the counter (the buffer length)
equals the number of distinct vertices that received at least one request. -/
theorem claim_C6_request_aggregation (dist : ℕ → Dist) (rs : List (ℕ × ℕ × ℚ))
    (hfin : ∀ r ∈ rs, dist r.1 ≠ ⊤) :
    (∀ (rm : Par.ReqMap) (u v : ℕ) (w : ℚ),
      (Par.add_request dist rm u v w).req v ≤ dist u + (w : Dist)) ∧
    (∀ rs1 (r : ℕ × ℕ × ℚ) rs2, rs = rs1 ++ r :: rs2 →
      (Par.applyRequests dist Par.cleanReqMap (rs1 ++ [r])).req r.2.1
          ≤ dist r.1 + (r.2.2 : Dist) ∧
      (Par.applyRequests dist Par.cleanReqMap rs).req r.2.1
          ≤ dist r.1 + (r.2.2 : Dist)) ∧
    (∀ (rm : Par.ReqMap) (u v : ℕ) (w : ℚ),
      (Par.add_request dist rm u v w).nodes
        = if rm.req v = ⊤ then rm.nodes ++ [v] else rm.nodes) ∧
    (Par.applyRequests dist Par.cleanReqMap rs).nodes.Nodup ∧
    (∀ x, x ∈ (Par.applyRequests dist Par.cleanReqMap rs).nodes
        ↔ x ∈ rs.map (fun r => r.2.1)) ∧
    (Par.applyRequests dist Par.cleanReqMap rs).nodes.length
      = (rs.map (fun r => r.2.1)).dedup.length := by
  obtain ⟨i1, i2, i3⟩ := Par.applyRequests_inv dist rs hfin Par.cleanReqMap
    List.nodup_nil (by intro x; simp [Par.cleanReqMap])
  have hmemt : ∀ x, x ∈ (Par.applyRequests dist Par.cleanReqMap rs).nodes
      ↔ x ∈ rs.map (fun r => r.2.1) := by
    intro x
    rw [i2 x, i3 x]
    simp [Par.cleanReqMap]
  refine ⟨Par.add_request_req_le dist, ?_, Par.add_request_nodes dist, i1, hmemt, ?_⟩
  · intro rs1 r rs2 hsplit
    have h1 : (Par.applyRequests dist Par.cleanReqMap (rs1 ++ [r])).req r.2.1
        ≤ dist r.1 + (r.2.2 : Dist) := by
      rw [Par.applyRequests_append]
      exact Par.add_request_req_le dist _ r.1 r.2.1 r.2.2
    refine ⟨h1, ?_⟩
    have h2 : rs = (rs1 ++ [r]) ++ rs2 := by rw [hsplit]; simp
    rw [h2, Par.applyRequests_append]
    exact le_trans (Par.applyRequests_req_mono dist rs2 _ r.2.1) h1
  · have hdd := List.Nodup.dedup i1
    have hc1 : (Par.applyRequests dist Par.cleanReqMap rs).nodes.toFinset
        = (rs.map (fun r => r.2.1)).toFinset := by
      ext x
      rw [List.mem_toFinset, List.mem_toFinset]
      exact hmemt x
    have e1 := List.card_toFinset (Par.applyRequests dist Par.cleanReqMap rs).nodes
    have e2 := List.card_toFinset (rs.map (fun r => r.2.1))
    rw [hc1, e2] at e1
    rw [← hdd]
    exact e1.symm

/-- Witness for C6: two requests for the same target; the counter ends at
the number of distinct targets, 1. -/
theorem claim_C6_request_aggregation_witness :
    (Par.applyRequests (fun _ => ((0 : ℚ) : Dist)) Par.cleanReqMap
        [(0, 1, (1 : ℚ)/2), (0, 1, (1 : ℚ)/4)]).nodes.length
      = (([(0, 1, (1 : ℚ)/2), (0, 1, (1 : ℚ)/4)] : List (ℕ × ℕ × ℚ)).map
          (fun r => r.2.1)).dedup.length ∧
    (([(0, 1, (1 : ℚ)/2), (0, 1, (1 : ℚ)/4)] : List (ℕ × ℕ × ℚ)).map
          (fun r => r.2.1)).dedup.length = 1 :=
  ⟨(claim_C6_request_aggregation (fun _ => ((0 : ℚ) : Dist))
      [(0, 1, (1 : ℚ)/2), (0, 1, (1 : ℚ)/4)]
      (fun r _ => WithTop.coe_ne_top)).2.2.2.2.2, by decide⟩

/-! ## The graph file parser (src/tests/graph_utils.h, claim C9)

A text file is a list of lines, each a list of characters; a file that
cannot be opened is `none`.  `std::stoi` and `std::stod` are modelled from
the C++ standard library semantics restricted to optional-sign decimal
forms (the hexfloat/inf/nan forms never appear in graph files): skip
leading whitespace, parse the longest valid numeric prefix, ignore
trailing characters, fail if no digit was consumed. -/

namespace Parser

def natOfDigits (ds : List Char) : ℕ :=
  ds.foldl (fun a c => a * 10 + (c.toNat - '0'.toNat)) 0

/-- Split an optional leading sign. -/
def splitSign : List Char → ℤ × List Char
  | '+' :: r => (1, r)
  | '-' :: r => (-1, r)
  | r => (1, r)

/-- `std::stoi` (decimal). -/
def stoi (s : List Char) : Option ℤ :=
  let s1 := s.dropWhile Char.isWhitespace
  let p := splitSign s1
  let ds := p.2.takeWhile Char.isDigit
  if ds.isEmpty then none else some (p.1 * natOfDigits ds)

/-- `std::stod` (decimal, with optional fraction and exponent). -/
def stod (s : List Char) : Option ℚ :=
  let s1 := s.dropWhile Char.isWhitespace
  let p := splitSign s1
  let ip := p.2.takeWhile Char.isDigit
  let r1 := p.2.dropWhile Char.isDigit
  let fr : List Char × List Char :=
    match r1 with
    | '.' :: r => (r.takeWhile Char.isDigit, r.dropWhile Char.isDigit)
    | r => ([], r)
  if ip.isEmpty ∧ fr.1.isEmpty then none
  else
    let base : ℚ := (natOfDigits ip : ℚ) + (natOfDigits fr.1 : ℚ) / ((10 : ℚ) ^ fr.1.length)
    let e : ℤ :=
      match fr.2 with
      | c :: r3 =>
        if c = 'e' ∨ c = 'E' then
          let pe := splitSign r3
          let eds := pe.2.takeWhile Char.isDigit
          if eds.isEmpty then 0 else pe.1 * natOfDigits eds
        else 0
      | [] => 0
    some ((p.1 : ℚ) * base * (10 : ℚ) ^ e)

/-- The per-line parse of `parse_graph_from_file`: skip empty lines, find
the two separating spaces (skip if absent), convert the three fields (skip
on conversion failure). -/
def lineTriple (line : List Char) : Option (ℤ × ℤ × ℚ) :=
  if line.isEmpty then none
  else
    let pos1 := line.indexOf ' '
    if pos1 = line.length then none
    else
      let rest1 := line.drop (pos1 + 1)
      let pos2r := rest1.indexOf ' '
      if pos2r = rest1.length then none
      else
        match stoi (line.take pos1), stoi (rest1.take pos2r),
            stod (rest1.drop (pos2r + 1)) with
        | some u, some v, some w => some (u, v, w)
        | _, _, _ => none

/-- `index_map.emplace(k, cnt)`: first-appearance assignment of ids. -/
def emplace (keys : List ℤ) (k : ℤ) : List ℤ :=
  if k ∈ keys then keys else keys ++ [k]

/-- The parser's accumulating state: edge list, the id of external key `k`
is `keys.indexOf k`, and the running maximum weight. -/
structure PState where
  edges : List Edge
  keys : List ℤ
  max_w : ℚ

/-- One accepted triple: remap both endpoints (emplacing new ids), append
the edge, track the maximum weight. -/
def processTriple (st : PState) (t : ℤ × ℤ × ℚ) : PState :=
  let keys1 := emplace st.keys t.1
  let keys2 := emplace keys1 t.2.1
  { edges := st.edges ++ [⟨keys1.indexOf t.1, keys2.indexOf t.2.1, t.2.2⟩]
    keys := keys2
    max_w := max st.max_w t.2.2 }

def processLine (st : PState) (line : List Char) : PState :=
  match lineTriple line with
  | none => st
  | some t => processTriple st t

/-- `parse_graph_from_file`: `none` content means the file could not be
opened (the source prints a one-line error and returns `Graph(0, {})`). -/
def parse_graph_from_file (content : Option (List (List Char)))
    (normalize_weights : Bool) : Graph :=
  match content with
  | none => Graph.mk 0 []
  | some lines =>
    let st := lines.foldl processLine ⟨[], [], 0⟩
    let edges :=
      if normalize_weights ∧ 0 < st.max_w then
        st.edges.map (fun e => ⟨e.u, e.v, e.w * (1 / st.max_w)⟩)
      else st.edges
    Graph.mk st.keys.length edges

/-- The external ids of a triple list, in appearance order. -/
def idsOf (ts : List (ℤ × ℤ × ℚ)) : List ℤ :=
  ts.flatMap (fun t => [t.1, t.2.1])

theorem idsOf_cons (t : ℤ × ℤ × ℚ) (ts : List (ℤ × ℤ × ℚ)) :
    idsOf (t :: ts) = t.1 :: t.2.1 :: idsOf ts := rfl

/-- Line-level folding reduces to triple-level folding over the accepted
lines (skipped lines leave the state untouched and processing continues). -/
theorem foldl_processLine (lines : List (List Char)) (st : PState) :
    lines.foldl processLine st = (lines.filterMap lineTriple).foldl processTriple st := by
  induction lines generalizing st with
  | nil => rfl
  | cons l ls ih =>
    rw [List.foldl_cons, ih]
    rcases h : lineTriple l with _ | t
    · rw [List.filterMap_cons_none h, processLine, h]
    · rw [List.filterMap_cons_some h, processLine, h, List.foldl_cons]

theorem mem_emplace (keys : List ℤ) (k x : ℤ) :
    x ∈ emplace keys k ↔ x ∈ keys ∨ x = k := by
  unfold emplace
  split
  · rename_i h
    constructor
    · exact Or.inl
    · rintro (hx | rfl)
      · exact hx
      · exact h
  · simp

theorem emplace_nodup (keys : List ℤ) (k : ℤ) (h : keys.Nodup) :
    (emplace keys k).Nodup := by
  unfold emplace
  split
  · exact h
  · rename_i hk
    refine List.Nodup.append h (List.nodup_singleton k) ?_
    intro a ha hb
    rw [List.mem_singleton] at hb
    subst hb
    exact hk ha

theorem emplace_append (keys : List ℤ) (k : ℤ) :
    ∃ t, emplace keys k = keys ++ t := by
  unfold emplace
  split
  · exact ⟨[], by simp⟩
  · exact ⟨[k], rfl⟩

theorem foldl_emplace_append (ids : List ℤ) (keys : List ℤ) :
    ∃ t, ids.foldl emplace keys = keys ++ t := by
  induction ids generalizing keys with
  | nil => exact ⟨[], by simp⟩
  | cons i is ih =>
    rw [List.foldl_cons]
    obtain ⟨t1, h1⟩ := emplace_append keys i
    obtain ⟨t2, h2⟩ := ih (emplace keys i)
    exact ⟨t1 ++ t2, by rw [h2, h1, List.append_assoc]⟩

theorem foldl_emplace_nodup (ids : List ℤ) (keys : List ℤ) (h : keys.Nodup) :
    (ids.foldl emplace keys).Nodup := by
  induction ids generalizing keys with
  | nil => exact h
  | cons i is ih => exact ih _ (emplace_nodup keys i h)

theorem mem_foldl_emplace (ids : List ℤ) (keys : List ℤ) (x : ℤ) :
    x ∈ ids.foldl emplace keys ↔ x ∈ keys ∨ x ∈ ids := by
  induction ids generalizing keys with
  | nil => simp
  | cons i is ih =>
    rw [List.foldl_cons, ih, mem_emplace]
    simp only [List.mem_cons]
    constructor
    · rintro ((h | h) | h)
      · exact Or.inl h
      · exact Or.inr (Or.inl h)
      · exact Or.inr (Or.inr h)
    · rintro (h | h | h)
      · exact Or.inl (Or.inl h)
      · exact Or.inl (Or.inr h)
      · exact Or.inr h

/-- The key list a triple fold produces is the id-level `emplace` fold. -/
theorem foldl_processTriple_keys (ts : List (ℤ × ℤ × ℚ)) (st : PState) :
    (ts.foldl processTriple st).keys = (idsOf ts).foldl emplace st.keys := by
  induction ts generalizing st with
  | nil => rfl
  | cons t ts ih =>
    rw [List.foldl_cons, ih, idsOf_cons, List.foldl_cons, List.foldl_cons]
    rfl

theorem foldl_processTriple_keys_append (ts : List (ℤ × ℤ × ℚ)) (st : PState) :
    ∃ t, (ts.foldl processTriple st).keys = st.keys ++ t := by
  rw [foldl_processTriple_keys]
  exact foldl_emplace_append _ _

/-- The accumulated edges, with the endpoint ids read off the *final* key
list: first-appearance assignment is stable under later insertions. -/
theorem foldl_processTriple_edges (ts : List (ℤ × ℤ × ℚ)) (st : PState) :
    (ts.foldl processTriple st).edges = st.edges ++ ts.map (fun t =>
      ⟨(ts.foldl processTriple st).keys.indexOf t.1,
       (ts.foldl processTriple st).keys.indexOf t.2.1, t.2.2⟩) := by
  induction ts generalizing st with
  | nil => simp
  | cons t ts ih =>
    rw [List.foldl_cons, ih]
    have hk1 := emplace_append st.keys t.1
    obtain ⟨e1, he1⟩ := hk1
    have hk2 := emplace_append (emplace st.keys t.1) t.2.1
    obtain ⟨e2, he2⟩ := hk2
    obtain ⟨e3, he3⟩ := foldl_processTriple_keys_append ts (processTriple st t)
    have hkeys : (ts.foldl processTriple (processTriple st t)).keys
        = emplace (emplace st.keys t.1) t.2.1 ++ e3 := he3
    have hm1 : t.1 ∈ emplace st.keys t.1 := (mem_emplace _ _ _).mpr (Or.inr rfl)
    have hm2 : t.2.1 ∈ emplace (emplace st.keys t.1) t.2.1 :=
      (mem_emplace _ _ _).mpr (Or.inr rfl)
    have hidx1 : (ts.foldl processTriple (processTriple st t)).keys.indexOf t.1
        = (emplace st.keys t.1).indexOf t.1 := by
      rw [hkeys, he2, List.append_assoc]
      exact List.indexOf_append_of_mem hm1
    have hidx2 : (ts.foldl processTriple (processTriple st t)).keys.indexOf t.2.1
        = (emplace (emplace st.keys t.1) t.2.1).indexOf t.2.1 := by
      rw [hkeys]
      exact List.indexOf_append_of_mem hm2
    have hedges_step : (processTriple st t).edges
        = st.edges ++ [⟨(emplace st.keys t.1).indexOf t.1,
            (emplace (emplace st.keys t.1) t.2.1).indexOf t.2.1, t.2.2⟩] := rfl
    rw [hedges_step, List.map_cons, hidx1, hidx2, List.append_assoc]
    rfl

end Parser

/-- **C9 counterexample** — the line `"-1 0 1.0"` is malformed under the
spec's format (`u`, `v` must be non-negative integers), yet the parser does
not skip it: `std::stoi` accepts the sign, so the parser yields an edge
(remapping external id `-1` to `0` and `0` to `1`). -/
theorem claim_C9_counterexample :
    (Parser.parse_graph_from_file (some ["-1 0 1.0".toList]) false).edges.length = 1 ∧
    ((Parser.parse_graph_from_file (some ["-1 0 1.0".toList]) false).edges.map
      (fun e => (e.u, e.v)) = [(0, 1)]) ∧
    (Parser.parse_graph_from_file (some ["-1 0 1.0".toList]) false).n = 2 := by
  refine ⟨by decide, by decide, by decide⟩

/-- **C9 (amended)** — an unopenable file yields the empty graph (after a
one-line error report); empty lines and lines without two spaces are
skipped; every line on which the three field conversions succeed — and
only those; `stoi`/`stod` also accept signed fields and trailing garbage,
beyond the spec's well-formed format — yields exactly one edge, parsing
continuing with subsequent lines; and external ids are remapped to
`[0, n)` in order of first appearance (`n` being the number of distinct
ids, each edge holding its endpoints' first-appearance indices). -/
theorem claim_C9_parser_behavior (lines : List (List Char)) (b : Bool) :
    Parser.parse_graph_from_file none b = Graph.mk 0 [] ∧
    Parser.lineTriple [] = none ∧
    (∀ l : List Char, ' ' ∉ l → Parser.lineTriple l = none) ∧
    ((Parser.parse_graph_from_file (some lines) false).edges.length
      = (lines.filterMap Parser.lineTriple).length) ∧
    ((Parser.parse_graph_from_file (some lines) false).n
      = ((Parser.idsOf (lines.filterMap Parser.lineTriple)).foldl Parser.emplace []).length) ∧
    ((Parser.idsOf (lines.filterMap Parser.lineTriple)).foldl Parser.emplace []).Nodup ∧
    (∀ x, x ∈ (Parser.idsOf (lines.filterMap Parser.lineTriple)).foldl Parser.emplace []
        ↔ x ∈ Parser.idsOf (lines.filterMap Parser.lineTriple)) ∧
    (Parser.parse_graph_from_file (some lines) false).edges
      = (lines.filterMap Parser.lineTriple).map (fun t =>
          ⟨((Parser.idsOf (lines.filterMap Parser.lineTriple)).foldl
              Parser.emplace []).indexOf t.1,
           ((Parser.idsOf (lines.filterMap Parser.lineTriple)).foldl
              Parser.emplace []).indexOf t.2.1, t.2.2⟩) := by
  have hnotnorm : ¬ (((false : Bool) : Prop)
      ∧ 0 < ((lines.filterMap Parser.lineTriple).foldl Parser.processTriple
          ⟨[], [], 0⟩).max_w) := by
    rintro ⟨h, -⟩
    exact absurd h (by decide)
  have hparse : Parser.parse_graph_from_file (some lines) false
      = Graph.mk ((lines.filterMap Parser.lineTriple).foldl Parser.processTriple
            ⟨[], [], 0⟩).keys.length
          ((lines.filterMap Parser.lineTriple).foldl Parser.processTriple
            ⟨[], [], 0⟩).edges := by
    simp only [Parser.parse_graph_from_file, Parser.foldl_processLine lines ⟨[], [], 0⟩]
    rw [if_neg hnotnorm]
  have hkeys : ((lines.filterMap Parser.lineTriple).foldl Parser.processTriple
        ⟨[], [], 0⟩).keys
      = (Parser.idsOf (lines.filterMap Parser.lineTriple)).foldl Parser.emplace [] :=
    Parser.foldl_processTriple_keys _ _
  have hedges := Parser.foldl_processTriple_edges (lines.filterMap Parser.lineTriple)
    ⟨[], [], 0⟩
  rw [hkeys] at hedges
  refine ⟨rfl, rfl, ?_, ?_, ?_, ?_, ?_, ?_⟩
  · intro l h
    by_cases he : l.isEmpty
    · rw [Parser.lineTriple, if_pos he]
    · rw [Parser.lineTriple, if_neg he, if_pos (List.indexOf_eq_length.mpr h)]
  · rw [hparse]
    dsimp only [Graph.mk]
    rw [hedges]
    simp
  · rw [hparse, hkeys]
  · exact Parser.foldl_emplace_nodup _ _ List.nodup_nil
  · intro x
    rw [Parser.mem_foldl_emplace]
    simp
  · rw [hparse]
    dsimp only [Graph.mk]
    rw [hedges]
    rfl

/-- **C5** — `dist[v]` is monotonically non-increasing over time: every
write performed by the parallel `relax` (or the sequential variant's
`relax`) stores a strictly smaller value at the drained vertex, request
generation (Loop 1) never writes `dist`, and whole runs of either solver's
loops only lower `dist` pointwise. -/
theorem claim_C5_dist_monotone :
    (∀ (δ : ℚ) (H cg : ℕ) (c : Par.Core) (rm : Par.ReqMap) (v x : ℕ),
      (Par.relax δ H cg c rm v).1.dist x ≤ c.dist x) ∧
    (∀ (δ : ℚ) (H cg : ℕ) (c : Par.Core) (rm : Par.ReqMap) (v x : ℕ),
      (Par.relax δ H cg c rm v).1.dist x ≠ c.dist x →
        (Par.relax δ H cg c rm v).1.dist x < c.dist x ∧ x = v) ∧
    (∀ (g : Graph) (δ : ℚ) (T cg : ℕ) (st : Par.State),
      (Par.phaseA g δ T cg st).dist = st.dist) ∧
    (∀ (g : Graph) (δ : ℚ) (H T fuel cg gwb : ℕ) (st st' : Par.State),
      Par.outerLoop g δ H T fuel cg gwb st = some st' →
        ∀ x, st'.dist x ≤ st.dist x) ∧
    (∀ (δ : ℚ) (st : Seq.State) (u v : ℕ) (w : ℚ) (x : ℕ),
      (Seq.relax δ st u v w).dist x ≤ st.dist x) ∧
    (∀ (δ : ℚ) (st : Seq.State) (u v : ℕ) (w : ℚ) (x : ℕ),
      (Seq.relax δ st u v w).dist x ≠ st.dist x →
        (Seq.relax δ st u v w).dist x < st.dist x ∧ x = v) ∧
    (∀ (δ : ℚ) (light heavy : ℕ → List (ℕ × ℚ)) (fuel i : ℕ) (st st' : Seq.State),
      Seq.outerLoop δ light heavy fuel i st = some st' →
        ∀ x, st'.dist x ≤ st.dist x) := by
  refine ⟨Par.relax_dist_le_par, ?_, Par.phaseA_dist, ?_, Seq.relax_dist_le, ?_, ?_⟩
  · intro δ H cg c rm v x h
    obtain ⟨h1, h2, -⟩ := Par.relax_dist_strict_par δ H cg c rm v x h
    exact ⟨h1, h2⟩
  · intro g δ H T fuel cg gwb st st' h x
    exact Par.outerLoop_dist_le_par g δ H T fuel cg gwb st st' h x
  · intro δ st u v w x h
    exact Seq.relax_dist_strict δ st u v x w h
  · intro δ light heavy fuel i st st' h x
    exact Seq.outerLoop_dist_le δ light heavy fuel i st st' h x

/-- The entry-wise reading of `IsDistVector`: length `n`, `+∞` exactly on
the unreachable vertices, shortest walk weights on finite entries, `0` at
the source. -/
theorem distVector_facts (g : Graph) (s : ℕ) (dv : List Dist)
    (hnn : g.NonNeg) (h : IsDistVector g s dv) :
    dv.length = g.n ∧
    (∀ v (hv : v < dv.length), (dv[v] = ⊤ ↔ ¬ Reachable g s v) ∧
      ∀ c : ℚ, dv[v] = ((c : ℚ) : Dist) → IsShortest g s v c) ∧
    (∀ hsl : s < dv.length, dv[s] = ((0 : ℚ) : Dist)) := by
  obtain ⟨hlen, hE⟩ := h
  refine ⟨hlen, ?_, ?_⟩
  · intro v hv
    obtain ⟨h1, h2⟩ := hE v hv
    refine ⟨⟨h1, ?_⟩, h2⟩
    intro hnr
    rcases hd : dv[v] with _ | c
    · rfl
    · exact absurd ⟨c, (h2 c hd).1⟩ hnr
  · intro hsl
    have hsrc : entryOK g s s dv[s] := hE s hsl
    have h0 : entryOK g s s ((0 : ℚ) : Dist) := by
      refine ⟨fun h' => absurd h' (by simp), fun c hc => ?_⟩
      have hc0 : (0 : ℚ) = c := by exact_mod_cast hc
      rw [← hc0]
      exact isShortest_source hnn s
    exact entryOK_unique hsrc h0

/-- **C1** — for every graph with non-negative weights, every source in
`[0, n)` and every `Δ > 0` (and positive thread count for the parallel
solver), both solvers terminate and return a length-`n` vector whose entry
at every reachable vertex is the exact shortest-path distance, whose entry
at every unreachable vertex is `+∞`, and whose entry at the source is `0`
(in the exact-rational embedding the float tolerance `1e-9` is equality). -/
theorem claim_C1_returns_shortest_distances (g : Graph) (δ : ℚ)
    (T source : ℕ) (hwf : g.WF) (hnn : g.NonNeg) (hδ : 0 < δ) (hT : 0 < T)
    (hs : source < g.n) :
    (∃ F dv, (∀ f, F ≤ f → Seq.compute δ g source f = some dv) ∧
      dv.length = g.n ∧
      (∀ v (hv : v < dv.length), (dv[v] = ⊤ ↔ ¬ Reachable g source v) ∧
        ∀ c : ℚ, dv[v] = ((c : ℚ) : Dist) → IsShortest g source v c) ∧
      (∀ hsl : source < dv.length, dv[source] = ((0 : ℚ) : Dist))) ∧
    (∃ F dv, (∀ f, F ≤ f → Par.compute δ T g source f = some dv) ∧
      dv.length = g.n ∧
      (∀ v (hv : v < dv.length), (dv[v] = ⊤ ↔ ¬ Reachable g source v) ∧
        ∀ c : ℚ, dv[v] = ((c : ℚ) : Dist) → IsShortest g source v c) ∧
      (∀ hsl : source < dv.length, dv[source] = ((0 : ℚ) : Dist))) := by
  obtain ⟨F1, dv1, hF1, hIs1⟩ := Seq.compute_correct g δ source hwf hnn hδ hs
  obtain ⟨F2, dv2, hF2, hIs2⟩ :=
    Par.compute_correct_par g δ T source hwf hnn hδ hT hs
  obtain ⟨l1, e1, s1⟩ := distVector_facts g source dv1 hnn hIs1
  obtain ⟨l2, e2, s2⟩ := distVector_facts g source dv2 hnn hIs2
  exact ⟨⟨F1, dv1, hF1, l1, e1, s1⟩, ⟨F2, dv2, hF2, l2, e2, s2⟩⟩

/-- Witness for C1 on the one-vertex empty graph. -/
theorem claim_C1_returns_shortest_distances_witness :
    ∃ F dv, (∀ f, F ≤ f → Par.compute 1 1 ⟨1, []⟩ 0 f = some dv) ∧
      dv.length = 1 := by
  obtain ⟨-, F, dv, h1, h2, -⟩ :=
    claim_C1_returns_shortest_distances ⟨1, []⟩ 1 1 0 (by decide) (by decide)
      (by norm_num) (by decide) (by decide)
  exact ⟨F, dv, h1, h2⟩

/-- **C2** — the returned vector does not depend on `Δ` or on the thread
count: for any two positive `Δ`s and thread counts, the parallel solver,
the sequential solver and the Dijkstra oracle all return the same
distance vector (in the exact-rational embedding, equality entry-wise). -/
theorem claim_C2_delta_thread_independence (g : Graph) (source : ℕ)
    (δ1 δ2 : ℚ) (T1 T2 : ℕ) (hwf : g.WF) (hnn : g.NonNeg)
    (hδ1 : 0 < δ1) (hδ2 : 0 < δ2) (hT1 : 0 < T1) (hT2 : 0 < T2)
    (hs : source < g.n) :
    ∃ F dv,
      (∀ f, F ≤ f → Par.compute δ1 T1 g source f = some dv) ∧
      (∀ f, F ≤ f → Par.compute δ2 T2 g source f = some dv) ∧
      (∀ f, F ≤ f → Seq.compute δ1 g source f = some dv) ∧
      (∀ f, F ≤ f → Seq.compute δ2 g source f = some dv) ∧
      (∀ f, F ≤ f → Dij.compute g source f = some dv) ∧
      IsDistVector g source dv := by
  obtain ⟨FA, dvA, hFA, hA⟩ :=
    Par.compute_correct_par g δ1 T1 source hwf hnn hδ1 hT1 hs
  obtain ⟨FB, dvB, hFB, hB⟩ :=
    Par.compute_correct_par g δ2 T2 source hwf hnn hδ2 hT2 hs
  obtain ⟨FC, dvC, hFC, hC⟩ := Seq.compute_correct g δ1 source hwf hnn hδ1 hs
  obtain ⟨FD, dvD, hFD, hD⟩ := Seq.compute_correct g δ2 source hwf hnn hδ2 hs
  obtain ⟨FE, dvE, hFE, hE⟩ := Dij.compute_correct_dij g source hwf hnn hs
  refine ⟨max (max FA FB) (max (max FC FD) FE), dvA, ?_, ?_, ?_, ?_, ?_, hA⟩
  · intro f hf
    exact hFA f (by omega)
  · intro f hf
    rw [isDistVector_unique hA hB]
    exact hFB f (by omega)
  · intro f hf
    rw [isDistVector_unique hA hC]
    exact hFC f (by omega)
  · intro f hf
    rw [isDistVector_unique hA hD]
    exact hFD f (by omega)
  · intro f hf
    rw [isDistVector_unique hA hE]
    exact hFE f (by omega)

/-- Witness for C2 on the one-vertex empty graph with two different `Δ`s
and thread counts. -/
theorem claim_C2_delta_thread_independence_witness :
    ∃ F dv, (∀ f, F ≤ f → Par.compute 1 1 ⟨1, []⟩ 0 f = some dv) ∧
      (∀ f, F ≤ f → Par.compute 2 2 ⟨1, []⟩ 0 f = some dv) ∧
      (∀ f, F ≤ f → Dij.compute ⟨1, []⟩ 0 f = some dv) := by
  obtain ⟨F, dv, h1, h2, -, -, h5, -⟩ :=
    claim_C2_delta_thread_independence ⟨1, []⟩ 0 1 2 1 2 (by decide)
      (by decide) (by norm_num) (by norm_num) (by decide) (by decide)
      (by decide)
  exact ⟨F, dv, h1, h2, h5⟩

/-- **C3** — the parallel solver uses a cyclic horizon of exactly
`H = ⌈L/Δ⌉ + 5` bucket slots; every outer iteration whose no-work counter
is below `H` runs one more generation (regardless of bucket emptiness) and
the wrapped generation counter advances by one modulo `H`; the outer loop
stops exactly when the counter of consecutive generations without work
reaches `H`; and the whole solver terminates. -/
theorem claim_C3_horizon_termination (g : Graph) (δ : ℚ) (T source : ℕ)
    (hwf : g.WF) (hnn : g.NonNeg) (hδ : 0 < δ) (hT : 0 < T)
    (hs : source < g.n) :
    Par.MAX_BUCKET_COUNT g δ = ⌈g.get_max_edge_weight / δ⌉ + 5 ∧
    (∀ (H fuel cg gwb : ℕ) (st : Par.State), H ≤ gwb →
      Par.outerLoop g δ H T (fuel + 1) cg gwb st = some st) ∧
    (∀ (H fuel cg gwb : ℕ) (st st2 : Par.State) (gwb2 : ℕ), gwb < H →
      Par.innerLoop g δ H T (if H ≤ cg then 0 else cg) (fuel + 1) st gwb
        = some (st2, gwb2) →
      Par.outerLoop g δ H T (fuel + 1) cg gwb st =
        Par.outerLoop g δ H T fuel ((if H ≤ cg then 0 else cg) + 1)
          (gwb2 + 1) (Par.phaseC δ H T (if H ≤ cg then 0 else cg) st2)) ∧
    (∀ H G cg : ℕ, 0 < H → (if H ≤ cg then 0 else cg) = G % H →
      (if H ≤ (if H ≤ cg then 0 else cg) + 1 then 0
        else (if H ≤ cg then 0 else cg) + 1) = (G + 1) % H) ∧
    (∃ F dv, ∀ f, F ≤ f → Par.compute δ T g source f = some dv) := by
  refine ⟨rfl, ?_, ?_, ?_, ?_⟩
  · intro H fuel cg gwb st h
    rw [Par.outerLoop, if_pos h]
  · intro H fuel cg gwb st st2 gwb2 h hinner
    rw [Par.outerLoop, if_neg (by omega)]
    dsimp only
    simp only [hinner]
  · intro H G cg hH0 hcg
    exact Par.cg_step H G cg hH0 hcg
  · obtain ⟨F, dv, hF, -⟩ :=
      Par.compute_correct_par g δ T source hwf hnn hδ hT hs
    exact ⟨F, dv, hF⟩

/-- Witness for C3 on the one-vertex empty graph: the horizon is `5` and
the solver terminates. -/
theorem claim_C3_horizon_termination_witness :
    Par.MAX_BUCKET_COUNT ⟨1, []⟩ 1 = 5 ∧
    (∃ F dv, ∀ f, F ≤ f → Par.compute 1 1 ⟨1, []⟩ 0 f = some dv) := by
  obtain ⟨h1, -, -, -, h5⟩ :=
    claim_C3_horizon_termination ⟨1, []⟩ 1 1 0 (by decide) (by decide)
      (by norm_num) (by decide) (by decide)
  refine ⟨?_, h5⟩
  have hL : Graph.get_max_edge_weight ⟨1, []⟩ = 0 := rfl
  rw [h1, hL, zero_div, Int.ceil_zero]
  norm_num

end DS
